import Mathlib

/-! # Bit-order propagation: offset matrix, consensus extraction, walker and driver

A shallow embedding of
`plugins/bitorder_propagation/src/plugin_bitorder_propagation.cpp`: the
consensus engine (`get_offset`, `build_offset_matrix`,
`extract_well_formed_bitorder`), the walker (`gather_bit_index_from_origin`,
`gather_bit_indices_for_net`) and the driver
(`propagate_module_pingroup_bitorder`, `propagate_bitorder`).

* `std::map<K, V>` is an association list that is kept sorted by key by every
  insertion; iteration is list order.  A map received as input satisfies
  `Map.WF` (strictly increasing keys).
* `std::set<u32>` is a list of naturals (strictly increasing for a real set).
* `u32` values are naturals, `i32` values are integers; every `i32` result is
  reduced by `i32` (two's complement wrap-around) and the `u32` counter is
  reduced modulo `2 ^ 32`.
* `Net*` is the address of the net (a natural number); an origin `MPG` is the
  pair of the module address and the pin group address, ordered
  lexicographically as `std::pair` is.
* The netlist queries the extractor performs (`pg->get_pins()`,
  `pin->get_net()`, `net->is_gnd_net()`, `net->is_vcc_net()`) are the fields
  of `Netlist`.
-/

namespace Bitorder

/-! ## Machine integers -/

/-- Conversion to `i32`: the representative of `x` modulo `2 ^ 32` in
`[-2 ^ 31, 2 ^ 31)`. -/
def i32 (x : Int) : Int := (x + 2147483648) % 4294967296 - 2147483648

/-- Conversion to `u32`. -/
def u32 (x : Nat) : Nat := x % 4294967296

/-! ## Ordered maps -/

/-- A `std::map`: the entries in iteration order. -/
abbrev Map (K V : Type) := List (K × V)

namespace Map

variable {K V : Type}

/-- The keys in iteration order. -/
def keys (m : Map K V) : List K := m.map Prod.fst

/-- The values in iteration order. -/
def values (m : Map K V) : List V := m.map Prod.snd

/-- Strictly increasing keys: the representation invariant of `std::map`. -/
def WF [LT K] (m : Map K V) : Prop := (keys m).Pairwise (fun a b => a < b)

instance decidableWF [LT K] [DecidableRel (fun (a b : K) => a < b)] (m : Map K V) :
    Decidable (WF m) :=
  inferInstanceAs (Decidable ((keys m).Pairwise (fun a b => a < b)))

/-- Lookup, `m.find(k)`. -/
def find? [DecidableEq K] : Map K V → K → Option V
  | [], _ => none
  | (k', v) :: t, k => if k' = k then some v else find? t k

/-- Assignment `m[k] = v`. -/
def insert [LinearOrder K] : Map K V → K → V → Map K V
  | [], k, v => [(k, v)]
  | (k', v') :: t, k, v =>
    if k < k' then (k, v) :: (k', v') :: t
    else if k = k' then (k, v) :: t
    else (k', v') :: insert t k v

/-- Removal `m.erase(k)`. -/
def erase [DecidableEq K] (m : Map K V) (k : K) : Map K V :=
  m.filter (fun p => decide (p.1 ≠ k))

/-- The value `m[k]` read through `operator[]`: a missing key reads as the
default-constructed value `d`. -/
def getD [DecidableEq K] (m : Map K V) (k : K) (d : V) : V := (find? m k).getD d

end Map

/-! ## Origins, nets and evidence -/

/-- A net, identified by its address (`Net*`). -/
abbrev Net := Nat

/-- An origin `std::pair<Module*, PinGroup<ModulePin>*>`. -/
structure MPG where
  /-- Address of the module. -/
  module : Nat
  /-- Address of the pin group. -/
  group : Nat
deriving DecidableEq, Repr

/-- The lexicographic key of an origin. -/
def MPG.key (a : MPG) : Nat ×ₗ Nat := toLex (a.module, a.group)

instance : LinearOrder MPG where
  le a b := a.key ≤ b.key
  lt a b := a.key < b.key
  le_refl a := le_refl a.key
  le_trans a b c := @le_trans _ _ a.key b.key c.key
  lt_iff_le_not_le a b := @lt_iff_le_not_le _ _ a.key b.key
  le_antisymm a b h1 h2 := by
    have h : a.key = b.key := le_antisymm h1 h2
    cases a
    cases b
    simp only [MPG.key, EmbeddingLike.apply_eq_iff_eq, Prod.mk.injEq] at h
    simp [h]
  le_total a b := le_total a.key b.key
  decidableLE a b := inferInstanceAs (Decidable (a.key ≤ b.key))
  decidableLT a b := inferInstanceAs (Decidable (a.key < b.key))
  decidableEq := instDecidableEqMPG

/-- The evidence of one net, `std::map<MPG, std::set<u32>>`. -/
abbrev POSSIBLE_BITINDICES := Map MPG (List Nat)

/-- The offset matrix `std::map<MPG, std::map<MPG, i32>>`. -/
abbrev OffsetMatrix := Map MPG (Map MPG Int)

/-- The read-only netlist queries of the extractor. -/
structure Netlist where
  /-- The nets of the pins of a pin group, `pin->get_net()` over
  `pg->get_pins()`, in pin order. -/
  pins : MPG → List Net
  /-- The query `net->is_gnd_net()`. -/
  is_gnd_net : Net → Bool
  /-- The query `net->is_vcc_net()`. -/
  is_vcc_net : Net → Bool

/-- The representation invariant of a `std::set<u32>`: strictly increasing
values below `2 ^ 32`. -/
def index_set_WF (indices : List Nat) : Prop :=
  indices.Pairwise (fun a b => a < b) ∧ ∀ i ∈ indices, i < 4294967296

instance (indices : List Nat) : Decidable (index_set_WF indices) :=
  inferInstanceAs (Decidable (indices.Pairwise (fun a b => a < b) ∧ ∀ i ∈ indices, i < 4294967296))

/-- The representation invariant of the evidence of one group,
`std::map<Net*, POSSIBLE_BITINDICES>`. -/
def nets_WF (nets : Map Net POSSIBLE_BITINDICES) : Prop :=
  Map.WF nets ∧ ∀ e ∈ nets, Map.WF e.2 ∧ ∀ o ∈ e.2, index_set_WF o.2

instance (nets : Map Net POSSIBLE_BITINDICES) : Decidable (nets_WF nets) :=
  inferInstanceAs (Decidable (Map.WF nets ∧ ∀ e ∈ nets, Map.WF e.2 ∧ ∀ o ∈ e.2, index_set_WF o.2))

/-- The representation invariant of `collected_bitindices`. -/
def collected_WF (collected : Map MPG (Map Net POSSIBLE_BITINDICES)) : Prop :=
  Map.WF collected ∧ ∀ p ∈ collected, nets_WF p.2

instance (collected : Map MPG (Map Net POSSIBLE_BITINDICES)) : Decidable (collected_WF collected) :=
  inferInstanceAs (Decidable (Map.WF collected ∧ ∀ p ∈ collected, nets_WF p.2))

/-- The element `*(indices.begin())` of an index set. -/
def first_index (indices : List Nat) : Nat := indices.headD 0

/-- The assignment `m[a][b] = x` on the offset matrix. -/
def OffsetMatrix.set (m : OffsetMatrix) (a b : MPG) (x : Int) : OffsetMatrix :=
  Map.insert m a (Map.insert (Map.getD m a []) b x)

/-- The entry `m[a][b]`, if recorded. -/
def OffsetMatrix.entry (m : OffsetMatrix) (a b : MPG) : Option Int :=
  match Map.find? m a with
  | none => none
  | some row => Map.find? row b

/-! ## `get_offset` -/

/-- The set `{org1, org2}` of type `std::set<MPG>`. -/
def origin_pair (org1 org2 : MPG) : List MPG :=
  if org1 < org2 then [org1, org2] else if org1 = org2 then [org1] else [org2, org1]

/-- The state after a call of `get_offset`: the result (`none` is an error),
the matrix and the visited set, both passed by reference. -/
abbrev OffsetResult := Option Int × OffsetMatrix × List (List MPG)

/-- The loop `for (auto& [dst_c, first_proxy_offset] : m.at(org1))` of
`get_offset`; `call dst m v` is the recursive call `get_offset(dst, org2, m, v)`.
The row of `org1` is not written while it is iterated (the nested calls only
write rows of origins `x` with `{x, org2}` not yet visited, and `{org1, org2}`
is visited), so the loop runs over the row as read on entry. -/
def get_offset_loop (call : MPG → OffsetMatrix → List (List MPG) → OffsetResult) (org1 org2 : MPG) :
    List (MPG × Int) → OffsetMatrix → List (List MPG) → OffsetResult
  | [], m, v => (none, m, v)
  | (dst, first_proxy_offset) :: rest, m, v =>
    match call dst m v with
    | (none, m1, v1) => get_offset_loop call org1 org2 rest m1 v1
    | (some second_proxy_offset, m1, v1) =>
      (some (i32 (first_proxy_offset + second_proxy_offset)),
        OffsetMatrix.set m1 org1 org2 (i32 (first_proxy_offset + second_proxy_offset)), v1)

/-- The function `get_offset(org1, org2, m, v)`.  The first argument bounds the
recursion depth; for a call with an empty visited set the result no longer
depends on it from `get_offset_fuel m` on. -/
def get_offset : Nat → MPG → MPG → OffsetMatrix → List (List MPG) → OffsetResult
  | 0, _, _, m, v => (none, m, v)
  | fuel + 1, org1, org2, m, v =>
    if origin_pair org1 org2 ∈ v then (none, m, v)
    else
      let v1 := origin_pair org1 org2 :: v
      if org1 = org2 then (some 0, OffsetMatrix.set m org1 org2 0, v1)
      else
        match Map.find? m org1 with
        | none => (none, m, v1)
        | some row =>
          match Map.find? row org2 with
          | some offset => (some offset, m, v1)
          | none => get_offset_loop (fun dst m2 v2 => get_offset fuel dst org2 m2 v2) org1 org2 row m v1

/-- A recursion depth no call of `get_offset` on `m` with an empty visited set
exceeds: every nested call visits a new origin, which is a column of `m`
(`get_offset_fuel_enough`). -/
def get_offset_fuel (m : OffsetMatrix) : Nat := (m.map (fun r => r.2.length)).sum + 3

/-! ## `build_offset_matrix` -/

/-- The map `all_possible_indices` of one net: every origin with the first
index of its set. -/
def all_possible_indices (possible_bitindices : POSSIBLE_BITINDICES) : Map MPG Nat :=
  possible_bitindices.foldl (fun acc p => Map.insert acc p.1 (first_index p.2)) []

/-- The body of the inner loop of `build_offset_matrix` for the origin
`org_mpg` with index set `indices` against one entry of `all_possible_indices`.
An error names the two origins. -/
def offset_check (org_mpg : MPG) (indices : List Nat) (m : OffsetMatrix) (already : MPG × Nat) :
    Except (MPG × MPG) OffsetMatrix :=
  let new_index : Int := i32 (first_index indices)
  match Map.find? (Map.getD m org_mpg []) already.1 with
  | none =>
    let offset : Int := i32 ((already.2 : Int) - new_index)
    .ok (OffsetMatrix.set (OffsetMatrix.set m org_mpg already.1 offset) already.1 org_mpg (i32 (-offset)))
  | some offset =>
    if i32 (new_index + offset) ≠ i32 (already.2 : Int) then .error (org_mpg, already.1)
    else .ok m

/-- The two nested loops of `build_offset_matrix` for one net. -/
def offset_net (m : OffsetMatrix) (possible_bitindices : POSSIBLE_BITINDICES) :
    Except (MPG × MPG) OffsetMatrix :=
  possible_bitindices.foldlM
    (fun m1 p => (all_possible_indices possible_bitindices).foldlM (offset_check p.1 p.2) m1) m

/-- The function `build_offset_matrix(reduced_indices)`. -/
def build_offset_matrix (reduced_indices : Map Net POSSIBLE_BITINDICES) :
    Except (MPG × MPG) OffsetMatrix :=
  reduced_indices.foldlM (fun m p => offset_net m p.2) []

/-! ## `extract_well_formed_bitorder` -/

/-- The update `m.at(k) = f (m.at(k))` of the value stored under `k`.  Where the
extractor uses `at`, the key is present (it is the key of the running iteration
over a copy of the same map), so `at` does not throw. -/
def Map.modify {K V : Type} [DecidableEq K] (m : Map K V) (k : K) (f : V → V) : Map K V :=
  m.map (fun p => if p.1 = k then (p.1, f p.2) else p)

/-- Conflict removal 1), body of the loop over the nets: every origin whose
index set does not have exactly one element is erased from `reduced.at(net)`,
and the net is erased when nothing is left. -/
def remove_ambiguous_net (reduced : Map Net POSSIBLE_BITINDICES) (entry : Net × POSSIBLE_BITINDICES) :
    Map Net POSSIBLE_BITINDICES :=
  let r1 := entry.2.foldl
    (fun r p => if p.2.length ≠ 1 then Map.modify r entry.1 (fun x => Map.erase x p.1) else r) reduced
  if (Map.getD r1 entry.1 []).isEmpty then Map.erase r1 entry.1 else r1

/-- Conflict removal 1): `reduced_collected_indices`. -/
def remove_ambiguous (collected : Map Net POSSIBLE_BITINDICES) : Map Net POSSIBLE_BITINDICES :=
  collected.foldl remove_ambiguous_net collected

/-- Conflict removal 2), first loop: the sets `origin_indices` and
`origin_indices_to_remove` (only membership in them is ever tested). -/
def duplicate_scan (reduced : Map Net POSSIBLE_BITINDICES) :
    List (MPG × Nat) × List (MPG × Nat) :=
  reduced.foldl (fun st entry =>
    entry.2.foldl (fun st1 p =>
      if (p.1, first_index p.2) ∈ st1.1 then (st1.1, (p.1, first_index p.2) :: st1.2)
      else ((p.1, first_index p.2) :: st1.1, st1.2)) st) ([], [])

/-- The set `origin_indices_to_remove`. -/
def origin_indices_to_remove (reduced : Map Net POSSIBLE_BITINDICES) : List (MPG × Nat) :=
  (duplicate_scan reduced).2

/-- Conflict removal 2), body of the second loop over the nets. -/
def remove_duplicates_net (to_remove : List (MPG × Nat)) (further : Map Net POSSIBLE_BITINDICES)
    (entry : Net × POSSIBLE_BITINDICES) : Map Net POSSIBLE_BITINDICES :=
  let r1 := entry.2.foldl
    (fun r p => if (p.1, first_index p.2) ∈ to_remove then Map.modify r entry.1 (fun x => Map.erase x p.1)
      else r) further
  if (Map.getD r1 entry.1 []).isEmpty then Map.erase r1 entry.1 else r1

/-- Conflict removal 2): `further_reduced_collected_indices`. -/
def remove_duplicates (reduced : Map Net POSSIBLE_BITINDICES) : Map Net POSSIBLE_BITINDICES :=
  reduced.foldl (remove_duplicates_net (origin_indices_to_remove reduced)) reduced

/-- The offset loop over the nets of `further_reduced_collected_indices`,
filling `consens_bitindices`; the matrix is shared by all nets, the visited set
is fresh for every net, and the `break` ends the loop.  A net without any
origin does not occur here (the conflict removals erase such nets); the loop
passes over it. -/
def consens_loop (base_line : MPG) :
    List (Net × POSSIBLE_BITINDICES) → OffsetMatrix → Map Net Int → Map Net Int
  | [], _, consens => consens
  | (_, []) :: rest, m, consens => consens_loop base_line rest m consens
  | (net, (org, indices) :: others) :: rest, m, consens =>
    let org_index : Int := i32 (first_index indices)
    match get_offset (get_offset_fuel m) org base_line m [] with
    | (none, m1, _) =>
      if ((org, indices) :: others).length = 1 then
        consens_loop base_line rest m1 (Map.insert consens net org_index)
      else consens
    | (some offset, m1, _) =>
      consens_loop base_line rest m1 (Map.insert consens net (i32 (org_index + offset)))

/-- The map `consens_bitindices` of a group, or `none` when the group is
skipped before the offset loop (no evidence left after a conflict removal, or
no offset matrix).  The base line is `offset_matrix.begin()->first`; the matrix
of non-empty evidence has at least one row. -/
def consens_bitindices (collected : Map Net POSSIBLE_BITINDICES) : Option (Map Net Int) :=
  let reduced := remove_ambiguous collected
  if reduced.isEmpty then none
  else
    let further := remove_duplicates reduced
    if further.isEmpty then none
    else
      match build_offset_matrix further with
      | .error _ => none
      | .ok [] => none
      | .ok ((base_line, row) :: more) =>
        some (consens_loop base_line further ((base_line, row) :: more) [])

/-- The completeness loop over the pins: `none` when a net that is neither
ground nor power has no consensus index, else `complete_consens`. -/
def complete_consens (nl : Netlist) (consens : Map Net Int) :
    List Net → Map Net Int → Option (Map Net Int)
  | [], complete => some complete
  | net :: rest, complete =>
    if nl.is_gnd_net net || nl.is_vcc_net net then complete_consens nl consens rest complete
    else
      match Map.find? consens net with
      | none => none
      | some index => complete_consens nl consens rest (Map.insert complete net index)

/-- The value `max_index` after the alignment loop. -/
def max_index (complete : Map Net Int) : Int :=
  complete.foldl (fun acc p => if p.2 > acc then p.2 else acc) (i32 2147483648)

/-- The value `min_index` after the alignment loop. -/
def min_index (complete : Map Net Int) : Int :=
  complete.foldl (fun acc p => if p.2 < acc then p.2 else acc) 2147483647

/-- The set `unique_indices` after the alignment loop. -/
def unique_indices (complete : Map Net Int) : Map Int Unit :=
  complete.foldl (fun acc p => Map.insert acc p.2 ()) []

/-- The map `index_to_net`. -/
def index_to_net (complete : Map Net Int) : Map Int Net :=
  complete.foldl (fun acc p => Map.insert acc p.2 p.1) []

/-- The loop `aligned_consens[net] = index_counter++` with its `u32` counter. -/
def assign_counter (sorted : Map Int Net) : Map Net Nat × Nat :=
  sorted.foldl (fun st p => (Map.insert st.1 p.2 st.2, u32 (st.2 + 1))) ([], 0)

/-- The alignment stage: `none` when the group is skipped, else
`aligned_consens`. -/
def aligned_consens (only_allow_consecutive_bitorders : Bool) (complete : Map Net Int) :
    Option (Map Net Nat) :=
  if only_allow_consecutive_bitorders
      && decide (i32 (max_index complete - min_index complete) > i32 (i32 complete.length - 1)) then none
  else if (unique_indices complete).length < complete.length then none
  else some (assign_counter (index_to_net complete)).1

/-- The bit order the body of the main loop finds for the group `mpg` with
evidence `collected`, or `none` when it reaches a `continue`. -/
def wellformed_bitorder (nl : Netlist) (only_allow_consecutive_bitorders : Bool) (mpg : MPG)
    (collected : Map Net POSSIBLE_BITINDICES) : Option (Map Net Nat) :=
  match consens_bitindices collected with
  | none => none
  | some consens =>
    match complete_consens nl consens (nl.pins mpg) [] with
    | none => none
    | some complete => aligned_consens only_allow_consecutive_bitorders complete

/-- The function `extract_well_formed_bitorder(collected_bitindices,
only_allow_consecutive_bitorders)`.  The map `collected_bitindices.at(mpg)` is
the value of the entry being iterated. -/
def extract_well_formed_bitorder (nl : Netlist) (collected_bitindices : Map MPG (Map Net POSSIBLE_BITINDICES))
    (only_allow_consecutive_bitorders : Bool) : Map MPG (Map Net Nat) :=
  collected_bitindices.foldl (fun wellformed p =>
    match wellformed_bitorder nl only_allow_consecutive_bitorders p.1 p.2 with
    | none => wellformed
    | some aligned => Map.insert wellformed p.1 aligned) []

/-! ## The netlist seen by the walker and the driver

The walker `gather_bit_indices_for_net`, the border lookup
`gather_bit_index_from_origin`, the driver
`propagate_module_pingroup_bitorder` and `propagate_bitorder` read the netlist
through the queries below, which are the fields of `Design`.  A gate, a module,
a pin and a pin group are identified by their address, `nullptr` being 0.  A
failing `Result` is an error value of type `WalkFailure` or `Failure`; the three
`fuel` values do not exist in the program: they are what a bounded run of a loop
or of the recursion returns when the bound is reached.
-/

/-- A gate, identified by its address (`Gate*`); 0 is `nullptr`. -/
abbrev Gate := Nat

/-- A module, identified by its address (`Module*`); 0 is `nullptr`. -/
abbrev ModulePtr := Nat

/-- The gate type properties the walker asks for. -/
inductive GateTypeProperty where
  | combinational
  | sequential
  | ff
  | latch
deriving DecidableEq, Repr

/-- The pin types of a gate pin: the three the walker follows, and every other
pin type. -/
inductive PinType where
  | data
  | state
  | neg_state
  | other
deriving DecidableEq, Repr

/-- The failures of the walker. -/
inductive WalkFailure where
  /-- The error of `gather_bit_index_from_origin`: the net is a border net of
  the module but the module has no pin for it. -/
  | no_pin (n : Net) (m : ModulePtr)
  /-- The recursion bound of the walker was reached. -/
  | walk_fuel
deriving DecidableEq, Repr

/-- The failures of the driver. -/
inductive Failure where
  /-- A failure of the walker, passed on. -/
  | walk (e : WalkFailure)
  /-- The error of `propagate_bitorder`: `get_pin_at_index` failed. -/
  | no_pin_at_index (mpg : MPG) (index : Nat)
  /-- The iteration bound of the queue loop of the driver was reached. -/
  | queue_fuel
  /-- The iteration bound of the round loop of the driver was reached. -/
  | round_fuel
deriving DecidableEq, Repr

/-- The read-only netlist queries of the walker and the driver, on top of those
of the extractor. -/
structure Design extends Netlist where
  /-- The gates of the netlist, `nl->get_gates()`; only their number is used, as
  the bound of the recursion depth of the walker. -/
  gates : List Gate
  /-- The module `n->get_netlist()->get_top_module()`. -/
  top_module : ModulePtr
  /-- The query `m->is_top_module()`. -/
  is_top_module : ModulePtr → Bool
  /-- The query `m->get_parent_module()`. -/
  get_parent_module : ModulePtr → ModulePtr
  /-- The query `m->get_submodules()`: the direct submodules. -/
  get_submodules : ModulePtr → List ModulePtr
  /-- The query `m->get_submodules(nullptr, true)`: all submodules,
  recursively. -/
  get_submodules_recursive : ModulePtr → List ModulePtr
  /-- The query `m->contains_gate(g, true)`. -/
  contains_gate : ModulePtr → Gate → Bool
  /-- The query `m->is_input_net(n)`. -/
  is_input_net : ModulePtr → Net → Bool
  /-- The query `m->is_output_net(n)`. -/
  is_output_net : ModulePtr → Net → Bool
  /-- The query `m->get_pin_by_net(n)`; `none` is `nullptr`. -/
  get_pin_by_net : ModulePtr → Net → Option Nat
  /-- The pin group `pin->get_group().first` of a module pin. -/
  get_group : Nat → Nat
  /-- Whether `pg->get_direction() == PinDirection::output`. -/
  is_output_direction : Nat → Bool
  /-- The net of the pin `pg->get_pin_at_index(index)`; `none` is an error. -/
  get_pin_at_index : MPG → Nat → Option Net
  /-- The query `n->is_global_input_net()`. -/
  is_global_input_net : Net → Bool
  /-- The query `n->is_global_output_net()`. -/
  is_global_output_net : Net → Bool
  /-- The gates `ep->get_gate()` of the endpoints `n->get_destinations()`. -/
  get_destinations : Net → List Gate
  /-- The gates `ep->get_gate()` of the endpoints `n->get_sources()`. -/
  get_sources : Net → List Gate
  /-- The query `g->get_module()`. -/
  get_module : Gate → ModulePtr
  /-- The query `g->get_type()->has_property(p)`. -/
  has_property : Gate → GateTypeProperty → Bool
  /-- The query `g->get_fan_out_nets()`. -/
  get_fan_out_nets : Gate → List Net
  /-- The query `g->get_fan_in_nets()`. -/
  get_fan_in_nets : Gate → List Net
  /-- The endpoints `g->get_fan_out_endpoints()`, each as the type of its pin
  and its net. -/
  get_fan_out_endpoints : Gate → List (PinType × Net)
  /-- The endpoints `g->get_fan_in_endpoints()`, each as the type of its pin and
  its net. -/
  get_fan_in_endpoints : Gate → List (PinType × Net)

/-- The known bit orders `std::map<MPG, std::map<Net*, u32>>`. -/
abbrev Bitorders := Map MPG (Map Net Nat)

/-- The evidence of a round, `std::map<MPG, std::map<Net*, POSSIBLE_BITINDICES>>`. -/
abbrev Collected := Map MPG (Map Net POSSIBLE_BITINDICES)

instance decEqEvidence : DecidableEq (Map Net POSSIBLE_BITINDICES) :=
  inferInstanceAs (DecidableEq (List (Net × List (MPG × List Nat))))

instance decEqCollected : DecidableEq Collected :=
  @List.hasDecEq (MPG × Map Net POSSIBLE_BITINDICES) (@instDecidableEqProd _ _ _ decEqEvidence)

/-- The insertion `s.insert(x)` into a `std::set<u32>`. -/
def index_set_insert : List Nat → Nat → List Nat
  | [], x => [x]
  | y :: t, x => if x < y then x :: y :: t else if x = y then y :: t else y :: index_set_insert t x

/-- The statement `origin_to_bit_indices[mpg].insert(index)`. -/
def add_index (origin_to_bit_indices : POSSIBLE_BITINDICES) (mpg : MPG) (index : Nat) :
    POSSIBLE_BITINDICES :=
  Map.insert origin_to_bit_indices mpg (index_set_insert (Map.getD origin_to_bit_indices mpg []) index)

/-- The statement `origin_to_bit_indices[org_mpg].insert(possible_indices.begin(),
possible_indices.end())`. -/
def add_indices (origin_to_bit_indices : POSSIBLE_BITINDICES) (org_mpg : MPG)
    (possible_indices : List Nat) : POSSIBLE_BITINDICES :=
  Map.insert origin_to_bit_indices org_mpg
    (possible_indices.foldl index_set_insert (Map.getD origin_to_bit_indices org_mpg []))

/-- The insertion `m.insert({k, v})` of `std::map`, which leaves the map as it
is when the key is present. -/
def Map.insert_new {K V : Type} [LinearOrder K] (m : Map K V) (k : K) (v : V) : Map K V :=
  if (Map.find? m k).isSome then m else Map.insert m k v

/-- The range insertion `m.insert(first, last)` of `std::map`. -/
def Map.insert_range {K V : Type} [LinearOrder K] (m : Map K V) (l : List (K × V)) : Map K V :=
  l.foldl (fun a p => Map.insert_new a p.1 p.2) m

/-! ## `gather_bit_index_from_origin` -/

/-- The value `{{nullptr, nullptr}, 0}`: nothing found. -/
def nothing_found : MPG × Nat := (⟨0, 0⟩, 0)

/-- The function `gather_bit_index_from_origin(n, m, wellformed_module_pin_groups,
successors)`. -/
def gather_bit_index_from_origin (d : Design) (n : Net) (m : ModulePtr)
    (wellformed_module_pin_groups : Bitorders) (successors : Bool) : Except WalkFailure (MPG × Nat) :=
  let is_border_pin := if successors then d.is_input_net m n else d.is_output_net m n
  if is_border_pin then
    match d.get_pin_by_net m n with
    | none => .error (.no_pin n m)
    | some border_pin =>
      let pg := d.get_group border_pin
      match Map.find? wellformed_module_pin_groups ⟨m, pg⟩ with
      | none => .ok nothing_found
      | some wellformed_bitorder =>
        match Map.find? wellformed_bitorder n with
        | none => .ok nothing_found
        | some index => .ok (⟨m, pg⟩, index)
  else .ok nothing_found

/-! ## `gather_bit_indices_for_net` -/

/-- The statement `if (mpg.first != nullptr) origin_to_bit_indices[mpg].insert(index)`
on the result of a border lookup. -/
def record_index (origin_to_bit_indices : POSSIBLE_BITINDICES) (found : MPG × Nat) :
    POSSIBLE_BITINDICES :=
  if found.1.module ≠ 0 then add_index origin_to_bit_indices found.1 found.2
  else origin_to_bit_indices

/-- The nets `next_nets` the walker continues with behind the gate `g`,
lines 296 to 311. -/
def next_nets (d : Design) (g : Gate) (successors : Bool) : List Net :=
  if d.has_property g .combinational then
    if successors then d.get_fan_out_nets g else d.get_fan_in_nets g
  else if d.has_property g .sequential && (d.has_property g .ff || d.has_property g .latch) then
    ((if successors then d.get_fan_out_endpoints g else d.get_fan_in_endpoints g).filter
      (fun next_ep => decide (next_ep.1 = .data ∨ next_ep.1 = .state ∨ next_ep.1 = .neg_state))).map
      Prod.snd
  else []

/-- The loop `for (Net* next_n : next_nets)` of the walker; `call next_n
new_visited` is the recursive call on `next_n` with the module border
`found_module`.  All nets of the loop share the set `new_visited`, which the
calls extend. -/
def gather_next (call : Net → List Gate → Except WalkFailure (POSSIBLE_BITINDICES × List Gate)) :
    List Net → POSSIBLE_BITINDICES → List Gate → Except WalkFailure (POSSIBLE_BITINDICES × List Gate)
  | [], origin_to_bit_indices, new_visited => .ok (origin_to_bit_indices, new_visited)
  | next_n :: rest, origin_to_bit_indices, new_visited =>
    match call next_n new_visited with
    | .error e => .error e
    | .ok (res, new_visited1) =>
      gather_next call rest
        (res.foldl (fun acc p => add_indices acc p.1 p.2) origin_to_bit_indices) new_visited1

/-- The loop `for (const auto& ep : neighbors)` of the walker; `call next_n
found_module new_visited` is the recursive call.  The result is the evidence
and the set `visited`, which is passed by reference. -/
def gather_neighbors
    (call : Net → ModulePtr → List Gate → Except WalkFailure (POSSIBLE_BITINDICES × List Gate))
    (d : Design) (n : Net) (module_border : ModulePtr) (wellformed_module_pin_groups : Bitorders)
    (successors : Bool) :
    List Gate → POSSIBLE_BITINDICES → List Gate → Except WalkFailure (POSSIBLE_BITINDICES × List Gate)
  | [], origin_to_bit_indices, visited => .ok (origin_to_bit_indices, visited)
  | g :: rest, origin_to_bit_indices, visited =>
    if g = 0 then
      gather_neighbors call d n module_border wellformed_module_pin_groups successors rest
        origin_to_bit_indices visited
    else if g ∈ visited then
      gather_neighbors call d n module_border wellformed_module_pin_groups successors rest
        origin_to_bit_indices visited
    else
      let found_module := d.get_module g
      if !d.contains_gate module_border g then
        match gather_bit_index_from_origin d n module_border wellformed_module_pin_groups (!successors) with
        | .error e => .error e
        | .ok found =>
          gather_neighbors call d n module_border wellformed_module_pin_groups successors rest
            (record_index origin_to_bit_indices found) (g :: visited)
      else
        match (if found_module ≠ module_border then
            gather_bit_index_from_origin d n found_module wellformed_module_pin_groups successors
          else .ok nothing_found) with
        | .error e => .error e
        | .ok found =>
          if found_module ≠ module_border ∧ found.1.module ≠ 0 then
            gather_neighbors call d n module_border wellformed_module_pin_groups successors rest
              (add_index origin_to_bit_indices found.1 found.2) (g :: visited)
          else if found_module ≠ module_border ∧ (d.get_submodules found_module).length = 0 then
            gather_neighbors call d n module_border wellformed_module_pin_groups successors rest
              origin_to_bit_indices (g :: visited)
          else
            match gather_next (fun next_n new_visited => call next_n found_module new_visited)
                (next_nets d g successors) origin_to_bit_indices (g :: visited) with
            | .error e => .error e
            | .ok (origin_to_bit_indices1, _) =>
              gather_neighbors call d n module_border wellformed_module_pin_groups successors rest
                origin_to_bit_indices1 (g :: visited)

/-- The function `gather_bit_indices_for_net(n, module_border,
wellformed_module_pin_groups, visited, successors)`.  The first argument bounds
the recursion depth; the result is the evidence and the set `visited`, which is
passed by reference. -/
def gather_bit_indices_for_net (d : Design) (wellformed_module_pin_groups : Bitorders)
    (successors : Bool) :
    Nat → Net → ModulePtr → List Gate → Except WalkFailure (POSSIBLE_BITINDICES × List Gate)
  | 0, _, _, _ => .error .walk_fuel
  | fuel + 1, n, module_border, visited =>
    if (successors && d.is_global_output_net n) || (!successors && d.is_global_input_net n) then
      match gather_bit_index_from_origin d n d.top_module wellformed_module_pin_groups (!successors) with
      | .error e => .error e
      | .ok found => .ok (record_index [] found, visited)
    else
      gather_neighbors (gather_bit_indices_for_net d wellformed_module_pin_groups successors fuel)
        d n module_border wellformed_module_pin_groups successors
        (if successors then d.get_destinations n else d.get_sources n) [] visited

/-- A recursion depth no call of the walker with an empty visited set exceeds:
every nested call has visited one more gate. -/
def walker_fuel (d : Design) : Nat := d.gates.length + 1

/-! ## `propagate_module_pingroup_bitorder` -/

/-- The statement `collected_bitindices[mpg][starting_net].insert(indices.begin(),
indices.end())`: the evidence of an origin that the net already has is kept. -/
def collect_insert (collected_bitindices : Collected) (mpg : MPG) (starting_net : Net)
    (indices : POSSIBLE_BITINDICES) : Collected :=
  let nets := Map.getD collected_bitindices mpg []
  Map.insert collected_bitindices mpg
    (Map.insert nets starting_net (Map.insert_range (Map.getD nets starting_net []) indices))

/-- The loop `for (const auto& pin : pg->get_pins())` of the driver for the
origin `mpg`. -/
def gather_pins (d : Design) (wellformed_module_pin_groups : Bitorders) (mpg : MPG)
    (successors : Bool) : List Net → Collected → Except Failure Collected
  | [], collected_bitindices => .ok collected_bitindices
  | starting_net :: rest, collected_bitindices =>
    match gather_bit_indices_for_net d wellformed_module_pin_groups successors (walker_fuel d)
        starting_net (d.get_parent_module mpg.module) [] with
    | .error e => .error (.walk e)
    | .ok (indices_outwards, _) =>
      match gather_bit_indices_for_net d wellformed_module_pin_groups (!successors) (walker_fuel d)
          starting_net mpg.module [] with
      | .error e => .error (.walk e)
      | .ok (indices_inwards, _) =>
        gather_pins d wellformed_module_pin_groups mpg successors rest
          (collect_insert (collect_insert collected_bitindices mpg starting_net indices_outwards)
            mpg starting_net indices_inwards)

/-- The part of the body of the queue loop that walks from the origin `mpg`. -/
def gather_origin (d : Design) (wellformed_module_pin_groups : Bitorders) (mpg : MPG)
    (collected_bitindices : Collected) : Except Failure Collected :=
  gather_pins d wellformed_module_pin_groups mpg (d.is_output_direction mpg.group)
    (d.pins mpg) collected_bitindices

/-- The negation of the flag `no_submodules_in_q` for the module `m` and the
queue `q`. -/
def submodule_in_q (d : Design) (m : ModulePtr) (q : List MPG) : Bool :=
  (d.get_submodules_recursive m).any (fun sub_m => q.any (fun p => decide (p.module = sub_m)))

/-- The loop `while (!q.empty())` of the driver.  The first argument bounds the
number of iterations. -/
def process_queue (d : Design) (wellformed_module_pin_groups : Bitorders) :
    Nat → List MPG → Collected → Except Failure Collected
  | _, [], collected_bitindices => .ok collected_bitindices
  | 0, _ :: _, _ => .error .queue_fuel
  | fuel + 1, mpg :: q, collected_bitindices =>
    if submodule_in_q d mpg.module q then
      process_queue d wellformed_module_pin_groups fuel (q ++ [mpg]) collected_bitindices
    else
      match gather_origin d wellformed_module_pin_groups mpg collected_bitindices with
      | .error e => .error e
      | .ok collected_bitindices1 =>
        process_queue d wellformed_module_pin_groups fuel q collected_bitindices1

/-- A number of iterations the queue loop does not exceed when no module is its
own submodule: an origin is moved to the back fewer times than the queue is
long before an origin is taken out. -/
def queue_fuel (q : List MPG) : Nat := q.length * q.length + q.length

/-- The vector `modules_and_pingroup`: the unknown origins that are not at the
top module and have no bit order yet. -/
def modules_and_pingroup (d : Design) (unknown_bitorders : List MPG)
    (wellformed_module_pin_groups : Bitorders) : List MPG :=
  unknown_bitorders.filter (fun mpg =>
    !d.is_top_module mpg.module && (Map.find? wellformed_module_pin_groups mpg).isNone)

/-- The loop that merges `newly_wellformed_module_pin_groups` into
`wellformed_module_pin_groups`, lines 867 to 870. -/
def merge_wellformed (wellformed_module_pin_groups newly_wellformed_module_pin_groups : Bitorders) :
    Bitorders :=
  newly_wellformed_module_pin_groups.foldl
    (fun w p => Map.insert w p.1 (Map.insert_range (Map.getD w p.1 []) p.2))
    wellformed_module_pin_groups

/-- The loop `while (true)` of the driver from the state
`(wellformed_module_pin_groups, previous_collected_bitindices)`.  The first
argument bounds the number of rounds.  Next to the result of the function, the
value lists the rounds in which the evidence was gathered, each as the pair of
`wellformed_module_pin_groups` at its start and `collected_bitindices` at its
end; this list is not part of the program. -/
def propagate_rounds (d : Design) (unknown_bitorders : List MPG) (strict_consens_finding : Bool) :
    Nat → Bitorders → Collected → Except Failure Bitorders × List (Bitorders × Collected)
  | 0, _, _ => (.error .round_fuel, [])
  | fuel + 1, wellformed_module_pin_groups, previous_collected_bitindices =>
    let q := modules_and_pingroup d unknown_bitorders wellformed_module_pin_groups
    if q.isEmpty then (.ok wellformed_module_pin_groups, [])
    else
      match process_queue d wellformed_module_pin_groups (queue_fuel q) q [] with
      | .error e => (.error e, [])
      | .ok collected_bitindices =>
        let wellformed1 := merge_wellformed wellformed_module_pin_groups
          (extract_well_formed_bitorder d.toNetlist collected_bitindices strict_consens_finding)
        if previous_collected_bitindices = collected_bitindices then
          (.ok wellformed1, [(wellformed_module_pin_groups, collected_bitindices)])
        else
          let r := propagate_rounds d unknown_bitorders strict_consens_finding fuel wellformed1
            collected_bitindices
          (r.1, (wellformed_module_pin_groups, collected_bitindices) :: r.2)

/-- A number of rounds the driver does not exceed: one more than there are
origins without bit order at the start. -/
def round_fuel (d : Design) (known_bitorders : Bitorders) (unknown_bitorders : List MPG) : Nat :=
  (modules_and_pingroup d unknown_bitorders known_bitorders).length + 1

/-- The function `propagate_module_pingroup_bitorder(known_bitorders,
unknown_bitorders, strict_consens_finding)`, with the list of its rounds.  The
set `unknown_bitorders` is the list of its elements in increasing order. -/
def propagate_module_pingroup_bitorder_rounds (d : Design) (known_bitorders : Bitorders)
    (unknown_bitorders : List MPG) (strict_consens_finding : Bool) :
    Except Failure Bitorders × List (Bitorders × Collected) :=
  propagate_rounds d unknown_bitorders strict_consens_finding
    (round_fuel d known_bitorders unknown_bitorders) known_bitorders []

/-- The function `propagate_module_pingroup_bitorder(known_bitorders,
unknown_bitorders, strict_consens_finding)`. -/
def propagate_module_pingroup_bitorder (d : Design) (known_bitorders : Bitorders)
    (unknown_bitorders : List MPG) (strict_consens_finding : Bool) : Except Failure Bitorders :=
  (propagate_module_pingroup_bitorder_rounds d known_bitorders unknown_bitorders
    strict_consens_finding).1

/-! ## `propagate_bitorder` -/

/-- The loop over the indices `index, index + 1, ...` below `size` that fills
`src_bitorder` for the origin `mpg`; an element that is already present is
kept. -/
def src_bitorder (d : Design) (mpg : MPG) : Nat → Nat → Map Net Nat → Except Failure (Map Net Nat)
  | 0, _, bitorder => .ok bitorder
  | count + 1, index, bitorder =>
    match d.get_pin_at_index mpg index with
    | none => .error (.no_pin_at_index mpg index)
    | some net => src_bitorder d mpg count (index + 1) (Map.insert_new bitorder net index)

/-- The loop over `src` that fills `known_bitorders`. -/
def known_bitorders_of (d : Design) : List MPG → Bitorders → Except Failure Bitorders
  | [], known_bitorders => .ok known_bitorders
  | mpg :: rest, known_bitorders =>
    match src_bitorder d mpg (d.pins mpg).length 0 [] with
    | .error e => .error e
    | .ok bitorder => known_bitorders_of d rest (Map.insert_new known_bitorders mpg bitorder)

/-- The set `std::set<MPG>` of the elements of a vector, in increasing order. -/
def origin_set (l : List MPG) : List MPG :=
  Map.keys (l.foldl (fun s mpg => Map.insert_new s mpg ()) [])

/-- The value of `new_bit_order_count`: the difference of the number of bit
orders and `src.size()`, converted to `u32`. -/
def new_bit_order_count (all_wellformed_bitorders_count src_size : Nat) : Nat :=
  (((all_wellformed_bitorders_count : Int) - (src_size : Int)) % 4294967296).toNat

/-- The function `propagate_bitorder(src, dst)` on two vectors of origins.
The value `default_strict` is the default argument of
`propagate_module_pingroup_bitorder`, which the header declares.  The call of
`reorder_module_pin_groups` changes the order and the names of pins in the
netlist and its result is dropped; it has no influence on the value returned. -/
def propagate_bitorder (d : Design) (default_strict : Bool) (src dst : List MPG) :
    Except Failure Bool :=
  match known_bitorders_of d src [] with
  | .error e => .error e
  | .ok known_bitorders =>
    match propagate_module_pingroup_bitorder d known_bitorders (origin_set dst) default_strict with
    | .error e => .error e
    | .ok all_wellformed_module_pin_groups =>
      .ok (decide (new_bit_order_count (u32 all_wellformed_module_pin_groups.length) src.length > 0))

/-! ## `reorder_module_pin_groups`

The function changes the netlist through `move_pin_within_group` and
`set_pin_name` and reads the names of the pins through `get_pins`; these
functions of the netlist are the fields of `PinApi`, over a type `S` of states
of the pins of the netlist.  Which pin a net has on a module and which group a
pin belongs to is not changed by them.
-/

/-- The netlist functions `reorder_module_pin_groups` calls. -/
structure PinApi (S : Type) where
  /-- The query `m->get_pin_by_net(net)`; `none` is `nullptr`. -/
  get_pin_by_net : ModulePtr → Net → Option Nat
  /-- The pin group `pin->get_group().first` of a module pin. -/
  get_group : Nat → Nat
  /-- The name `pg->get_name()` of a pin group. -/
  get_name : Nat → String
  /-- The call `m->move_pin_within_group(pg, pin, index)`; `none` is an error. -/
  move_pin_within_group : S → ModulePtr → Nat → Nat → Nat → Option S
  /-- The pins `m->get_pins(filter)` of the module whose name is the given
  one. -/
  get_pins_by_name : S → ModulePtr → String → List Nat
  /-- The call `m->set_pin_name(pin, name)`. -/
  set_pin_name : S → ModulePtr → Nat → String → S

/-- A change of the netlist by `reorder_module_pin_groups`. -/
inductive PinOp where
  /-- The call `m->move_pin_within_group(pg, pin, index)`. -/
  | move (m : ModulePtr) (pg : Nat) (pin : Nat) (index : Nat)
  /-- The call `m->set_pin_name(pin, name)`. -/
  | rename (m : ModulePtr) (pin : Nat) (name : String)
deriving DecidableEq, Repr

/-- The errors of `reorder_module_pin_groups`. -/
inductive ReorderFailure where
  /-- The pin of a net of the bit order belongs to another pin group. -/
  | other_group (mpg : MPG) (pin : Nat) (current_pin_group : Nat)
  /-- The call of `move_pin_within_group` failed. -/
  | move_failed (mpg : MPG) (pin : Nat) (index : Nat)
deriving DecidableEq, Repr

/-- The first loop over the bit order of the origin `mpg`, which fills
`index_to_pin`. -/
def index_to_pin {S : Type} (api : PinApi S) (mpg : MPG) :
    List (Net × Nat) → Map Nat Nat → Except ReorderFailure (Map Nat Nat)
  | [], acc => .ok acc
  | (net, index) :: rest, acc =>
    match api.get_pin_by_net mpg.module net with
    | none => index_to_pin api mpg rest acc
    | some pin =>
      if mpg.group = api.get_group pin then index_to_pin api mpg rest (Map.insert acc index pin)
      else .error (.other_group mpg pin (api.get_group pin))

/-- The name `pg->get_name() + "(" + std::to_string(index) + ")"`. -/
def indexed_pin_name {S : Type} (api : PinApi S) (pg : Nat) (index : Nat) : String :=
  api.get_name pg ++ "(" ++ toString index ++ ")"

/-- The second loop for the origin `mpg`, over `index_to_pin`: every pin is
moved to its index and renamed, after the first pin that has the new name
already is renamed.  The state of the pins is threaded through; the list of the
changes made so far is not part of the program. -/
def move_pins {S : Type} (api : PinApi S) (mpg : MPG) :
    List (Nat × Nat) → S → List PinOp → Except ReorderFailure Unit × S × List PinOp
  | [], s, log => (.ok (), s, log)
  | (index, pin) :: rest, s, log =>
    match api.move_pin_within_group s mpg.module mpg.group pin index with
    | none => (.error (.move_failed mpg pin index), s, log)
    | some s1 =>
      let pin_name := indexed_pin_name api mpg.group index
      match api.get_pins_by_name s1 mpg.module pin_name with
      | [] =>
        move_pins api mpg rest (api.set_pin_name s1 mpg.module pin pin_name)
          (log ++ [.move mpg.module mpg.group pin index, .rename mpg.module pin pin_name])
      | collision :: _ =>
        move_pins api mpg rest
          (api.set_pin_name (api.set_pin_name s1 mpg.module collision (pin_name ++ "_OLD"))
            mpg.module pin pin_name)
          (log ++ [.move mpg.module mpg.group pin index,
            .rename mpg.module collision (pin_name ++ "_OLD"), .rename mpg.module pin pin_name])

/-- The function `reorder_module_pin_groups(ordered_module_pin_groups)` from
the state `s` of the pins: its result, the state it leaves and the changes it
made, after those of `log`. -/
def reorder_module_pin_groups {S : Type} (api : PinApi S) :
    List (MPG × Map Net Nat) → S → List PinOp → Except ReorderFailure Unit × S × List PinOp
  | [], s, log => (.ok (), s, log)
  | (mpg, bitorder) :: rest, s, log =>
    match index_to_pin api mpg bitorder [] with
    | .error e => (.error e, s, log)
    | .ok pins =>
      match move_pins api mpg pins s log with
      | (.error e, s1, log1) => (.error e, s1, log1)
      | (.ok _, s1, log1) => reorder_module_pin_groups api rest s1 log1

/-! ## The overload of `propagate_bitorder` on module ids and pin group names -/

/-- The netlist queries of the overload of `propagate_bitorder` on names. -/
structure NameQueries where
  /-- The query `nl->get_module_by_id(mod_id)`; `none` is `nullptr`. -/
  get_module_by_id : Nat → Option ModulePtr
  /-- The query `m->get_pin_groups()`. -/
  get_pin_groups : ModulePtr → List Nat
  /-- The name `pin_group->get_name()`. -/
  get_name : Nat → String

/-- The errors of the overload of `propagate_bitorder` on names. -/
inductive NameFailure where
  /-- No module has the id. -/
  | no_module (mod_id : Nat)
  /-- The module has several pin groups of the name. -/
  | multiple_pin_groups (pg_name : String) (mod_id : Nat)
  /-- The module has no pin group of the name. -/
  | no_pin_group (pg_name : String) (mod_id : Nat)
  /-- The error of `propagate_bitorder` on the origins. -/
  | propagation (e : Failure)
deriving DecidableEq, Repr

/-- The loop over `src_mod->get_pin_groups()`; the variable `src_pin_group` is
`none` while it is `nullptr`. -/
def find_pin_group (q : NameQueries) (pg_name : String) (mod_id : Nat) :
    List Nat → Option Nat → Except NameFailure (Option Nat)
  | [], src_pin_group => .ok src_pin_group
  | pin_group :: rest, src_pin_group =>
    if q.get_name pin_group = pg_name then
      if src_pin_group.isSome then .error (.multiple_pin_groups pg_name mod_id)
      else find_pin_group q pg_name mod_id rest (some pin_group)
    else find_pin_group q pg_name mod_id rest src_pin_group

/-- The body of the loops over `src` and `dst`: the origin of a pair of a
module id and a pin group name. -/
def resolve_pair (q : NameQueries) (p : Nat × String) : Except NameFailure MPG :=
  match q.get_module_by_id p.1 with
  | none => .error (.no_module p.1)
  | some src_mod =>
    match find_pin_group q p.2 p.1 (q.get_pin_groups src_mod) none with
    | .error e => .error e
    | .ok none => .error (.no_pin_group p.2 p.1)
    | .ok (some src_pin_group) => .ok ⟨src_mod, src_pin_group⟩

/-- The loop over `src` (or `dst`), which fills `internal_src`. -/
def resolve_pairs (q : NameQueries) : List (Nat × String) → List MPG → Except NameFailure (List MPG)
  | [], internal => .ok internal
  | p :: rest, internal =>
    match resolve_pair q p with
    | .error e => .error e
    | .ok mpg => resolve_pairs q rest (internal ++ [mpg])

/-- The result of `propagate_bitorder` on the origins as the result of the
overload on names. -/
def of_propagation (r : Except Failure Bool) : Except NameFailure Bool :=
  match r with
  | .error e => .error (.propagation e)
  | .ok b => .ok b

/-- The function `propagate_bitorder(nl, src, dst)` on vectors of pairs of a
module id and a pin group name. -/
def propagate_bitorder_by_name (q : NameQueries) (d : Design) (default_strict : Bool)
    (src dst : List (Nat × String)) : Except NameFailure Bool :=
  match resolve_pairs q src [] with
  | .error e => .error e
  | .ok internal_src =>
    match resolve_pairs q dst [] with
    | .error e => .error e
    | .ok internal_dst =>
      of_propagation (propagate_bitorder d default_strict internal_src internal_dst)

/-! ## Definitions used in the statements -/

/-- The nets of the pins of a group that are neither ground nor power nets,
each listed once. -/
def wires (nl : Netlist) (mpg : MPG) : List Net :=
  ((nl.pins mpg).filter (fun n => !(nl.is_gnd_net n || nl.is_vcc_net n))).dedup

/-- Whether the net `n` has a consensus index strictly smaller than `x`. -/
def consens_lt (consens : Map Net Int) (x : Int) (n : Net) : Bool :=
  match Map.find? consens n with
  | some y => decide (y < x)
  | none => false

/-- The evidence of a group without the observations selected by `drop` and
without the nets that are left with no observation. -/
def prune (drop : Net → MPG × List Nat → Bool) (nets : Map Net POSSIBLE_BITINDICES) :
    Map Net POSSIBLE_BITINDICES :=
  nets.filterMap (fun e =>
    if (e.2.filter (fun o => !drop e.1 o)).isEmpty then none
    else some (e.1, e.2.filter (fun o => !drop e.1 o)))

/-- The evidence of a group from which every observation whose candidate index
set does not have exactly one element is removed, and then every net left
without observation. -/
def without_ambiguous (nets : Map Net POSSIBLE_BITINDICES) : Map Net POSSIBLE_BITINDICES :=
  prune (fun _ o => decide (o.2.length ≠ 1)) nets

/-- Whether the observation `o` of the net `net` is in conflict with another
net: `o` is a single candidate index and another net of the group carries the
same single index from the same origin. -/
def conflicting (nets : Map Net POSSIBLE_BITINDICES) (net : Net) (o : MPG × List Nat) : Bool :=
  decide (o.2.length = 1) && nets.any (fun e => decide (e.1 ≠ net) && decide (o ∈ e.2))

/-- The evidence of a group from which every observation in conflict with
another net is removed. -/
def without_conflicts (nets : Map Net POSSIBLE_BITINDICES) : Map Net POSSIBLE_BITINDICES :=
  nets.map (fun e => (e.1, e.2.filter (fun o => !conflicting nets e.1 o)))

/-- The pairs (origin, first index) observed on a net. -/
def observed (e : Net × POSSIBLE_BITINDICES) : List (MPG × Nat) :=
  e.2.map (fun p => (p.1, first_index p.2))

/-- The sum of the recorded offsets along a chain of origins, `none` when a
link of the chain is not recorded. -/
def chain_sum (m : OffsetMatrix) : List MPG → Option Int
  | [] => some 0
  | [_] => some 0
  | a :: b :: t =>
    match OffsetMatrix.entry m a b, chain_sum m (b :: t) with
    | some x, some s => some (x + s)
    | _, _ => none

/-! ## Definitions used in the proofs -/

/-- The map obtained by assigning the entries of a list in order. -/
def Map.ofList {K V : Type} [LinearOrder K] (l : List (K × V)) : Map K V :=
  l.foldl (fun a p => Map.insert a p.1 p.2) []

/-- The entries `aligned_consens[net] = index_counter++` writes when the counter
starts at `c`. -/
def counter_list (c : Nat) : List (Int × Net) → List (Net × Nat)
  | [] => []
  | p :: t => (p.2, c) :: counter_list (u32 (c + 1)) t

/-- The shape of both conflict removal loops: the observations of the net of
`entry` that satisfy `P` are erased from `reduced.at(net)`, and the net is
erased when nothing is left. -/
def prune_net (P : MPG × List Nat → Prop) [DecidablePred P] (reduced : Map Net POSSIBLE_BITINDICES)
    (entry : Net × POSSIBLE_BITINDICES) : Map Net POSSIBLE_BITINDICES :=
  let r1 := entry.2.foldl
    (fun r p => if P p then Map.modify r entry.1 (fun x => Map.erase x p.1) else r) reduced
  if (Map.getD r1 entry.1 []).isEmpty then Map.erase r1 entry.1 else r1

/-- The rest of `consens_bitindices` after the two conflict removals. -/
def consens_of_reduced (further : Map Net POSSIBLE_BITINDICES) : Option (Map Net Int) :=
  if further.isEmpty then none
  else
    match build_offset_matrix further with
    | .error _ => none
    | .ok [] => none
    | .ok ((base_line, row) :: more) =>
      some (consens_loop base_line further ((base_line, row) :: more) [])

/-- The offset `index_B - index_A` that the net `e` gives for the origins `A`
and `B` when it observes both, in 32-bit arithmetic. -/
def offset_on (e : Net × POSSIBLE_BITINDICES) (A B : MPG) (x : Int) : Prop :=
  ∃ a b, (A, a) ∈ observed e ∧ (B, b) ∈ observed e ∧ x = i32 ((b : Int) - (a : Int))

/-- The offsets that the nets of `nets` give for the origins `A` and `B`. -/
def offset_in (nets : Map Net POSSIBLE_BITINDICES) (A B : MPG) (x : Int) : Prop :=
  ∃ e ∈ nets, offset_on e A B x

/-- Two nets of `nets` give different offsets for the same pair of origins. -/
def offset_conflict (nets : Map Net POSSIBLE_BITINDICES) : Prop :=
  ∃ A B x y, offset_in nets A B x ∧ offset_in nets A B y ∧ x ≠ y

/-- The invariant of `build_offset_matrix` inside one net: the recorded entries
are the offsets of the nets `done` and, for the pairs of origins `seen` has
already reached (in either order), the offsets of the current net `e`. -/
def matrix_inv (done : Map Net POSSIBLE_BITINDICES) (e : Net × POSSIBLE_BITINDICES)
    (seen : MPG → MPG → Prop) (m : OffsetMatrix) : Prop :=
  ∀ X Y x, OffsetMatrix.entry m X Y = some x ↔
    offset_in done X Y x ∨ (offset_on e X Y x ∧ (seen X Y ∨ seen Y X))

/-- The origin `y` is a column of the matrix `m`. -/
def is_column (m : OffsetMatrix) (y : MPG) : Prop := ∃ a x, OffsetMatrix.entry m a y = some x

/-- The number of origins of `K` that `get_offset` has not yet visited on the
way to `t`. -/
def remaining (K : List MPG) (t : MPG) (v : List (List MPG)) : Nat :=
  K.dedup.countP (fun x => decide (origin_pair x t ∉ v))

/-- The invariant of `get_offset` towards `t`: the columns of the matrix stay
in `K` and the visited set contains `v0`. -/
def offset_state_ok (K : List MPG) (v0 : List (List MPG)) (m : OffsetMatrix) (v : List (List MPG)) :
    Prop :=
  (∀ y, is_column m y → y ∈ K) ∧ ∀ p ∈ v0, p ∈ v

/-! ## Example inputs -/

/-- The origin of the unknown pin group used in the examples. -/
def exG : MPG := ⟨9, 9⟩

/-- A known origin used in the examples. -/
def exA : MPG := ⟨1, 1⟩

/-- A second known origin used in the examples. -/
def exB : MPG := ⟨2, 1⟩

/-- A third known origin used in the examples. -/
def exC : MPG := ⟨3, 1⟩

/-- A netlist in which the pin group `exG` has the three nets 10, 11, 12, net 0
is the ground net and net 1 the power net. -/
def exNetlist : Netlist := ⟨fun _ => [10, 11, 12], fun n => n == 0, fun n => n == 1⟩

/-- A netlist in which the pin group `exG` has the four nets 10, 11, 12, 13. -/
def exNetlist4 : Netlist := ⟨fun _ => [10, 11, 12, 13], fun n => n == 0, fun n => n == 1⟩

/-- Evidence for `exG`: the origin `exA` gives the indices 0, 1 and 3. -/
def exGap : Map MPG (Map Net POSSIBLE_BITINDICES) :=
  [(exG, [(10, [(exA, [0])]), (11, [(exA, [1])]), (12, [(exA, [3])])])]

/-- Evidence for `exG` in which the net 13 has no observation at all. -/
def exIncomplete : Map MPG (Map Net POSSIBLE_BITINDICES) :=
  [(exG, [(10, [(exA, [0])]), (11, [(exA, [1])]), (12, [(exA, [2])]), (13, [])])]

/-- Evidence for `exG` in which the net 10 has two candidate indices from the
origin `exA`. -/
def exAmbiguous : Map MPG (Map Net POSSIBLE_BITINDICES) :=
  [(exG, [(10, [(exA, [3, 4]), (exB, [7])]), (11, [(exA, [1]), (exB, [6])]),
    (12, [(exA, [3]), (exB, [8])])])]

/-- Evidence for `exG` in which the nets 10 and 12 both carry the index 3 from
the origin `exA`. -/
def exConflict : Map MPG (Map Net POSSIBLE_BITINDICES) :=
  [(exG, [(10, [(exA, [3]), (exB, [7])]), (11, [(exA, [1]), (exB, [6])]),
    (12, [(exA, [3]), (exB, [8])])])]

/-- Evidence of one group on which the origins `exA` and `exB` agree. -/
def exAgree : Map Net POSSIBLE_BITINDICES :=
  [(10, [(exA, [0]), (exB, [4])]), (11, [(exA, [1]), (exB, [5])]), (12, [(exA, [2])])]

/-- Evidence of one group in which every pair of origins is observed together
on one net only: `exB = exA + 1` on net 10, `exC = exB + 1` on net 11 and
`exC = exA + 5` on net 12. -/
def exChain : Map Net POSSIBLE_BITINDICES :=
  [(10, [(exA, [0]), (exB, [1])]), (11, [(exB, [0]), (exC, [1])]), (12, [(exA, [1]), (exC, [6])])]

/-! ## Example inputs for the confinement of conflicts -/

/-- A second unknown origin used in the examples. -/
def exH : MPG := ⟨8, 8⟩

/-- Evidence of a group with irreconcilable offsets: the origin `exB` is one
above `exA` on the net 10 and four above it on the net 11. -/
def exIrreconcilable : Map Net POSSIBLE_BITINDICES :=
  [(10, [(exA, [0]), (exB, [1])]), (11, [(exA, [1]), (exB, [5])])]

/-- Evidence of the group `exG`: the origin `exA` gives the indices 2, 0, 1. -/
def exPermuted : Map Net POSSIBLE_BITINDICES :=
  [(10, [(exA, [2])]), (11, [(exA, [0])]), (12, [(exA, [1])])]

/-- Evidence of two groups: `exH` with irreconcilable offsets, and `exG`. -/
def exTwoGroups : Map MPG (Map Net POSSIBLE_BITINDICES) :=
  [(exH, exIrreconcilable), (exG, exPermuted)]

/-- The evidence of `exG` alone. -/
def exOneGroup : Map MPG (Map Net POSSIBLE_BITINDICES) := [(exG, exPermuted)]

/-- The index of the nets 10, 11, 12 at the origin `exA` in `exPermuted`. -/
def exOrder (w : Net) : Nat := if w = 10 then 2 else if w = 11 then 0 else 1

/-! ## Definitions used in the statements on the walker and the driver -/

/-- Whether `n` is a border net of `m` in the queried direction: an input net
when `successors`, an output net otherwise. -/
def is_border_net (d : Design) (m : ModulePtr) (n : Net) (successors : Bool) : Bool :=
  if successors then d.is_input_net m n else d.is_output_net m n

/-- The gate `g`, met on the net `n` during a walk inside `module_border`, is
accepted for propagation (lines 212 to 293): it is not null, not yet visited,
inside `module_border`, and either a gate of `module_border` itself or a gate of
a module with submodules at which the border lookup finds nothing. -/
def accepted (d : Design) (n : Net) (module_border : ModulePtr) (known : Bitorders)
    (successors : Bool) (visited : List Gate) (g : Gate) : Prop :=
  g ≠ 0 ∧ g ∉ visited ∧ d.contains_gate module_border g = true ∧
    (d.get_module g = module_border ∨
      ∃ found, gather_bit_index_from_origin d n (d.get_module g) known successors = .ok found ∧
        found.1.module = 0 ∧ (d.get_submodules (d.get_module g)).length ≠ 0)

/-- The net `n` is not a global net in the direction of the walk. -/
def not_global (d : Design) (n : Net) (successors : Bool) : Prop :=
  ((successors && d.is_global_output_net n) || (!successors && d.is_global_input_net n)) = false

instance (d : Design) (n : Net) (successors : Bool) : Decidable (not_global d n successors) :=
  inferInstanceAs (Decidable (_ = false))

/-- Every bit order of `a` is in `b`, for the same origin and unchanged. -/
def kept_in (a b : Bitorders) : Prop :=
  ∀ g bitorder, Map.find? a g = some bitorder → Map.find? b g = some bitorder

/-- Whether a call of the walker succeeds with empty evidence. -/
def is_empty_walk (r : Except WalkFailure (POSSIBLE_BITINDICES × List Gate)) : Bool :=
  match r with
  | .ok (indices, _) => indices.isEmpty
  | .error _ => false

/-- Whether, with the bit orders `wf`, the walker returns empty evidence for the
net of every pin of the origin `g` in both directions, called as the driver
calls it. -/
def walks_empty (d : Design) (wf : Bitorders) (g : MPG) : Bool :=
  (d.pins g).all (fun net =>
    is_empty_walk (gather_bit_indices_for_net d wf (d.is_output_direction g.group)
        (walker_fuel d) net (d.get_parent_module g.module) [])
      && is_empty_walk (gather_bit_indices_for_net d wf (!d.is_output_direction g.group)
        (walker_fuel d) net g.module []))

/-- The module hierarchy is acyclic: every submodule lies deeper than the
module, for a depth function `depth`. -/
def acyclic_hierarchy (d : Design) (depth : ModulePtr → Nat) : Prop :=
  ∀ m s, s ∈ d.get_submodules_recursive m → depth m < depth s

/-- Every gate at an endpoint of a net is one of the gates of the netlist. -/
def gates_listed (d : Design) : Prop :=
  ∀ n g, (g ∈ d.get_destinations n ∨ g ∈ d.get_sources n) → g ≠ 0 → g ∈ d.gates

/-- Whether a failure is the bound of a loop or of the recursion, which does
not exist in the program. -/
def is_fuel_failure : Failure → Bool
  | .walk .walk_fuel => true
  | .queue_fuel => true
  | .round_fuel => true
  | _ => false

/-- The way the round loop stopped after the rounds `rounds` with the bit orders
`R`: no origin is left for the queue, or the evidence of the last round equals
the evidence of the round before it (the empty evidence, for the first
round). -/
def stop_reason (d : Design) (unknown : List MPG) (R : Bitorders)
    (rounds : List (Bitorders × Collected)) (previous : Collected) : Prop :=
  modules_and_pingroup d unknown R = [] ∨
    ∃ init last, rounds = init ++ [last] ∧
      last.2 = ((init.getLast?).map Prod.snd).getD previous

/-! ## Definitions used in the proofs on the driver -/

/-- The number of gates of the netlist that are not in the set `visited`. -/
def unvisited (d : Design) (visited : List Gate) : Nat :=
  d.gates.dedup.countP (fun g => decide (g ∉ visited))

/-- The number of origins at the front of the queue `q` that have a submodule
among the origins of `ref`. -/
def leading_blocked (d : Design) (ref q : List MPG) : Nat :=
  (q.takeWhile (fun e => submodule_in_q d e.module ref)).length

/-- The state in which the driver stops without a change: no origin is left in
the queue, or the round from the bit orders `R` resolves nothing. -/
def stable (d : Design) (unknown : List MPG) (strict : Bool) (R : Bitorders) : Prop :=
  modules_and_pingroup d unknown R = [] ∨
    ∃ collected, process_queue d R (queue_fuel (modules_and_pingroup d unknown R))
        (modules_and_pingroup d unknown R) [] = .ok collected ∧
      extract_well_formed_bitorder d.toNetlist collected strict = []

/-! ## An example netlist

The top module 1 has the submodules 2, 3 and 4.  The gates 100, 101, 102 of
the module 2 drive the nets 10, 11, 12, which are the pins of the output pin
group 20 of the module 2 and of the input pin group 30 of the module 3, where
they end at the gates 200, 201, 202, which drive the nets 40, 41, 42.  The
gates are combinational, except for the flip-flop 201, which also has the
clock net 5, and the gate 202, which is sequential without being a flip-flop or
a latch.  The pin group 45 of the module 4 has the nets 60 and 61, which are connected to
nothing.  The net 70 is an input net of the module 4 without pin. -/

/-- The example netlist. -/
def exDesign : Design where
  pins := fun mpg =>
    if mpg.module = 4 then [60, 61] else if mpg.module = 2 ∨ mpg.module = 3 then [10, 11, 12] else []
  is_gnd_net := fun n => n == 0
  is_vcc_net := fun n => n == 1
  gates := [100, 101, 102, 200, 201, 202]
  top_module := 1
  is_top_module := fun m => m == 1
  get_parent_module := fun m => if m = 1 then 0 else 1
  get_submodules := fun m => if m = 1 then [2, 3, 4] else []
  get_submodules_recursive := fun m => if m = 1 then [2, 3, 4] else []
  contains_gate := fun m g => m == 1 || (m == 2 && decide (g < 200)) || (m == 3 && decide (200 ≤ g))
  is_input_net := fun m n => (m == 3 && decide (10 ≤ n ∧ n ≤ 12)) || (m == 4 && n == 70)
  is_output_net := fun m n => m == 2 && decide (10 ≤ n ∧ n ≤ 12)
  get_pin_by_net := fun m n =>
    if (m = 2 ∨ m = 3) ∧ 10 ≤ n ∧ n ≤ 12 then some (1000 * m + n) else none
  get_group := fun pin => if pin < 3000 then 20 else 30
  is_output_direction := fun pg => pg == 20
  get_pin_at_index := fun mpg index =>
    (if mpg.module = 4 then [60, 61]
      else if mpg.module = 2 ∨ mpg.module = 3 then [10, 11, 12] else [])[index]?
  is_global_input_net := fun _ => false
  is_global_output_net := fun _ => false
  get_destinations := fun n => if 10 ≤ n ∧ n ≤ 12 then [n + 190] else []
  get_sources := fun n =>
    if 10 ≤ n ∧ n ≤ 12 then [n + 90] else if 40 ≤ n ∧ n ≤ 42 then [n + 160] else []
  get_module := fun g => if g < 200 then 2 else 3
  has_property := fun g p =>
    if g = 201 then decide (p = .sequential ∨ p = .ff)
    else if g = 202 then decide (p = .sequential) else decide (p = .combinational)
  get_fan_out_nets := fun g => if g < 200 then [g - 90] else [g - 160]
  get_fan_in_nets := fun g => if g < 200 then [] else if g = 201 then [11, 5] else [g - 190]
  get_fan_out_endpoints := fun g =>
    if g < 200 then [(.other, g - 90)] else if g = 201 then [(.state, 41)] else [(.other, g - 160)]
  get_fan_in_endpoints := fun g =>
    if g < 200 then [] else if g = 201 then [(.data, 11), (.other, 5)] else [(.other, g - 190)]

/-- The origin of the output pin group of the module 2. -/
def exSrc : MPG := ⟨2, 20⟩

/-- The origin of the input pin group of the module 3. -/
def exDst : MPG := ⟨3, 30⟩

/-- The origin of the pin group of the module 4, connected to nothing. -/
def exLone : MPG := ⟨4, 45⟩

/-- The bit order of `exSrc`: the nets 10, 11, 12 are the bits 0, 1, 2. -/
def exKnown : Bitorders := [(exSrc, [(10, 0), (11, 1), (12, 2)])]

/-- The bit orders after the propagation on the example netlist. -/
def exResult : Bitorders :=
  [(exSrc, [(10, 0), (11, 1), (12, 2)]), (exDst, [(10, 0), (11, 1), (12, 2)])]

/-- The depth of the modules of the example netlist. -/
def exDepth (m : ModulePtr) : Nat := if m = 1 then 0 else 1

/-! ## Definitions used in the statements on the overload on names -/

/-- The pin groups of the module `m` with the name `pg_name`, as
`m->get_pin_groups()` lists them. -/
def named_groups (q : NameQueries) (m : ModulePtr) (pg_name : String) : List Nat :=
  (q.get_pin_groups m).filter (fun pin_group => decide (q.get_name pin_group = pg_name))

/-- The outcome for a pair of a module id and a pin group name: an error when
no module has the id, when the module has no pin group of the name or when it
has several, else the module with its only pin group of the name. -/
def resolve_spec (q : NameQueries) (p : Nat × String) : Except NameFailure MPG :=
  match q.get_module_by_id p.1 with
  | none => .error (.no_module p.1)
  | some m =>
    match named_groups q m p.2 with
    | [] => .error (.no_pin_group p.2 p.1)
    | [pin_group] => .ok ⟨m, pin_group⟩
    | _ :: _ :: _ => .error (.multiple_pin_groups p.2 p.1)

/-- Example queries: the module with the id 7 is the module 2, which has the
pin groups 20 (`"out"`), 21 and 22 (both `"dup"`); the module with the id 8 is
the module 3, which has the pin group 30 (`"in"`). -/
def exNames : NameQueries where
  get_module_by_id := fun mod_id => if mod_id = 7 then some 2 else if mod_id = 8 then some 3 else none
  get_pin_groups := fun m => if m = 2 then [20, 21, 22] else if m = 3 then [30] else []
  get_name := fun pg => if pg = 20 then "out" else if pg = 30 then "in" else "dup"

/-! ## Example inputs for the offset loop -/

/-- Evidence of one group: the nets 10 and 12 are observed by `exA`, the net 11
by `exB` and `exC`, which are observed on no net together with `exA`. -/
def exNoChain : Map Net POSSIBLE_BITINDICES :=
  [(10, [(exA, [0])]), (11, [(exB, [0]), (exC, [1])]), (12, [(exA, [5])])]

/-- The evidence `exNoChain` with no observation for the net 11. -/
def exNoChainEmpty : Map Net POSSIBLE_BITINDICES :=
  [(10, [(exA, [0])]), (11, []), (12, [(exA, [5])])]

/-- The evidence `exNoChain` without the net 11. -/
def exNoChainWithout : Map Net POSSIBLE_BITINDICES :=
  [(10, [(exA, [0])]), (12, [(exA, [5])])]

/-! ## A netlist with feedback around a module

The top module 1 has the submodule 2 with the input pin group 21 (nets 30, 31,
32) and the output pin group 22 (nets 40, 41, 42).  The gate `100 + k` of the
module 2 drives the net `40 + k` from the net `30 + k`; the gates 200, 201 and
202 of the top module drive the nets 31, 32 and 50 from the nets 40, 41 and 42;
the gate 300 of the top module drives the net 30.  All gates are
combinational. -/

/-- The netlist with feedback around the module 2. -/
def exFeedback : Design where
  pins := fun mpg =>
    if mpg.module = 2 ∧ mpg.group = 21 then [30, 31, 32]
    else if mpg.module = 2 ∧ mpg.group = 22 then [40, 41, 42] else []
  is_gnd_net := fun _ => false
  is_vcc_net := fun _ => false
  gates := [100, 101, 102, 200, 201, 202, 300]
  top_module := 1
  is_top_module := fun m => m == 1
  get_parent_module := fun m => if m = 1 then 0 else 1
  get_submodules := fun m => if m = 1 then [2] else []
  get_submodules_recursive := fun m => if m = 1 then [2] else []
  contains_gate := fun m g => m == 1 || (m == 2 && decide (g < 200))
  is_input_net := fun m n => m == 2 && decide (30 ≤ n ∧ n ≤ 32)
  is_output_net := fun m n => m == 2 && decide (40 ≤ n ∧ n ≤ 42)
  get_pin_by_net := fun m n =>
    if m = 2 ∧ ((30 ≤ n ∧ n ≤ 32) ∨ (40 ≤ n ∧ n ≤ 42)) then some n else none
  get_group := fun pin => if pin < 40 then 21 else 22
  is_output_direction := fun pg => pg == 22
  get_pin_at_index := fun mpg index =>
    (if mpg.module = 2 ∧ mpg.group = 21 then [30, 31, 32]
      else if mpg.module = 2 ∧ mpg.group = 22 then [40, 41, 42] else [])[index]?
  is_global_input_net := fun _ => false
  is_global_output_net := fun _ => false
  get_destinations := fun n =>
    if 30 ≤ n ∧ n ≤ 32 then [n + 70] else if 40 ≤ n ∧ n ≤ 42 then [n + 160] else []
  get_sources := fun n =>
    if n = 30 then [300] else if n = 31 ∨ n = 32 then [n + 169]
    else if 40 ≤ n ∧ n ≤ 42 then [n + 60] else if n = 50 then [202] else []
  get_module := fun g => if g < 200 then 2 else 1
  has_property := fun _ p => decide (p = .combinational)
  get_fan_out_nets := fun g =>
    if g < 200 then [g - 60] else if g = 200 ∨ g = 201 then [g - 169]
    else if g = 202 then [50] else [30]
  get_fan_in_nets := fun g => if g < 200 then [g - 70] else if g < 300 then [g - 160] else []
  get_fan_out_endpoints := fun g =>
    if g < 200 then [(.other, g - 60)] else if g = 200 ∨ g = 201 then [(.other, g - 169)]
    else if g = 202 then [(.other, 50)] else [(.other, 30)]
  get_fan_in_endpoints := fun g =>
    if g < 200 then [(.other, g - 70)] else if g < 300 then [(.other, g - 160)] else []

/-- The origin of the input pin group of the module 2 of `exFeedback`. -/
def exFeedbackIn : MPG := ⟨2, 21⟩

/-- The origin of the output pin group of the module 2 of `exFeedback`. -/
def exFeedbackOut : MPG := ⟨2, 22⟩

/-- The bit order of `exFeedbackIn`: the nets 30, 31, 32 are the bits 0, 1, 2. -/
def exFeedbackKnown : Bitorders := [(exFeedbackIn, [(30, 0), (31, 1), (32, 2)])]

/-! ## Definitions used in the statements on the evidence of the walker -/

/-- The entry `p` of an evidence map comes from the known bit orders: its origin
has a known bit order, and each of its indices is the index this bit order
gives to a net that has a pin of the group of the origin on the module of the
origin and is an input net or an output net of this module. -/
def sound_entry (d : Design) (known : Bitorders) (p : MPG × List Nat) : Prop :=
  ∃ bitorder, Map.find? known p.1 = some bitorder ∧
    ∀ i ∈ p.2, ∃ n pin, d.get_pin_by_net p.1.module n = some pin ∧
      d.get_group pin = p.1.group ∧
      (d.is_input_net p.1.module n = true ∨ d.is_output_net p.1.module n = true) ∧
      Map.find? bitorder n = some i

/-- Every entry of the evidence map comes from the known bit orders. -/
def sound_evidence (d : Design) (known : Bitorders) (evidence : POSSIBLE_BITINDICES) : Prop :=
  ∀ p ∈ evidence, sound_entry d known p

/-! ## Definitions used in the statements on the next nets of a gate -/

/-- The nets `nets` are explored one after the other by `call`, the first with
the visited set `visited` and every further one with the visited set that the
exploration of the net before it leaves; `results` are the evidence maps of the
explorations and `visited1` is the visited set after the last. -/
def explored_in_sequence
    (call : Net → List Gate → Except WalkFailure (POSSIBLE_BITINDICES × List Gate)) :
    List Net → List Gate → List POSSIBLE_BITINDICES → List Gate → Prop
  | [], visited, [], visited1 => visited1 = visited
  | next_n :: rest, visited, res :: results, visited1 =>
    ∃ visited2, call next_n visited = .ok (res, visited2) ∧
      explored_in_sequence call rest visited2 results visited1
  | _, _, _, _ => False

/-- The evidence `acc` after the evidence maps `results` are added to it, one
after the other, as the walker adds the result of a recursive call. -/
def merged_evidence (results : List POSSIBLE_BITINDICES) (acc : POSSIBLE_BITINDICES) :
    POSSIBLE_BITINDICES :=
  results.foldl (fun a res => res.foldl (fun b p => add_indices b p.1 p.2) a) acc

/-! ## A netlist with a gate with two fan-out nets

The top module 1 has the submodule 2 with the input pin group 21 (net 30) and
the output pin group 22 (nets 40 and 41).  The gate 100 of the module 2 drives
the nets 40 and 41 from the net 30, and the gate 200 of the top module drives
the net 50 from the nets 40 and 41.  Both gates are combinational.  The
argument is the order in which the gate 100 gives its fan-out nets. -/

/-- The netlist with the gate 100 with two fan-out nets. -/
def exFanout (fan_out : List Net) : Design where
  pins := fun mpg =>
    if mpg.module = 2 ∧ mpg.group = 21 then [30]
    else if mpg.module = 2 ∧ mpg.group = 22 then [40, 41] else []
  is_gnd_net := fun _ => false
  is_vcc_net := fun _ => false
  gates := [100, 200]
  top_module := 1
  is_top_module := fun m => m == 1
  get_parent_module := fun m => if m = 1 then 0 else 1
  get_submodules := fun m => if m = 1 then [2] else []
  get_submodules_recursive := fun m => if m = 1 then [2] else []
  contains_gate := fun m g => m == 1 || (m == 2 && g == 100)
  is_input_net := fun m n => m == 2 && n == 30
  is_output_net := fun m n => m == 2 && (n == 40 || n == 41)
  get_pin_by_net := fun m n => if m = 2 ∧ (n = 30 ∨ n = 40 ∨ n = 41) then some n else none
  get_group := fun pin => if pin < 40 then 21 else 22
  is_output_direction := fun pg => pg == 22
  get_pin_at_index := fun mpg index =>
    (if mpg.module = 2 ∧ mpg.group = 21 then [30]
      else if mpg.module = 2 ∧ mpg.group = 22 then [40, 41] else [])[index]?
  is_global_input_net := fun _ => false
  is_global_output_net := fun _ => false
  get_destinations := fun n => if n = 30 then [100] else if n = 40 ∨ n = 41 then [200] else []
  get_sources := fun n => if n = 40 ∨ n = 41 then [100] else if n = 50 then [200] else []
  get_module := fun g => if g = 100 then 2 else 1
  has_property := fun _ p => decide (p = .combinational)
  get_fan_out_nets := fun g => if g = 100 then fan_out else [50]
  get_fan_in_nets := fun g => if g = 100 then [30] else [40, 41]
  get_fan_out_endpoints := fun g =>
    if g = 100 then fan_out.map (fun n => (.other, n)) else [(.other, 50)]
  get_fan_in_endpoints := fun g =>
    if g = 100 then [(.other, 30)] else [(.other, 40), (.other, 41)]

/-- The origin of the output pin group of the module 2 of `exFanout`. -/
def exFanoutOut : MPG := ⟨2, 22⟩

/-- The bit order of `exFanoutOut`: the nets 40 and 41 are the bits 0 and 1. -/
def exFanoutKnown : Bitorders := [(exFanoutOut, [(40, 0), (41, 1)])]

/-! ## A netlist with a combinational loop

The gate 100 drives the net 10 from the net 11, and the gate 101 drives the
net 11 from the net 10; both are combinational gates of the top module 1,
which has no submodule. -/

/-- The netlist with a combinational loop. -/
def exLoop : Design where
  pins := fun _ => []
  is_gnd_net := fun _ => false
  is_vcc_net := fun _ => false
  gates := [100, 101]
  top_module := 1
  is_top_module := fun m => m == 1
  get_parent_module := fun _ => 0
  get_submodules := fun _ => []
  get_submodules_recursive := fun _ => []
  contains_gate := fun m _ => m == 1
  is_input_net := fun _ _ => false
  is_output_net := fun _ _ => false
  get_pin_by_net := fun _ _ => none
  get_group := fun _ => 0
  is_output_direction := fun _ => false
  get_pin_at_index := fun _ _ => none
  is_global_input_net := fun _ => false
  is_global_output_net := fun _ => false
  get_destinations := fun n => if n = 10 then [101] else if n = 11 then [100] else []
  get_sources := fun n => if n = 10 then [100] else if n = 11 then [101] else []
  get_module := fun _ => 1
  has_property := fun _ p => decide (p = .combinational)
  get_fan_out_nets := fun g => if g = 100 then [10] else [11]
  get_fan_in_nets := fun g => if g = 100 then [11] else [10]
  get_fan_out_endpoints := fun g => if g = 100 then [(.other, 10)] else [(.other, 11)]
  get_fan_in_endpoints := fun g => if g = 100 then [(.other, 11)] else [(.other, 10)]

/-! ## The pins of an example module

The module 5 has the pin groups 10, 11 and 12, named A, B and C.  The pin 1, of
the net 101, belongs to the group 10; the pin 2, of the net 102, belongs to the
group 12; the pin 3, of the net 103, belongs to the group 11.  The state of the
pins is the name of every pin; a pin can always be moved. -/

/-- The netlist functions on the pins of the module 5. -/
def exPins : PinApi (Nat → String) where
  get_pin_by_net := fun m net =>
    if m = 5 ∧ 101 ≤ net ∧ net ≤ 103 then some (net - 100) else none
  get_group := fun pin => if pin = 1 then 10 else if pin = 2 then 12 else 11
  get_name := fun pg => if pg = 10 then "A" else if pg = 11 then "B" else "C"
  move_pin_within_group := fun s _ _ _ _ => some s
  get_pins_by_name := fun s _ name => [1, 2, 3].filter (fun pin => s pin == name)
  set_pin_name := fun s _ pin name => fun p => if p = pin then name else s p

/-- The names of the pins of the module 5 before the call: the pin 3 of the
group 11 has the name `A(0)`. -/
def exPinNames (pin : Nat) : String :=
  if pin = 1 then "x" else if pin = 2 then "y" else "A(0)"

/-- The bit orders to apply: the net 101 is the bit 0 of the group 10, and the
net 102, whose pin belongs to the group 12, is the bit 0 of the group 11. -/
def exOrdered : List (MPG × Map Net Nat) := [(⟨5, 10⟩, [(101, 0)]), (⟨5, 11⟩, [(102, 0)])]

/-! ## Example inputs for the alignment stage -/

/-- A netlist in which every pin group has the nets 10 and 11. -/
def exNetlist2 : Netlist := ⟨fun _ => [10, 11], fun n => n == 0, fun n => n == 1⟩

/-- Evidence for the group `exG`: the origin `exA` observes the net 10 at the
index 2147483648 and the net 11 at the index 2147483647. -/
def exWide : Map MPG (Map Net POSSIBLE_BITINDICES) :=
  [(exG, [(10, [(exA, [2147483648])]), (11, [(exA, [2147483647])])])]

/-! ## Definitions used in the statements on `get_offset` -/

/-- The representation invariant of an offset matrix,
`std::map<MPG, std::map<MPG, i32>>`: increasing keys, and entries that are
`i32` values. -/
def matrix_WF (m : OffsetMatrix) : Prop :=
  Map.WF m ∧ ∀ r ∈ m, Map.WF r.2 ∧ ∀ p ∈ r.2, i32 p.2 = p.2

instance (m : OffsetMatrix) : Decidable (matrix_WF m) :=
  inferInstanceAs (Decidable (Map.WF m ∧ ∀ r ∈ m, Map.WF r.2 ∧ ∀ p ∈ r.2, i32 p.2 = p.2))

/-- The list `l` is a chain of recorded offsets of `m` from `org1` to `org2`,
and `s` is the sum of the offsets along it. -/
def is_chain (m : OffsetMatrix) (org1 org2 : MPG) (l : List MPG) (s : Int) : Prop :=
  l.head? = some org1 ∧ l.getLast? = some org2 ∧ chain_sum m l = some s

/-- Every offset of `m` has the opposite offset, in the 32-bit arithmetic of the
code, recorded in the other direction. -/
def matrix_symmetric (m : OffsetMatrix) : Prop :=
  ∀ r ∈ m, ∀ p ∈ r.2, OffsetMatrix.entry m p.1 r.1 = some (i32 (-p.2))

instance (m : OffsetMatrix) : Decidable (matrix_symmetric m) :=
  inferInstanceAs (Decidable (∀ r ∈ m, ∀ p ∈ r.2, OffsetMatrix.entry m p.1 r.1 = some (i32 (-p.2))))

/-- The matrix `m1` after a call of `get_offset` towards `t` on the matrix `m`:
outside the column of `t` nothing changes, the recorded offsets to `t` of the
other origins are kept, and the offset of `t` to itself is kept or becomes
0. -/
def memoized_from (t : MPG) (m m1 : OffsetMatrix) : Prop :=
  (∀ a b, b ≠ t → OffsetMatrix.entry m1 a b = OffsetMatrix.entry m a b) ∧
    (∀ a x, a ≠ t → OffsetMatrix.entry m a t = some x → OffsetMatrix.entry m1 a t = some x) ∧
    (OffsetMatrix.entry m1 t t = OffsetMatrix.entry m t t ∨ OffsetMatrix.entry m1 t t = some 0)

/-- The origins that `get_offset` towards `t` has visited between the visited
sets `v` and `v1` are not `t`, have no recorded offset to `t`, and every origin
they have a recorded offset to is visited in `v1`. -/
def visited_closed (m : OffsetMatrix) (t : MPG) (v v1 : List (List MPG)) : Prop :=
  ∀ x, origin_pair x t ∈ v1 → origin_pair x t ∉ v →
    x ≠ t ∧ ∀ row, Map.find? m x = some row →
      Map.find? row t = none ∧ ∀ p ∈ row, origin_pair p.1 t ∈ v1

/-- A symmetric matrix with the chain `exA`, `exB`, `exC`. -/
def exSymmetric : OffsetMatrix :=
  [(exA, [(exB, 1)]), (exB, [(exA, -1), (exC, 2)]), (exC, [(exB, -2)])]

/-- The state of the offset loop after it has gone through the nets `nets`
without stopping: the matrix with the offsets memoized so far and the consensus
so far; `none` when the loop has stopped at one of the nets. -/
def consens_state (base_line : MPG) :
    List (Net × POSSIBLE_BITINDICES) → OffsetMatrix → Map Net Int →
      Option (OffsetMatrix × Map Net Int)
  | [], m, consens => some (m, consens)
  | (_, []) :: rest, m, consens => consens_state base_line rest m consens
  | (net, (org, indices) :: others) :: rest, m, consens =>
    match get_offset (get_offset_fuel m) org base_line m [] with
    | (none, m1, _) =>
      if ((org, indices) :: others).length = 1 then
        consens_state base_line rest m1 (Map.insert consens net (i32 (first_index indices)))
      else none
    | (some offset, m1, _) =>
      consens_state base_line rest m1
        (Map.insert consens net (i32 (i32 (first_index indices) + offset)))

/-- Evidence for the group `exG`: the origin `exA` observes the net 10 at the
index 0 and the net 11 at the index 2147483648. -/
def exHalf : Map MPG (Map Net POSSIBLE_BITINDICES) :=
  [(exG, [(10, [(exA, [0])]), (11, [(exA, [2147483648])])])]

/-! ## Lemmas on machine integers -/

theorem i32_eq_iff (x y : Int) : i32 x = i32 y ↔ x ≡ y [ZMOD 4294967296] := by
  unfold i32 Int.ModEq
  constructor
  · intro h
    omega
  · intro h
    omega

theorem i32_modEq (x : Int) : i32 x ≡ x [ZMOD 4294967296] := by
  unfold i32 Int.ModEq
  omega

theorem i32_idem (x : Int) : i32 (i32 x) = i32 x := by
  unfold i32
  omega

theorem i32_of_range (x : Int) (h1 : -2147483648 ≤ x) (h2 : x < 2147483648) : i32 x = x := by
  unfold i32
  omega

theorem i32_range (x : Int) : -2147483648 ≤ i32 x ∧ i32 x < 2147483648 := by
  unfold i32
  omega

namespace Map

variable {K V : Type}

theorem find?_insert [LinearOrder K] (m : Map K V) (k j : K) (v : V) :
    find? (insert m k v) j = if j = k then some v else find? m j := by
  induction m with
  | nil =>
    by_cases h : j = k
    · simp [insert, find?, h]
    · have h2 : ¬ k = j := fun e => h e.symm
      simp [insert, find?, h, h2]
  | cons p t ih =>
    obtain ⟨k', v'⟩ := p
    by_cases h1 : k < k'
    · by_cases h : j = k
      · simp [insert, find?, h1, h]
      · have h2 : ¬ k = j := fun e => h e.symm
        simp [insert, find?, h1, h, h2]
    · by_cases h3 : k = k'
      · subst h3
        by_cases h : j = k
        · simp [insert, find?, h]
        · have h2 : ¬ k = j := fun e => h e.symm
          simp [insert, find?, h, h2]
      · by_cases h : j = k
        · subst h
          have h4 : ¬ k' = j := fun e => h3 e.symm
          simp [insert, find?, h1, h3, h4, ih]
        · simp only [insert, h1, h3, if_false, find?, ih, h]

theorem mem_keys_insert [LinearOrder K] (m : Map K V) (k j : K) (v : V) :
    j ∈ keys (insert m k v) ↔ j = k ∨ j ∈ keys m := by
  induction m with
  | nil => simp [insert, keys]
  | cons p t ih =>
    obtain ⟨k', v'⟩ := p
    by_cases h1 : k < k'
    · simp [insert, keys, h1]
    · by_cases h3 : k = k'
      · subst h3
        simp [insert, keys]
      · simp only [keys] at ih
        simp only [insert, h1, h3, if_false, keys, List.map_cons, List.mem_cons, ih]
        tauto

theorem find?_eq_none_iff [DecidableEq K] (m : Map K V) (k : K) :
    find? m k = none ↔ k ∉ keys m := by
  induction m with
  | nil => simp [find?, keys]
  | cons p t ih =>
    obtain ⟨k', v'⟩ := p
    by_cases h : k' = k
    · simp [find?, keys, h]
    · have h2 : ¬ k = k' := fun e => h e.symm
      simp only [keys] at ih
      simp [find?, keys, h, h2, ih]

theorem mem_of_find? [DecidableEq K] (m : Map K V) (k : K) (v : V) (h : find? m k = some v) :
    (k, v) ∈ m := by
  induction m with
  | nil => simp [find?] at h
  | cons p t ih =>
    obtain ⟨k', v'⟩ := p
    by_cases h1 : k' = k
    · simp [find?, h1] at h
      simp [h1, h]
    · simp [find?, h1] at h
      exact List.mem_cons_of_mem _ (ih h)

theorem find?_of_mem [DecidableEq K] (m : Map K V) (hm : (keys m).Nodup) (k : K) (v : V)
    (h : (k, v) ∈ m) : find? m k = some v := by
  induction m with
  | nil => simp at h
  | cons p t ih =>
    obtain ⟨k', v'⟩ := p
    simp only [keys, List.map_cons, List.nodup_cons] at hm
    rcases List.mem_cons.1 h with h1 | h1
    · simp only [Prod.mk.injEq] at h1
      simp [find?, h1.1, h1.2]
    · have hk : k ∈ List.map Prod.fst t := List.mem_map.2 ⟨(k, v), h1, rfl⟩
      have h2 : ¬ k' = k := fun e => hm.1 (e ▸ hk)
      simp only [find?, h2, if_false]
      exact ih hm.2 h1

theorem nodup_keys_of_WF [LinearOrder K] (m : Map K V) (h : WF m) : (keys m).Nodup := by
  unfold WF at h
  exact h.imp (fun hab => ne_of_lt hab)

theorem WF_insert [LinearOrder K] (m : Map K V) (k : K) (v : V) (h : WF m) : WF (insert m k v) := by
  induction m with
  | nil => simp [insert, WF, keys]
  | cons p t ih =>
    obtain ⟨k', v'⟩ := p
    have ht : WF t := by
      unfold WF keys at h ⊢
      exact (List.pairwise_cons.1 h).2
    have hlt : ∀ j ∈ keys t, k' < j := by
      unfold WF keys at h
      exact (List.pairwise_cons.1 h).1
    by_cases h1 : k < k'
    · simp only [insert, h1, if_true]
      unfold WF keys at h ⊢
      simp only [List.map_cons, List.pairwise_cons] at h ⊢
      refine ⟨?_, h⟩
      intro j hj
      rcases List.mem_cons.1 hj with e | e
      · rw [e]
        exact h1
      · exact lt_trans h1 (h.1 j e)
    · by_cases h3 : k = k'
      · subst h3
        simp only [insert, lt_irrefl, if_false, if_true]
        exact h
      · simp only [insert, h1, h3, if_false]
        have h5 : k' < k := lt_of_le_of_ne (not_lt.1 h1) (fun e => h3 e.symm)
        have ih2 := ih ht
        unfold WF at ih2 ⊢
        show List.Pairwise _ (k' :: keys (insert t k v))
        refine List.pairwise_cons.2 ⟨?_, ih2⟩
        intro j hj
        rcases (mem_keys_insert t k j v).1 hj with e | e
        · rw [e]
          exact h5
        · exact hlt j e

theorem insert_perm [LinearOrder K] (m : Map K V) (k : K) (v : V) (h : k ∉ keys m) :
    List.Perm (insert m k v) ((k, v) :: m) := by
  induction m with
  | nil => simp [insert]
  | cons p t ih =>
    obtain ⟨k', v'⟩ := p
    simp only [keys, List.map_cons, List.mem_cons, not_or] at h
    by_cases h1 : k < k'
    · simp [insert, h1]
    · simp only [insert, h1, h.1, if_false]
      exact ((ih h.2).cons (k', v')).trans (List.Perm.swap _ _ _)

theorem insert_of_lt [LinearOrder K] (m : Map K V) (k : K) (v : V) (h : ∀ j ∈ keys m, j < k) :
    insert m k v = m ++ [(k, v)] := by
  induction m with
  | nil => simp [insert]
  | cons p t ih =>
    obtain ⟨k', v'⟩ := p
    have h0 : k' < k := h k' (by simp [keys])
    have h1 : ¬ k < k' := not_lt.2 (le_of_lt h0)
    have h3 : ¬ k = k' := fun e => (ne_of_lt h0) e.symm
    simp only [insert, h1, h3, if_false, List.cons_append]
    rw [ih (fun j hj => h j (by simp only [keys, List.map_cons, List.mem_cons]; exact Or.inr hj))]

end Map

namespace Map

variable {K V : Type}

theorem WF_nil [LinearOrder K] : WF ([] : Map K V) := by
  simp [WF, keys]

theorem WF_foldl_insert [LinearOrder K] (l : List (K × V)) (acc : Map K V) (h : WF acc) :
    WF (l.foldl (fun a p => insert a p.1 p.2) acc) := by
  induction l generalizing acc with
  | nil => exact h
  | cons p t ih => exact ih _ (WF_insert acc p.1 p.2 h)

theorem WF_ofList [LinearOrder K] (l : List (K × V)) : WF (ofList l) :=
  WF_foldl_insert l [] WF_nil

theorem mem_keys_foldl_insert [LinearOrder K] (l : List (K × V)) (acc : Map K V) (j : K) :
    j ∈ keys (l.foldl (fun a p => insert a p.1 p.2) acc) ↔ j ∈ keys l ∨ j ∈ keys acc := by
  induction l generalizing acc with
  | nil => simp [keys]
  | cons p t ih =>
    simp only [List.foldl_cons, ih, mem_keys_insert]
    simp only [keys, List.map_cons, List.mem_cons]
    tauto

theorem mem_keys_ofList [LinearOrder K] (l : List (K × V)) (j : K) :
    j ∈ keys (ofList l) ↔ j ∈ keys l := by
  have h := mem_keys_foldl_insert l [] j
  simpa [ofList, keys] using h

theorem foldl_insert_perm [LinearOrder K] (l : List (K × V)) (acc : Map K V)
    (hl : (keys l).Nodup) (hd : ∀ j ∈ keys l, j ∉ keys acc) :
    List.Perm (l.foldl (fun a p => insert a p.1 p.2) acc) (acc ++ l) := by
  induction l generalizing acc with
  | nil => simp
  | cons p t ih =>
    simp only [keys, List.map_cons, List.nodup_cons] at hl
    have hp : p.1 ∉ keys acc := hd p.1 (by simp [keys])
    have h1 : ∀ j ∈ keys t, j ∉ keys (insert acc p.1 p.2) := by
      intro j hj hc
      rcases (mem_keys_insert acc p.1 j p.2).1 hc with e | e
      · exact hl.1 (e ▸ hj)
      · exact hd j (by simp only [keys, List.map_cons, List.mem_cons]; exact Or.inr hj) e
    have h2 := ih (insert acc p.1 p.2) hl.2 h1
    refine h2.trans ?_
    have h3 : List.Perm (insert acc p.1 p.2 ++ t) ((p :: acc) ++ t) :=
      (insert_perm acc p.1 p.2 hp).append_right t
    refine h3.trans ?_
    simp only [List.cons_append]
    exact List.perm_middle.symm

theorem ofList_perm [LinearOrder K] (l : List (K × V)) (hl : (keys l).Nodup) :
    List.Perm (ofList l) l := by
  have h := foldl_insert_perm l [] hl (by simp [keys])
  simpa [ofList] using h

theorem find?_ofList [LinearOrder K] (l : List (K × V)) (hl : (keys l).Nodup) (k : K) (v : V) :
    find? (ofList l) k = some v ↔ (k, v) ∈ l := by
  have hp := ofList_perm l hl
  have hn : (keys (ofList l)).Nodup := nodup_keys_of_WF _ (WF_ofList l)
  constructor
  · intro h
    exact hp.subset (mem_of_find? _ _ _ h)
  · intro h
    exact find?_of_mem _ hn _ _ (hp.symm.subset h)

theorem find?_iff_mem [LinearOrder K] (m : Map K V) (hm : WF m) (k : K) (v : V) :
    find? m k = some v ↔ (k, v) ∈ m :=
  ⟨mem_of_find? m k v, find?_of_mem m (nodup_keys_of_WF m hm) k v⟩

theorem ofList_of_WF [LinearOrder K] (l : List (K × V)) (hl : WF l) : ofList l = l := by
  have key : ∀ (t acc : List (K × V)), WF (acc ++ t) →
      t.foldl (fun a p => insert a p.1 p.2) acc = acc ++ t := by
    intro t
    induction t with
    | nil => intro acc _; simp
    | cons p t ih =>
      intro acc h
      have h1 : ∀ j ∈ keys acc, j < p.1 := by
        intro j hj
        unfold WF keys at h
        rw [List.map_append, List.pairwise_append] at h
        exact h.2.2 j hj p.1 (by simp)
      simp only [List.foldl_cons]
      rw [insert_of_lt acc p.1 p.2 h1]
      have h2 : WF ((acc ++ [(p.1, p.2)]) ++ t) := by
        simpa using h
      rw [ih _ h2]
      simp
  simpa [ofList] using key l [] (by simpa using hl)

end Map

/-! ## The alignment stage -/

theorem assign_counter_foldl (l : List (Int × Net)) (acc : Map Net Nat) (c : Nat) :
    (l.foldl (fun (st : Map Net Nat × Nat) p => (Map.insert st.1 p.2 st.2, u32 (st.2 + 1))) (acc, c)).1
      = (counter_list c l).foldl (fun a p => Map.insert a p.1 p.2) acc := by
  induction l generalizing acc c with
  | nil => rfl
  | cons p t ih =>
    simp only [List.foldl_cons, counter_list]
    exact ih _ _

theorem assign_counter_eq (l : List (Int × Net)) :
    (assign_counter l).1 = Map.ofList (counter_list 0 l) :=
  assign_counter_foldl l [] 0

theorem keys_counter_list (c : Nat) (l : List (Int × Net)) :
    Map.keys (counter_list c l) = l.map Prod.snd := by
  induction l generalizing c with
  | nil => rfl
  | cons p t ih =>
    simp only [counter_list, Map.keys, List.map_cons]
    rw [← Map.keys, ih]

theorem mem_counter_list (l : List (Int × Net)) (c : Nat) (h : c + l.length ≤ 4294967296)
    (n : Net) (i : Nat) :
    (n, i) ∈ counter_list c l ↔ ∃ j x, l[j]? = some (x, n) ∧ i = c + j := by
  induction l generalizing c with
  | nil => simp [counter_list]
  | cons p t ih =>
    obtain ⟨x0, n0⟩ := p
    simp only [List.length_cons] at h
    simp only [counter_list, List.mem_cons, Prod.mk.injEq]
    constructor
    · rintro (⟨h1, h2⟩ | h1)
      · exact ⟨0, x0, by simp [h1], by simp [h2]⟩
      · by_cases ht : t = []
        · subst ht
          simp [counter_list] at h1
        · have hlen : 0 < t.length := List.length_pos.2 ht
          have hu : u32 (c + 1) = c + 1 := by
            unfold u32
            omega
          rw [hu] at h1
          obtain ⟨j, x, hj, hi⟩ := (ih (c + 1) (by omega)).1 h1
          exact ⟨j + 1, x, by simpa using hj, by omega⟩
    · rintro ⟨j, x, hj, hi⟩
      cases j with
      | zero =>
        simp only [List.getElem?_cons_zero, Option.some.injEq, Prod.mk.injEq] at hj
        left
        exact ⟨hj.2.symm, by omega⟩
      | succ j =>
        simp only [List.getElem?_cons_succ] at hj
        right
        have hlen : j < t.length := by
          by_contra hc
          rw [List.getElem?_eq_none (by omega)] at hj
          exact Option.noConfusion hj
        have hu : u32 (c + 1) = c + 1 := by
          unfold u32
          omega
        rw [hu]
        exact (ih (c + 1) (by omega)).2 ⟨j, x, hj, by omega⟩

theorem countP_lt_of_sorted (l : List (Int × Net)) (hl : Map.WF l) (j : Nat) (x : Int) (n : Net)
    (hj : l[j]? = some (x, n)) : l.countP (fun p => decide (p.1 < x)) = j := by
  induction l generalizing j with
  | nil => simp at hj
  | cons p t ih =>
    have ht : Map.WF t := by
      unfold Map.WF Map.keys at hl ⊢
      exact (List.pairwise_cons.1 hl).2
    have hlt : ∀ q ∈ t, p.1 < q.1 := by
      intro q hq
      unfold Map.WF Map.keys at hl
      exact (List.pairwise_cons.1 hl).1 q.1 (List.mem_map.2 ⟨q, hq, rfl⟩)
    cases j with
    | zero =>
      simp only [List.getElem?_cons_zero, Option.some.injEq] at hj
      subst hj
      rw [List.countP_eq_zero]
      intro q hq
      rcases List.mem_cons.1 hq with e | e
      · simp [e]
      · have := hlt q e
        simp only [decide_eq_true_eq, not_lt]
        exact le_of_lt this
    | succ j =>
      simp only [List.getElem?_cons_succ] at hj
      have hmem : (x, n) ∈ t := List.getElem?_mem hj
      have h1 : p.1 < x := hlt (x, n) hmem
      rw [List.countP_cons_of_pos _ _ (by simpa using h1), ih ht j hj]

theorem unique_indices_eq (cc : Map Net Int) :
    unique_indices cc = Map.ofList (cc.map (fun p => (p.2, ()))) := by
  unfold unique_indices Map.ofList
  rw [List.foldl_map]

theorem index_to_net_eq (cc : Map Net Int) :
    index_to_net cc = Map.ofList (cc.map (fun p => (p.2, p.1))) := by
  unfold index_to_net Map.ofList
  rw [List.foldl_map]

theorem length_unique_indices (cc : Map Net Int) :
    (unique_indices cc).length = (Map.values cc).dedup.length := by
  have h1 : (Map.keys (unique_indices cc)).Nodup :=
    Map.nodup_keys_of_WF _ (by rw [unique_indices_eq]; exact Map.WF_ofList _)
  have h2 : List.Perm (Map.keys (unique_indices cc)) (Map.values cc).dedup := by
    rw [List.perm_ext_iff_of_nodup h1 (List.nodup_dedup _)]
    intro a
    rw [unique_indices_eq, Map.mem_keys_ofList, List.mem_dedup]
    simp [Map.keys, Map.values]
  have h3 := h2.length_eq
  simpa [Map.keys] using h3

theorem values_nodup_of_unique (cc : Map Net Int)
    (h : ¬ (unique_indices cc).length < cc.length) : (Map.values cc).Nodup := by
  rw [length_unique_indices] at h
  have h1 : (Map.values cc).dedup = Map.values cc :=
    (List.dedup_sublist _).eq_of_length_le (by
      have h0 : (Map.values cc).length = cc.length := by simp [Map.values]
      omega)
  rw [← h1]
  exact List.nodup_dedup _

theorem unique_of_values_nodup (cc : Map Net Int) (h : (Map.values cc).Nodup) :
    (unique_indices cc).length = cc.length := by
  rw [length_unique_indices, List.dedup_eq_self.2 h]
  simp [Map.values]

theorem index_to_net_perm (cc : Map Net Int) (h : (Map.values cc).Nodup) :
    List.Perm (index_to_net cc) (cc.map (fun p => (p.2, p.1))) := by
  rw [index_to_net_eq]
  apply Map.ofList_perm
  simpa [Map.keys, Map.values, List.map_map, Function.comp_def] using h

theorem index_to_net_WF (cc : Map Net Int) : Map.WF (index_to_net cc) := by
  rw [index_to_net_eq]
  exact Map.WF_ofList _

/-- The alignment stage: in a bit order it returns, the index of a net is the
position of its consensus index in the sorted map `index_to_net`. -/
theorem aligned_consens_position (strict : Bool) (cc : Map Net Int) (al : Map Net Nat)
    (hcc : Map.WF cc) (hlen : cc.length ≤ 4294967296) (h : aligned_consens strict cc = some al) :
    (Map.values cc).Nodup ∧ Map.WF al ∧
      ∀ n i, Map.find? al n = some i ↔ ∃ x, (index_to_net cc)[i]? = some (x, n) := by
  unfold aligned_consens at h
  split at h
  · exact Option.noConfusion h
  · split at h
    · exact Option.noConfusion h
    · rename_i hu
      have hv : (Map.values cc).Nodup := values_nodup_of_unique cc hu
      have hp := index_to_net_perm cc hv
      simp only [Option.some.injEq] at h
      subst h
      rw [assign_counter_eq]
      refine ⟨hv, Map.WF_ofList _, ?_⟩
      intro n i
      have hk : (Map.keys (counter_list 0 (index_to_net cc))).Nodup := by
        rw [keys_counter_list]
        have h1 : List.Perm ((index_to_net cc).map Prod.snd) (Map.keys cc) := by
          have := hp.map Prod.snd
          simpa [Map.keys, List.map_map, Function.comp_def] using this
        exact h1.nodup_iff.2 (Map.nodup_keys_of_WF cc hcc)
      rw [Map.find?_ofList _ hk, mem_counter_list _ 0 (by rw [hp.length_eq]; simpa using hlen)]
      constructor
      · rintro ⟨j, x, hj, hi⟩
        have : i = j := by omega
        subst this
        exact ⟨x, hj⟩
      · rintro ⟨x, hx⟩
        exact ⟨i, x, hx, by omega⟩

/-! ## Completeness and the main loop -/

theorem mem_wires (nl : Netlist) (mpg : MPG) (n : Net) :
    n ∈ wires nl mpg ↔ n ∈ nl.pins mpg ∧ (nl.is_gnd_net n || nl.is_vcc_net n) = false := by
  simp [wires, List.mem_dedup, List.mem_filter]

theorem complete_consens_spec (nl : Netlist) (c : Map Net Int) (pins : List Net)
    (acc cc : Map Net Int) (hacc : Map.WF acc) (h : complete_consens nl c pins acc = some cc) :
    Map.WF cc ∧
      (∀ n ∈ pins, (nl.is_gnd_net n || nl.is_vcc_net n) = false → ∃ x, Map.find? c n = some x) ∧
      (∀ n, Map.find? cc n =
        if n ∈ pins ∧ (nl.is_gnd_net n || nl.is_vcc_net n) = false then Map.find? c n
        else Map.find? acc n) := by
  induction pins generalizing acc with
  | nil =>
    simp only [complete_consens, Option.some.injEq] at h
    subst h
    simp [hacc]
  | cons p t ih =>
    unfold complete_consens at h
    by_cases hc : (nl.is_gnd_net p || nl.is_vcc_net p) = true
    · rw [if_pos hc] at h
      obtain ⟨h1, h2, h3⟩ := ih acc hacc h
      refine ⟨h1, ?_, ?_⟩
      · intro n hn hnc
        rcases List.mem_cons.1 hn with e | e
        · subst e
          rw [hc] at hnc
          exact Bool.noConfusion hnc
        · exact h2 n e hnc
      · intro n
        rw [h3 n]
        by_cases hn : n = p
        · subst hn
          simp [hc]
        · simp [hn]
    · rw [if_neg hc] at h
      have hc2 : (nl.is_gnd_net p || nl.is_vcc_net p) = false := by
        simpa using hc
      cases hf : Map.find? c p with
      | none =>
        rw [hf] at h
        exact Option.noConfusion h
      | some x =>
        rw [hf] at h
        obtain ⟨h1, h2, h3⟩ := ih (Map.insert acc p x) (Map.WF_insert acc p x hacc) h
        refine ⟨h1, ?_, ?_⟩
        · intro n hn hnc
          rcases List.mem_cons.1 hn with e | e
          · subst e
            exact ⟨x, hf⟩
          · exact h2 n e hnc
        · intro n
          rw [h3 n, Map.find?_insert]
          by_cases hn : n = p
          · subst hn
            by_cases ht : n ∈ t
            · simp [ht, hc2]
            · simp [ht, hc2, hf]
          · simp [hn]

theorem complete_consens_find? (nl : Netlist) (c : Map Net Int) (mpg : MPG) (cc : Map Net Int)
    (h : complete_consens nl c (nl.pins mpg) [] = some cc) (n : Net) (x : Int) :
    Map.find? cc n = some x ↔ n ∈ wires nl mpg ∧ Map.find? c n = some x := by
  obtain ⟨_, _, h3⟩ := complete_consens_spec nl c (nl.pins mpg) [] cc Map.WF_nil h
  rw [h3 n]
  by_cases hn : n ∈ nl.pins mpg ∧ (nl.is_gnd_net n || nl.is_vcc_net n) = false
  · rw [if_pos hn]
    constructor
    · intro hx
      exact ⟨(mem_wires nl mpg n).2 hn, hx⟩
    · intro hx
      exact hx.2
  · rw [if_neg hn]
    constructor
    · intro hx
      simp [Map.find?] at hx
    · intro hx
      exact absurd ((mem_wires nl mpg n).1 hx.1) hn

theorem complete_consens_total (nl : Netlist) (c : Map Net Int) (pins : List Net) (acc : Map Net Int)
    (h : ∀ n ∈ pins, (nl.is_gnd_net n || nl.is_vcc_net n) = false → ∃ x, Map.find? c n = some x) :
    ∃ cc, complete_consens nl c pins acc = some cc := by
  induction pins generalizing acc with
  | nil => exact ⟨acc, rfl⟩
  | cons p t ih =>
    unfold complete_consens
    by_cases hc : (nl.is_gnd_net p || nl.is_vcc_net p) = true
    · rw [if_pos hc]
      exact ih acc (fun n hn => h n (List.mem_cons_of_mem _ hn))
    · rw [if_neg hc]
      obtain ⟨x, hx⟩ := h p (List.mem_cons_self _ _) (by simpa using hc)
      rw [hx]
      exact ih _ (fun n hn => h n (List.mem_cons_of_mem _ hn))

theorem complete_consens_missing (nl : Netlist) (c : Map Net Int) (pins : List Net) (acc : Map Net Int)
    (n : Net) (hn : n ∈ pins) (hc : (nl.is_gnd_net n || nl.is_vcc_net n) = false)
    (hm : Map.find? c n = none) : complete_consens nl c pins acc = none := by
  induction pins generalizing acc with
  | nil => simp at hn
  | cons p t ih =>
    unfold complete_consens
    by_cases hp : (nl.is_gnd_net p || nl.is_vcc_net p) = true
    · rw [if_pos hp]
      rcases List.mem_cons.1 hn with e | e
      · subst e
        rw [hc] at hp
        exact Bool.noConfusion hp
      · exact ih acc e
    · rw [if_neg hp]
      rcases List.mem_cons.1 hn with e | e
      · subst e
        rw [hm]
      · cases hf : Map.find? c p with
        | none => rfl
        | some x => exact ih _ e

theorem length_complete_consens (nl : Netlist) (c : Map Net Int) (mpg : MPG) (cc : Map Net Int)
    (h : complete_consens nl c (nl.pins mpg) [] = some cc) :
    List.Perm (Map.keys cc) (wires nl mpg) := by
  obtain ⟨h1, h2, _⟩ := complete_consens_spec nl c (nl.pins mpg) [] cc Map.WF_nil h
  have hw : (wires nl mpg).Nodup := by
    unfold wires
    exact List.nodup_dedup _
  refine (List.perm_ext_iff_of_nodup (Map.nodup_keys_of_WF cc h1) hw).2 ?_
  intro n
  constructor
  · intro hn
    cases hf : Map.find? cc n with
    | none => exact absurd hn ((Map.find?_eq_none_iff cc n).1 hf)
    | some x => exact ((complete_consens_find? nl c mpg cc h n x).1 hf).1
  · intro hn
    obtain ⟨x, hx⟩ := h2 n ((mem_wires nl mpg n).1 hn).1 ((mem_wires nl mpg n).1 hn).2
    have := (complete_consens_find? nl c mpg cc h n x).2 ⟨hn, hx⟩
    by_contra hc
    rw [(Map.find?_eq_none_iff cc n).2 hc] at this
    exact Option.noConfusion this

/-- Every bit order in the output is the bit order the loop body finds for some
entry of the evidence with that origin. -/
theorem extract_sound (nl : Netlist) (ev : Map MPG (Map Net POSSIBLE_BITINDICES)) (strict : Bool)
    (g : MPG) (al : Map Net Nat)
    (h : Map.find? (extract_well_formed_bitorder nl ev strict) g = some al) :
    ∃ nets, (g, nets) ∈ ev ∧ wellformed_bitorder nl strict g nets = some al := by
  have key : ∀ (l : Map MPG (Map Net POSSIBLE_BITINDICES)) (acc : Map MPG (Map Net Nat)),
      Map.find? (l.foldl (fun wellformed p =>
        match wellformed_bitorder nl strict p.1 p.2 with
        | none => wellformed
        | some aligned => Map.insert wellformed p.1 aligned) acc) g = some al →
      Map.find? acc g = some al ∨ ∃ nets, (g, nets) ∈ l ∧ wellformed_bitorder nl strict g nets = some al := by
    intro l
    induction l with
    | nil => intro acc h; exact Or.inl h
    | cons p t ih =>
      intro acc h
      simp only [List.foldl_cons] at h
      rcases ih _ h with h1 | ⟨nets, h1, h2⟩
      · cases hw : wellformed_bitorder nl strict p.1 p.2 with
        | none =>
          rw [hw] at h1
          exact Or.inl h1
        | some a =>
          rw [hw] at h1
          simp only [Map.find?_insert] at h1
          by_cases hg : g = p.1
          · rw [if_pos hg] at h1
            right
            refine ⟨p.2, ?_, ?_⟩
            · rw [hg]
              exact List.mem_cons_self _ _
            · rw [hg, hw, h1]
          · rw [if_neg hg] at h1
            exact Or.inl h1
      · exact Or.inr ⟨nets, List.mem_cons_of_mem _ h1, h2⟩
  rcases key ev [] h with h1 | h1
  · simp [Map.find?] at h1
  · exact h1

theorem extract_foldl_not_mem (nl : Netlist) (strict : Bool) (g : MPG)
    (l : Map MPG (Map Net POSSIBLE_BITINDICES)) (acc : Map MPG (Map Net Nat)) (h : g ∉ Map.keys l) :
    Map.find? (l.foldl (fun wellformed p =>
      match wellformed_bitorder nl strict p.1 p.2 with
      | none => wellformed
      | some aligned => Map.insert wellformed p.1 aligned) acc) g = Map.find? acc g := by
  induction l generalizing acc with
  | nil => rfl
  | cons p t ih =>
    simp only [Map.keys, List.map_cons, List.mem_cons, not_or] at h
    simp only [List.foldl_cons]
    rw [ih _ h.2]
    cases wellformed_bitorder nl strict p.1 p.2 with
    | none => rfl
    | some a =>
      simp only [Map.find?_insert]
      rw [if_neg h.1]

/-- On evidence with distinct origins the output holds, for every origin, what
the loop body finds for its evidence. -/
theorem extract_find? (nl : Netlist) (ev : Map MPG (Map Net POSSIBLE_BITINDICES)) (strict : Bool)
    (hev : (Map.keys ev).Nodup) (g : MPG) (nets : Map Net POSSIBLE_BITINDICES)
    (hg : (g, nets) ∈ ev) :
    Map.find? (extract_well_formed_bitorder nl ev strict) g = wellformed_bitorder nl strict g nets := by
  have key : ∀ (l : Map MPG (Map Net POSSIBLE_BITINDICES)) (acc : Map MPG (Map Net Nat)),
      (Map.keys l).Nodup → (g, nets) ∈ l → Map.find? acc g = none →
      Map.find? (l.foldl (fun wellformed p =>
        match wellformed_bitorder nl strict p.1 p.2 with
        | none => wellformed
        | some aligned => Map.insert wellformed p.1 aligned) acc) g
        = wellformed_bitorder nl strict g nets := by
    intro l
    induction l with
    | nil => intro acc _ hm; simp at hm
    | cons p t ih =>
      intro acc hl hm hacc
      simp only [Map.keys, List.map_cons, List.nodup_cons] at hl
      simp only [List.foldl_cons]
      rcases List.mem_cons.1 hm with e | e
      · rw [← e]
        rw [extract_foldl_not_mem nl strict g t _ (by rw [← e] at hl; exact hl.1)]
        cases hw : wellformed_bitorder nl strict g nets with
        | none => exact hacc
        | some a => simp [Map.find?_insert]
      · have hk : g ∈ Map.keys t := List.mem_map.2 ⟨(g, nets), e, rfl⟩
        have hgp : ¬ g = p.1 := fun e2 => hl.1 (e2 ▸ hk)
        apply ih _ hl.2 e
        cases wellformed_bitorder nl strict p.1 p.2 with
        | none => exact hacc
        | some a =>
          simp only [Map.find?_insert]
          rw [if_neg hgp]
          exact hacc
  exact key ev [] hev hg rfl

theorem length_wires_le (nl : Netlist) (g : MPG) : (wires nl g).length ≤ (nl.pins g).length := by
  unfold wires
  exact ((List.dedup_sublist _).trans (List.filter_sublist _)).length_le

theorem sorted_lt_of_lt (l : List (Int × Net)) (hl : Map.WF l) (i j : Nat) (x y : Int) (n m : Net)
    (hi : l[i]? = some (x, n)) (hj : l[j]? = some (y, m)) (hij : i < j) : x < y := by
  unfold Map.WF Map.keys at hl
  rw [List.pairwise_map, List.pairwise_iff_getElem] at hl
  obtain ⟨h1, e1⟩ := List.getElem?_eq_some.1 hi
  obtain ⟨h2, e2⟩ := List.getElem?_eq_some.1 hj
  have := hl i j h1 h2 hij
  rw [e1, e2] at this
  exact this

/-- The alignment stage in terms of the complete consensus: a bit order it
returns maps a net to the number of nets with a smaller consensus index. -/
theorem aligned_consens_rank (strict : Bool) (cc : Map Net Int) (al : Map Net Nat)
    (hcc : Map.WF cc) (hlen : cc.length ≤ 4294967296) (h : aligned_consens strict cc = some al)
    (n : Net) (i : Nat) (hi : Map.find? al n = some i) :
    ∃ x, Map.find? cc n = some x ∧ i = cc.countP (fun p => decide (p.2 < x)) := by
  obtain ⟨hv, _, hpos⟩ := aligned_consens_position strict cc al hcc hlen h
  obtain ⟨x, hx⟩ := (hpos n i).1 hi
  have hp := index_to_net_perm cc hv
  have hmem : (x, n) ∈ cc.map (fun p => (p.2, p.1)) := hp.subset (List.getElem?_mem hx)
  obtain ⟨q, hq, hqe⟩ := List.mem_map.1 hmem
  simp only [Prod.mk.injEq] at hqe
  have hq2 : (n, x) ∈ cc := by
    have : q = (n, x) := by
      cases q
      simp only at hqe
      simp [hqe.1, hqe.2]
    rw [← this]
    exact hq
  refine ⟨x, (Map.find?_iff_mem cc hcc n x).2 hq2, ?_⟩
  have hc := countP_lt_of_sorted (index_to_net cc) (index_to_net_WF cc) i x n hx
  rw [hp.countP_eq, List.countP_map] at hc
  rw [← hc]
  rfl

theorem consens_loop_range (base_line : MPG) (l : List (Net × POSSIBLE_BITINDICES)) (m : OffsetMatrix)
    (acc : Map Net Int) (hacc : ∀ n x, Map.find? acc n = some x → i32 x = x) :
    ∀ n x, Map.find? (consens_loop base_line l m acc) n = some x → i32 x = x := by
  induction l generalizing m acc with
  | nil => simpa [consens_loop] using hacc
  | cons e t ih =>
    obtain ⟨net, pbi⟩ := e
    cases pbi with
    | nil =>
      simp only [consens_loop]
      exact ih m acc hacc
    | cons o others =>
      obtain ⟨org, indices⟩ := o
      simp only [consens_loop]
      have hins : ∀ (y : Int), ∀ n x, Map.find? (Map.insert acc net (i32 y)) n = some x → i32 x = x := by
        intro y n x hx
        rw [Map.find?_insert] at hx
        by_cases hn : n = net
        · rw [if_pos hn] at hx
          simp only [Option.some.injEq] at hx
          rw [← hx]
          exact i32_idem y
        · rw [if_neg hn] at hx
          exact hacc n x hx
      rcases hgo : get_offset (get_offset_fuel m) org base_line m [] with ⟨r, m1, v1⟩
      cases r with
      | none =>
        simp only
        split
        · exact ih m1 _ (hins _)
        · exact hacc
      | some offset =>
        simp only
        exact ih m1 _ (hins _)

theorem consens_bitindices_range (nets : Map Net POSSIBLE_BITINDICES) (consens : Map Net Int)
    (h : consens_bitindices nets = some consens) (n : Net) (x : Int)
    (hx : Map.find? consens n = some x) : -2147483648 ≤ x ∧ x < 2147483648 := by
  have hr : i32 x = x := by
    unfold consens_bitindices at h
    simp only at h
    split at h
    · exact Option.noConfusion h
    · split at h
      · exact Option.noConfusion h
      · split at h
        · exact Option.noConfusion h
        · exact Option.noConfusion h
        · simp only [Option.some.injEq] at h
          rw [← h] at hx
          exact consens_loop_range _ _ _ [] (by simp [Map.find?]) n x hx
  rw [← hr]
  exact i32_range x

theorem max_index_eq (cc : Map Net Int) (hi : Int) (h1 : hi ∈ Map.values cc)
    (h2 : ∀ x ∈ Map.values cc, x ≤ hi) (h3 : -2147483648 ≤ hi) : max_index cc = hi := by
  have key : ∀ (l : Map Net Int) (a : Int), a ≤ hi → (∀ x ∈ Map.values l, x ≤ hi) →
      (hi ∈ Map.values l ∨ a = hi) →
      l.foldl (fun acc p => if p.2 > acc then p.2 else acc) a = hi := by
    intro l
    induction l with
    | nil =>
      intro a _ _ h
      rcases h with h | h
      · simp [Map.values] at h
      · simpa using h
    | cons p t ih =>
      intro a ha hall hmem
      simp only [List.foldl_cons]
      have hp : p.2 ≤ hi := hall p.2 (by simp [Map.values])
      have ht : ∀ x ∈ Map.values t, x ≤ hi := fun x hx =>
        hall x (by simp only [Map.values, List.map_cons, List.mem_cons]; exact Or.inr hx)
      apply ih _ _ ht
      · by_cases hc : p.2 > a
        · rw [if_pos hc]
          rcases hmem with h | h
          · simp only [Map.values, List.map_cons, List.mem_cons] at h
            rcases h with h | h
            · exact Or.inr h.symm
            · exact Or.inl h
          · omega
        · rw [if_neg hc]
          rcases hmem with h | h
          · simp only [Map.values, List.map_cons, List.mem_cons] at h
            rcases h with h | h
            · right
              omega
            · exact Or.inl h
          · exact Or.inr h
      · split <;> omega
  unfold max_index
  exact key cc _ (by unfold i32; omega) h2 (Or.inl h1)

theorem min_index_eq (cc : Map Net Int) (lo : Int) (h1 : lo ∈ Map.values cc)
    (h2 : ∀ x ∈ Map.values cc, lo ≤ x) (h3 : lo < 2147483648) : min_index cc = lo := by
  have key : ∀ (l : Map Net Int) (a : Int), lo ≤ a → (∀ x ∈ Map.values l, lo ≤ x) →
      (lo ∈ Map.values l ∨ a = lo) →
      l.foldl (fun acc p => if p.2 < acc then p.2 else acc) a = lo := by
    intro l
    induction l with
    | nil =>
      intro a _ _ h
      rcases h with h | h
      · simp [Map.values] at h
      · simpa using h
    | cons p t ih =>
      intro a ha hall hmem
      simp only [List.foldl_cons]
      have hp : lo ≤ p.2 := hall p.2 (by simp [Map.values])
      have ht : ∀ x ∈ Map.values t, lo ≤ x := fun x hx =>
        hall x (by simp only [Map.values, List.map_cons, List.mem_cons]; exact Or.inr hx)
      apply ih _ _ ht
      · by_cases hc : p.2 < a
        · rw [if_pos hc]
          rcases hmem with h | h
          · simp only [Map.values, List.map_cons, List.mem_cons] at h
            rcases h with h | h
            · exact Or.inr h.symm
            · exact Or.inl h
          · omega
        · rw [if_neg hc]
          rcases hmem with h | h
          · simp only [Map.values, List.map_cons, List.mem_cons] at h
            rcases h with h | h
            · right
              omega
            · exact Or.inl h
          · exact Or.inr h
      · split <;> omega
  unfold min_index
  exact key cc _ (by omega) h2 (Or.inl h1)

/-! ## Claims on the output of `extract_well_formed_bitorder` -/

theorem wellformed_bitorder_cases (nl : Netlist) (strict : Bool) (g : MPG)
    (nets : Map Net POSSIBLE_BITINDICES) (al : Map Net Nat)
    (h : wellformed_bitorder nl strict g nets = some al) :
    ∃ consens cc, consens_bitindices nets = some consens ∧
      complete_consens nl consens (nl.pins g) [] = some cc ∧ aligned_consens strict cc = some al := by
  unfold wellformed_bitorder at h
  cases hc : consens_bitindices nets with
  | none =>
    rw [hc] at h
    exact Option.noConfusion h
  | some consens =>
    rw [hc] at h
    simp only at h
    cases hcc : complete_consens nl consens (nl.pins g) [] with
    | none =>
      rw [hcc] at h
      exact Option.noConfusion h
    | some cc =>
      rw [hcc] at h
      exact ⟨consens, cc, rfl, hcc, h⟩

theorem length_complete_eq (nl : Netlist) (c : Map Net Int) (g : MPG) (cc : Map Net Int)
    (h : complete_consens nl c (nl.pins g) [] = some cc) : cc.length = (wires nl g).length := by
  have := (length_complete_consens nl c g cc h).length_eq
  simpa [Map.keys] using this

theorem complete_consens_WF (nl : Netlist) (c : Map Net Int) (g : MPG) (cc : Map Net Int)
    (h : complete_consens nl c (nl.pins g) [] = some cc) : Map.WF cc :=
  (complete_consens_spec nl c (nl.pins g) [] cc Map.WF_nil h).1

theorem mem_keys_iff_find? {K V : Type} [DecidableEq K] (m : Map K V) (k : K) :
    k ∈ Map.keys m ↔ ∃ v, Map.find? m k = some v := by
  constructor
  · intro h
    cases hf : Map.find? m k with
    | none => exact absurd h ((Map.find?_eq_none_iff m k).1 hf)
    | some v => exact ⟨v, rfl⟩
  · rintro ⟨v, hv⟩
    by_contra hc
    rw [(Map.find?_eq_none_iff m k).2 hc] at hv
    exact Option.noConfusion hv

/-- C1: for every evidence and either strict setting, a bit order that
`extract_well_formed_bitorder` outputs for a group is a bijection between the
nets of the pins of the group that are neither ground nor power nets and
`{0, ..., n-1}`, `n` the number of these nets: its domain is exactly these nets,
every index is below `n`, and every index below `n` belongs to exactly one net.
(A pin group has fewer than `2 ^ 32` pins, the range of the `u32` counter.) -/
theorem extract_bitorder_bijection (nl : Netlist) (ev : Map MPG (Map Net POSSIBLE_BITINDICES))
    (strict : Bool) (g : MPG) (al : Map Net Nat)
    (hpins : (nl.pins g).length < 4294967296)
    (hout : Map.find? (extract_well_formed_bitorder nl ev strict) g = some al) :
    Map.WF al ∧ (∀ n, n ∈ Map.keys al ↔ n ∈ wires nl g) ∧
      (∀ n i, Map.find? al n = some i → i < (wires nl g).length) ∧
      (∀ i, i < (wires nl g).length → ∃! n, Map.find? al n = some i) := by
  obtain ⟨nets, _, hw⟩ := extract_sound nl ev strict g al hout
  obtain ⟨consens, cc, hc, hcc, hal⟩ := wellformed_bitorder_cases nl strict g nets al hw
  have hccwf := complete_consens_WF nl consens g cc hcc
  have hlen := length_complete_eq nl consens g cc hcc
  have hle := length_wires_le nl g
  obtain ⟨hv, hwf, hpos⟩ := aligned_consens_position strict cc al hccwf (by omega) hal
  have hp := index_to_net_perm cc hv
  have hilen : (index_to_net cc).length = (wires nl g).length := by
    rw [hp.length_eq, List.length_map, hlen]
  refine ⟨hwf, ?_, ?_, ?_⟩
  · intro n
    rw [mem_keys_iff_find?]
    constructor
    · rintro ⟨i, hi⟩
      obtain ⟨x, hx, _⟩ := aligned_consens_rank strict cc al hccwf (by omega) hal n i hi
      exact ((complete_consens_find? nl consens g cc hcc n x).1 hx).1
    · intro hn
      have hk : n ∈ Map.keys cc := (length_complete_consens nl consens g cc hcc).symm.subset hn
      obtain ⟨x, hx⟩ := (mem_keys_iff_find? cc n).1 hk
      have hm : (x, n) ∈ index_to_net cc :=
        hp.symm.subset (List.mem_map.2 ⟨(n, x), Map.mem_of_find? cc n x hx, rfl⟩)
      obtain ⟨i, hi⟩ := List.mem_iff_getElem?.1 hm
      exact ⟨i, (hpos n i).2 ⟨x, hi⟩⟩
  · intro n i hi
    obtain ⟨x, hx⟩ := (hpos n i).1 hi
    obtain ⟨h1, _⟩ := List.getElem?_eq_some.1 hx
    omega
  · intro i hi
    have h1 : i < (index_to_net cc).length := by omega
    refine ⟨((index_to_net cc)[i]).2, ?_, ?_⟩
    · exact (hpos _ i).2 ⟨((index_to_net cc)[i]).1, by rw [List.getElem?_eq_getElem h1]⟩
    · intro n hn
      obtain ⟨x, hx⟩ := (hpos n i).1 hn
      rw [List.getElem?_eq_getElem h1] at hx
      simp only [Option.some.injEq] at hx
      rw [hx]

/-- An instance of C1 on concrete evidence. -/
theorem extract_bitorder_bijection_witness :
    (exNetlist.pins exG).length < 4294967296 ∧
    Map.find? (extract_well_formed_bitorder exNetlist exGap false) exG = some [(10, 0), (11, 1), (12, 2)] ∧
    (Map.WF [(10, 0), (11, 1), (12, 2)] ∧
      (∀ n, n ∈ Map.keys ([(10, 0), (11, 1), (12, 2)] : Map Net Nat) ↔ n ∈ wires exNetlist exG) ∧
      (∀ n i, Map.find? ([(10, 0), (11, 1), (12, 2)] : Map Net Nat) n = some i →
        i < (wires exNetlist exG).length) ∧
      (∀ i, i < (wires exNetlist exG).length →
        ∃! n, Map.find? ([(10, 0), (11, 1), (12, 2)] : Map Net Nat) n = some i)) :=
  ⟨by decide, by decide,
    extract_bitorder_bijection exNetlist exGap false exG [(10, 0), (11, 1), (12, 2)] (by decide) (by decide)⟩

theorem find?_of_WF_mem (ev : Map MPG (Map Net POSSIBLE_BITINDICES)) (g : MPG)
    (nets : Map Net POSSIBLE_BITINDICES) (hg : Map.find? ev g = some nets) : (g, nets) ∈ ev :=
  Map.mem_of_find? ev g nets hg

theorem not_mem_keys_of_find? {K V : Type} [DecidableEq K] (m : Map K V) (k : K)
    (h : Map.find? m k = none) : k ∉ Map.keys m :=
  (Map.find?_eq_none_iff m k).1 h

/-- C2: completeness gate.  For every evidence and either strict setting, if a
pin of the group carries a net that is neither ground nor power and that net
has no consensus index, the group is not in the output of
`extract_well_formed_bitorder`. -/
theorem extract_completeness_gate (nl : Netlist) (ev : Map MPG (Map Net POSSIBLE_BITINDICES))
    (strict : Bool) (g : MPG) (nets : Map Net POSSIBLE_BITINDICES) (n : Net)
    (hev : Map.WF ev) (hg : Map.find? ev g = some nets)
    (hn : n ∈ nl.pins g) (hconst : (nl.is_gnd_net n || nl.is_vcc_net n) = false)
    (hmiss : ∀ consens, consens_bitindices nets = some consens → Map.find? consens n = none) :
    g ∉ Map.keys (extract_well_formed_bitorder nl ev strict) := by
  apply not_mem_keys_of_find?
  rw [extract_find? nl ev strict (Map.nodup_keys_of_WF ev hev) g nets (find?_of_WF_mem ev g nets hg)]
  unfold wellformed_bitorder
  cases hc : consens_bitindices nets with
  | none => rfl
  | some consens =>
    simp only
    rw [complete_consens_missing nl consens (nl.pins g) [] n hn hconst (hmiss consens hc)]

/-- An instance of C2 on concrete evidence. -/
theorem extract_completeness_gate_witness :
    Map.WF exIncomplete ∧
    Map.find? exIncomplete exG
      = some [(10, [(exA, [0])]), (11, [(exA, [1])]), (12, [(exA, [2])]), (13, [])] ∧
    13 ∈ exNetlist4.pins exG ∧ (exNetlist4.is_gnd_net 13 || exNetlist4.is_vcc_net 13) = false ∧
    consens_bitindices [(10, [(exA, [0])]), (11, [(exA, [1])]), (12, [(exA, [2])]), (13, [])]
      = some [(10, 0), (11, 1), (12, 2)] ∧
    exG ∉ Map.keys (extract_well_formed_bitorder exNetlist4 exIncomplete true) :=
  ⟨by decide, by decide, by decide, by decide, by decide,
    extract_completeness_gate exNetlist4 exIncomplete true exG
      [(10, [(exA, [0])]), (11, [(exA, [1])]), (12, [(exA, [2])]), (13, [])] 13
      (by decide) (by decide) (by decide) (by decide)
      (by
        intro consens hc
        have h0 : consens_bitindices [(10, [(exA, [0])]), (11, [(exA, [1])]), (12, [(exA, [2])]), (13, [])]
            = some [(10, 0), (11, 1), (12, 2)] := by decide
        rw [h0] at hc
        cases hc
        decide)⟩

theorem mem_values_complete (nl : Netlist) (c : Map Net Int) (g : MPG) (cc : Map Net Int)
    (h : complete_consens nl c (nl.pins g) [] = some cc) (x : Int) :
    x ∈ Map.values cc ↔ ∃ n, n ∈ wires nl g ∧ Map.find? c n = some x := by
  have hwf := complete_consens_WF nl c g cc h
  constructor
  · intro hx
    obtain ⟨p, hp, hpe⟩ := List.mem_map.1 hx
    have h1 : Map.find? cc p.1 = some x := by
      rw [Map.find?_iff_mem cc hwf, ← hpe]
      exact hp
    exact ⟨p.1, (complete_consens_find? nl c g cc h p.1 x).1 h1⟩
  · rintro ⟨n, hn, hx⟩
    have h1 := (complete_consens_find? nl c g cc h n x).2 ⟨hn, hx⟩
    exact List.mem_map.2 ⟨(n, x), Map.mem_of_find? cc n x h1, rfl⟩

/-- The strict mode rejects the gaps that the 32-bit check sees.  With
`only_allow_consecutive_bitorders = true`, a group whose consensus indices have
minimum `lo` and maximum `hi` over its nets that are neither ground nor power,
with `(hi - lo) > (count - 1)` in the 32-bit arithmetic of the code, is not in
the output. -/
theorem extract_strict_rejects_gaps (nl : Netlist) (ev : Map MPG (Map Net POSSIBLE_BITINDICES))
    (g : MPG) (nets : Map Net POSSIBLE_BITINDICES) (consens : Map Net Int)
    (a b : Net) (lo hi : Int)
    (hev : Map.WF ev) (hg : Map.find? ev g = some nets)
    (hc : consens_bitindices nets = some consens)
    (ha : a ∈ wires nl g) (hb : b ∈ wires nl g)
    (hlo : Map.find? consens a = some lo) (hhi : Map.find? consens b = some hi)
    (hmin : ∀ w ∈ wires nl g, ∀ x, Map.find? consens w = some x → lo ≤ x)
    (hmax : ∀ w ∈ wires nl g, ∀ x, Map.find? consens w = some x → x ≤ hi)
    (hgap : i32 (hi - lo) > i32 (i32 (wires nl g).length - 1)) :
    g ∉ Map.keys (extract_well_formed_bitorder nl ev true) := by
  apply not_mem_keys_of_find?
  rw [extract_find? nl ev true (Map.nodup_keys_of_WF ev hev) g nets (find?_of_WF_mem ev g nets hg)]
  unfold wellformed_bitorder
  rw [hc]
  simp only
  cases hcc : complete_consens nl consens (nl.pins g) [] with
  | none => rfl
  | some cc =>
    simp only
    have hmx : max_index cc = hi := by
      apply max_index_eq cc hi
      · exact (mem_values_complete nl consens g cc hcc hi).2 ⟨b, hb, hhi⟩
      · intro x hx
        obtain ⟨n, hn, hnx⟩ := (mem_values_complete nl consens g cc hcc x).1 hx
        exact hmax n hn x hnx
      · exact (consens_bitindices_range nets consens hc b hi hhi).1
    have hmn : min_index cc = lo := by
      apply min_index_eq cc lo
      · exact (mem_values_complete nl consens g cc hcc lo).2 ⟨a, ha, hlo⟩
      · intro x hx
        obtain ⟨n, hn, hnx⟩ := (mem_values_complete nl consens g cc hcc x).1 hx
        exact hmin n hn x hnx
      · exact (consens_bitindices_range nets consens hc a lo hlo).2
    unfold aligned_consens
    rw [hmx, hmn, length_complete_eq nl consens g cc hcc]
    simp [hgap]

/-- The strict mode on concrete evidence: the group with the consensus indices
0, 1 and 3 is not in the output. -/
theorem extract_strict_rejects_gaps_witness :
    Map.WF exGap ∧
    Map.find? exGap exG = some [(10, [(exA, [0])]), (11, [(exA, [1])]), (12, [(exA, [3])])] ∧
    consens_bitindices [(10, [(exA, [0])]), (11, [(exA, [1])]), (12, [(exA, [3])])]
      = some [(10, 0), (11, 1), (12, 3)] ∧
    wires exNetlist exG = [10, 11, 12] ∧
    i32 (3 - 0) > i32 (i32 (wires exNetlist exG).length - 1) ∧
    exG ∉ Map.keys (extract_well_formed_bitorder exNetlist exGap true) :=
  ⟨by decide, by decide, by decide, by decide, by decide,
    extract_strict_rejects_gaps exNetlist exGap exG
      [(10, [(exA, [0])]), (11, [(exA, [1])]), (12, [(exA, [3])])] [(10, 0), (11, 1), (12, 3)]
      10 12 0 3 (by decide) (by decide) (by decide) (by decide) (by decide) (by decide) (by decide)
      (by
        have hw : wires exNetlist exG = [10, 11, 12] := by decide
        rw [hw]
        decide)
      (by
        have hw : wires exNetlist exG = [10, 11, 12] := by decide
        rw [hw]
        decide)
      (by decide)⟩

/-- The strict mode rejects gaps when the difference of the largest and the
smallest consensus index does not overflow.  With
`only_allow_consecutive_bitorders = true`, a group with fewer than `2 ^ 31`
nets that are neither ground nor power, whose consensus indices have minimum
`lo` and maximum `hi` with `hi - lo < 2 ^ 31` and `hi - lo > count - 1`, is not
in the output. -/
theorem extract_strict_rejects_gaps_in_range (nl : Netlist)
    (ev : Map MPG (Map Net POSSIBLE_BITINDICES)) (g : MPG) (nets : Map Net POSSIBLE_BITINDICES)
    (consens : Map Net Int) (a b : Net) (lo hi : Int)
    (hev : Map.WF ev) (hg : Map.find? ev g = some nets)
    (hc : consens_bitindices nets = some consens)
    (ha : a ∈ wires nl g) (hb : b ∈ wires nl g)
    (hlo : Map.find? consens a = some lo) (hhi : Map.find? consens b = some hi)
    (hmin : ∀ w ∈ wires nl g, ∀ x, Map.find? consens w = some x → lo ≤ x)
    (hmax : ∀ w ∈ wires nl g, ∀ x, Map.find? consens w = some x → x ≤ hi)
    (hcount : (wires nl g).length < 2147483648) (hspan : hi - lo < 2147483648)
    (hgap : hi - lo > ((wires nl g).length : Int) - 1) :
    g ∉ Map.keys (extract_well_formed_bitorder nl ev true) := by
  have hle : lo ≤ hi := hmin b hb hi hhi
  have h1 : i32 (hi - lo) = hi - lo := i32_of_range _ (by omega) hspan
  have h2 : i32 ((wires nl g).length : Int) = (wires nl g).length :=
    i32_of_range _ (by omega) (by omega)
  have h3 : i32 (((wires nl g).length : Int) - 1) = (wires nl g).length - 1 :=
    i32_of_range _ (by omega) (by omega)
  apply extract_strict_rejects_gaps nl ev g nets consens a b lo hi hev hg hc ha hb hlo hhi hmin hmax
  rw [h1, h2, h3]
  exact hgap

/-- C3 on the evidence `exHalf`, in strict mode: the consensus indices of the
nets 10 and 11 are 0 and -2147483648, so that the difference of the largest and
the smallest is 2147483648, which is larger than the number of nets minus one;
in the 32-bit arithmetic of the check the difference wraps to -2147483648, and
the group is in the output, with the final indices 1 and 0. -/
theorem extract_strict_wide_gap :
    consens_bitindices [(10, [(exA, [0])]), (11, [(exA, [2147483648])])]
        = some [(10, 0), (11, -2147483648)] ∧
      complete_consens exNetlist2 [(10, 0), (11, -2147483648)] (exNetlist2.pins exG) []
        = some [(10, 0), (11, -2147483648)] ∧
      max_index [(10, 0), (11, -2147483648)] - min_index [(10, 0), (11, -2147483648)]
        = 2147483648 ∧
      (2147483648 : Int) > (([(10, 0), (11, -2147483648)] : Map Net Int).length : Int) - 1 ∧
      i32 (max_index [(10, 0), (11, -2147483648)] - min_index [(10, 0), (11, -2147483648)])
        = -2147483648 ∧
      extract_well_formed_bitorder exNetlist2 exHalf true = [(exG, [(10, 1), (11, 0)])] ∧
      exG ∈ Map.keys (extract_well_formed_bitorder exNetlist2 exHalf true) :=
  ⟨by decide, by decide, by decide, by decide, by decide, by decide, by decide⟩

/-- C4: lenient mode accepts gaps.  With `only_allow_consecutive_bitorders =
false`, a group whose nets that are neither ground nor power all have a
consensus index, pairwise distinct, is in the output, whatever the gaps between
the indices. -/
theorem extract_lenient_accepts (nl : Netlist) (ev : Map MPG (Map Net POSSIBLE_BITINDICES))
    (g : MPG) (nets : Map Net POSSIBLE_BITINDICES) (consens : Map Net Int)
    (hev : Map.WF ev) (hg : Map.find? ev g = some nets)
    (hc : consens_bitindices nets = some consens)
    (hall : ∀ w ∈ wires nl g, w ∈ Map.keys consens)
    (hdist : ∀ w1 ∈ wires nl g, ∀ w2 ∈ wires nl g, w1 ≠ w2 →
      Map.find? consens w1 ≠ Map.find? consens w2) :
    g ∈ Map.keys (extract_well_formed_bitorder nl ev false) := by
  rw [mem_keys_iff_find?]
  rw [extract_find? nl ev false (Map.nodup_keys_of_WF ev hev) g nets (find?_of_WF_mem ev g nets hg)]
  unfold wellformed_bitorder
  rw [hc]
  simp only
  obtain ⟨cc, hcc⟩ := complete_consens_total nl consens (nl.pins g) []
    (fun n hn hcn => (mem_keys_iff_find? consens n).1 (hall n ((mem_wires nl g n).2 ⟨hn, hcn⟩)))
  rw [hcc]
  simp only
  have hwf := complete_consens_WF nl consens g cc hcc
  have hnd : cc.Nodup := List.Nodup.of_map Prod.fst (Map.nodup_keys_of_WF cc hwf)
  have hv : (Map.values cc).Nodup := by
    unfold Map.values
    apply List.Nodup.map_on _ hnd
    intro p hp q hq hpq
    have h1 := (complete_consens_find? nl consens g cc hcc p.1 p.2).1
      ((Map.find?_iff_mem cc hwf p.1 p.2).2 hp)
    have h2 := (complete_consens_find? nl consens g cc hcc q.1 q.2).1
      ((Map.find?_iff_mem cc hwf q.1 q.2).2 hq)
    have h3 : p.1 = q.1 := by
      by_contra hne
      apply hdist p.1 h1.1 q.1 h2.1 hne
      rw [h1.2, h2.2, hpq]
    exact Prod.ext h3 hpq
  have hu := unique_of_values_nodup cc hv
  unfold aligned_consens
  simp [hu]

/-- An instance of C4 on concrete evidence. -/
theorem extract_lenient_accepts_witness :
    Map.WF exGap ∧
    Map.find? exGap exG = some [(10, [(exA, [0])]), (11, [(exA, [1])]), (12, [(exA, [3])])] ∧
    consens_bitindices [(10, [(exA, [0])]), (11, [(exA, [1])]), (12, [(exA, [3])])]
      = some [(10, 0), (11, 1), (12, 3)] ∧
    wires exNetlist exG = [10, 11, 12] ∧
    exG ∈ Map.keys (extract_well_formed_bitorder exNetlist exGap false) :=
  ⟨by decide, by decide, by decide, by decide,
    extract_lenient_accepts exNetlist exGap exG
      [(10, [(exA, [0])]), (11, [(exA, [1])]), (12, [(exA, [3])])] [(10, 0), (11, 1), (12, 3)]
      (by decide) (by decide) (by decide)
      (by
        have hw : wires exNetlist exG = [10, 11, 12] := by decide
        rw [hw]
        decide)
      (by
        have hw : wires exNetlist exG = [10, 11, 12] := by decide
        rw [hw]
        decide)⟩

theorem countP_complete_eq (nl : Netlist) (c : Map Net Int) (g : MPG) (cc : Map Net Int)
    (h : complete_consens nl c (nl.pins g) [] = some cc) (x : Int) :
    cc.countP (fun p => decide (p.2 < x)) = ((wires nl g).filter (consens_lt c x)).length := by
  have hwf := complete_consens_WF nl c g cc h
  have h1 : cc.countP (fun p => decide (p.2 < x)) = (Map.keys cc).countP (consens_lt c x) := by
    unfold Map.keys
    rw [List.countP_map]
    apply List.countP_congr
    intro p hp
    have h2 := (complete_consens_find? nl c g cc h p.1 p.2).1
      ((Map.find?_iff_mem cc hwf p.1 p.2).2 hp)
    simp [consens_lt, h2.2]
  rw [h1, (length_complete_consens nl c g cc h).countP_eq, List.countP_eq_length_filter]

/-- C5: dense re-normalisation preserves order.  For every group in the output
of `extract_well_formed_bitorder` and every net `w` of its bit order, the final
index of `w` is the number of nets of the group (neither ground nor power)
whose consensus index, a signed 32-bit integer, is strictly smaller than that
of `w`; and the final index of `a` is smaller than that of `b` exactly when the
consensus index of `a` is smaller than that of `b`. -/
theorem extract_index_is_rank (nl : Netlist) (ev : Map MPG (Map Net POSSIBLE_BITINDICES))
    (strict : Bool) (g : MPG) (al : Map Net Nat)
    (hpins : (nl.pins g).length < 4294967296)
    (hout : Map.find? (extract_well_formed_bitorder nl ev strict) g = some al) :
    ∃ nets consens, (g, nets) ∈ ev ∧ consens_bitindices nets = some consens ∧
      (∀ w i, Map.find? al w = some i →
        ∃ x, Map.find? consens w = some x ∧ -2147483648 ≤ x ∧ x < 2147483648 ∧
          i = ((wires nl g).filter (consens_lt consens x)).length) ∧
      (∀ a b ia ib xa xb, Map.find? al a = some ia → Map.find? al b = some ib →
        Map.find? consens a = some xa → Map.find? consens b = some xb →
        (ia < ib ↔ xa < xb)) := by
  obtain ⟨nets, hmem, hw⟩ := extract_sound nl ev strict g al hout
  obtain ⟨consens, cc, hc, hcc, hal⟩ := wellformed_bitorder_cases nl strict g nets al hw
  have hccwf := complete_consens_WF nl consens g cc hcc
  have hlen := length_complete_eq nl consens g cc hcc
  have hle := length_wires_le nl g
  have hlen2 : cc.length ≤ 4294967296 := by omega
  refine ⟨nets, consens, hmem, hc, ?_, ?_⟩
  · intro w i hi
    obtain ⟨x, hx, hcount⟩ := aligned_consens_rank strict cc al hccwf hlen2 hal w i hi
    have hx2 := ((complete_consens_find? nl consens g cc hcc w x).1 hx).2
    have hr := consens_bitindices_range nets consens hc w x hx2
    refine ⟨x, hx2, hr.1, hr.2, ?_⟩
    rw [hcount, countP_complete_eq nl consens g cc hcc x]
  · intro a b ia ib xa xb ha hb hxa hxb
    obtain ⟨hv, _, hpos⟩ := aligned_consens_position strict cc al hccwf hlen2 hal
    have hp := index_to_net_perm cc hv
    obtain ⟨ya, hya⟩ := (hpos a ia).1 ha
    obtain ⟨yb, hyb⟩ := (hpos b ib).1 hb
    have hval : ∀ (n : Net) (j : Nat) (y z : Int), (index_to_net cc)[j]? = some (y, n) →
        Map.find? consens n = some z → y = z := by
      intro n j y z hj hz
      have hm : (y, n) ∈ cc.map (fun p => (p.2, p.1)) := hp.subset (List.getElem?_mem hj)
      obtain ⟨q, hq, hqe⟩ := List.mem_map.1 hm
      simp only [Prod.mk.injEq] at hqe
      have h1 := (complete_consens_find? nl consens g cc hcc q.1 q.2).1
        ((Map.find?_iff_mem cc hccwf q.1 q.2).2 hq)
      rw [hqe.2] at h1
      rw [h1.2] at hz
      simp only [Option.some.injEq] at hz
      rw [← hqe.1, hz]
    have ea : ya = xa := hval a ia ya xa hya hxa
    have eb : yb = xb := hval b ib yb xb hyb hxb
    rw [ea] at hya
    rw [eb] at hyb
    have hs := index_to_net_WF cc
    constructor
    · intro hlt
      exact sorted_lt_of_lt _ hs ia ib xa xb a b hya hyb hlt
    · intro hlt
      by_contra hn
      rcases Nat.lt_or_ge ib ia with h1 | h1
      · have := sorted_lt_of_lt _ hs ib ia xb xa b a hyb hya h1
        omega
      · have he : ia = ib := by omega
        rw [he, hyb] at hya
        simp only [Option.some.injEq, Prod.mk.injEq] at hya
        omega

/-- An instance of C5 on concrete evidence. -/
theorem extract_index_is_rank_witness :
    (exNetlist.pins exG).length < 4294967296 ∧
    Map.find? (extract_well_formed_bitorder exNetlist exGap false) exG = some [(10, 0), (11, 1), (12, 2)] ∧
    ∃ nets consens, (exG, nets) ∈ exGap ∧ consens_bitindices nets = some consens ∧
      (∀ w i, Map.find? ([(10, 0), (11, 1), (12, 2)] : Map Net Nat) w = some i →
        ∃ x, Map.find? consens w = some x ∧ -2147483648 ≤ x ∧ x < 2147483648 ∧
          i = ((wires exNetlist exG).filter (consens_lt consens x)).length) ∧
      (∀ a b ia ib xa xb, Map.find? ([(10, 0), (11, 1), (12, 2)] : Map Net Nat) a = some ia →
        Map.find? ([(10, 0), (11, 1), (12, 2)] : Map Net Nat) b = some ib →
        Map.find? consens a = some xa → Map.find? consens b = some xb →
        (ia < ib ↔ xa < xb)) :=
  ⟨by decide, by decide,
    extract_index_is_rank exNetlist exGap false exG [(10, 0), (11, 1), (12, 2)] (by decide) (by decide)⟩

/-! ## The conflict removals -/

theorem modify_middle {K V : Type} [DecidableEq K] (pre post : Map K V) (k : K) (v : V) (f : V → V)
    (h1 : k ∉ Map.keys pre) (h2 : k ∉ Map.keys post) :
    Map.modify (pre ++ (k, v) :: post) k f = pre ++ (k, f v) :: post := by
  have hn : ∀ (l : Map K V), k ∉ Map.keys l → l.map (fun p => if p.1 = k then (p.1, f p.2) else p) = l := by
    intro l hl
    induction l with
    | nil => rfl
    | cons q t ih =>
      simp only [Map.keys, List.map_cons, List.mem_cons, not_or] at hl
      have hq : ¬ q.1 = k := fun e => hl.1 e.symm
      simp only [List.map_cons, hq, if_false]
      rw [ih hl.2]
  unfold Map.modify
  rw [List.map_append, List.map_cons, hn pre h1, hn post h2]
  simp

theorem erase_middle {K V : Type} [DecidableEq K] (pre post : Map K V) (k : K) (v : V)
    (h1 : k ∉ Map.keys pre) (h2 : k ∉ Map.keys post) :
    Map.erase (pre ++ (k, v) :: post) k = pre ++ post := by
  have hn : ∀ (l : Map K V), k ∉ Map.keys l → l.filter (fun p => decide (p.1 ≠ k)) = l := by
    intro l hl
    rw [List.filter_eq_self]
    intro q hq
    have : q.1 ≠ k := fun e => hl (e ▸ List.mem_map.2 ⟨q, hq, rfl⟩)
    simpa using this
  unfold Map.erase
  rw [List.filter_append, List.filter_cons, hn pre h1, hn post h2]
  simp

theorem getD_middle {K V : Type} [DecidableEq K] (pre post : Map K V) (k : K) (v d : V)
    (h1 : k ∉ Map.keys pre) : Map.getD (pre ++ (k, v) :: post) k d = v := by
  have hf : Map.find? (pre ++ (k, v) :: post) k = some v := by
    induction pre with
    | nil => simp [Map.find?]
    | cons q t ih =>
      simp only [Map.keys, List.map_cons, List.mem_cons, not_or] at h1
      have hq : ¬ q.1 = k := fun e => h1.1 e.symm
      simp only [List.cons_append, Map.find?, hq, if_false]
      exact ih h1.2
  unfold Map.getD
  rw [hf]
  rfl

theorem erase_foldl (P : MPG × List Nat → Prop) [DecidablePred P] (lst cur : POSSIBLE_BITINDICES) :
    lst.foldl (fun c p => if P p then Map.erase c p.1 else c) cur
      = cur.filter (fun q => lst.all (fun p => decide (P p → q.1 ≠ p.1))) := by
  induction lst generalizing cur with
  | nil => simp
  | cons p t ih =>
    simp only [List.foldl_cons, List.all_cons]
    rw [ih]
    by_cases hp : P p
    · rw [if_pos hp]
      unfold Map.erase
      rw [List.filter_filter]
      apply List.filter_congr
      intro q _
      simp [hp, Bool.and_comm]
    · rw [if_neg hp]
      apply List.filter_congr
      intro q _
      simp [hp]

theorem erase_foldl_self (P : MPG × List Nat → Prop) [DecidablePred P] (pbi : POSSIBLE_BITINDICES)
    (hnd : (Map.keys pbi).Nodup) :
    pbi.foldl (fun c p => if P p then Map.erase c p.1 else c) pbi
      = pbi.filter (fun q => !decide (P q)) := by
  rw [erase_foldl]
  apply List.filter_congr
  intro q hq
  by_cases hP : P q
  · have : (pbi.all fun p => decide (P p → q.1 ≠ p.1)) = false := by
      rw [List.all_eq_false]
      exact ⟨q, hq, by simp [hP]⟩
    rw [this]
    simp [hP]
  · have : (pbi.all fun p => decide (P p → q.1 ≠ p.1)) = true := by
      rw [List.all_eq_true]
      intro p hp
      simp only [decide_eq_true_eq]
      intro hPp he
      have hfind1 := Map.find?_of_mem pbi hnd q.1 q.2 hq
      have hfind2 := Map.find?_of_mem pbi hnd p.1 p.2 hp
      rw [he, hfind2] at hfind1
      simp only [Option.some.injEq] at hfind1
      have : p = q := Prod.ext he.symm hfind1
      rw [this] at hPp
      exact hP hPp
    rw [this]
    simp [hP]

theorem prune_net_middle (P : MPG × List Nat → Prop) [DecidablePred P]
    (pre post : Map Net POSSIBLE_BITINDICES) (net : Net) (pbi : POSSIBLE_BITINDICES)
    (h1 : net ∉ Map.keys pre) (h2 : net ∉ Map.keys post) (hnd : (Map.keys pbi).Nodup) :
    prune_net P (pre ++ (net, pbi) :: post) (net, pbi)
      = pre ++ prune (fun _ o => decide (P o)) [(net, pbi)] ++ post := by
  have hin : ∀ (lst cur : POSSIBLE_BITINDICES),
      lst.foldl (fun r p => if P p then Map.modify r net (fun x => Map.erase x p.1) else r)
          (pre ++ (net, cur) :: post)
        = pre ++ (net, lst.foldl (fun c p => if P p then Map.erase c p.1 else c) cur) :: post := by
    intro lst
    induction lst with
    | nil => intro cur; rfl
    | cons p t ih =>
      intro cur
      simp only [List.foldl_cons]
      by_cases hp : P p
      · rw [if_pos hp, if_pos hp, modify_middle pre post net cur _ h1 h2]
        exact ih _
      · rw [if_neg hp, if_neg hp]
        exact ih _
  unfold prune_net
  simp only
  rw [hin pbi pbi, erase_foldl_self P pbi hnd, getD_middle pre post net _ [] h1]
  by_cases he : (pbi.filter (fun q => !decide (P q))).isEmpty = true
  · rw [if_pos he, erase_middle pre post net _ h1 h2]
    simp [prune, he]
  · rw [if_neg he]
    simp [prune, he]

theorem prune_cons (drop : Net → MPG × List Nat → Bool) (e : Net × POSSIBLE_BITINDICES)
    (t : Map Net POSSIBLE_BITINDICES) : prune drop (e :: t) = prune drop [e] ++ prune drop t := by
  unfold prune
  rw [List.filterMap_cons]
  split <;> rename_i h <;> simp [List.filterMap_cons, h]

theorem keys_prune_sublist (drop : Net → MPG × List Nat → Bool) (nets : Map Net POSSIBLE_BITINDICES) :
    List.Sublist (Map.keys (prune drop nets)) (Map.keys nets) := by
  induction nets with
  | nil => simp [prune, Map.keys]
  | cons e t ih =>
    rw [prune_cons]
    unfold Map.keys at ih ⊢
    rw [List.map_append, List.map_cons]
    by_cases he : (e.2.filter (fun o => !drop e.1 o)).isEmpty = true
    · have : prune drop [e] = [] := by simp [prune, he]
      rw [this]
      simpa using ih.cons e.1
    · have : prune drop [e] = [(e.1, e.2.filter (fun o => !drop e.1 o))] := by simp [prune, he]
      rw [this]
      simpa using ih.cons₂ e.1

/-- Both conflict removal loops compute `prune` on evidence with distinct
nets, each with distinct origins. -/
theorem foldl_prune_net (P : MPG × List Nat → Prop) [DecidablePred P]
    (nets : Map Net POSSIBLE_BITINDICES) (hn : (Map.keys nets).Nodup)
    (hin : ∀ e ∈ nets, (Map.keys e.2).Nodup) :
    nets.foldl (prune_net P) nets = prune (fun _ o => decide (P o)) nets := by
  have key : ∀ (rest pre : Map Net POSSIBLE_BITINDICES), (Map.keys (pre ++ rest)).Nodup →
      (∀ e ∈ rest, (Map.keys e.2).Nodup) →
      rest.foldl (prune_net P) (pre ++ rest) = pre ++ prune (fun _ o => decide (P o)) rest := by
    intro rest
    induction rest with
    | nil => intro pre _ _; simp [prune]
    | cons e t ih =>
      intro pre hnd hinner
      obtain ⟨net, pbi⟩ := e
      have hnd2 : (Map.keys pre ++ net :: Map.keys t).Nodup := by
        simpa [Map.keys] using hnd
      have h1 : net ∉ Map.keys pre := by
        intro hc
        exact (List.nodup_append.1 hnd2).2.2 hc (List.mem_cons_self _ _)
      have h2 : net ∉ Map.keys t := by
        have := (List.nodup_append.1 hnd2).2.1
        exact (List.nodup_cons.1 this).1
      simp only [List.foldl_cons]
      rw [prune_net_middle P pre t net pbi h1 h2 (hinner (net, pbi) (List.mem_cons_self _ _))]
      rw [ih (pre ++ prune (fun _ o => decide (P o)) [(net, pbi)]) ?_
        (fun e he => hinner e (List.mem_cons_of_mem _ he))]
      · rw [prune_cons (fun _ o => decide (P o)) (net, pbi) t]
        simp
      · have hs : List.Sublist (Map.keys ((pre ++ prune (fun _ o => decide (P o)) [(net, pbi)]) ++ t))
            (Map.keys (pre ++ (net, pbi) :: t)) := by
          unfold Map.keys
          simp only [List.map_append, List.append_assoc]
          apply List.Sublist.append (List.Sublist.refl _)
          have h3 := keys_prune_sublist (fun _ o => decide (P o)) [(net, pbi)]
          unfold Map.keys at h3
          have h4 := h3.append (List.Sublist.refl (List.map Prod.fst t))
          simpa using h4
        exact hs.nodup hnd
  simpa using key nets [] (by simpa using hn) hin

theorem remove_ambiguous_eq_foldl (nets : Map Net POSSIBLE_BITINDICES) :
    remove_ambiguous nets = nets.foldl (prune_net (fun p => p.2.length ≠ 1)) nets := rfl

theorem remove_duplicates_eq_foldl (reduced : Map Net POSSIBLE_BITINDICES) :
    remove_duplicates reduced
      = reduced.foldl (prune_net (fun p => (p.1, first_index p.2) ∈ origin_indices_to_remove reduced))
          reduced := rfl

theorem nets_WF_nodup (nets : Map Net POSSIBLE_BITINDICES) (h : nets_WF nets) :
    (Map.keys nets).Nodup ∧ ∀ e ∈ nets, (Map.keys e.2).Nodup :=
  ⟨Map.nodup_keys_of_WF nets h.1, fun e he => Map.nodup_keys_of_WF e.2 (h.2 e he).1⟩

theorem remove_ambiguous_eq (nets : Map Net POSSIBLE_BITINDICES) (hn : (Map.keys nets).Nodup)
    (hin : ∀ e ∈ nets, (Map.keys e.2).Nodup) :
    remove_ambiguous nets = without_ambiguous nets := by
  rw [remove_ambiguous_eq_foldl, foldl_prune_net _ nets hn hin]
  rfl

theorem remove_duplicates_eq (reduced : Map Net POSSIBLE_BITINDICES)
    (hn : (Map.keys reduced).Nodup) (hin : ∀ e ∈ reduced, (Map.keys e.2).Nodup) :
    remove_duplicates reduced
      = prune (fun _ o => decide ((o.1, first_index o.2) ∈ origin_indices_to_remove reduced)) reduced := by
  rw [remove_duplicates_eq_foldl, foldl_prune_net _ reduced hn hin]

theorem mem_prune (drop : Net → MPG × List Nat → Bool) (nets : Map Net POSSIBLE_BITINDICES)
    (e : Net × POSSIBLE_BITINDICES) :
    e ∈ prune drop nets ↔ ∃ e0 ∈ nets, e = (e0.1, e0.2.filter (fun o => !drop e0.1 o)) ∧ e.2 ≠ [] := by
  unfold prune
  rw [List.mem_filterMap]
  constructor
  · rintro ⟨e0, he0, h⟩
    split at h
    · exact Option.noConfusion h
    · rename_i hne
      simp only [Option.some.injEq] at h
      refine ⟨e0, he0, h.symm, ?_⟩
      rw [← h]
      simpa using hne
  · rintro ⟨e0, he0, h1, h2⟩
    refine ⟨e0, he0, ?_⟩
    rw [h1] at h2
    have : ¬ (e0.2.filter (fun o => !drop e0.1 o)).isEmpty = true := by
      simpa using h2
    rw [if_neg this, h1]

theorem prune_inner_nodup (drop : Net → MPG × List Nat → Bool) (nets : Map Net POSSIBLE_BITINDICES)
    (hin : ∀ e ∈ nets, (Map.keys e.2).Nodup) : ∀ e ∈ prune drop nets, (Map.keys e.2).Nodup := by
  intro e he
  obtain ⟨e0, he0, h1, _⟩ := (mem_prune drop nets e).1 he
  rw [h1]
  exact ((List.filter_sublist _).map Prod.fst).nodup (hin e0 he0)

theorem prune_keys_nodup (drop : Net → MPG × List Nat → Bool) (nets : Map Net POSSIBLE_BITINDICES)
    (hn : (Map.keys nets).Nodup) : (Map.keys (prune drop nets)).Nodup :=
  (keys_prune_sublist drop nets).nodup hn

theorem prune_prune (d1 d2 : Net → MPG × List Nat → Bool) (nets : Map Net POSSIBLE_BITINDICES) :
    prune d2 (prune d1 nets) = prune (fun n o => d1 n o || d2 n o) nets := by
  induction nets with
  | nil => rfl
  | cons e t ih =>
    rw [prune_cons d1, prune_cons (fun n o => d1 n o || d2 n o)]
    have hf : (e.2.filter (fun o => !d1 e.1 o)).filter (fun o => !d2 e.1 o)
        = e.2.filter (fun o => !(d1 e.1 o || d2 e.1 o)) := by
      rw [List.filter_filter]
      apply List.filter_congr
      intro o _
      cases d1 e.1 o <;> cases d2 e.1 o <;> rfl
    by_cases he : (e.2.filter (fun o => !d1 e.1 o)).isEmpty = true
    · have h1 : prune d1 [e] = [] := by simp [prune, he]
      have h2 : e.2.filter (fun o => !d1 e.1 o) = [] := by simpa using he
      have h3 : prune (fun n o => d1 n o || d2 n o) [e] = [] := by
        have : (e.2.filter (fun o => !(d1 e.1 o || d2 e.1 o))).isEmpty = true := by
          rw [← hf, h2]
          rfl
        simp only [prune, List.filterMap_cons, this, if_true, List.filterMap_nil]
      rw [h1, h3, List.nil_append, List.nil_append, ih]
    · have h1 : prune d1 [e] = [(e.1, e.2.filter (fun o => !d1 e.1 o))] := by simp [prune, he]
      rw [h1, List.singleton_append, prune_cons d2, ih]
      congr 1
      simp only [prune, List.filterMap_cons, List.filterMap_nil, hf]

theorem prune_congr (d1 d2 : Net → MPG × List Nat → Bool) (nets : Map Net POSSIBLE_BITINDICES)
    (h : ∀ e ∈ nets, ∀ o ∈ e.2, d1 e.1 o = d2 e.1 o) : prune d1 nets = prune d2 nets := by
  induction nets with
  | nil => rfl
  | cons e t ih =>
    rw [prune_cons d1, prune_cons d2, ih (fun e2 he2 => h e2 (List.mem_cons_of_mem _ he2))]
    have hf : e.2.filter (fun o => !d1 e.1 o) = e.2.filter (fun o => !d2 e.1 o) := by
      apply List.filter_congr
      intro o ho
      rw [h e (List.mem_cons_self _ _) o ho]
    simp only [prune, List.filterMap_cons, List.filterMap_nil, hf]

theorem consens_bitindices_eq (nets : Map Net POSSIBLE_BITINDICES) :
    consens_bitindices nets = consens_of_reduced (remove_duplicates (remove_ambiguous nets)) := by
  unfold consens_bitindices consens_of_reduced
  simp only
  by_cases h : (remove_ambiguous nets).isEmpty = true
  · rw [if_pos h]
    have h2 : remove_ambiguous nets = [] := by simpa using h
    rw [h2]
    rfl
  · rw [if_neg h]

theorem without_ambiguous_idem (nets : Map Net POSSIBLE_BITINDICES) :
    without_ambiguous (without_ambiguous nets) = without_ambiguous nets := by
  unfold without_ambiguous
  rw [prune_prune]
  apply prune_congr
  intro e _ o _
  simp

theorem foldl_congr_mem {α β : Type} (f g : β → α → β) (l : List α) (b : β)
    (h : ∀ b, ∀ a ∈ l, f b a = g b a) : l.foldl f b = l.foldl g b := by
  induction l generalizing b with
  | nil => rfl
  | cons a t ih =>
    simp only [List.foldl_cons]
    rw [h b a (List.mem_cons_self _ _)]
    exact ih _ (fun b a ha => h b a (List.mem_cons_of_mem _ ha))

/-- The output of `extract_well_formed_bitorder` does not change when the
evidence of every group is replaced by evidence with the same consensus
indices. -/
theorem extract_congr (nl : Netlist) (ev : Map MPG (Map Net POSSIBLE_BITINDICES)) (strict : Bool)
    (f : MPG → Map Net POSSIBLE_BITINDICES → Map Net POSSIBLE_BITINDICES)
    (h : ∀ p ∈ ev, consens_bitindices (f p.1 p.2) = consens_bitindices p.2) :
    extract_well_formed_bitorder nl (ev.map (fun p => (p.1, f p.1 p.2))) strict
      = extract_well_formed_bitorder nl ev strict := by
  unfold extract_well_formed_bitorder
  rw [List.foldl_map]
  apply foldl_congr_mem
  intro b p hp
  simp only
  unfold wellformed_bitorder
  rw [h p hp]

/-- C7: same-origin conflict removal.  An observation whose candidate index set
does not have exactly one element has no influence: `extract_well_formed_bitorder`
returns the same output on the evidence from which, for the groups selected by
`sel` (one group, or all), all these observations and the nets left without
observation are removed; and a group all of whose observations are ambiguous is
not in the output. -/
theorem extract_ignores_ambiguous (nl : Netlist) (ev : Map MPG (Map Net POSSIBLE_BITINDICES))
    (strict : Bool) (sel : MPG → Bool) (hev : collected_WF ev) :
    extract_well_formed_bitorder nl
          (ev.map (fun p => (p.1, if sel p.1 then without_ambiguous p.2 else p.2))) strict
        = extract_well_formed_bitorder nl ev strict ∧
      ∀ g nets, Map.find? ev g = some nets → (∀ e ∈ nets, ∀ o ∈ e.2, o.2.length ≠ 1) →
        g ∉ Map.keys (extract_well_formed_bitorder nl ev strict) := by
  constructor
  · apply extract_congr nl ev strict (fun g nets => if sel g then without_ambiguous nets else nets)
    intro p hp
    by_cases hs : sel p.1 = true
    · rw [if_pos hs]
      obtain ⟨h1, h2⟩ := nets_WF_nodup p.2 (hev.2 p hp)
      rw [consens_bitindices_eq, consens_bitindices_eq]
      rw [remove_ambiguous_eq p.2 h1 h2]
      rw [remove_ambiguous_eq (without_ambiguous p.2) (prune_keys_nodup _ _ h1)
        (prune_inner_nodup _ _ h2)]
      rw [without_ambiguous_idem]
    · rw [if_neg hs]
  · intro g nets hg hall
    apply not_mem_keys_of_find?
    rw [extract_find? nl ev strict (Map.nodup_keys_of_WF ev hev.1) g nets (find?_of_WF_mem ev g nets hg)]
    obtain ⟨h1, h2⟩ := nets_WF_nodup nets (hev.2 (g, nets) (find?_of_WF_mem ev g nets hg))
    have hempty : remove_ambiguous nets = [] := by
      rw [remove_ambiguous_eq nets h1 h2]
      unfold without_ambiguous prune
      rw [List.filterMap_eq_nil_iff]
      intro e he
      have : e.2.filter (fun o => !decide (o.2.length ≠ 1)) = [] := by
        rw [List.filter_eq_nil_iff]
        intro o ho
        simpa using hall e he o ho
      rw [this]
      rfl
    unfold wellformed_bitorder consens_bitindices
    simp [hempty]

/-- An instance of C7 on concrete evidence. -/
theorem extract_ignores_ambiguous_witness :
    collected_WF exAmbiguous ∧
    without_ambiguous [(10, [(exA, [3, 4]), (exB, [7])]), (11, [(exA, [1]), (exB, [6])]),
        (12, [(exA, [3]), (exB, [8])])]
      = [(10, [(exB, [7])]), (11, [(exA, [1]), (exB, [6])]), (12, [(exA, [3]), (exB, [8])])] ∧
    (extract_well_formed_bitorder exNetlist
        (exAmbiguous.map (fun p => (p.1, if (fun _ => true) p.1 then without_ambiguous p.2 else p.2)))
        true
        = extract_well_formed_bitorder exNetlist exAmbiguous true ∧
      ∀ g nets, Map.find? exAmbiguous g = some nets → (∀ e ∈ nets, ∀ o ∈ e.2, o.2.length ≠ 1) →
        g ∉ Map.keys (extract_well_formed_bitorder exNetlist exAmbiguous true)) :=
  ⟨by decide, by decide,
    extract_ignores_ambiguous exNetlist exAmbiguous true (fun _ => true) (by decide)⟩

theorem scan_inner (pbi : POSSIBLE_BITINDICES) (hnd : (Map.keys pbi).Nodup)
    (st : List (MPG × Nat) × List (MPG × Nat)) (x : MPG × Nat) :
    (x ∈ (pbi.foldl (fun st1 p =>
        if (p.1, first_index p.2) ∈ st1.1 then (st1.1, (p.1, first_index p.2) :: st1.2)
        else ((p.1, first_index p.2) :: st1.1, st1.2)) st).1
      ↔ x ∈ st.1 ∨ x ∈ observed (0, pbi)) ∧
    (x ∈ (pbi.foldl (fun st1 p =>
        if (p.1, first_index p.2) ∈ st1.1 then (st1.1, (p.1, first_index p.2) :: st1.2)
        else ((p.1, first_index p.2) :: st1.1, st1.2)) st).2
      ↔ x ∈ st.2 ∨ (x ∈ observed (0, pbi) ∧ x ∈ st.1)) := by
  induction pbi generalizing st with
  | nil => simp [observed]
  | cons p t ih =>
    simp only [Map.keys, List.map_cons, List.nodup_cons] at hnd
    have hnot : x ∈ observed (0, t) → x ≠ (p.1, first_index p.2) := by
      intro hx he
      unfold observed at hx
      obtain ⟨q, hq, hqe⟩ := List.mem_map.1 hx
      apply hnd.1
      rw [he] at hqe
      simp only [Prod.mk.injEq] at hqe
      rw [← hqe.1]
      exact List.mem_map.2 ⟨q, hq, rfl⟩
    have hobs : x ∈ observed (0, p :: t) ↔ x = (p.1, first_index p.2) ∨ x ∈ observed (0, t) := by
      simp [observed]
    simp only [List.foldl_cons]
    by_cases hp : (p.1, first_index p.2) ∈ st.1
    · rw [if_pos hp]
      obtain ⟨ih1, ih2⟩ := ih hnd.2 (st.1, (p.1, first_index p.2) :: st.2)
      rw [ih1, ih2, hobs]
      simp only [List.mem_cons]
      constructor
      · constructor
        · rintro (h | h)
          · exact Or.inl h
          · exact Or.inr (Or.inr h)
        · rintro (h | h | h)
          · exact Or.inl h
          · exact Or.inl (h ▸ hp)
          · exact Or.inr h
      · constructor
        · rintro ((h | h) | h)
          · exact Or.inr ⟨Or.inl h, h ▸ hp⟩
          · exact Or.inl h
          · exact Or.inr ⟨Or.inr h.1, h.2⟩
        · rintro (h | ⟨h1 | h1, h2⟩)
          · exact Or.inl (Or.inr h)
          · exact Or.inl (Or.inl h1)
          · exact Or.inr ⟨h1, h2⟩
    · rw [if_neg hp]
      obtain ⟨ih1, ih2⟩ := ih hnd.2 ((p.1, first_index p.2) :: st.1, st.2)
      rw [ih1, ih2, hobs]
      simp only [List.mem_cons]
      constructor
      · constructor
        · rintro ((h | h) | h)
          · exact Or.inr (Or.inl h)
          · exact Or.inl h
          · exact Or.inr (Or.inr h)
        · rintro (h | h | h)
          · exact Or.inl (Or.inr h)
          · exact Or.inl (Or.inl h)
          · exact Or.inr h
      · constructor
        · rintro (h | ⟨h1, h2 | h2⟩)
          · exact Or.inl h
          · exact absurd h2 (hnot h1)
          · exact Or.inr ⟨Or.inr h1, h2⟩
        · rintro (h | ⟨h1 | h1, h2⟩)
          · exact Or.inl h
          · exact absurd (h1 ▸ h2) hp
          · exact Or.inr ⟨h1, Or.inr h2⟩

theorem observed_irrel (n : Net) (pbi : POSSIBLE_BITINDICES) : observed (n, pbi) = observed (0, pbi) := rfl

theorem scan_outer (nets : Map Net POSSIBLE_BITINDICES) (hn : (Map.keys nets).Nodup)
    (hin : ∀ e ∈ nets, (Map.keys e.2).Nodup)
    (st : List (MPG × Nat) × List (MPG × Nat)) (x : MPG × Nat) :
    (x ∈ (nets.foldl (fun st entry =>
        entry.2.foldl (fun st1 p =>
          if (p.1, first_index p.2) ∈ st1.1 then (st1.1, (p.1, first_index p.2) :: st1.2)
          else ((p.1, first_index p.2) :: st1.1, st1.2)) st) st).1
      ↔ x ∈ st.1 ∨ ∃ e ∈ nets, x ∈ observed e) ∧
    (x ∈ (nets.foldl (fun st entry =>
        entry.2.foldl (fun st1 p =>
          if (p.1, first_index p.2) ∈ st1.1 then (st1.1, (p.1, first_index p.2) :: st1.2)
          else ((p.1, first_index p.2) :: st1.1, st1.2)) st) st).2
      ↔ x ∈ st.2 ∨ (∃ e ∈ nets, x ∈ observed e ∧ x ∈ st.1) ∨
          ∃ e1 ∈ nets, ∃ e2 ∈ nets, e1.1 ≠ e2.1 ∧ x ∈ observed e1 ∧ x ∈ observed e2) := by
  induction nets generalizing st with
  | nil => simp
  | cons e t ih =>
    simp only [Map.keys, List.map_cons, List.nodup_cons] at hn
    have hne : ∀ e2 ∈ t, e.1 ≠ e2.1 := by
      intro e2 he2 he
      exact hn.1 (he ▸ List.mem_map.2 ⟨e2, he2, rfl⟩)
    obtain ⟨in1, in2⟩ := scan_inner e.2 (hin e (List.mem_cons_self _ _)) st x
    rw [← observed_irrel e.1 e.2] at in1 in2
    have heq : observed (e.1, e.2) = observed e := rfl
    rw [heq] at in1 in2
    simp only [List.foldl_cons]
    obtain ⟨ih1, ih2⟩ := ih hn.2 (fun e2 he2 => hin e2 (List.mem_cons_of_mem _ he2))
      (e.2.foldl (fun st1 p =>
          if (p.1, first_index p.2) ∈ st1.1 then (st1.1, (p.1, first_index p.2) :: st1.2)
          else ((p.1, first_index p.2) :: st1.1, st1.2)) st)
    rw [ih1, ih2, in1, in2]
    constructor
    · constructor
      · rintro ((h | h) | ⟨e2, he2, h⟩)
        · exact Or.inl h
        · exact Or.inr ⟨e, List.mem_cons_self _ _, h⟩
        · exact Or.inr ⟨e2, List.mem_cons_of_mem _ he2, h⟩
      · rintro (h | ⟨e2, he2, h⟩)
        · exact Or.inl (Or.inl h)
        · rcases List.mem_cons.1 he2 with h3 | h3
          · exact Or.inl (Or.inr (h3 ▸ h))
          · exact Or.inr ⟨e2, h3, h⟩
    · constructor
      · rintro ((h | ⟨h1, h2⟩) | ⟨e2, he2, h1, h2⟩ | ⟨e1, he1, e2, he2, hk, h1, h2⟩)
        · exact Or.inl h
        · exact Or.inr (Or.inl ⟨e, List.mem_cons_self _ _, h1, h2⟩)
        · rcases h2 with h2 | h2
          · exact Or.inr (Or.inl ⟨e2, List.mem_cons_of_mem _ he2, h1, h2⟩)
          · exact Or.inr (Or.inr ⟨e, List.mem_cons_self _ _, e2, List.mem_cons_of_mem _ he2,
              hne e2 he2, h2, h1⟩)
        · exact Or.inr (Or.inr ⟨e1, List.mem_cons_of_mem _ he1, e2, List.mem_cons_of_mem _ he2,
            hk, h1, h2⟩)
      · rintro (h | ⟨e2, he2, h1, h2⟩ | ⟨e1, he1, e2, he2, hk, h1, h2⟩)
        · exact Or.inl (Or.inl h)
        · rcases List.mem_cons.1 he2 with h3 | h3
          · exact Or.inl (Or.inr ⟨h3 ▸ h1, h2⟩)
          · exact Or.inr (Or.inl ⟨e2, h3, h1, Or.inl h2⟩)
        · rcases List.mem_cons.1 he1 with h3 | h3
          · rcases List.mem_cons.1 he2 with h4 | h4
            · exact absurd (h3.trans h4.symm ▸ rfl) hk
            · exact Or.inr (Or.inl ⟨e2, h4, h2, Or.inr (h3 ▸ h1)⟩)
          · rcases List.mem_cons.1 he2 with h4 | h4
            · exact Or.inr (Or.inl ⟨e1, h3, h1, Or.inr (h4 ▸ h2)⟩)
            · exact Or.inr (Or.inr ⟨e1, h3, e2, h4, hk, h1, h2⟩)

/-- The set `origin_indices_to_remove` holds exactly the pairs (origin, index)
observed on two different nets. -/
theorem mem_origin_indices_to_remove (nets : Map Net POSSIBLE_BITINDICES)
    (hn : (Map.keys nets).Nodup) (hin : ∀ e ∈ nets, (Map.keys e.2).Nodup) (x : MPG × Nat) :
    x ∈ origin_indices_to_remove nets ↔
      ∃ e1 ∈ nets, ∃ e2 ∈ nets, e1.1 ≠ e2.1 ∧ x ∈ observed e1 ∧ x ∈ observed e2 := by
  unfold origin_indices_to_remove duplicate_scan
  rw [(scan_outer nets hn hin ([], []) x).2]
  simp

theorem prune_map_filter (c d : Net → MPG × List Nat → Bool) (nets : Map Net POSSIBLE_BITINDICES) :
    prune d (nets.map (fun e => (e.1, e.2.filter (fun o => !c e.1 o))))
      = prune (fun n o => c n o || d n o) nets := by
  induction nets with
  | nil => rfl
  | cons e t ih =>
    rw [List.map_cons, prune_cons d, prune_cons (fun n o => c n o || d n o), ih]
    have hf : (e.2.filter (fun o => !c e.1 o)).filter (fun o => !d e.1 o)
        = e.2.filter (fun o => !(c e.1 o || d e.1 o)) := by
      rw [List.filter_filter]
      apply List.filter_congr
      intro o _
      cases c e.1 o <;> cases d e.1 o <;> rfl
    simp only [prune, List.filterMap_cons, List.filterMap_nil, hf]

theorem singleton_eq_of_first (s t : List Nat) (hs : s.length = 1) (ht : t.length = 1)
    (h : first_index s = first_index t) : s = t := by
  match s, t, hs, ht with
  | [a], [b], _, _ =>
    simp only [first_index, List.headD_cons] at h
    rw [h]

theorem conflicting_of_to_remove (nets : Map Net POSSIBLE_BITINDICES)
    (hn : (Map.keys nets).Nodup) (hin : ∀ e ∈ nets, (Map.keys e.2).Nodup)
    (d : Net → MPG × List Nat → Bool) (hd : ∀ n o, o.2.length ≠ 1 → d n o = true)
    (e : Net × POSSIBLE_BITINDICES) (o : MPG × List Nat) (ho1 : o.2.length = 1)
    (h : (o.1, first_index o.2) ∈ origin_indices_to_remove (prune d nets)) :
    conflicting nets e.1 o = true := by
  rw [mem_origin_indices_to_remove _ (prune_keys_nodup d nets hn) (prune_inner_nodup d nets hin)] at h
  obtain ⟨e1, he1, e2, he2, hk, h1, h2⟩ := h
  have hsrc : ∀ ei ∈ prune d nets, (o.1, first_index o.2) ∈ observed ei →
      ∃ e0 ∈ nets, e0.1 = ei.1 ∧ o ∈ e0.2 := by
    intro ei hei hobs
    obtain ⟨e0, he0, heq, _⟩ := (mem_prune d nets ei).1 hei
    refine ⟨e0, he0, by rw [heq], ?_⟩
    unfold observed at hobs
    obtain ⟨q, hq, hqe⟩ := List.mem_map.1 hobs
    rw [heq] at hq
    simp only [List.mem_filter, Bool.not_eq_true'] at hq
    simp only [Prod.mk.injEq] at hqe
    have hq1 : q.2.length = 1 := by
      by_contra hc
      rw [hd e0.1 q hc] at hq
      exact Bool.noConfusion hq.2
    have : q = o := Prod.ext hqe.1 (singleton_eq_of_first q.2 o.2 hq1 ho1 hqe.2)
    rw [← this]
    exact hq.1
  have hfin : ∀ e0 ∈ nets, e0.1 ≠ e.1 → o ∈ e0.2 → conflicting nets e.1 o = true := by
    intro e0 he0 hne hmem
    unfold conflicting
    simp only [ho1, decide_True, Bool.true_and, List.any_eq_true, Bool.and_eq_true,
      decide_eq_true_eq]
    exact ⟨e0, he0, hne, hmem⟩
  by_cases hc : e1.1 = e.1
  · obtain ⟨e0, he0, hk0, hm0⟩ := hsrc e2 he2 h2
    exact hfin e0 he0 (by rw [hk0, ← hc]; exact fun h => hk h.symm) hm0
  · obtain ⟨e0, he0, hk0, hm0⟩ := hsrc e1 he1 h1
    exact hfin e0 he0 (by rw [hk0]; exact hc) hm0

theorem to_remove_of_conflicting (nets : Map Net POSSIBLE_BITINDICES)
    (hn : (Map.keys nets).Nodup) (hin : ∀ e ∈ nets, (Map.keys e.2).Nodup)
    (e : Net × POSSIBLE_BITINDICES) (he : e ∈ nets) (o : MPG × List Nat) (ho : o ∈ e.2)
    (h : conflicting nets e.1 o = true) :
    (o.1, first_index o.2) ∈ origin_indices_to_remove (without_ambiguous nets) := by
  unfold without_ambiguous
  rw [mem_origin_indices_to_remove _ (prune_keys_nodup _ nets hn) (prune_inner_nodup _ nets hin)]
  unfold conflicting at h
  simp only [Bool.and_eq_true, decide_eq_true_eq, List.any_eq_true] at h
  obtain ⟨ho1, e0, he0, hne, hm0⟩ := h
  have hmk : ∀ ei ∈ nets, o ∈ ei.2 →
      (ei.1, ei.2.filter (fun o => !decide (o.2.length ≠ 1)))
          ∈ prune (fun _ o => decide (o.2.length ≠ 1)) nets ∧
        (o.1, first_index o.2)
          ∈ observed (ei.1, ei.2.filter (fun o => !decide (o.2.length ≠ 1))) := by
    intro ei hei hmem
    have hf : o ∈ ei.2.filter (fun o => !decide (o.2.length ≠ 1)) := by
      simp only [List.mem_filter, Bool.not_eq_true', decide_eq_false_iff_not, not_not]
      exact ⟨hmem, ho1⟩
    constructor
    · rw [mem_prune]
      exact ⟨ei, hei, rfl, List.ne_nil_of_mem hf⟩
    · unfold observed
      exact List.mem_map.2 ⟨o, hf, rfl⟩
  obtain ⟨a1, a2⟩ := hmk e he ho
  obtain ⟨b1, b2⟩ := hmk e0 he0 hm0
  exact ⟨_, a1, _, b1, fun h => hne h.symm, a2, b2⟩

theorem without_conflicts_nodup (nets : Map Net POSSIBLE_BITINDICES)
    (hn : (Map.keys nets).Nodup) (hin : ∀ e ∈ nets, (Map.keys e.2).Nodup) :
    (Map.keys (without_conflicts nets)).Nodup ∧
      ∀ e ∈ without_conflicts nets, (Map.keys e.2).Nodup := by
  constructor
  · have : Map.keys (without_conflicts nets) = Map.keys nets := by
      unfold without_conflicts Map.keys
      rw [List.map_map]
      rfl
    rw [this]
    exact hn
  · intro e he
    unfold without_conflicts at he
    obtain ⟨e0, he0, heq⟩ := List.mem_map.1 he
    rw [← heq]
    exact ((List.filter_sublist _).map Prod.fst).nodup (hin e0 he0)

theorem reduced_without_conflicts (nets : Map Net POSSIBLE_BITINDICES)
    (hn : (Map.keys nets).Nodup) (hin : ∀ e ∈ nets, (Map.keys e.2).Nodup) :
    remove_duplicates (remove_ambiguous (without_conflicts nets))
      = remove_duplicates (remove_ambiguous nets) := by
  obtain ⟨hsn, hsin⟩ := without_conflicts_nodup nets hn hin
  rw [remove_ambiguous_eq nets hn hin, remove_ambiguous_eq _ hsn hsin]
  have h1 : without_ambiguous (without_conflicts nets)
      = prune (fun n o => conflicting nets n o || decide (o.2.length ≠ 1)) nets := by
    unfold without_ambiguous without_conflicts
    rw [prune_map_filter]
  rw [h1]
  rw [remove_duplicates_eq _ (prune_keys_nodup _ nets hn) (prune_inner_nodup _ nets hin)]
  rw [remove_duplicates_eq (without_ambiguous nets) (prune_keys_nodup _ nets hn)
    (prune_inner_nodup _ nets hin)]
  unfold without_ambiguous
  rw [prune_prune, prune_prune]
  apply prune_congr
  intro e he o ho
  by_cases ha : o.2.length = 1
  · have hA : decide (o.2.length ≠ 1) = false := by simp [ha]
    simp only [hA, Bool.or_false, Bool.false_or]
    by_cases hc : conflicting nets e.1 o = true
    · rw [hc, Bool.true_or]
      have := to_remove_of_conflicting nets hn hin e he o ho hc
      unfold without_ambiguous at this
      simpa using this
    · have hc2 : conflicting nets e.1 o = false := by simpa using hc
      rw [hc2, Bool.false_or]
      have n1 : ¬ (o.1, first_index o.2) ∈ origin_indices_to_remove
          (prune (fun n o => conflicting nets n o || decide (o.2.length ≠ 1)) nets) := by
        intro h
        exact hc (conflicting_of_to_remove nets hn hin _
          (fun n o ho => by simp [ho]) e o ha h)
      have n2 : ¬ (o.1, first_index o.2) ∈ origin_indices_to_remove
          (prune (fun _ o => decide (o.2.length ≠ 1)) nets) := by
        intro h
        exact hc (conflicting_of_to_remove nets hn hin _
          (fun n o ho => by simp [ho]) e o ha h)
      rw [decide_eq_false n1, decide_eq_false n2]
  · have hA : decide (o.2.length ≠ 1) = true := by simp [ha]
    simp [hA]

/-- C6: cross-wire conflict rejection.  When two or more nets of a group carry
the same single candidate index from the same origin, that observation is
dropped for all of them: `extract_well_formed_bitorder` returns the same output
as on the evidence from which, for the groups selected by `sel` (one group, or
all), every such observation is removed. -/
theorem extract_ignores_conflicts (nl : Netlist) (ev : Map MPG (Map Net POSSIBLE_BITINDICES))
    (strict : Bool) (sel : MPG → Bool) (hev : collected_WF ev) :
    extract_well_formed_bitorder nl
        (ev.map (fun p => (p.1, if sel p.1 then without_conflicts p.2 else p.2))) strict
      = extract_well_formed_bitorder nl ev strict := by
  apply extract_congr nl ev strict (fun g nets => if sel g then without_conflicts nets else nets)
  intro p hp
  by_cases hs : sel p.1 = true
  · rw [if_pos hs]
    obtain ⟨h1, h2⟩ := nets_WF_nodup p.2 (hev.2 p hp)
    rw [consens_bitindices_eq, consens_bitindices_eq, reduced_without_conflicts p.2 h1 h2]
  · rw [if_neg hs]

/-- An instance of C6 on concrete evidence. -/
theorem extract_ignores_conflicts_witness :
    collected_WF exConflict ∧
    without_conflicts [(10, [(exA, [3]), (exB, [7])]), (11, [(exA, [1]), (exB, [6])]),
        (12, [(exA, [3]), (exB, [8])])]
      = [(10, [(exB, [7])]), (11, [(exA, [1]), (exB, [6])]), (12, [(exB, [8])])] ∧
    extract_well_formed_bitorder exNetlist
        (exConflict.map (fun p => (p.1, if (fun _ => true) p.1 then without_conflicts p.2 else p.2)))
        true
      = extract_well_formed_bitorder exNetlist exConflict true :=
  ⟨by decide, by decide,
    extract_ignores_conflicts exNetlist exConflict true (fun _ => true) (by decide)⟩

/-! ## The offset matrix -/

theorem i32_sub_i32 (a b : Int) : i32 (b - i32 a) = i32 (b - a) := by
  unfold i32
  omega

theorem i32_neg_sub (a b : Int) : i32 (-(i32 (b - a))) = i32 (a - b) := by
  unfold i32
  omega

theorem i32_check (a b : Int) : i32 (i32 a + i32 (b - a)) = i32 b := by
  unfold i32
  omega

theorem i32_check_inv (a b v : Int) (hv : i32 v = v) (h : i32 (i32 a + v) = i32 b) :
    v = i32 (b - a) := by
  unfold i32 at *
  omega

theorem entry_eq_find? (m : OffsetMatrix) (a b : MPG) :
    Map.find? (Map.getD m a []) b = OffsetMatrix.entry m a b := by
  unfold Map.getD OffsetMatrix.entry
  cases Map.find? m a with
  | none => rfl
  | some row => rfl

theorem entry_set (m : OffsetMatrix) (a b : MPG) (x : Int) (a2 b2 : MPG) :
    OffsetMatrix.entry (OffsetMatrix.set m a b x) a2 b2
      = if a2 = a ∧ b2 = b then some x else OffsetMatrix.entry m a2 b2 := by
  unfold OffsetMatrix.set
  by_cases ha : a2 = a
  · subst ha
    have h1 : OffsetMatrix.entry (Map.insert m a2 (Map.insert (Map.getD m a2 []) b x)) a2 b2
        = Map.find? (Map.insert (Map.getD m a2 []) b x) b2 := by
      unfold OffsetMatrix.entry
      rw [Map.find?_insert, if_pos rfl]
    rw [h1, Map.find?_insert, entry_eq_find?]
    by_cases hb : b2 = b
    · simp [hb]
    · simp [hb]
  · have h1 : OffsetMatrix.entry (Map.insert m a (Map.insert (Map.getD m a []) b x)) a2 b2
        = OffsetMatrix.entry m a2 b2 := by
      unfold OffsetMatrix.entry
      rw [Map.find?_insert, if_neg ha]
    rw [h1]
    simp [ha]

theorem offset_on_unique (e : Net × POSSIBLE_BITINDICES) (he : (Map.keys e.2).Nodup)
    (A B : MPG) (a b : Nat) (ha : (A, a) ∈ observed e) (hb : (B, b) ∈ observed e) (x : Int) :
    offset_on e A B x ↔ x = i32 ((b : Int) - (a : Int)) := by
  have hk : (Map.keys (observed e)).Nodup := by
    have : Map.keys (observed e) = Map.keys e.2 := by
      unfold observed Map.keys
      rw [List.map_map]
      rfl
    rw [this]
    exact he
  constructor
  · rintro ⟨a2, b2, ha2, hb2, hx⟩
    have e1 := Map.find?_of_mem _ hk A a ha
    have e2 := Map.find?_of_mem _ hk A a2 ha2
    have e3 := Map.find?_of_mem _ hk B b hb
    have e4 := Map.find?_of_mem _ hk B b2 hb2
    rw [e1] at e2
    rw [e3] at e4
    simp only [Option.some.injEq] at e2 e4
    rw [e2, e4]
    exact hx
  · intro hx
    exact ⟨a, b, ha, hb, hx⟩

theorem offset_in_symm (nets : Map Net POSSIBLE_BITINDICES) (A B : MPG) (x : Int)
    (h : offset_in nets A B x) : offset_in nets B A (i32 (-x)) := by
  obtain ⟨e, he, a, b, ha, hb, hx⟩ := h
  refine ⟨e, he, b, a, hb, ha, ?_⟩
  rw [hx, i32_neg_sub]

theorem offset_in_range (nets : Map Net POSSIBLE_BITINDICES) (A B : MPG) (x : Int)
    (h : offset_in nets A B x) : i32 x = x := by
  obtain ⟨e, _, a, b, _, _, hx⟩ := h
  rw [hx, i32_idem]

theorem offset_in_append (P Q : Map Net POSSIBLE_BITINDICES) (A B : MPG) (x : Int) :
    offset_in (P ++ Q) A B x ↔ offset_in P A B x ∨ offset_in Q A B x := by
  unfold offset_in
  constructor
  · rintro ⟨e, he, h⟩
    rcases List.mem_append.1 he with h1 | h1
    · exact Or.inl ⟨e, h1, h⟩
    · exact Or.inr ⟨e, h1, h⟩
  · rintro (⟨e, he, h⟩ | ⟨e, he, h⟩)
    · exact ⟨e, List.mem_append_left _ he, h⟩
    · exact ⟨e, List.mem_append_right _ he, h⟩

theorem offset_in_singleton (e : Net × POSSIBLE_BITINDICES) (A B : MPG) (x : Int) :
    offset_in [e] A B x ↔ offset_on e A B x := by
  simp [offset_in]

/-- One execution of the body of the inner loop of `build_offset_matrix`. -/
theorem offset_check_step (done : Map Net POSSIBLE_BITINDICES) (e : Net × POSSIBLE_BITINDICES)
    (he : (Map.keys e.2).Nodup) (seen : MPG → MPG → Prop) (m : OffsetMatrix)
    (hinv : matrix_inv done e seen m) (A : MPG) (indices : List Nat) (B : MPG) (b : Nat)
    (hA : (A, first_index indices) ∈ observed e) (hB : (B, b) ∈ observed e) :
    (∀ m2, offset_check A indices m (B, b) = .ok m2 →
        matrix_inv done e (fun X Y => seen X Y ∨ (X = A ∧ Y = B)) m2) ∧
      (∀ err, offset_check A indices m (B, b) = .error err → offset_conflict (done ++ [e])) := by
  have hT := offset_on_unique e he A B (first_index indices) b hA hB
  have hT2 := offset_on_unique e he B A b (first_index indices) hB hA
  have hstay : ∀ X Y x, (offset_in done X Y x ∨ offset_on e X Y x ∧ (seen X Y ∨ seen Y X)) →
      (offset_in done X Y x ∨
        offset_on e X Y x ∧ ((seen X Y ∨ X = A ∧ Y = B) ∨ (seen Y X ∨ Y = A ∧ X = B))) := by
    rintro X Y x (hx | ⟨hx, hs | hs⟩)
    · exact Or.inl hx
    · exact Or.inr ⟨hx, Or.inl (Or.inl hs)⟩
    · exact Or.inr ⟨hx, Or.inr (Or.inl hs)⟩
  cases hf : OffsetMatrix.entry m A B with
  | none =>
    have hnone : ∀ x, ¬ offset_in done A B x := by
      intro x hx
      have := (hinv A B x).2 (Or.inl hx)
      rw [hf] at this
      exact Option.noConfusion this
    have hnone2 : ∀ x, ¬ offset_in done B A x := by
      intro x hx
      exact hnone _ (offset_in_symm done B A x hx)
    have hval : offset_check A indices m (B, b) = .ok (OffsetMatrix.set
        (OffsetMatrix.set m A B (i32 ((b : Int) - i32 (first_index indices : Int)))) B A
        (i32 (-(i32 ((b : Int) - i32 (first_index indices : Int)))))) := by
      unfold offset_check
      simp only
      rw [entry_eq_find?, hf]
    rw [hval]
    constructor
    · intro m2 hm2
      injection hm2 with hm2
      subst hm2
      intro X Y x
      rw [entry_set, entry_set, i32_sub_i32, i32_neg_sub]
      by_cases h1 : X = B ∧ Y = A
      · rw [if_pos h1]
        obtain ⟨hX, hY⟩ := h1
        subst hX
        subst hY
        constructor
        · intro hx
          simp only [Option.some.injEq] at hx
          right
          exact ⟨(hT2 x).2 hx.symm, Or.inr (Or.inr ⟨rfl, rfl⟩)⟩
        · rintro (hx | ⟨hx, _⟩)
          · exact absurd hx (hnone2 x)
          · rw [(hT2 x).1 hx]
      · rw [if_neg h1]
        by_cases h2 : X = A ∧ Y = B
        · rw [if_pos h2]
          obtain ⟨hX, hY⟩ := h2
          subst hX
          subst hY
          constructor
          · intro hx
            simp only [Option.some.injEq] at hx
            right
            exact ⟨(hT x).2 hx.symm, Or.inl (Or.inr ⟨rfl, rfl⟩)⟩
          · rintro (hx | ⟨hx, _⟩)
            · exact absurd hx (hnone x)
            · rw [(hT x).1 hx]
        · rw [if_neg h2, hinv X Y x]
          constructor
          · exact hstay X Y x
          · rintro (hx | ⟨hx, (hs | hs) | (hs | hs)⟩)
            · exact Or.inl hx
            · exact Or.inr ⟨hx, Or.inl hs⟩
            · exact absurd hs h2
            · exact Or.inr ⟨hx, Or.inr hs⟩
            · exact absurd ⟨hs.2, hs.1⟩ h1
    · intro err herr
      exact Except.noConfusion herr
  | some v =>
    have hv := (hinv A B v).1 hf
    have hrange : i32 v = v := by
      rcases hv with hv | ⟨hv, _⟩
      · exact offset_in_range done A B v hv
      · rw [(hT v).1 hv, i32_idem]
    have hval : offset_check A indices m (B, b)
        = if i32 (i32 (first_index indices : Int) + v) ≠ i32 (b : Int) then .error (A, B) else .ok m := by
      unfold offset_check
      simp only
      rw [entry_eq_find?, hf]
    rw [hval]
    rcases Classical.em (i32 (i32 (first_index indices : Int) + v) ≠ i32 (b : Int)) with hc | hc
    · rw [if_pos hc]
      constructor
      · intro m2 hm2
        exact Except.noConfusion hm2
      · intro err _
        rcases hv with hv | ⟨hv, _⟩
        · refine ⟨A, B, v, i32 ((b : Int) - (first_index indices : Int)),
            (offset_in_append done [e] A B v).2 (Or.inl hv),
            (offset_in_append done [e] A B _).2
              (Or.inr ((offset_in_singleton e A B _).2 ((hT _).2 rfl))), ?_⟩
          intro heq
          apply hc
          rw [heq]
          exact i32_check _ _
        · exfalso
          apply hc
          rw [(hT v).1 hv]
          exact i32_check _ _
    · rw [if_neg hc]
      constructor
      · intro m2 hm2
        injection hm2 with hm2
        subst hm2
        have hveq : v = i32 ((b : Int) - (first_index indices : Int)) :=
          i32_check_inv _ _ v hrange (not_not.1 hc)
        have hBA : OffsetMatrix.entry m B A
            = some (i32 ((first_index indices : Int) - (b : Int))) := by
          rcases hv with hv | ⟨hv, hs⟩
          · have := offset_in_symm done A B v hv
            rw [hveq, i32_neg_sub] at this
            exact (hinv B A _).2 (Or.inl this)
          · exact (hinv B A _).2 (Or.inr ⟨(hT2 _).2 rfl, hs.symm⟩)
        intro X Y x
        rw [hinv X Y x]
        constructor
        · exact hstay X Y x
        · rintro (hx | ⟨hx, (hs | hs) | (hs | hs)⟩)
          · exact Or.inl hx
          · exact Or.inr ⟨hx, Or.inl hs⟩
          · obtain ⟨hX, hY⟩ := hs
            subst hX
            subst hY
            rw [← hinv X Y x, hf, hveq, (hT x).1 hx]
          · exact Or.inr ⟨hx, Or.inr hs⟩
          · obtain ⟨hY, hX⟩ := hs
            subst hX
            subst hY
            rw [← hinv X Y x, hBA, (hT2 x).1 hx]
      · intro err herr
        exact Except.noConfusion herr

theorem foldlM_except_inv {α β ε : Type} (f : β → α → Except ε β) (Inv : List α → β → Prop)
    (Bad : Prop) (l : List α)
    (hstep : ∀ done a b, a ∈ l → Inv done b →
      (∀ b2, f b a = .ok b2 → Inv (done ++ [a]) b2) ∧ (∀ err, f b a = .error err → Bad))
    (done : List α) (b : β) (hinv : Inv done b) :
    (∀ b2, l.foldlM f b = .ok b2 → Inv (done ++ l) b2) ∧
      (∀ err, l.foldlM f b = .error err → Bad) := by
  induction l generalizing done b with
  | nil =>
    constructor
    · intro b2 h
      simp only [List.foldlM_nil] at h
      injection h with h
      subst h
      simpa using hinv
    · intro err h
      simp only [List.foldlM_nil] at h
      exact Except.noConfusion h
  | cons a t ih =>
    obtain ⟨s1, s2⟩ := hstep done a b (List.mem_cons_self _ _) hinv
    cases hfa : f b a with
    | error err0 =>
      constructor
      · intro b2 h
        rw [List.foldlM_cons, hfa] at h
        exact Except.noConfusion h
      · intro err _
        exact s2 err0 hfa
    | ok b1 =>
      have h1 := ih (fun done a b ha => hstep done a b (List.mem_cons_of_mem _ ha))
        (done ++ [a]) b1 (s1 b1 hfa)
      constructor
      · intro b2 h
        rw [List.foldlM_cons, hfa] at h
        have := h1.1 b2 h
        simpa using this
      · intro err h
        rw [List.foldlM_cons, hfa] at h
        exact h1.2 err h

theorem matrix_inv_congr (done : Map Net POSSIBLE_BITINDICES) (e : Net × POSSIBLE_BITINDICES)
    (s1 s2 : MPG → MPG → Prop) (m : OffsetMatrix) (h : ∀ X Y, s1 X Y ↔ s2 X Y)
    (hinv : matrix_inv done e s1 m) : matrix_inv done e s2 m := by
  intro X Y x
  rw [hinv X Y x, h X Y, h Y X]

theorem all_possible_indices_eq (n : Net) (pbi : POSSIBLE_BITINDICES) :
    all_possible_indices pbi = Map.ofList (observed (n, pbi)) := by
  unfold all_possible_indices Map.ofList observed
  rw [List.foldl_map]

theorem keys_observed (e : Net × POSSIBLE_BITINDICES) : Map.keys (observed e) = Map.keys e.2 := by
  unfold observed Map.keys
  rw [List.map_map]
  rfl

theorem mem_all_possible_indices (e : Net × POSSIBLE_BITINDICES) (he : (Map.keys e.2).Nodup)
    (q : MPG × Nat) : q ∈ all_possible_indices e.2 ↔ q ∈ observed e := by
  rw [all_possible_indices_eq e.1 e.2]
  have hk : (Map.keys (observed (e.1, e.2))).Nodup := by
    rw [keys_observed]
    exact he
  have h1 := Map.find?_ofList (observed (e.1, e.2)) hk q.1 q.2
  have h2 := Map.find?_iff_mem (Map.ofList (observed (e.1, e.2))) (Map.WF_ofList _) q.1 q.2
  exact h2.symm.trans h1

theorem offset_on_keys (e : Net × POSSIBLE_BITINDICES) (X Y : MPG) (x : Int)
    (h : offset_on e X Y x) : X ∈ Map.keys e.2 ∧ Y ∈ Map.keys e.2 := by
  obtain ⟨a, b, ha, hb, _⟩ := h
  rw [← keys_observed]
  exact ⟨List.mem_map.2 ⟨(X, a), ha, rfl⟩, List.mem_map.2 ⟨(Y, b), hb, rfl⟩⟩

/-- The two nested loops of `build_offset_matrix` for one net `e`, started on a
matrix that records the offsets of the nets `done`. -/
theorem offset_net_step (done : Map Net POSSIBLE_BITINDICES) (e : Net × POSSIBLE_BITINDICES)
    (he : (Map.keys e.2).Nodup) (m : OffsetMatrix)
    (hinv : ∀ X Y x, OffsetMatrix.entry m X Y = some x ↔ offset_in done X Y x) :
    (∀ m2, offset_net m e.2 = .ok m2 →
        ∀ X Y x, OffsetMatrix.entry m2 X Y = some x ↔ offset_in (done ++ [e]) X Y x) ∧
      (∀ err, offset_net m e.2 = .error err → offset_conflict (done ++ [e])) := by
  have hinner : ∀ (p : MPG × List Nat), p ∈ e.2 → ∀ (seen : MPG → MPG → Prop) (m1 : OffsetMatrix),
      matrix_inv done e seen m1 →
      (∀ m2, (all_possible_indices e.2).foldlM (offset_check p.1 p.2) m1 = .ok m2 →
          matrix_inv done e (fun X Y => seen X Y ∨ (X = p.1 ∧ Y ∈ Map.keys e.2)) m2) ∧
        (∀ err, (all_possible_indices e.2).foldlM (offset_check p.1 p.2) m1 = .error err →
          offset_conflict (done ++ [e])) := by
    intro p hp seen m1 hm1
    have hA : (p.1, first_index p.2) ∈ observed e := List.mem_map.2 ⟨p, hp, rfl⟩
    have h := foldlM_except_inv (offset_check p.1 p.2)
      (fun qs m2 => matrix_inv done e (fun X Y => seen X Y ∨ (X = p.1 ∧ Y ∈ Map.keys qs)) m2)
      (offset_conflict (done ++ [e])) (all_possible_indices e.2)
      (by
        intro qs q m2 hq hm2
        have hB : (q.1, q.2) ∈ observed e := (mem_all_possible_indices e he q).1 hq
        obtain ⟨c1, c2⟩ := offset_check_step done e he _ m2 hm2 p.1 p.2 q.1 q.2 hA hB
        refine ⟨fun m3 hm3 => ?_, c2⟩
        apply matrix_inv_congr done e _ _ m3 _ (c1 m3 hm3)
        intro X Y
        simp only [Map.keys, List.map_append, List.map_cons, List.map_nil, List.mem_append,
          List.mem_singleton]
        constructor
        · rintro ((h1 | ⟨h1, h2⟩) | ⟨h1, h2⟩)
          · exact Or.inl h1
          · exact Or.inr ⟨h1, Or.inl h2⟩
          · exact Or.inr ⟨h1, Or.inr h2⟩
        · rintro (h1 | ⟨h1, h2 | h2⟩)
          · exact Or.inl (Or.inl h1)
          · exact Or.inl (Or.inr ⟨h1, h2⟩)
          · exact Or.inr ⟨h1, h2⟩)
      [] m1
      (by
        apply matrix_inv_congr done e _ _ m1 _ hm1
        intro X Y
        simp [Map.keys])
    refine ⟨fun m2 hm2 => ?_, h.2⟩
    apply matrix_inv_congr done e _ _ m2 _ (h.1 m2 hm2)
    intro X Y
    have hk : Y ∈ Map.keys ([] ++ all_possible_indices e.2) ↔ Y ∈ Map.keys e.2 := by
      rw [List.nil_append, all_possible_indices_eq e.1 e.2, Map.mem_keys_ofList, keys_observed]
    rw [hk]
  have houter := foldlM_except_inv
    (fun m1 (p : MPG × List Nat) => (all_possible_indices e.2).foldlM (offset_check p.1 p.2) m1)
    (fun ps m2 => matrix_inv done e (fun X Y => X ∈ Map.keys ps ∧ Y ∈ Map.keys e.2) m2)
    (offset_conflict (done ++ [e])) e.2
    (by
      intro ps p m1 hp hm1
      obtain ⟨c1, c2⟩ := hinner p hp _ m1 hm1
      refine ⟨fun m3 hm3 => ?_, c2⟩
      apply matrix_inv_congr done e _ _ m3 _ (c1 m3 hm3)
      intro X Y
      simp only [Map.keys, List.map_append, List.map_cons, List.map_nil, List.mem_append,
        List.mem_singleton]
      constructor
      · rintro (⟨h1, h2⟩ | ⟨h1, h2⟩)
        · exact ⟨Or.inl h1, h2⟩
        · exact ⟨Or.inr h1, h2⟩
      · rintro ⟨h1 | h1, h2⟩
        · exact Or.inl ⟨h1, h2⟩
        · exact Or.inr ⟨h1, h2⟩)
    [] m
    (by
      intro X Y x
      rw [hinv X Y x]
      simp [Map.keys])
  unfold offset_net
  refine ⟨fun m2 hm2 => ?_, houter.2⟩
  have h := houter.1 m2 hm2
  intro X Y x
  rw [h X Y x, offset_in_append, offset_in_singleton]
  constructor
  · rintro (h1 | ⟨h1, _⟩)
    · exact Or.inl h1
    · exact Or.inr h1
  · rintro (h1 | h1)
    · exact Or.inl h1
    · have := offset_on_keys e X Y x h1
      exact Or.inr ⟨h1, Or.inl (by simpa using this)⟩

theorem offset_conflict_mono (P Q : Map Net POSSIBLE_BITINDICES) (h : ∀ e ∈ P, e ∈ Q)
    (hc : offset_conflict P) : offset_conflict Q := by
  obtain ⟨A, B, x, y, ⟨e1, he1, h1⟩, ⟨e2, he2, h2⟩, hne⟩ := hc
  exact ⟨A, B, x, y, ⟨e1, h e1 he1, h1⟩, ⟨e2, h e2 he2, h2⟩, hne⟩

/-- The matrix `build_offset_matrix` returns records exactly the offsets given
by the nets, and an error means that two nets give different offsets for one
pair of origins. -/
theorem build_offset_matrix_spec (reduced : Map Net POSSIBLE_BITINDICES)
    (hin : ∀ e ∈ reduced, (Map.keys e.2).Nodup) :
    (∀ m, build_offset_matrix reduced = .ok m →
        ∀ X Y x, OffsetMatrix.entry m X Y = some x ↔ offset_in reduced X Y x) ∧
      (∀ err, build_offset_matrix reduced = .error err → offset_conflict reduced) := by
  have h := foldlM_except_inv (fun m (p : Net × POSSIBLE_BITINDICES) => offset_net m p.2)
    (fun done m => (∀ e ∈ done, e ∈ reduced) ∧
      ∀ X Y x, OffsetMatrix.entry m X Y = some x ↔ offset_in done X Y x)
    (offset_conflict reduced) reduced
    (by
      intro done e m he hm
      obtain ⟨c1, c2⟩ := offset_net_step done e (hin e he) m hm.2
      have hsub : ∀ e2 ∈ done ++ [e], e2 ∈ reduced := by
        intro e2 he2
        rcases List.mem_append.1 he2 with h1 | h1
        · exact hm.1 e2 h1
        · rw [List.mem_singleton.1 h1]
          exact he
      exact ⟨fun m2 hm2 => ⟨hsub, c1 m2 hm2⟩,
        fun err herr => offset_conflict_mono _ _ hsub (c2 err herr)⟩)
    [] []
    (by
      refine ⟨by simp, ?_⟩
      intro X Y x
      simp [OffsetMatrix.entry, Map.find?, offset_in])
  unfold build_offset_matrix
  refine ⟨fun m hm => ?_, h.2⟩
  have := (h.1 m hm).2
  simpa using this

theorem mem_observed_singleton (e : Net × POSSIBLE_BITINDICES)
    (hs : ∀ o ∈ e.2, o.2.length = 1) (A : MPG) (a : Nat) :
    (A, a) ∈ observed e ↔ (A, [a]) ∈ e.2 := by
  unfold observed
  constructor
  · intro h
    obtain ⟨o, ho, hoe⟩ := List.mem_map.1 h
    simp only [Prod.mk.injEq] at hoe
    have h1 : o.2 = [a] := by
      apply singleton_eq_of_first o.2 [a] (hs o ho) rfl
      rw [hoe.2]
      rfl
    have : o = (A, [a]) := Prod.ext hoe.1 h1
    rw [← this]
    exact ho
  · intro h
    exact List.mem_map.2 ⟨(A, [a]), h, rfl⟩

theorem entry_functional (reduced : Map Net POSSIBLE_BITINDICES) (m : OffsetMatrix)
    (hm : ∀ X Y x, OffsetMatrix.entry m X Y = some x ↔ offset_in reduced X Y x) :
    ¬ offset_conflict reduced := by
  rintro ⟨A, B, x, y, hx, hy, hne⟩
  have h1 := (hm A B x).2 hx
  have h2 := (hm A B y).2 hy
  rw [h1] at h2
  simp only [Option.some.injEq] at h2
  exact hne h2

/-- C8: characterisation of `build_offset_matrix` on evidence in which every
index set is a singleton.  It returns an error exactly when two nets both
observe two origins `A` and `B` with different values of `index_B - index_A`;
when it succeeds, on every net and for every two origins `A`, `B` observed on
it, `matrix[A][B]` is recorded and `index_B = index_A + matrix[A][B]`, and the
matrix has no other entries.  All arithmetic is the 32-bit arithmetic of the
code. -/
theorem build_offset_matrix_characterisation (reduced : Map Net POSSIBLE_BITINDICES)
    (hwf : nets_WF reduced) (hsingle : ∀ e ∈ reduced, ∀ o ∈ e.2, o.2.length = 1) :
    ((∃ err, build_offset_matrix reduced = .error err) ↔
      ∃ A B, ∃ e1 ∈ reduced, ∃ e2 ∈ reduced, ∃ a1 b1 a2 b2 : Nat,
        (A, [a1]) ∈ e1.2 ∧ (B, [b1]) ∈ e1.2 ∧ (A, [a2]) ∈ e2.2 ∧ (B, [b2]) ∈ e2.2 ∧
        i32 ((b1 : Int) - (a1 : Int)) ≠ i32 ((b2 : Int) - (a2 : Int))) ∧
    (∀ m, build_offset_matrix reduced = .ok m →
      (∀ e ∈ reduced, ∀ A B, ∀ a b : Nat, (A, [a]) ∈ e.2 → (B, [b]) ∈ e.2 →
        ∃ x, OffsetMatrix.entry m A B = some x ∧ x = i32 ((b : Int) - (a : Int)) ∧
          i32 ((a : Int) + x) = i32 (b : Int)) ∧
      (∀ A B x, OffsetMatrix.entry m A B = some x →
        ∃ e ∈ reduced, ∃ a b : Nat, (A, [a]) ∈ e.2 ∧ (B, [b]) ∈ e.2)) := by
  obtain ⟨hn, hin⟩ := nets_WF_nodup reduced hwf
  obtain ⟨hok, herr⟩ := build_offset_matrix_spec reduced hin
  refine ⟨⟨?_, ?_⟩, ?_⟩
  · rintro ⟨err, he⟩
    obtain ⟨A, B, x, y, ⟨e1, he1, a1, b1, ha1, hb1, hx⟩, ⟨e2, he2, a2, b2, ha2, hb2, hy⟩, hne⟩ :=
      herr err he
    refine ⟨A, B, e1, he1, e2, he2, a1, b1, a2, b2,
      (mem_observed_singleton e1 (hsingle e1 he1) A a1).1 ha1,
      (mem_observed_singleton e1 (hsingle e1 he1) B b1).1 hb1,
      (mem_observed_singleton e2 (hsingle e2 he2) A a2).1 ha2,
      (mem_observed_singleton e2 (hsingle e2 he2) B b2).1 hb2, ?_⟩
    rw [← hx, ← hy]
    exact hne
  · rintro ⟨A, B, e1, he1, e2, he2, a1, b1, a2, b2, ha1, hb1, ha2, hb2, hne⟩
    cases hres : build_offset_matrix reduced with
    | error err => exact ⟨err, rfl⟩
    | ok m =>
      exfalso
      apply entry_functional reduced m (hok m hres)
      exact ⟨A, B, _, _,
        ⟨e1, he1, a1, b1, (mem_observed_singleton e1 (hsingle e1 he1) A a1).2 ha1,
          (mem_observed_singleton e1 (hsingle e1 he1) B b1).2 hb1, rfl⟩,
        ⟨e2, he2, a2, b2, (mem_observed_singleton e2 (hsingle e2 he2) A a2).2 ha2,
          (mem_observed_singleton e2 (hsingle e2 he2) B b2).2 hb2, rfl⟩, hne⟩
  · intro m hm
    constructor
    · intro e he A B a b ha hb
      refine ⟨i32 ((b : Int) - (a : Int)), ?_, rfl, ?_⟩
      · exact (hok m hm A B _).2 ⟨e, he, a, b,
          (mem_observed_singleton e (hsingle e he) A a).2 ha,
          (mem_observed_singleton e (hsingle e he) B b).2 hb, rfl⟩
      · unfold i32
        omega
    · intro A B x hx
      obtain ⟨e, he, a, b, ha, hb, _⟩ := (hok m hm A B x).1 hx
      exact ⟨e, he, a, b, (mem_observed_singleton e (hsingle e he) A a).1 ha,
        (mem_observed_singleton e (hsingle e he) B b).1 hb⟩

/-- An instance of C8 on concrete evidence. -/
theorem build_offset_matrix_characterisation_witness :
    nets_WF exAgree ∧ (∀ e ∈ exAgree, ∀ o ∈ e.2, o.2.length = 1) ∧
    build_offset_matrix exAgree
      = .ok [(exA, [(exA, 0), (exB, 4)]), (exB, [(exA, -4), (exB, 0)])] ∧
    (((∃ err, build_offset_matrix exAgree = .error err) ↔
      ∃ A B, ∃ e1 ∈ exAgree, ∃ e2 ∈ exAgree, ∃ a1 b1 a2 b2 : Nat,
        (A, [a1]) ∈ e1.2 ∧ (B, [b1]) ∈ e1.2 ∧ (A, [a2]) ∈ e2.2 ∧ (B, [b2]) ∈ e2.2 ∧
        i32 ((b1 : Int) - (a1 : Int)) ≠ i32 ((b2 : Int) - (a2 : Int))) ∧
    (∀ m, build_offset_matrix exAgree = .ok m →
      (∀ e ∈ exAgree, ∀ A B, ∀ a b : Nat, (A, [a]) ∈ e.2 → (B, [b]) ∈ e.2 →
        ∃ x, OffsetMatrix.entry m A B = some x ∧ x = i32 ((b : Int) - (a : Int)) ∧
          i32 ((a : Int) + x) = i32 (b : Int)) ∧
      (∀ A B x, OffsetMatrix.entry m A B = some x →
        ∃ e ∈ exAgree, ∃ a b : Nat, (A, [a]) ∈ e.2 ∧ (B, [b]) ∈ e.2))) :=
  ⟨by decide, by decide, rfl,
    build_offset_matrix_characterisation exAgree (by decide) (by decide)⟩

/-- C9: offset symmetry.  In every matrix `build_offset_matrix` returns, for
all origins `A` and `B`, `matrix[A][B]` is recorded exactly when `matrix[B][A]`
is, and then `matrix[A][B] = -matrix[B][A]` in the 32-bit arithmetic of the
code, which is the integer negation unless the offset is `-2 ^ 31`. -/
theorem build_offset_matrix_symmetric (reduced : Map Net POSSIBLE_BITINDICES) (m : OffsetMatrix)
    (hwf : nets_WF reduced) (hm : build_offset_matrix reduced = .ok m) (A B : MPG) :
    ((OffsetMatrix.entry m A B).isSome ↔ (OffsetMatrix.entry m B A).isSome) ∧
      ∀ x y, OffsetMatrix.entry m A B = some x → OffsetMatrix.entry m B A = some y →
        x = i32 (-y) ∧ (y ≠ -2147483648 → x = -y) := by
  obtain ⟨hn, hin⟩ := nets_WF_nodup reduced hwf
  have hok := (build_offset_matrix_spec reduced hin).1 m hm
  have hsym : ∀ X Y x, OffsetMatrix.entry m X Y = some x →
      OffsetMatrix.entry m Y X = some (i32 (-x)) := by
    intro X Y x hx
    exact (hok Y X _).2 (offset_in_symm reduced X Y x ((hok X Y x).1 hx))
  constructor
  · constructor
    · intro h
      obtain ⟨x, hx⟩ := Option.isSome_iff_exists.1 h
      rw [hsym A B x hx]
      rfl
    · intro h
      obtain ⟨y, hy⟩ := Option.isSome_iff_exists.1 h
      rw [hsym B A y hy]
      rfl
  · intro x y hx hy
    have h1 := hsym B A y hy
    rw [hx] at h1
    simp only [Option.some.injEq] at h1
    have hr : i32 y = y := offset_in_range reduced B A y ((hok B A y).1 hy)
    refine ⟨h1, ?_⟩
    intro hne
    rw [h1]
    unfold i32 at hr ⊢
    omega

/-- An instance of C9 on concrete evidence. -/
theorem build_offset_matrix_symmetric_witness :
    nets_WF exAgree ∧
    build_offset_matrix exAgree
      = .ok [(exA, [(exA, 0), (exB, 4)]), (exB, [(exA, -4), (exB, 0)])] ∧
    (((OffsetMatrix.entry [(exA, [(exA, 0), (exB, 4)]), (exB, [(exA, -4), (exB, 0)])] exA exB).isSome ↔
      (OffsetMatrix.entry [(exA, [(exA, 0), (exB, 4)]), (exB, [(exA, -4), (exB, 0)])] exB exA).isSome) ∧
      ∀ x y, OffsetMatrix.entry [(exA, [(exA, 0), (exB, 4)]), (exB, [(exA, -4), (exB, 0)])] exA exB = some x →
        OffsetMatrix.entry [(exA, [(exA, 0), (exB, 4)]), (exB, [(exA, -4), (exB, 0)])] exB exA = some y →
        x = i32 (-y) ∧ (y ≠ -2147483648 → x = -y)) :=
  ⟨by decide, rfl,
    build_offset_matrix_symmetric exAgree [(exA, [(exA, 0), (exB, 4)]), (exB, [(exA, -4), (exB, 0)])]
      (by decide) (by rfl) exA exB⟩

theorem chain_sum_on_net (reduced : Map Net POSSIBLE_BITINDICES) (m : OffsetMatrix)
    (hok : ∀ X Y x, OffsetMatrix.entry m X Y = some x ↔ offset_in reduced X Y x)
    (e : Net × POSSIBLE_BITINDICES) (he : e ∈ reduced) (chain : List MPG) (hne : chain ≠ [])
    (hall : ∀ X ∈ chain, X ∈ Map.keys e.2) :
    ∃ s, ∃ a b : Nat, chain_sum m chain = some s ∧ (chain.head hne, a) ∈ observed e ∧
      (chain.getLast hne, b) ∈ observed e ∧ i32 s = i32 ((b : Int) - (a : Int)) := by
  have hobs : ∀ X ∈ Map.keys e.2, ∃ a, (X, a) ∈ observed e := by
    intro X hX
    rw [← keys_observed] at hX
    obtain ⟨q, hq, hqe⟩ := List.mem_map.1 hX
    exact ⟨q.2, by rw [← hqe]; exact hq⟩
  induction chain with
  | nil => exact absurd rfl hne
  | cons X t ih =>
    cases t with
    | nil =>
      obtain ⟨a, ha⟩ := hobs X (hall X (List.mem_cons_self _ _))
      refine ⟨0, a, a, rfl, ha, ha, ?_⟩
      simp
    | cons Y t2 =>
      obtain ⟨s, a, b, hs, ha, hb, hsum⟩ := ih (List.cons_ne_nil _ _)
        (fun Z hZ => hall Z (List.mem_cons_of_mem _ hZ))
      obtain ⟨a0, ha0⟩ := hobs X (hall X (List.mem_cons_self _ _))
      have hentry : OffsetMatrix.entry m X Y = some (i32 ((a : Int) - (a0 : Int))) :=
        (hok X Y _).2 ⟨e, he, a0, a, ha0, ha, rfl⟩
      refine ⟨i32 ((a : Int) - (a0 : Int)) + s, a0, b, ?_, ha0, hb, ?_⟩
      · simp only [chain_sum, hentry, hs]
      · unfold i32 at hsum ⊢
        omega

/-- C10, as the code has it: whenever `build_offset_matrix` succeeds, for every
net and every chain of origins that are all observed on that net, every link of
the chain is recorded and the sum of the recorded offsets along the chain
equals, in 32-bit arithmetic, the recorded offset from the first to the last
origin of the chain. -/
theorem build_offset_matrix_chain_on_net (reduced : Map Net POSSIBLE_BITINDICES) (m : OffsetMatrix)
    (hwf : nets_WF reduced) (hm : build_offset_matrix reduced = .ok m)
    (e : Net × POSSIBLE_BITINDICES) (he : e ∈ reduced) (chain : List MPG) (hne : chain ≠ [])
    (hall : ∀ X ∈ chain, X ∈ Map.keys e.2) :
    ∃ s x, chain_sum m chain = some s ∧
      OffsetMatrix.entry m (chain.head hne) (chain.getLast hne) = some x ∧ i32 s = x := by
  obtain ⟨hn, hin⟩ := nets_WF_nodup reduced hwf
  have hok := (build_offset_matrix_spec reduced hin).1 m hm
  obtain ⟨s, a, b, hs, ha, hb, hsum⟩ := chain_sum_on_net reduced m hok e he chain hne hall
  exact ⟨s, i32 ((b : Int) - (a : Int)), hs, (hok _ _ _).2 ⟨e, he, a, b, ha, hb, rfl⟩, hsum⟩

/-- An instance of C10 in its amended form on concrete evidence. -/
theorem build_offset_matrix_chain_on_net_witness :
    nets_WF exChain ∧
    build_offset_matrix exChain
      = .ok [(exA, [(exA, 0), (exB, 1), (exC, 5)]), (exB, [(exA, -1), (exB, 0), (exC, 1)]),
          (exC, [(exA, -5), (exB, -1), (exC, 0)])] ∧
    ((10, [(exA, [0]), (exB, [1])]) : Net × POSSIBLE_BITINDICES) ∈ exChain ∧
    (∀ X ∈ [exA, exB, exA, exB], X ∈ Map.keys [(exA, [0]), (exB, [1])]) ∧
    ∃ s x, chain_sum [(exA, [(exA, 0), (exB, 1), (exC, 5)]), (exB, [(exA, -1), (exB, 0), (exC, 1)]),
          (exC, [(exA, -5), (exB, -1), (exC, 0)])] [exA, exB, exA, exB] = some s ∧
      OffsetMatrix.entry [(exA, [(exA, 0), (exB, 1), (exC, 5)]), (exB, [(exA, -1), (exB, 0), (exC, 1)]),
          (exC, [(exA, -5), (exB, -1), (exC, 0)])] exA exB = some x ∧ i32 s = x :=
  ⟨by decide, by rfl, by decide, by decide,
    build_offset_matrix_chain_on_net exChain _ (by decide) (by rfl)
      (10, [(exA, [0]), (exB, [1])]) (by decide) [exA, exB, exA, exB] (by simp) (by decide)⟩

/-- C10 fails as stated: on `exChain` the matrix is built without error, the
recorded offsets along the chain `exA, exB, exC` sum to 2 and the recorded
direct offset from `exA` to `exC` is 5; the group is not skipped, also in
strict mode. -/
theorem build_offset_matrix_chain_counterexample :
    ∃ m, build_offset_matrix exChain = .ok m ∧
      chain_sum m [exA, exB, exC] = some 2 ∧ chain_sum m [exA, exC] = some 5 ∧
      OffsetMatrix.entry m exA exC = some 5 ∧
      Map.find? (extract_well_formed_bitorder exNetlist [(exG, exChain)] true) exG
        = some [(10, 1), (11, 0), (12, 2)] :=
  ⟨[(exA, [(exA, 0), (exB, 1), (exC, 5)]), (exB, [(exA, -1), (exB, 0), (exC, 1)]),
      (exC, [(exA, -5), (exB, -1), (exC, 0)])],
    by rfl, by decide, by decide, by decide, by decide⟩

/-! ## Termination of `get_offset` -/

theorem origin_pair_injective (x y t : MPG) (h : origin_pair x t = origin_pair y t) : x = y := by
  unfold origin_pair at h
  by_cases hx : x < t
  · rw [if_pos hx] at h
    by_cases hy : y < t
    · rw [if_pos hy] at h
      simp only [List.cons.injEq, and_true] at h
      exact h
    · rw [if_neg hy] at h
      by_cases hy2 : y = t
      · rw [if_pos hy2] at h
        simp at h
      · rw [if_neg hy2] at h
        simp only [List.cons.injEq, and_true] at h
        exact absurd h.1 (ne_of_lt hx)
  · rw [if_neg hx] at h
    by_cases hx2 : x = t
    · rw [if_pos hx2] at h
      by_cases hy : y < t
      · rw [if_pos hy] at h
        simp at h
      · rw [if_neg hy] at h
        by_cases hy2 : y = t
        · rw [hx2, hy2]
        · rw [if_neg hy2] at h
          simp at h
    · rw [if_neg hx2] at h
      by_cases hy : y < t
      · rw [if_pos hy] at h
        simp only [List.cons.injEq, and_true] at h
        exact absurd h.1.symm (ne_of_lt hy)
      · rw [if_neg hy] at h
        by_cases hy2 : y = t
        · rw [if_pos hy2] at h
          simp at h
        · rw [if_neg hy2] at h
          simp only [List.cons.injEq, and_true] at h
          exact h.2

theorem countP_lt_of_mem {α : Type} (p q : α → Bool) (l : List α) (x : α)
    (hqp : ∀ y ∈ l, q y = true → p y = true) (hx : x ∈ l) (hpx : p x = true) (hqx : q x = false) :
    l.countP q < l.countP p := by
  induction l with
  | nil => simp at hx
  | cons a t ih =>
    have hle : t.countP q ≤ t.countP p :=
      List.countP_mono_left (fun y hy => hqp y (List.mem_cons_of_mem _ hy))
    rcases List.mem_cons.1 hx with e | e
    · subst e
      rw [List.countP_cons_of_pos _ _ hpx, List.countP_cons_of_neg _ _ (by simp [hqx])]
      omega
    · have h1 := ih (fun y hy => hqp y (List.mem_cons_of_mem _ hy)) e
      by_cases hqa : q a = true
      · rw [List.countP_cons_of_pos _ _ hqa,
          List.countP_cons_of_pos _ _ (hqp a (List.mem_cons_self _ _) hqa)]
        omega
      · rw [List.countP_cons_of_neg _ _ hqa]
        by_cases hpa : p a = true
        · rw [List.countP_cons_of_pos _ _ hpa]
          omega
        · rw [List.countP_cons_of_neg _ _ hpa]
          exact h1

theorem remaining_cons_lt (K : List MPG) (t x : MPG) (v : List (List MPG)) (hx : x ∈ K)
    (hv : origin_pair x t ∉ v) : remaining K t (origin_pair x t :: v) < remaining K t v := by
  unfold remaining
  apply countP_lt_of_mem _ _ _ x
  · intro y _ hy
    simp only [List.mem_cons, not_or, decide_eq_true_eq] at hy ⊢
    exact hy.2
  · exact List.mem_dedup.2 hx
  · simpa using hv
  · simp

theorem remaining_mono (K : List MPG) (t : MPG) (v w : List (List MPG)) (h : ∀ p ∈ v, p ∈ w) :
    remaining K t w ≤ remaining K t v := by
  unfold remaining
  apply List.countP_mono_left
  intro y _ hy
  simp only [decide_eq_true_eq] at hy ⊢
  exact fun hc => hy (h _ hc)

theorem remaining_le (K : List MPG) (t : MPG) (v : List (List MPG)) :
    remaining K t v ≤ K.length := by
  unfold remaining
  exact (List.countP_le_length _).trans (List.dedup_sublist K).length_le

theorem is_column_set (m : OffsetMatrix) (a b : MPG) (x : Int) (y : MPG)
    (h : is_column (OffsetMatrix.set m a b x) y) : y = b ∨ is_column m y := by
  obtain ⟨a2, x2, h2⟩ := h
  rw [entry_set] at h2
  by_cases hc : a2 = a ∧ y = b
  · exact Or.inl hc.2
  · rw [if_neg hc] at h2
    exact Or.inr ⟨a2, x2, h2⟩

theorem is_column_of_row (m : OffsetMatrix) (org1 : MPG) (row : Map MPG Int)
    (h : Map.find? m org1 = some row) (p : MPG × Int) (hp : p ∈ row) : is_column m p.1 := by
  obtain ⟨x, hx⟩ := (mem_keys_iff_find? row p.1).1 (List.mem_map.2 ⟨p, hp, rfl⟩)
  refine ⟨org1, x, ?_⟩
  unfold OffsetMatrix.entry
  rw [h]
  exact hx

theorem get_offset_succ (fuel : Nat) (org1 org2 : MPG) (m : OffsetMatrix) (v : List (List MPG)) :
    get_offset (fuel + 1) org1 org2 m v =
      if origin_pair org1 org2 ∈ v then (none, m, v)
      else
        if org1 = org2 then (some 0, OffsetMatrix.set m org1 org2 0, origin_pair org1 org2 :: v)
        else
          match Map.find? m org1 with
          | none => (none, m, origin_pair org1 org2 :: v)
          | some row =>
            match Map.find? row org2 with
            | some offset => (some offset, m, origin_pair org1 org2 :: v)
            | none => get_offset_loop (fun dst m2 v2 => get_offset fuel dst org2 m2 v2) org1 org2 row m
                (origin_pair org1 org2 :: v) := rfl

theorem get_offset_loop_ok (K : List MPG) (t : MPG) (ht : t ∈ K) (v0 : List (List MPG))
    (call : MPG → OffsetMatrix → List (List MPG) → OffsetResult)
    (hcall : ∀ dst m v, offset_state_ok K v0 m v →
      offset_state_ok K v0 (call dst m v).2.1 (call dst m v).2.2)
    (org1 : MPG) (row : List (MPG × Int)) (m : OffsetMatrix) (v : List (List MPG))
    (h : offset_state_ok K v0 m v) :
    offset_state_ok K v0 (get_offset_loop call org1 t row m v).2.1
      (get_offset_loop call org1 t row m v).2.2 := by
  induction row generalizing m v with
  | nil => exact h
  | cons p rest ih =>
    obtain ⟨dst, first⟩ := p
    have hc := hcall dst m v h
    unfold get_offset_loop
    rcases hres : call dst m v with ⟨r, m1, v1⟩
    rw [hres] at hc
    cases r with
    | none => exact ih m1 v1 hc
    | some second =>
      refine ⟨?_, hc.2⟩
      intro y hy
      rcases is_column_set m1 org1 t _ y hy with e | e
      · rw [e]
        exact ht
      · exact hc.1 y e

theorem get_offset_ok (K : List MPG) (t : MPG) (ht : t ∈ K) (v0 : List (List MPG)) (n : Nat) :
    ∀ org1 m v, offset_state_ok K v0 m v →
      offset_state_ok K v0 (get_offset n org1 t m v).2.1 (get_offset n org1 t m v).2.2 := by
  induction n with
  | zero => intro org1 m v h; exact h
  | succ n ih =>
    intro org1 m v h
    have hv1 : offset_state_ok K v0 m (origin_pair org1 t :: v) :=
      ⟨h.1, fun p hp => List.mem_cons_of_mem _ (h.2 p hp)⟩
    rw [get_offset_succ]
    by_cases h1 : origin_pair org1 t ∈ v
    · rw [if_pos h1]
      exact h
    · rw [if_neg h1]
      by_cases h2 : org1 = t
      · rw [if_pos h2]
        refine ⟨?_, hv1.2⟩
        intro y hy
        rcases is_column_set m org1 t 0 y hy with e | e
        · rw [e]
          exact ht
        · exact h.1 y e
      · rw [if_neg h2]
        cases hrow : Map.find? m org1 with
        | none => exact hv1
        | some row =>
          simp only
          cases hdir : Map.find? row t with
          | some offset => exact hv1
          | none =>
            simp only
            exact get_offset_loop_ok K t ht v0 _ (fun dst m2 v2 h2 => ih dst m2 v2 h2) org1 row m _ hv1

theorem get_offset_loop_congr (K : List MPG) (t : MPG) (v0 : List (List MPG))
    (call1 call2 : MPG → OffsetMatrix → List (List MPG) → OffsetResult)
    (org1 : MPG) (row : List (MPG × Int)) (hrow : ∀ p ∈ row, p.1 ∈ K)
    (hcall : ∀ dst ∈ K, ∀ m v, offset_state_ok K v0 m v →
      call1 dst m v = call2 dst m v ∧ offset_state_ok K v0 (call2 dst m v).2.1 (call2 dst m v).2.2)
    (m : OffsetMatrix) (v : List (List MPG)) (h : offset_state_ok K v0 m v) :
    get_offset_loop call1 org1 t row m v = get_offset_loop call2 org1 t row m v := by
  induction row generalizing m v with
  | nil => rfl
  | cons p rest ih =>
    obtain ⟨dst, first⟩ := p
    obtain ⟨c1, c2⟩ := hcall dst (hrow (dst, first) (List.mem_cons_self _ _)) m v h
    unfold get_offset_loop
    rw [c1]
    rcases hres : call2 dst m v with ⟨r, m1, v1⟩
    rw [hres] at c2
    cases r with
    | none => exact ih (fun p hp => hrow p (List.mem_cons_of_mem _ hp)) m1 v1 c2
    | some second => rfl

/-- Once the fuel exceeds the number of origins of `K` not yet visited, more
fuel does not change the result of `get_offset`. -/
theorem get_offset_stable (K : List MPG) (t : MPG) (ht : t ∈ K) (n : Nat) :
    ∀ org1 m v, org1 ∈ K → (∀ y, is_column m y → y ∈ K) → remaining K t v < n →
      ∀ k, n ≤ k → get_offset k org1 t m v = get_offset n org1 t m v := by
  induction n with
  | zero => intro org1 m v _ _ h; omega
  | succ n ih =>
    intro org1 m v horg hcol hrem k hk
    obtain ⟨k2, hk2⟩ : ∃ k2, k = k2 + 1 := ⟨k - 1, by omega⟩
    subst hk2
    rw [get_offset_succ, get_offset_succ]
    by_cases h1 : origin_pair org1 t ∈ v
    · rw [if_pos h1, if_pos h1]
    · rw [if_neg h1, if_neg h1]
      by_cases h2 : org1 = t
      · rw [if_pos h2, if_pos h2]
      · rw [if_neg h2, if_neg h2]
        cases hrow : Map.find? m org1 with
        | none => rfl
        | some row =>
          simp only
          cases hdir : Map.find? row t with
          | some offset => rfl
          | none =>
            simp only
            have hlt := remaining_cons_lt K t org1 v horg h1
            apply get_offset_loop_congr K t (origin_pair org1 t :: v) _ _ org1 row
              (fun p hp => hcol p.1 (is_column_of_row m org1 row hrow p hp))
            · intro dst hdst m2 v2 h2
              constructor
              · apply ih dst m2 v2 hdst h2.1 _ k2 (by omega)
                have := remaining_mono K t _ v2 h2.2
                omega
              · exact get_offset_ok K t ht _ n dst m2 v2 h2
            · exact ⟨hcol, fun p hp => hp⟩

theorem length_columns_le (m : OffsetMatrix) :
    ∃ cols : List MPG, (∀ y, is_column m y → y ∈ cols) ∧
      cols.length = (m.map (fun r => r.2.length)).sum := by
  refine ⟨m.flatMap (fun r => Map.keys r.2), ?_, ?_⟩
  · rintro y ⟨a, x, h⟩
    unfold OffsetMatrix.entry at h
    cases hrow : Map.find? m a with
    | none =>
      rw [hrow] at h
      exact Option.noConfusion h
    | some row =>
      rw [hrow] at h
      simp only at h
      rw [List.mem_flatMap]
      exact ⟨(a, row), Map.mem_of_find? m a row hrow, (mem_keys_iff_find? row y).2 ⟨x, h⟩⟩
  · induction m with
    | nil => rfl
    | cons r t ih =>
      simp only [List.flatMap_cons, List.length_append, List.map_cons, List.sum_cons, ih]
      simp [Map.keys]

/-- The fuel `get_offset_fuel m` is enough: with an empty visited set, more
fuel gives the same result. -/
theorem get_offset_fuel_enough (org1 org2 : MPG) (m : OffsetMatrix) (k : Nat)
    (hk : get_offset_fuel m ≤ k) :
    get_offset k org1 org2 m [] = get_offset (get_offset_fuel m) org1 org2 m [] := by
  obtain ⟨cols, hcols, hlen⟩ := length_columns_le m
  apply get_offset_stable (org1 :: org2 :: cols) org2 (by simp) (get_offset_fuel m) org1 m []
    (by simp) (fun y hy => by simp [hcols y hy]) _ k hk
  have := remaining_le (org1 :: org2 :: cols) org2 []
  simp only [List.length_cons] at this
  unfold get_offset_fuel
  omega

/-! ## A conflict is confined to its group -/

/-- The output holds for an origin what the loop body finds for the evidence of
that origin, and nothing when the origin has no evidence. -/
theorem extract_find?_eq (nl : Netlist) (ev : Map MPG (Map Net POSSIBLE_BITINDICES)) (strict : Bool)
    (hev : Map.WF ev) (g : MPG) :
    Map.find? (extract_well_formed_bitorder nl ev strict) g
      = (Map.find? ev g).bind (wellformed_bitorder nl strict g) := by
  cases h : Map.find? ev g with
  | none =>
    have hk : g ∉ Map.keys ev := not_mem_keys_of_find? ev g h
    have := extract_foldl_not_mem nl strict g ev [] hk
    simpa [extract_well_formed_bitorder, Map.find?] using this
  | some nets =>
    simpa using extract_find? nl ev strict (Map.nodup_keys_of_WF ev hev) g nets
      (Map.mem_of_find? ev g nets h)

/-- C12: a conflict is confined to its group.  The extractor is a total
function (it has no failing result), and for well-formed evidence the outcome
for an origin `g` (whether it is in the output, and its bit order) is the value
of `wellformed_bitorder` on the pins and the evidence of `g` alone; two inputs
that agree on `g` give the same outcome for `g`, whatever the other groups
hold. -/
theorem extract_group_confined (nl : Netlist) (ev1 ev2 : Map MPG (Map Net POSSIBLE_BITINDICES))
    (strict : Bool) (g : MPG) (h1 : Map.WF ev1) (h2 : Map.WF ev2)
    (h : Map.find? ev1 g = Map.find? ev2 g) :
    Map.find? (extract_well_formed_bitorder nl ev1 strict) g
        = Map.find? (extract_well_formed_bitorder nl ev2 strict) g
      ∧ Map.find? (extract_well_formed_bitorder nl ev1 strict) g
        = (Map.find? ev1 g).bind (wellformed_bitorder nl strict g) := by
  rw [extract_find?_eq nl ev1 strict h1 g, extract_find?_eq nl ev2 strict h2 g, h]
  exact ⟨rfl, rfl⟩

/-- An instance of C12 on concrete evidence: the group `exH` has irreconcilable
offsets (no offset matrix), and `exG` gets the same bit order with and without
it. -/
theorem extract_group_confined_witness :
    build_offset_matrix exIrreconcilable = .error (exA, exB)
      ∧ Map.find? (extract_well_formed_bitorder exNetlist exTwoGroups true) exH = none
      ∧ Map.find? (extract_well_formed_bitorder exNetlist exTwoGroups true) exG
        = some [(10, 2), (11, 0), (12, 1)]
      ∧ (Map.find? (extract_well_formed_bitorder exNetlist exTwoGroups true) exG
          = Map.find? (extract_well_formed_bitorder exNetlist exOneGroup true) exG
        ∧ Map.find? (extract_well_formed_bitorder exNetlist exTwoGroups true) exG
          = (Map.find? exTwoGroups exG).bind (wellformed_bitorder exNetlist true exG)) :=
  ⟨by rfl, by decide, by decide,
    extract_group_confined exNetlist exTwoGroups exOneGroup true exG (by decide) (by decide)
      (by decide)⟩

/-! ## A single known origin -/

theorem prune_id (drop : Net → MPG × List Nat → Bool) (nets : Map Net POSSIBLE_BITINDICES)
    (h : ∀ e ∈ nets, e.2 ≠ [] ∧ ∀ o ∈ e.2, drop e.1 o = false) : prune drop nets = nets := by
  unfold prune
  induction nets with
  | nil => rfl
  | cons e t ih =>
    have he := h e (List.mem_cons_self _ _)
    have hf : e.2.filter (fun o => !drop e.1 o) = e.2 := by
      apply List.filter_eq_self.2
      intro o ho
      simp [he.2 o ho]
    have hne : (e.2.filter (fun o => !drop e.1 o)).isEmpty = false := by
      rw [hf]
      cases h2 : e.2 with
      | nil => exact absurd h2 he.1
      | cons _ _ => rfl
    rw [List.filterMap_cons]
    simp only [hne, Bool.false_eq_true, if_false]
    rw [hf, ih (fun e1 h1 => h e1 (List.mem_cons_of_mem _ h1))]

theorem countP_lt_range (n k : Nat) : (List.range n).countP (fun x => decide (x < k)) = min k n := by
  induction n with
  | zero => simp
  | succ n ih =>
    rw [List.range_succ, List.countP_append, ih]
    by_cases h : n < k
    · simp [List.countP_cons, h]
      omega
    · simp [List.countP_cons, h]
      omega

theorem perm_range_of_nodup (l : List Nat) (h1 : l.Nodup) (h2 : ∀ x ∈ l, x < l.length) :
    List.Perm l (List.range l.length) := by
  apply List.perm_of_nodup_nodup_toFinset_eq h1 (List.nodup_range _)
  have hr : (List.range l.length).toFinset = Finset.range l.length := by
    ext x
    simp
  rw [hr]
  apply Finset.eq_of_subset_of_card_le
  · intro x hx
    exact Finset.mem_range.2 (h2 x (List.mem_toFinset.1 hx))
  · rw [Finset.card_range, List.toFinset_card_of_nodup h1]

/-- The number of elements ranked below `k` by a numbering of a duplicate-free
list with the numbers `0, ..., length - 1`. -/
theorem countP_numbering (l : List Net) (order : Net → Nat) (hl : l.Nodup)
    (hinj : ∀ w1 ∈ l, ∀ w2 ∈ l, order w1 = order w2 → w1 = w2)
    (hrange : ∀ w ∈ l, order w < l.length) (k : Nat) (hk : k ≤ l.length) :
    (l.filter (fun n => decide (order n < k))).length = k
      ∧ List.Perm (l.map order) (List.range l.length) := by
  have hnd : (l.map order).Nodup := List.Nodup.map_on hinj hl
  have hp := perm_range_of_nodup (l.map order) hnd (by
    intro x hx
    obtain ⟨w, hw, rfl⟩ := List.mem_map.1 hx
    simpa using hrange w hw)
  rw [List.length_map] at hp
  refine ⟨?_, hp⟩
  rw [← List.countP_eq_length_filter]
  have h1 : l.countP (fun n => decide (order n < k))
      = (l.map order).countP (fun x => decide (x < k)) := by
    rw [List.countP_map]
    rfl
  rw [h1, hp.countP_eq, countP_lt_range]
  omega

/-- The offset matrix after a net with a single observation of `A`, from the
empty matrix or from the matrix that only holds the offset of `A` to itself. -/
theorem offset_net_single (A : MPG) (i : Nat) (m : OffsetMatrix)
    (hm : m = [] ∨ m = [(A, [(A, 0)])]) :
    offset_net m [(A, [i])] = .ok [(A, [(A, 0)])] := by
  have h0 : i32 ((i : Int) - i32 (i : Int)) = 0 := by
    rw [i32_sub_i32]
    simp [i32]
  have h1 : i32 (-0) = 0 := by simp [i32]
  have h2 : i32 0 = 0 := by simp [i32]
  rcases hm with rfl | rfl
  · simp [offset_net, all_possible_indices, first_index, offset_check, Map.getD, Map.find?,
      Map.insert, OffsetMatrix.set, List.foldlM, h0, h1, h2]
  · simp [offset_net, all_possible_indices, first_index, offset_check, Map.getD, Map.find?,
      Map.insert, List.foldlM, i32_idem]

theorem build_offset_matrix_single (A : MPG) (order : Net → Nat) (nets : Map Net POSSIBLE_BITINDICES)
    (hobs : ∀ e ∈ nets, e.2 = [(A, [order e.1])]) (hne : nets ≠ []) :
    build_offset_matrix nets = .ok [(A, [(A, 0)])] := by
  have key : ∀ (l : Map Net POSSIBLE_BITINDICES) (m : OffsetMatrix),
      (∀ e ∈ l, e.2 = [(A, [order e.1])]) → (m = [] ∨ m = [(A, [(A, 0)])]) →
      l.foldlM (fun m p => offset_net m p.2) m
        = .ok (if l = [] then m else [(A, [(A, 0)])]) := by
    intro l
    induction l with
    | nil => intro m _ _; rfl
    | cons e t ih =>
      intro m hl hm
      rw [List.foldlM_cons, hl e (List.mem_cons_self _ _), offset_net_single A _ m hm]
      have := ih [(A, [(A, 0)])] (fun e1 h1 => hl e1 (List.mem_cons_of_mem _ h1)) (Or.inr rfl)
      simp only [reduceCtorEq, if_false]
      rw [show (Except.ok [(A, [(A, (0 : Int))])] >>= fun m' =>
          List.foldlM (fun m p => offset_net m p.2) m' t)
        = List.foldlM (fun m p => offset_net m p.2) [(A, [(A, (0 : Int))])] t from rfl, this]
      split <;> rfl
  unfold build_offset_matrix
  rw [key nets [] hobs (Or.inl rfl)]
  simp [hne]

theorem consens_loop_single (A : MPG) (order : Net → Nat) (nets : Map Net POSSIBLE_BITINDICES)
    (hobs : ∀ e ∈ nets, e.2 = [(A, [order e.1])]) (acc : Map Net Int) :
    consens_loop A nets [(A, [(A, 0)])] acc
      = nets.foldl (fun c e => Map.insert c e.1 (i32 (order e.1 : Int))) acc := by
  induction nets generalizing acc with
  | nil => rfl
  | cons e t ih =>
    obtain ⟨net, obs⟩ := e
    have he : obs = [(A, [order net])] := hobs (net, obs) (List.mem_cons_self _ _)
    subst he
    have hg : get_offset (get_offset_fuel [(A, [(A, 0)])]) A A [(A, [(A, 0)])] []
        = (some 0, [(A, [(A, 0)])], [origin_pair A A]) := by
      simp [get_offset_fuel, get_offset_succ, OffsetMatrix.set, Map.getD, Map.find?, Map.insert]
    rw [consens_loop, hg]
    simp only [first_index, List.headD_cons, add_zero, i32_idem, List.foldl_cons]
    exact ih (fun e1 h1 => hobs e1 (List.mem_cons_of_mem _ h1)) _

theorem consens_bitindices_single (A : MPG) (order : Net → Nat) (nets : Map Net POSSIBLE_BITINDICES)
    (hwf : Map.WF nets) (hobs : ∀ e ∈ nets, e.2 = [(A, [order e.1])])
    (hinj : ∀ w1 ∈ Map.keys nets, ∀ w2 ∈ Map.keys nets, order w1 = order w2 → w1 = w2)
    (hne : nets ≠ []) :
    consens_bitindices nets
      = some (Map.ofList (nets.map (fun e => (e.1, i32 (order e.1 : Int))))) := by
  have hnd : (Map.keys nets).Nodup := Map.nodup_keys_of_WF nets hwf
  have hin : ∀ e ∈ nets, (Map.keys e.2).Nodup := by
    intro e he
    rw [hobs e he]
    simp [Map.keys]
  have h1 : remove_ambiguous nets = nets := by
    rw [remove_ambiguous_eq nets hnd hin]
    apply prune_id
    intro e he
    rw [hobs e he]
    simp
  have h2 : remove_duplicates nets = nets := by
    rw [remove_duplicates_eq nets hnd hin]
    apply prune_id
    intro e he
    refine ⟨by rw [hobs e he]; simp, ?_⟩
    intro o ho
    simp only [decide_eq_false_iff_not]
    intro hmem
    obtain ⟨e1, he1, e2, he2, hne12, hx1, hx2⟩ :=
      (mem_origin_indices_to_remove nets hnd hin _).1 hmem
    simp only [observed, hobs e1 he1, hobs e2 he2, List.map_cons, List.map_nil, first_index,
      List.headD_cons, List.mem_singleton] at hx1 hx2
    rw [hx1] at hx2
    simp only [Prod.mk.injEq, true_and] at hx2
    exact hne12 (hinj e1.1 (List.mem_map_of_mem _ he1) e2.1 (List.mem_map_of_mem _ he2) hx2)
  rw [consens_bitindices_eq, h1, h2]
  unfold consens_of_reduced
  have hem : nets.isEmpty = false := by
    cases nets with
    | nil => exact absurd rfl hne
    | cons _ _ => rfl
  rw [hem, build_offset_matrix_single A order nets hobs hne]
  simp only [Bool.false_eq_true, if_false]
  rw [consens_loop_single A order nets hobs, Map.ofList, List.foldl_map]

/-- C11: a single known origin.  Let the evidence `nets` of the group `g`
consist, for each net of its pins that is neither ground nor power, of exactly
one observation, with the single candidate index `order w`, all from the same
origin `A`, the indices being exactly `0, ..., n - 1` for the `n ≥ 1` nets
(`order` is injective on them and stays below `n`).  Then, strict or not,
`extract_well_formed_bitorder` outputs a bit order for `g`, and it gives every
net `w` the index `order w`, wherever the pin of `w` is in the group.  (A pin
group has fewer than `2 ^ 31` pins, the range of the signed index.) -/
theorem extract_single_origin (nl : Netlist) (ev : Map MPG (Map Net POSSIBLE_BITINDICES))
    (strict : Bool) (g A : MPG) (nets : Map Net POSSIBLE_BITINDICES) (order : Net → Nat)
    (hev : Map.WF ev) (hg : Map.find? ev g = some nets) (hwf : Map.WF nets)
    (hkeys : ∀ w, w ∈ Map.keys nets ↔ w ∈ wires nl g)
    (hobs : ∀ e ∈ nets, e.2 = [(A, [order e.1])])
    (hinj : ∀ w1 ∈ wires nl g, ∀ w2 ∈ wires nl g, order w1 = order w2 → w1 = w2)
    (hrange : ∀ w ∈ wires nl g, order w < (wires nl g).length)
    (hne : wires nl g ≠ []) (hsize : (nl.pins g).length < 2147483648) :
    ∃ al, Map.find? (extract_well_formed_bitorder nl ev strict) g = some al ∧
      (∀ w, w ∈ Map.keys al ↔ w ∈ wires nl g) ∧
      ∀ w ∈ wires nl g, Map.find? al w = some (order w) := by
  have hle := length_wires_le nl g
  have hn0 : nets ≠ [] := by
    intro h
    obtain ⟨w, hw⟩ := List.exists_mem_of_ne_nil _ hne
    have := (hkeys w).2 hw
    rw [h] at this
    exact absurd this (List.not_mem_nil _)
  have hnd : (Map.keys nets).Nodup := Map.nodup_keys_of_WF nets hwf
  have hc := consens_bitindices_single A order nets hwf hobs
    (fun w1 h1 w2 h2 => hinj w1 ((hkeys w1).1 h1) w2 ((hkeys w2).1 h2)) hn0
  -- the consensus index of every net is its index at `A`
  have hcons : ∀ w x, Map.find? (Map.ofList (nets.map (fun e => (e.1, i32 (order e.1 : Int))))) w
      = some x ↔ w ∈ wires nl g ∧ x = (order w : Int) := by
    intro w x
    rw [Map.find?_ofList _ (by simpa [Map.keys, List.map_map, Function.comp_def] using hnd)]
    constructor
    · intro h
      obtain ⟨e, he, heq⟩ := List.mem_map.1 h
      simp only [Prod.mk.injEq] at heq
      have hw : w ∈ wires nl g := (hkeys w).1 (heq.1 ▸ List.mem_map_of_mem _ he)
      refine ⟨hw, ?_⟩
      have := hrange w hw
      rw [← heq.2, heq.1, i32_of_range _ (by omega) (by omega)]
    · rintro ⟨hw, rfl⟩
      obtain ⟨e, he, heq⟩ := List.mem_map.1 ((hkeys w).2 hw)
      refine List.mem_map.2 ⟨e, he, ?_⟩
      have := hrange w hw
      simp only [Prod.mk.injEq]
      refine ⟨heq, ?_⟩
      rw [heq, i32_of_range _ (by omega) (by omega)]
  obtain ⟨cc, hcc⟩ := complete_consens_total nl
    (Map.ofList (nets.map (fun e => (e.1, i32 (order e.1 : Int))))) (nl.pins g) [] (by
      intro n hn hb
      exact ⟨(order n : Int), (hcons n _).2 ⟨(mem_wires nl g n).2 ⟨hn, hb⟩, rfl⟩⟩)
  have hccwf := complete_consens_WF nl _ g cc hcc
  have hlen := length_complete_eq nl _ g cc hcc
  have hval : ∀ x : Int, x ∈ Map.values cc ↔ ∃ w, w ∈ wires nl g ∧ x = (order w : Int) := by
    intro x
    rw [mem_values_complete nl _ g cc hcc x]
    constructor
    · rintro ⟨w, hw, hx⟩
      exact ⟨w, hw, ((hcons w x).1 hx).2⟩
    · rintro ⟨w, hw, hx⟩
      exact ⟨w, hw, (hcons w x).2 ⟨hw, hx⟩⟩
  have hwnd : (wires nl g).Nodup := List.nodup_dedup _
  have hperm := (countP_numbering (wires nl g) order hwnd hinj hrange 0 (by omega)).2
  have hpos : 0 < (wires nl g).length := List.length_pos.2 hne
  -- the largest and the smallest consensus index
  have hmax : max_index cc = ((wires nl g).length : Int) - 1 := by
    apply max_index_eq
    · rw [hval]
      have : (wires nl g).length - 1 ∈ (wires nl g).map order :=
        hperm.symm.subset (List.mem_range.2 (by omega))
      obtain ⟨w, hw, he⟩ := List.mem_map.1 this
      exact ⟨w, hw, by omega⟩
    · intro x hx
      obtain ⟨w, hw, rfl⟩ := (hval x).1 hx
      have := hrange w hw
      omega
    · omega
  have hmin : min_index cc = 0 := by
    apply min_index_eq
    · rw [hval]
      have : 0 ∈ (wires nl g).map order := hperm.symm.subset (List.mem_range.2 hpos)
      obtain ⟨w, hw, he⟩ := List.mem_map.1 this
      exact ⟨w, hw, by omega⟩
    · intro x hx
      obtain ⟨w, hw, rfl⟩ := (hval x).1 hx
      omega
    · omega
  have hvnd : (Map.values cc).Nodup := by
    have hk : (Map.keys cc).Nodup := Map.nodup_keys_of_WF cc hccwf
    have he : Map.values cc = (Map.keys cc).map (fun w => (order w : Int)) := by
      unfold Map.values Map.keys
      rw [List.map_map]
      apply List.map_congr_left
      intro p hp
      have h1 := (complete_consens_find? nl _ g cc hcc p.1 p.2).1
        ((Map.find?_iff_mem cc hccwf p.1 p.2).2 hp)
      exact ((hcons p.1 p.2).1 h1.2).2
    rw [he]
    apply List.Nodup.map_on _ hk
    intro a ha b hb hab
    have ha2 := (length_complete_consens nl _ g cc hcc).subset ha
    have hb2 := (length_complete_consens nl _ g cc hcc).subset hb
    exact hinj a ha2 b hb2 (by exact_mod_cast hab)
  obtain ⟨al, hal⟩ : ∃ al, aligned_consens strict cc = some al := by
    unfold aligned_consens
    have h1 : ¬ i32 (max_index cc - min_index cc) > i32 (i32 (cc.length : Int) - 1) := by
      rw [hmax, hmin, hlen, sub_zero, i32_of_range ((wires nl g).length : Int) (by omega) (by omega),
        i32_of_range _ (by omega) (by omega)]
      omega
    have h2 : ¬ (unique_indices cc).length < cc.length := by
      rw [unique_of_values_nodup cc hvnd]
      omega
    simp [h1, h2]
  have hw : wellformed_bitorder nl strict g nets = some al := by
    unfold wellformed_bitorder
    rw [hc]
    simp only
    rw [hcc]
    exact hal
  have hout : Map.find? (extract_well_formed_bitorder nl ev strict) g = some al := by
    rw [extract_find?_eq nl ev strict hev g, hg]
    exact hw
  obtain ⟨_, _, hposn⟩ := aligned_consens_position strict cc al hccwf (by omega) hal
  have hp := index_to_net_perm cc hvnd
  have hfind : ∀ w ∈ wires nl g, Map.find? al w = some (order w) := by
    intro w hw1
    have hk : w ∈ Map.keys cc := (length_complete_consens nl _ g cc hcc).symm.subset hw1
    obtain ⟨x, hx⟩ := (mem_keys_iff_find? cc w).1 hk
    have hm : (x, w) ∈ index_to_net cc :=
      hp.symm.subset (List.mem_map.2 ⟨(w, x), Map.mem_of_find? cc w x hx, rfl⟩)
    obtain ⟨i, hi⟩ := List.mem_iff_getElem?.1 hm
    have hfi : Map.find? al w = some i := (hposn w i).2 ⟨x, hi⟩
    obtain ⟨y, hy, hcount⟩ := aligned_consens_rank strict cc al hccwf (by omega) hal w i hfi
    have hy2 := ((complete_consens_find? nl _ g cc hcc w y).1 hy).2
    have hyo : y = (order w : Int) := ((hcons w y).1 hy2).2
    rw [countP_complete_eq nl _ g cc hcc y] at hcount
    have hfe : (wires nl g).filter (consens_lt
          (Map.ofList (nets.map (fun e => (e.1, i32 (order e.1 : Int))))) y)
        = (wires nl g).filter (fun n => decide (order n < order w)) := by
      apply List.filter_congr
      intro n hn
      have := (hcons n (order n : Int)).2 ⟨hn, rfl⟩
      simp only [consens_lt, this, hyo]
      simp
    rw [hfe, (countP_numbering (wires nl g) order hwnd hinj hrange (order w)
      (le_of_lt (hrange w hw1))).1] at hcount
    rw [hfi, hcount]
  refine ⟨al, hout, ?_, hfind⟩
  intro w
  rw [mem_keys_iff_find?]
  constructor
  · rintro ⟨i, hi⟩
    obtain ⟨x, hx, _⟩ := aligned_consens_rank strict cc al hccwf (by omega) hal w i hi
    exact ((complete_consens_find? nl _ g cc hcc w x).1 hx).1
  · intro hw1
    exact ⟨order w, hfind w hw1⟩

/-- An instance of C11 on concrete evidence: the nets 10, 11, 12 of the pins
of `exG`, in this order, are the bits 2, 0, 1 of `exA`. -/
theorem extract_single_origin_witness :
    Map.find? (extract_well_formed_bitorder exNetlist exOneGroup true) exG
        = some [(10, 2), (11, 0), (12, 1)] ∧
      ∃ al, Map.find? (extract_well_formed_bitorder exNetlist exOneGroup true) exG = some al ∧
        (∀ w, w ∈ Map.keys al ↔ w ∈ wires exNetlist exG) ∧
        ∀ w ∈ wires exNetlist exG, Map.find? al w = some (exOrder w) :=
  ⟨by decide,
    extract_single_origin exNetlist exOneGroup true exG exA exPermuted exOrder (by decide) (by decide)
      (by decide)
      (fun w => by
        have h : wires exNetlist exG = [10, 11, 12] := by decide
        rw [h]
        simp [Map.keys, exPermuted])
      (by decide) (by decide) (by decide) (by decide) (by decide)⟩

/-! ## The border lookup -/

/-- C13: contract of `gather_bit_index_from_origin(n, m, known, successors)`.
It returns an error exactly when `n` is a border net of `m` in the queried
direction and `m` has no pin for `n`.  When `n` is such a border net with the
pin `pin` of the group `pg`, `(m, pg)` is a key of `known` and `n` has the
index `index` in that bit order, it returns `((m, pg), index)`.  In every other
case (no border net; no bit order for `(m, pg)`; `n` not in that bit order) it
returns the value `nothing_found`, the null origin with index 0. -/
theorem gather_bit_index_from_origin_contract (d : Design) (n : Net) (m : ModulePtr)
    (known : Bitorders) (successors : Bool) :
    ((∃ e, gather_bit_index_from_origin d n m known successors = .error e) ↔
        (is_border_net d m n successors = true ∧ d.get_pin_by_net m n = none)) ∧
      (∀ pin bitorder index, is_border_net d m n successors = true →
        d.get_pin_by_net m n = some pin →
        Map.find? known ⟨m, d.get_group pin⟩ = some bitorder → Map.find? bitorder n = some index →
        gather_bit_index_from_origin d n m known successors = .ok (⟨m, d.get_group pin⟩, index)) ∧
      (is_border_net d m n successors = false →
        gather_bit_index_from_origin d n m known successors = .ok nothing_found) ∧
      (∀ pin, d.get_pin_by_net m n = some pin →
        Map.find? known ⟨m, d.get_group pin⟩ = none →
        gather_bit_index_from_origin d n m known successors = .ok nothing_found) ∧
      (∀ pin bitorder, d.get_pin_by_net m n = some pin →
        Map.find? known ⟨m, d.get_group pin⟩ = some bitorder → Map.find? bitorder n = none →
        gather_bit_index_from_origin d n m known successors = .ok nothing_found) := by
  unfold gather_bit_index_from_origin is_border_net
  cases hb : (if successors then d.is_input_net m n else d.is_output_net m n) with
  | false => simp
  | true =>
    cases hp : d.get_pin_by_net m n with
    | none => simp
    | some pin =>
      cases hk : Map.find? known ⟨m, d.get_group pin⟩ with
      | none =>
        refine ⟨by simp [hk], ?_, by simp, ?_, ?_⟩
        · intro pin1 bo index _ h1 h2 _
          simp only [Option.some.injEq] at h1
          subst h1
          rw [hk] at h2
          exact Option.noConfusion h2
        · intro pin1 h1 _
          simp [hk]
        · intro pin1 bo h1 _ _
          simp [hk]
      | some bitorder =>
        cases hi : Map.find? bitorder n with
        | none =>
          refine ⟨by simp [hk, hi], ?_, by simp, ?_, ?_⟩
          · intro pin1 bo index _ h1 h2 h3
            simp only [Option.some.injEq] at h1
            subst h1
            rw [hk] at h2
            simp only [Option.some.injEq] at h2
            subst h2
            rw [hi] at h3
            exact Option.noConfusion h3
          · intro pin1 h1 _
            simp [hk, hi]
          · intro pin1 bo h1 _ _
            simp [hk, hi]
        | some index =>
          refine ⟨by simp [hk, hi], ?_, by simp, ?_, ?_⟩
          · intro pin1 bo index1 _ h1 h2 h3
            simp only [Option.some.injEq] at h1
            subst h1
            rw [hk] at h2
            simp only [Option.some.injEq] at h2
            subst h2
            rw [hi] at h3
            simp only [Option.some.injEq] at h3
            subst h3
            simp [hk, hi]
          · intro pin1 h1 h2
            simp only [Option.some.injEq] at h1
            subst h1
            rw [hk] at h2
            exact Option.noConfusion h2
          · intro pin1 bo h1 h2 h3
            simp only [Option.some.injEq] at h1
            subst h1
            rw [hk] at h2
            simp only [Option.some.injEq] at h2
            subst h2
            rw [hi] at h3
            exact Option.noConfusion h3

/-- An instance of C13 on the example netlist: the net 70 is an input net of the
module 4 without pin (an error), and the net 10 is the bit 0 of the known
output pin group of the module 2. -/
theorem gather_bit_index_from_origin_contract_witness :
    gather_bit_index_from_origin exDesign 70 4 exKnown true = .error (.no_pin 70 4) ∧
      gather_bit_index_from_origin exDesign 10 2 exKnown false = .ok (exSrc, 0) ∧
      gather_bit_index_from_origin exDesign 10 3 exKnown true = .ok nothing_found ∧
      gather_bit_index_from_origin exDesign 10 2 exKnown true = .ok nothing_found ∧
      ((∃ e, gather_bit_index_from_origin exDesign 70 4 exKnown true = .error e) ↔
        (is_border_net exDesign 4 70 true = true ∧ exDesign.get_pin_by_net 4 70 = none)) :=
  ⟨by rfl, by rfl, by rfl, by rfl,
    (gather_bit_index_from_origin_contract exDesign 70 4 exKnown true).1⟩

/-! ## The gate propagation rule of the walker -/

/-- The loop over the neighbours at a gate accepted for propagation: the walker
calls itself on the nets `next_nets`, with the module of the gate as the new
border, and goes on with the next neighbour. -/
theorem gather_neighbors_accepted
    (call : Net → ModulePtr → List Gate → Except WalkFailure (POSSIBLE_BITINDICES × List Gate))
    (d : Design) (n : Net) (module_border : ModulePtr) (known : Bitorders) (successors : Bool)
    (g : Gate) (rest : List Gate) (acc : POSSIBLE_BITINDICES) (visited : List Gate)
    (h : accepted d n module_border known successors visited g) :
    gather_neighbors call d n module_border known successors (g :: rest) acc visited
      = match gather_next (fun next_n new_visited => call next_n (d.get_module g) new_visited)
          (next_nets d g successors) acc (g :: visited) with
        | .error e => .error e
        | .ok (acc1, _) =>
          gather_neighbors call d n module_border known successors rest acc1 (g :: visited) := by
  obtain ⟨h0, hv, hc, hm⟩ := h
  rw [gather_neighbors]
  simp only [h0, hv, hc, if_false, Bool.not_true, Bool.false_eq_true]
  rcases hm with hm | ⟨found, hf, hfm, hs⟩
  · simp only [hm, ne_eq, not_true_eq_false, if_false, false_and]
  · by_cases hmb : d.get_module g = module_border
    · simp only [hmb, ne_eq, not_true_eq_false, if_false, false_and]
    · simp only [hmb, ne_eq, not_false_eq_true, if_true, hf, hfm, not_true_eq_false, and_false,
        if_false, hs, true_and]

/-- A net whose neighbours all are gates of the module `module_border` itself
with no net to continue with adds nothing to the evidence. -/
theorem gather_neighbors_dead_end
    (call : Net → ModulePtr → List Gate → Except WalkFailure (POSSIBLE_BITINDICES × List Gate))
    (d : Design) (n : Net) (module_border : ModulePtr) (known : Bitorders) (successors : Bool)
    (neighbors : List Gate) (acc : POSSIBLE_BITINDICES) (visited : List Gate)
    (h : ∀ g ∈ neighbors, d.contains_gate module_border g = true ∧ d.get_module g = module_border ∧
      next_nets d g successors = []) :
    ∃ visited1, gather_neighbors call d n module_border known successors neighbors acc visited
      = .ok (acc, visited1) := by
  induction neighbors generalizing visited with
  | nil => exact ⟨visited, rfl⟩
  | cons g rest ih =>
    have hr := fun v => ih v (fun g1 h1 => h g1 (List.mem_cons_of_mem _ h1))
    obtain ⟨hc, hm, hn⟩ := h g (List.mem_cons_self _ _)
    by_cases h0 : g = 0
    · rw [gather_neighbors]
      simp only [h0, if_true]
      exact hr visited
    · by_cases hv : g ∈ visited
      · rw [gather_neighbors]
        simp only [h0, hv, if_true, if_false]
        exact hr visited
      · rw [gather_neighbors_accepted call d n module_border known successors g rest acc visited
          ⟨h0, hv, hc, Or.inl hm⟩, hn]
        simp only [gather_next]
        exact hr (g :: visited)

/-! ## The driver: the merge, the queue loop and the round loop -/

theorem find?_merge_not_mem (wf newly : Bitorders) (g : MPG) (h : g ∉ Map.keys newly) :
    Map.find? (merge_wellformed wf newly) g = Map.find? wf g := by
  unfold merge_wellformed
  induction newly generalizing wf with
  | nil => rfl
  | cons p t ih =>
    have h1 : g ∉ Map.keys t := fun h2 => h (List.mem_cons_of_mem _ h2)
    have h2 : g ≠ p.1 := fun e => h (by rw [e]; exact List.mem_cons_self _ _)
    rw [List.foldl_cons, ih _ h1, Map.find?_insert, if_neg h2]

theorem mem_keys_merge (wf newly : Bitorders) (g : MPG) :
    g ∈ Map.keys (merge_wellformed wf newly) ↔ g ∈ Map.keys wf ∨ g ∈ Map.keys newly := by
  unfold merge_wellformed
  induction newly generalizing wf with
  | nil => simp [Map.keys]
  | cons p t ih =>
    rw [List.foldl_cons, ih, Map.mem_keys_insert]
    simp only [Map.keys, List.map_cons, List.mem_cons]
    tauto

theorem mem_keys_collect_insert (c : Collected) (mpg : MPG) (net : Net)
    (indices : POSSIBLE_BITINDICES) (k : MPG) :
    k ∈ Map.keys (collect_insert c mpg net indices) ↔ k = mpg ∨ k ∈ Map.keys c :=
  Map.mem_keys_insert _ _ _ _

theorem find?_collect_insert (c : Collected) (mpg : MPG) (net : Net)
    (indices : POSSIBLE_BITINDICES) (k : MPG) :
    Map.find? (collect_insert c mpg net indices) k
      = if k = mpg then
          some (Map.insert (Map.getD c mpg []) net
            (Map.insert_range (Map.getD (Map.getD c mpg []) net []) indices))
        else Map.find? c k :=
  Map.find?_insert _ _ _ _

theorem gather_pins_cons (d : Design) (wf : Bitorders) (mpg : MPG) (successors : Bool)
    (starting_net : Net) (rest : List Net) (c : Collected) :
    gather_pins d wf mpg successors (starting_net :: rest) c
      = match gather_bit_indices_for_net d wf successors (walker_fuel d)
            starting_net (d.get_parent_module mpg.module) [] with
        | .error e => .error (.walk e)
        | .ok (indices_outwards, _) =>
          match gather_bit_indices_for_net d wf (!successors) (walker_fuel d)
              starting_net mpg.module [] with
          | .error e => .error (.walk e)
          | .ok (indices_inwards, _) =>
            gather_pins d wf mpg successors rest
              (collect_insert (collect_insert c mpg starting_net indices_outwards)
                mpg starting_net indices_inwards) := rfl

/-- A property of the evidence that every pin of the origin preserves holds
after the loop over the pins. -/
theorem gather_pins_inv (Inv : Collected → Prop) (d : Design) (wf : Bitorders) (mpg : MPG)
    (successors : Bool) (pins : List Net) (c c1 : Collected)
    (hstep : ∀ net ∈ pins, ∀ c2 out v1 inw v2,
      gather_bit_indices_for_net d wf successors (walker_fuel d) net
        (d.get_parent_module mpg.module) [] = .ok (out, v1) →
      gather_bit_indices_for_net d wf (!successors) (walker_fuel d) net mpg.module []
        = .ok (inw, v2) →
      Inv c2 → Inv (collect_insert (collect_insert c2 mpg net out) mpg net inw))
    (hc : Inv c) (h : gather_pins d wf mpg successors pins c = .ok c1) : Inv c1 := by
  induction pins generalizing c with
  | nil =>
    simp only [gather_pins, Except.ok.injEq] at h
    exact h ▸ hc
  | cons net rest ih =>
    rw [gather_pins_cons] at h
    cases h1 : gather_bit_indices_for_net d wf successors (walker_fuel d) net
        (d.get_parent_module mpg.module) [] with
    | error e =>
      rw [h1] at h
      exact Except.noConfusion h
    | ok p1 =>
      obtain ⟨out, v1⟩ := p1
      rw [h1] at h
      simp only at h
      cases h2 : gather_bit_indices_for_net d wf (!successors) (walker_fuel d) net mpg.module [] with
      | error e =>
        rw [h2] at h
        exact Except.noConfusion h
      | ok p2 =>
        obtain ⟨inw, v2⟩ := p2
        rw [h2] at h
        simp only at h
        exact ih _ (fun n hn => hstep n (List.mem_cons_of_mem _ hn))
          (hstep net (List.mem_cons_self _ _) c out v1 inw v2 h1 h2 hc) h

theorem gather_pins_error (d : Design) (wf : Bitorders) (mpg : MPG) (successors : Bool)
    (pins : List Net) (c : Collected) (e : Failure)
    (h : gather_pins d wf mpg successors pins c = .error e) : ∃ w, e = .walk w := by
  induction pins generalizing c with
  | nil => exact Except.noConfusion h
  | cons net rest ih =>
    rw [gather_pins_cons] at h
    cases h1 : gather_bit_indices_for_net d wf successors (walker_fuel d) net
        (d.get_parent_module mpg.module) [] with
    | error e1 =>
      rw [h1] at h
      simp only [Except.error.injEq] at h
      exact ⟨e1, h.symm⟩
    | ok p1 =>
      obtain ⟨out, v1⟩ := p1
      rw [h1] at h
      simp only at h
      cases h2 : gather_bit_indices_for_net d wf (!successors) (walker_fuel d) net mpg.module [] with
      | error e2 =>
        rw [h2] at h
        simp only [Except.error.injEq] at h
        exact ⟨e2, h.symm⟩
      | ok p2 =>
        obtain ⟨inw, v2⟩ := p2
        rw [h2] at h
        simp only at h
        exact ih _ h

theorem process_queue_nil (d : Design) (wf : Bitorders) (fuel : Nat) (c : Collected) :
    process_queue d wf fuel [] c = .ok c := by
  cases fuel <;> rfl

theorem process_queue_succ (d : Design) (wf : Bitorders) (fuel : Nat) (mpg : MPG) (q : List MPG)
    (c : Collected) :
    process_queue d wf (fuel + 1) (mpg :: q) c
      = if submodule_in_q d mpg.module q then process_queue d wf fuel (q ++ [mpg]) c
        else
          match gather_origin d wf mpg c with
          | .error e => .error e
          | .ok c1 => process_queue d wf fuel q c1 := rfl

/-- A property of the evidence that the walk from every origin of the queue
preserves holds after the queue loop. -/
theorem process_queue_inv (Inv : Collected → Prop) (d : Design) (wf : Bitorders) (fuel : Nat)
    (q : List MPG) (c c1 : Collected)
    (hstep : ∀ mpg ∈ q, ∀ c2 c3, Inv c2 → gather_origin d wf mpg c2 = .ok c3 → Inv c3)
    (hc : Inv c) (h : process_queue d wf fuel q c = .ok c1) : Inv c1 := by
  induction fuel generalizing q c with
  | zero =>
    cases q with
    | nil =>
      rw [process_queue_nil] at h
      simp only [Except.ok.injEq] at h
      exact h ▸ hc
    | cons e rest => exact Except.noConfusion h
  | succ fuel ih =>
    cases q with
    | nil =>
      rw [process_queue_nil] at h
      simp only [Except.ok.injEq] at h
      exact h ▸ hc
    | cons e rest =>
      rw [process_queue_succ] at h
      by_cases hb : submodule_in_q d e.module rest = true
      · rw [if_pos hb] at h
        refine ih (rest ++ [e]) c (fun mpg hm => hstep mpg ?_) hc h
        rcases List.mem_append.1 hm with h1 | h1
        · exact List.mem_cons_of_mem _ h1
        · rw [List.mem_singleton.1 h1]
          exact List.mem_cons_self _ _
      · rw [if_neg hb] at h
        cases hg : gather_origin d wf e c with
        | error x =>
          rw [hg] at h
          exact Except.noConfusion h
        | ok c2 =>
          rw [hg] at h
          exact ih rest c2 (fun mpg hm => hstep mpg (List.mem_cons_of_mem _ hm))
            (hstep e (List.mem_cons_self _ _) c c2 hc hg) h

/-- The errors of the queue loop: its iteration bound, or a failure of the
walker. -/
theorem process_queue_error (d : Design) (wf : Bitorders) (fuel : Nat) (q : List MPG)
    (c : Collected) (e : Failure) (h : process_queue d wf fuel q c = .error e) :
    e = .queue_fuel ∨ ∃ w, e = .walk w := by
  induction fuel generalizing q c with
  | zero =>
    cases q with
    | nil =>
      rw [process_queue_nil] at h
      exact Except.noConfusion h
    | cons e1 rest =>
      simp only [process_queue, Except.error.injEq] at h
      exact Or.inl h.symm
  | succ fuel ih =>
    cases q with
    | nil =>
      rw [process_queue_nil] at h
      exact Except.noConfusion h
    | cons e1 rest =>
      rw [process_queue_succ] at h
      by_cases hb : submodule_in_q d e1.module rest = true
      · rw [if_pos hb] at h
        exact ih _ _ h
      · rw [if_neg hb] at h
        cases hg : gather_origin d wf e1 c with
        | error x =>
          rw [hg] at h
          simp only [Except.error.injEq] at h
          exact Or.inr (h ▸ gather_pins_error d wf e1 _ _ c x hg)
        | ok c2 =>
          rw [hg] at h
          exact ih _ _ h

/-- The evidence of a round has keys among the origins of the queue, and it and
the evidence of each of its origins are well-formed maps. -/
theorem process_queue_keys (d : Design) (wf : Bitorders) (fuel : Nat) (q : List MPG)
    (c1 : Collected) (h : process_queue d wf fuel q [] = .ok c1) :
    (∀ k ∈ Map.keys c1, k ∈ q) ∧ Map.WF c1 ∧ ∀ p ∈ c1, Map.WF p.2 := by
  refine process_queue_inv
    (fun c => (∀ k ∈ Map.keys c, k ∈ q) ∧ Map.WF c ∧ ∀ p ∈ c, Map.WF p.2) d wf fuel q [] c1 ?_
    ⟨by intro k hk; exact absurd hk (List.not_mem_nil _), Map.WF_nil,
      by intro p hp; exact absurd hp (List.not_mem_nil _)⟩ h
  intro mpg hmpg c2 c3 hc2 hg
  refine gather_pins_inv
    (fun c => (∀ k ∈ Map.keys c, k ∈ q) ∧ Map.WF c ∧ ∀ p ∈ c, Map.WF p.2) d wf mpg _ _ c2 c3 ?_
    hc2 hg
  intro net _ c4 out v1 inw v2 _ _ hc4
  have step : ∀ (c : Collected) (idx : POSSIBLE_BITINDICES),
      ((∀ k ∈ Map.keys c, k ∈ q) ∧ Map.WF c ∧ ∀ p ∈ c, Map.WF p.2) →
      ((∀ k ∈ Map.keys (collect_insert c mpg net idx), k ∈ q) ∧
        Map.WF (collect_insert c mpg net idx) ∧ ∀ p ∈ collect_insert c mpg net idx, Map.WF p.2) := by
    intro c idx ⟨hk, hw, hp⟩
    refine ⟨?_, Map.WF_insert _ _ _ hw, ?_⟩
    · intro k hk1
      rcases (mem_keys_collect_insert c mpg net idx k).1 hk1 with h1 | h1
      · rw [h1]
        exact hmpg
      · exact hk k h1
    · intro p hp1
      have hwf2 : Map.WF (collect_insert c mpg net idx) := Map.WF_insert _ _ _ hw
      have hf := (Map.find?_iff_mem _ hwf2 p.1 p.2).2 hp1
      rw [find?_collect_insert] at hf
      by_cases hpm : p.1 = mpg
      · rw [if_pos hpm] at hf
        simp only [Option.some.injEq] at hf
        rw [← hf]
        apply Map.WF_insert
        unfold Map.getD
        cases hfc : Map.find? c mpg with
        | none => exact Map.WF_nil
        | some nets => exact hp (mpg, nets) (Map.mem_of_find? c mpg nets hfc)
      · rw [if_neg hpm] at hf
        exact hp p (Map.mem_of_find? c p.1 p.2 hf)
  exact step _ inw (step c4 out hc4)

theorem propagate_rounds_succ (d : Design) (unknown : List MPG) (strict : Bool) (fuel : Nat)
    (wf : Bitorders) (prev : Collected) :
    propagate_rounds d unknown strict (fuel + 1) wf prev
      = if (modules_and_pingroup d unknown wf).isEmpty then (.ok wf, [])
        else
          match process_queue d wf (queue_fuel (modules_and_pingroup d unknown wf))
              (modules_and_pingroup d unknown wf) [] with
          | .error e => (.error e, [])
          | .ok collected =>
            if prev = collected then
              (.ok (merge_wellformed wf (extract_well_formed_bitorder d.toNetlist collected strict)),
                [(wf, collected)])
            else
              ((propagate_rounds d unknown strict fuel
                  (merge_wellformed wf (extract_well_formed_bitorder d.toNetlist collected strict))
                  collected).1,
                (wf, collected) :: (propagate_rounds d unknown strict fuel
                  (merge_wellformed wf (extract_well_formed_bitorder d.toNetlist collected strict))
                  collected).2) := rfl

/-- Induction over the rounds of the driver. -/
theorem rounds_induction (d : Design) (unknown : List MPG) (strict : Bool)
    (P : Nat → Bitorders → Collected → Except Failure Bitorders × List (Bitorders × Collected) → Prop)
    (h0 : ∀ wf prev, P 0 wf prev (.error .round_fuel, []))
    (hempty : ∀ fuel wf prev, modules_and_pingroup d unknown wf = [] →
      P (fuel + 1) wf prev (.ok wf, []))
    (herr : ∀ fuel wf prev e, modules_and_pingroup d unknown wf ≠ [] →
      process_queue d wf (queue_fuel (modules_and_pingroup d unknown wf))
        (modules_and_pingroup d unknown wf) [] = .error e →
      P (fuel + 1) wf prev (.error e, []))
    (hstop : ∀ fuel wf collected, modules_and_pingroup d unknown wf ≠ [] →
      process_queue d wf (queue_fuel (modules_and_pingroup d unknown wf))
        (modules_and_pingroup d unknown wf) [] = .ok collected →
      P (fuel + 1) wf collected
        (.ok (merge_wellformed wf (extract_well_formed_bitorder d.toNetlist collected strict)),
          [(wf, collected)]))
    (hstep : ∀ fuel wf prev collected r, modules_and_pingroup d unknown wf ≠ [] →
      process_queue d wf (queue_fuel (modules_and_pingroup d unknown wf))
        (modules_and_pingroup d unknown wf) [] = .ok collected →
      prev ≠ collected →
      r = propagate_rounds d unknown strict fuel
        (merge_wellformed wf (extract_well_formed_bitorder d.toNetlist collected strict)) collected →
      P fuel (merge_wellformed wf (extract_well_formed_bitorder d.toNetlist collected strict))
        collected r →
      P (fuel + 1) wf prev (r.1, (wf, collected) :: r.2))
    (fuel : Nat) (wf : Bitorders) (prev : Collected) :
    P fuel wf prev (propagate_rounds d unknown strict fuel wf prev) := by
  induction fuel generalizing wf prev with
  | zero => exact h0 wf prev
  | succ fuel ih =>
    rw [propagate_rounds_succ]
    cases hq : modules_and_pingroup d unknown wf with
    | nil => exact hempty fuel wf prev hq
    | cons a t =>
      have hne : modules_and_pingroup d unknown wf ≠ [] := by
        rw [hq]
        exact List.cons_ne_nil _ _
      rw [← hq]
      have hem : (modules_and_pingroup d unknown wf).isEmpty = false := by
        rw [hq]
        rfl
      rw [hem]
      simp only [Bool.false_eq_true, if_false]
      cases hp : process_queue d wf (queue_fuel (modules_and_pingroup d unknown wf))
          (modules_and_pingroup d unknown wf) [] with
      | error e => exact herr fuel wf prev e hne hp
      | ok collected =>
        simp only
        by_cases he : prev = collected
        · rw [if_pos he, he]
          exact hstop fuel wf collected hne hp
        · rw [if_neg he]
          exact hstep fuel wf prev collected _ hne hp he rfl (ih _ _)

/-- The origins of the queue of a round. -/
theorem mem_modules_and_pingroup (d : Design) (unknown : List MPG) (wf : Bitorders) (g : MPG) :
    g ∈ modules_and_pingroup d unknown wf ↔
      g ∈ unknown ∧ d.is_top_module g.module = false ∧ g ∉ Map.keys wf := by
  unfold modules_and_pingroup
  rw [List.mem_filter]
  simp only [Bool.and_eq_true, Bool.not_eq_true', Option.isNone_iff_eq_none,
    Map.find?_eq_none_iff]

/-- The origins resolved in a round are origins of its queue. -/
theorem newly_in_queue (d : Design) (unknown : List MPG) (strict : Bool) (wf : Bitorders)
    (fuel : Nat) (collected : Collected)
    (h : process_queue d wf fuel (modules_and_pingroup d unknown wf) [] = .ok collected) (g : MPG)
    (hg : g ∈ Map.keys (extract_well_formed_bitorder d.toNetlist collected strict)) :
    g ∈ Map.keys collected ∧ g ∈ unknown ∧ d.is_top_module g.module = false ∧ g ∉ Map.keys wf := by
  obtain ⟨al, hal⟩ := (mem_keys_iff_find? _ g).1 hg
  obtain ⟨nets, hn, _⟩ := extract_sound d.toNetlist collected strict g al hal
  have hk : g ∈ Map.keys collected := List.mem_map.2 ⟨(g, nets), hn, rfl⟩
  exact ⟨hk, (mem_modules_and_pingroup d unknown wf g).1
    ((process_queue_keys d wf fuel _ collected h).1 g hk)⟩

/-- A round keeps every bit order that is already there. -/
theorem merge_keeps (d : Design) (unknown : List MPG) (strict : Bool) (wf : Bitorders)
    (fuel : Nat) (collected : Collected)
    (h : process_queue d wf fuel (modules_and_pingroup d unknown wf) [] = .ok collected)
    (g : MPG) (bo : Map Net Nat) (hg : Map.find? wf g = some bo) :
    Map.find? (merge_wellformed wf (extract_well_formed_bitorder d.toNetlist collected strict)) g
      = some bo := by
  rw [find?_merge_not_mem _ _ g, hg]
  intro hk
  have := (newly_in_queue d unknown strict wf fuel collected h g hk).2.2.2
  exact this ((mem_keys_iff_find? wf g).2 ⟨bo, hg⟩)

/-! ## Known bit orders are carried through -/

theorem kept_in_refl (a : Bitorders) : kept_in a a := fun _ _ h => h

theorem kept_in_trans (a b c : Bitorders) (h1 : kept_in a b) (h2 : kept_in b c) : kept_in a c :=
  fun g bo h => h2 g bo (h1 g bo h)

/-- The bit orders at the start of a round are kept by every later round and by
the result. -/
theorem rounds_keep (d : Design) (unknown : List MPG) (strict : Bool) (fuel : Nat)
    (wf : Bitorders) (prev : Collected) :
    (∀ x ∈ (propagate_rounds d unknown strict fuel wf prev).2, kept_in wf x.1) ∧
      (propagate_rounds d unknown strict fuel wf prev).2.Pairwise (fun a b => kept_in a.1 b.1) ∧
      ∀ R, (propagate_rounds d unknown strict fuel wf prev).1 = .ok R →
        kept_in wf R ∧ ∀ x ∈ (propagate_rounds d unknown strict fuel wf prev).2, kept_in x.1 R := by
  refine rounds_induction d unknown strict
    (fun _ wf _ r => (∀ x ∈ r.2, kept_in wf x.1) ∧ r.2.Pairwise (fun a b => kept_in a.1 b.1) ∧
      ∀ R, r.1 = .ok R → kept_in wf R ∧ ∀ x ∈ r.2, kept_in x.1 R) ?_ ?_ ?_ ?_ ?_ fuel wf prev
  · intro wf prev
    refine ⟨by simp, by simp, ?_⟩
    intro R h
    exact Except.noConfusion h
  · intro fuel wf prev _
    refine ⟨by simp, by simp, ?_⟩
    intro R h
    simp only [Except.ok.injEq] at h
    subst h
    exact ⟨kept_in_refl _, by simp⟩
  · intro fuel wf prev e _ _
    refine ⟨by simp, by simp, ?_⟩
    intro R h
    exact Except.noConfusion h
  · intro fuel wf collected _ hp
    refine ⟨?_, by simp, ?_⟩
    · intro x hx
      rw [List.mem_singleton.1 hx]
      exact kept_in_refl _
    · intro R h
      simp only [Except.ok.injEq] at h
      subst h
      have hk : kept_in wf
          (merge_wellformed wf (extract_well_formed_bitorder d.toNetlist collected strict)) :=
        fun g bo hg => merge_keeps d unknown strict wf _ collected hp g bo hg
      refine ⟨hk, ?_⟩
      intro x hx
      rw [List.mem_singleton.1 hx]
      exact hk
  · intro fuel wf prev collected r _ hp _ _ ih
    obtain ⟨ih1, ih2, ih3⟩ := ih
    have hk : kept_in wf
        (merge_wellformed wf (extract_well_formed_bitorder d.toNetlist collected strict)) :=
      fun g bo hg => merge_keeps d unknown strict wf _ collected hp g bo hg
    have hmem : ∀ x ∈ (wf, collected) :: r.2, kept_in wf x.1 := by
      intro x hx
      rcases List.mem_cons.1 hx with h1 | h1
      · rw [h1]
        exact kept_in_refl _
      · exact kept_in_trans _ _ _ hk (ih1 x h1)
    refine ⟨hmem, ?_, ?_⟩
    · exact List.pairwise_cons.2 ⟨fun b hb => hmem b (List.mem_cons_of_mem _ hb), ih2⟩
    · intro R h
      obtain ⟨h1, h2⟩ := ih3 R h
      refine ⟨kept_in_trans _ _ _ hk h1, ?_⟩
      intro x hx
      rcases List.mem_cons.1 hx with h3 | h3
      · rw [h3]
        exact kept_in_trans _ _ _ hk h1
      · exact h2 x h3

/-- C15: known bit orders are carried through unchanged.  When
`propagate_module_pingroup_bitorder` succeeds with the result `R`, every origin
of `known_bitorders` is a key of `R` with the bit order the caller supplied;
and over the rounds the bit orders only grow: what is there at the start of a
round (the known bit orders and everything resolved in earlier rounds) is there
unchanged at the start of every later round and in `R`. -/
theorem propagate_keeps_known (d : Design) (known : Bitorders) (unknown : List MPG)
    (strict : Bool) (R : Bitorders)
    (h : propagate_module_pingroup_bitorder d known unknown strict = .ok R) :
    kept_in known R ∧
      (∀ x ∈ (propagate_module_pingroup_bitorder_rounds d known unknown strict).2,
        kept_in known x.1 ∧ kept_in x.1 R) ∧
      (propagate_module_pingroup_bitorder_rounds d known unknown strict).2.Pairwise
        (fun a b => kept_in a.1 b.1) := by
  obtain ⟨h1, h2, h3⟩ := rounds_keep d unknown strict (round_fuel d known unknown) known []
  obtain ⟨h4, h5⟩ := h3 R h
  exact ⟨h4, fun x hx => ⟨h1 x hx, h5 x hx⟩, h2⟩

/-- An instance of C15 on the example netlist: the bit order of `exSrc` is
known, `exDst` is resolved in the first of three rounds. -/
theorem propagate_keeps_known_witness :
    propagate_module_pingroup_bitorder exDesign exKnown [exDst, exLone] true = .ok exResult ∧
      Map.find? exResult exSrc = some [(10, 0), (11, 1), (12, 2)] ∧
      (kept_in exKnown exResult ∧
        (∀ x ∈ (propagate_module_pingroup_bitorder_rounds exDesign exKnown [exDst, exLone] true).2,
          kept_in exKnown x.1 ∧ kept_in x.1 exResult) ∧
        (propagate_module_pingroup_bitorder_rounds exDesign exKnown [exDst, exLone] true).2.Pairwise
          (fun a b => kept_in a.1 b.1)) :=
  ⟨by rfl, by decide,
    propagate_keeps_known exDesign exKnown [exDst, exLone] true exResult (by rfl)⟩

/-! ## The top module among the unknown origins -/

/-- The driver reads the unknown origins through the queue of each round
only. -/
theorem propagate_rounds_congr (d : Design) (u1 u2 : List MPG) (strict : Bool)
    (h : ∀ wf, modules_and_pingroup d u1 wf = modules_and_pingroup d u2 wf) (fuel : Nat)
    (wf : Bitorders) (prev : Collected) :
    propagate_rounds d u1 strict fuel wf prev = propagate_rounds d u2 strict fuel wf prev := by
  induction fuel generalizing wf prev with
  | zero => rfl
  | succ fuel ih =>
    rw [propagate_rounds_succ, propagate_rounds_succ, h wf]
    simp only [ih]

theorem modules_and_pingroup_filter (d : Design) (unknown : List MPG) (wf : Bitorders)
    (p : MPG → Bool) (hp : ∀ x, p x = false → d.is_top_module x.module = true) :
    modules_and_pingroup d (unknown.filter p) wf = modules_and_pingroup d unknown wf := by
  unfold modules_and_pingroup
  rw [List.filter_filter]
  apply List.filter_congr
  intro x _
  cases hx : p x with
  | true => simp
  | false => simp [hp x hx]

/-- The origins walked in a round and the origins of the result. -/
theorem rounds_keys (d : Design) (unknown : List MPG) (strict : Bool) (fuel : Nat)
    (wf : Bitorders) (prev : Collected) :
    (∀ x ∈ (propagate_rounds d unknown strict fuel wf prev).2, ∀ k ∈ Map.keys x.2,
        k ∈ unknown ∧ d.is_top_module k.module = false ∧ k ∉ Map.keys x.1) ∧
      ∀ R, (propagate_rounds d unknown strict fuel wf prev).1 = .ok R →
        ∀ k ∈ Map.keys R, k ∈ Map.keys wf ∨ (k ∈ unknown ∧ d.is_top_module k.module = false) := by
  refine rounds_induction d unknown strict
    (fun _ wf _ r => (∀ x ∈ r.2, ∀ k ∈ Map.keys x.2,
        k ∈ unknown ∧ d.is_top_module k.module = false ∧ k ∉ Map.keys x.1) ∧
      ∀ R, r.1 = .ok R →
        ∀ k ∈ Map.keys R, k ∈ Map.keys wf ∨ (k ∈ unknown ∧ d.is_top_module k.module = false))
    ?_ ?_ ?_ ?_ ?_ fuel wf prev
  · intro wf prev
    refine ⟨by simp, ?_⟩
    intro R h
    exact Except.noConfusion h
  · intro fuel wf prev _
    refine ⟨by simp, ?_⟩
    intro R h k hk
    simp only [Except.ok.injEq] at h
    subst h
    exact Or.inl hk
  · intro fuel wf prev e _ _
    refine ⟨by simp, ?_⟩
    intro R h
    exact Except.noConfusion h
  · intro fuel wf collected _ hp
    have hq := (process_queue_keys d wf _ _ collected hp).1
    refine ⟨?_, ?_⟩
    · intro x hx k hk
      rw [List.mem_singleton.1 hx] at hk
      rw [List.mem_singleton.1 hx]
      exact (mem_modules_and_pingroup d unknown wf k).1 (hq k hk)
    · intro R h k hk
      simp only [Except.ok.injEq] at h
      subst h
      rcases (mem_keys_merge _ _ k).1 hk with h1 | h1
      · exact Or.inl h1
      · have := newly_in_queue d unknown strict wf _ collected hp k h1
        exact Or.inr ⟨this.2.1, this.2.2.1⟩
  · intro fuel wf prev collected r _ hp _ _ ih
    have hq := (process_queue_keys d wf _ _ collected hp).1
    refine ⟨?_, ?_⟩
    · intro x hx k hk
      rcases List.mem_cons.1 hx with h1 | h1
      · rw [h1] at hk
        rw [h1]
        exact (mem_modules_and_pingroup d unknown wf k).1 (hq k hk)
      · exact ih.1 x h1 k hk
    · intro R h k hk
      rcases ih.2 R h k hk with h1 | h1
      · rcases (mem_keys_merge _ _ k).1 h1 with h2 | h2
        · exact Or.inl h2
        · have := newly_in_queue d unknown strict wf _ collected hp k h2
          exact Or.inr ⟨this.2.1, this.2.2.1⟩
      · exact Or.inr h1

/-- C16: the top module among the unknown origins is skipped.  For an origin `g`
at the top module, `propagate_module_pingroup_bitorder` returns on
`unknown_bitorders` what it returns on `unknown_bitorders` without `g` (the same
bit orders, or the same failure, after the same rounds); the same holds without
all origins at the top module.  No round walks from `g` (it is no key of the
evidence of any round), and `g` is a key of the result only if it is a key of
`known_bitorders`. -/
theorem propagate_skips_top_module (d : Design) (known : Bitorders) (unknown : List MPG)
    (strict : Bool) (g : MPG) (hg : d.is_top_module g.module = true) :
    propagate_module_pingroup_bitorder_rounds d known unknown strict
        = propagate_module_pingroup_bitorder_rounds d known
            (unknown.filter (fun x => decide (x ≠ g))) strict ∧
      propagate_module_pingroup_bitorder d known unknown strict
        = propagate_module_pingroup_bitorder d known
            (unknown.filter (fun x => decide (x ≠ g))) strict ∧
      propagate_module_pingroup_bitorder d known unknown strict
        = propagate_module_pingroup_bitorder d known
            (unknown.filter (fun x => !d.is_top_module x.module)) strict ∧
      (∀ x ∈ (propagate_module_pingroup_bitorder_rounds d known unknown strict).2,
        g ∉ Map.keys x.2) ∧
      ∀ R, propagate_module_pingroup_bitorder d known unknown strict = .ok R →
        g ∈ Map.keys R → g ∈ Map.keys known := by
  have h1 : ∀ wf, modules_and_pingroup d unknown wf
      = modules_and_pingroup d (unknown.filter (fun x => decide (x ≠ g))) wf := by
    intro wf
    rw [modules_and_pingroup_filter]
    intro x hx
    simp only [ne_eq, decide_not, Bool.not_eq_eq_eq_not, Bool.not_false, decide_eq_true_eq] at hx
    rw [hx]
    exact hg
  have h2 : ∀ wf, modules_and_pingroup d unknown wf
      = modules_and_pingroup d (unknown.filter (fun x => !d.is_top_module x.module)) wf := by
    intro wf
    rw [modules_and_pingroup_filter]
    intro x hx
    simpa using hx
  have e1 : propagate_module_pingroup_bitorder_rounds d known unknown strict
      = propagate_module_pingroup_bitorder_rounds d known
          (unknown.filter (fun x => decide (x ≠ g))) strict := by
    unfold propagate_module_pingroup_bitorder_rounds round_fuel
    rw [← h1 known]
    exact propagate_rounds_congr d _ _ strict h1 _ _ _
  have e2 : propagate_module_pingroup_bitorder_rounds d known unknown strict
      = propagate_module_pingroup_bitorder_rounds d known
          (unknown.filter (fun x => !d.is_top_module x.module)) strict := by
    unfold propagate_module_pingroup_bitorder_rounds round_fuel
    rw [← h2 known]
    exact propagate_rounds_congr d _ _ strict h2 _ _ _
  have hk := rounds_keys d unknown strict (round_fuel d known unknown) known []
  refine ⟨e1, ?_, ?_, ?_, ?_⟩
  · unfold propagate_module_pingroup_bitorder
    rw [e1]
  · unfold propagate_module_pingroup_bitorder
    rw [e2]
  · intro x hx hgx
    have := (hk.1 x hx g hgx).2.1
    rw [hg] at this
    exact Bool.noConfusion this
  · intro R hR hgR
    rcases hk.2 R hR g hgR with h3 | h3
    · exact h3
    · rw [hg] at h3
      exact Bool.noConfusion h3.2

/-- An instance of C16 on the example netlist, with an origin at the top
module 1 among the unknown origins. -/
theorem propagate_skips_top_module_witness :
    propagate_module_pingroup_bitorder exDesign exKnown [⟨1, 99⟩, exDst, exLone] true
        = .ok exResult ∧
      [exDst, exLone] = ([⟨1, 99⟩, exDst, exLone] : List MPG).filter (fun x => decide (x ≠ ⟨1, 99⟩)) ∧
      (propagate_module_pingroup_bitorder_rounds exDesign exKnown [⟨1, 99⟩, exDst, exLone] true
          = propagate_module_pingroup_bitorder_rounds exDesign exKnown
              (([⟨1, 99⟩, exDst, exLone] : List MPG).filter (fun x => decide (x ≠ ⟨1, 99⟩))) true ∧
        propagate_module_pingroup_bitorder exDesign exKnown [⟨1, 99⟩, exDst, exLone] true
          = propagate_module_pingroup_bitorder exDesign exKnown
              (([⟨1, 99⟩, exDst, exLone] : List MPG).filter (fun x => decide (x ≠ ⟨1, 99⟩))) true ∧
        propagate_module_pingroup_bitorder exDesign exKnown [⟨1, 99⟩, exDst, exLone] true
          = propagate_module_pingroup_bitorder exDesign exKnown
              (([⟨1, 99⟩, exDst, exLone] : List MPG).filter
                (fun x => !exDesign.is_top_module x.module)) true ∧
        (∀ x ∈ (propagate_module_pingroup_bitorder_rounds exDesign exKnown
            [⟨1, 99⟩, exDst, exLone] true).2, (⟨1, 99⟩ : MPG) ∉ Map.keys x.2) ∧
        ∀ R, propagate_module_pingroup_bitorder exDesign exKnown [⟨1, 99⟩, exDst, exLone] true
            = .ok R → (⟨1, 99⟩ : MPG) ∈ Map.keys R → (⟨1, 99⟩ : MPG) ∈ Map.keys exKnown) :=
  ⟨by rfl, by decide,
    propagate_skips_top_module exDesign exKnown [⟨1, 99⟩, exDst, exLone] true ⟨1, 99⟩ (by rfl)⟩

/-! ## An origin without evidence -/

theorem Map.mem_insert {K V : Type} [LinearOrder K] (m : Map K V) (k : K) (v : V) (e : K × V)
    (h : e ∈ Map.insert m k v) : e = (k, v) ∨ e ∈ m := by
  induction m with
  | nil =>
    simp only [Map.insert, List.mem_singleton] at h
    exact Or.inl h
  | cons p t ih =>
    obtain ⟨k1, v1⟩ := p
    simp only [Map.insert] at h
    split_ifs at h with h1 h2
    · rcases List.mem_cons.1 h with h3 | h3
      · exact Or.inl h3
      · exact Or.inr h3
    · rcases List.mem_cons.1 h with h3 | h3
      · exact Or.inl h3
      · exact Or.inr (List.mem_cons_of_mem _ h3)
    · rcases List.mem_cons.1 h with h3 | h3
      · exact Or.inr (h3 ▸ List.mem_cons_self _ _)
      · rcases ih h3 with h4 | h4
        · exact Or.inl h4
        · exact Or.inr (List.mem_cons_of_mem _ h4)

/-- Evidence in which no net has an observation gives no consensus. -/
theorem consens_bitindices_empty (nets : Map Net POSSIBLE_BITINDICES) (hwf : Map.WF nets)
    (h : ∀ e ∈ nets, e.2 = []) : consens_bitindices nets = none := by
  have h1 : remove_ambiguous nets = [] := by
    rw [remove_ambiguous_eq nets (Map.nodup_keys_of_WF nets hwf)
      (fun e he => by rw [h e he]; exact List.nodup_nil)]
    unfold without_ambiguous prune
    apply List.filterMap_eq_nil_iff.2
    intro e he
    simp [h e he]
  unfold consens_bitindices
  simp [h1]

/-- Recording empty evidence for a net keeps all evidence of the origin
empty. -/
theorem collect_insert_empty (c : Collected) (g : MPG) (net : Net)
    (h : ∀ nets, Map.find? c g = some nets → ∀ e ∈ nets, e.2 = []) :
    ∀ nets, Map.find? (collect_insert c g net []) g = some nets → ∀ e ∈ nets, e.2 = [] := by
  intro nets hn e he
  rw [find?_collect_insert, if_pos rfl] at hn
  simp only [Option.some.injEq] at hn
  have h0 : ∀ e1 ∈ Map.getD c g [], e1.2 = [] := by
    unfold Map.getD
    cases hf : Map.find? c g with
    | none => intro e1 he1; exact absurd he1 (List.not_mem_nil _)
    | some n0 => exact h n0 hf
  have h1 : Map.getD (Map.getD c g []) net [] = [] := by
    unfold Map.getD
    cases hf : Map.find? ((Map.find? c g).getD []) net with
    | none => rfl
    | some v => exact h0 (net, v) (Map.mem_of_find? _ net v hf)
  rw [← hn] at he
  rcases Map.mem_insert _ _ _ _ he with h2 | h2
  · rw [h2, h1]
    rfl
  · exact h0 e h2

/-- An origin for which the walker returns empty evidence for every net in both
directions is not resolved by the round. -/
theorem no_evidence_not_resolved (d : Design) (wf : Bitorders) (strict : Bool) (fuel : Nat)
    (q : List MPG) (collected : Collected) (g : MPG)
    (h : process_queue d wf fuel q [] = .ok collected) (hw : walks_empty d wf g = true) :
    g ∉ Map.keys (extract_well_formed_bitorder d.toNetlist collected strict) := by
  have hinv : ∀ nets, Map.find? collected g = some nets → ∀ e ∈ nets, e.2 = [] := by
    refine process_queue_inv (fun c => ∀ nets, Map.find? c g = some nets → ∀ e ∈ nets, e.2 = [])
      d wf fuel q [] collected ?_ (by intro nets hn; exact Option.noConfusion hn) h
    intro mpg _ c2 c3 hc2 hg
    refine gather_pins_inv (fun c => ∀ nets, Map.find? c g = some nets → ∀ e ∈ nets, e.2 = [])
      d wf mpg _ _ c2 c3 ?_ hc2 hg
    intro net hnet c4 out v1 inw v2 h1 h2 hc4
    by_cases hm : mpg = g
    · subst hm
      have := List.all_eq_true.1 hw net hnet
      rw [h1, h2] at this
      simp only [is_empty_walk, List.isEmpty_iff, Bool.and_eq_true, decide_eq_true_eq] at this
      rw [this.1, this.2]
      exact collect_insert_empty _ mpg net (collect_insert_empty c4 mpg net hc4)
    · intro nets hn
      rw [find?_collect_insert, if_neg (Ne.symm hm), find?_collect_insert,
        if_neg (Ne.symm hm)] at hn
      exact hc4 nets hn
  obtain ⟨_, hwf, hwf2⟩ := process_queue_keys d wf fuel q collected h
  intro hk
  obtain ⟨al, hal⟩ := (mem_keys_iff_find? _ g).1 hk
  rw [extract_find?_eq d.toNetlist collected strict hwf g] at hal
  cases hf : Map.find? collected g with
  | none =>
    rw [hf] at hal
    exact Option.noConfusion hal
  | some nets =>
    rw [hf] at hal
    simp only [Option.some_bind] at hal
    have hc := consens_bitindices_empty nets
      (hwf2 (g, nets) (Map.mem_of_find? collected g nets hf)) (hinv nets hf)
    unfold wellformed_bitorder at hal
    rw [hc] at hal
    exact Option.noConfusion hal

theorem rounds_no_evidence (d : Design) (unknown : List MPG) (strict : Bool) (g : MPG)
    (fuel : Nat) (wf : Bitorders) (prev : Collected) :
    (∀ x ∈ (propagate_rounds d unknown strict fuel wf prev).2, walks_empty d x.1 g = true) →
      g ∉ Map.keys wf →
      ∀ R, (propagate_rounds d unknown strict fuel wf prev).1 = .ok R → g ∉ Map.keys R := by
  refine rounds_induction d unknown strict
    (fun _ wf _ r => (∀ x ∈ r.2, walks_empty d x.1 g = true) → g ∉ Map.keys wf →
      ∀ R, r.1 = .ok R → g ∉ Map.keys R) ?_ ?_ ?_ ?_ ?_ fuel wf prev
  · intro wf prev _ _ R h
    exact Except.noConfusion h
  · intro fuel wf prev _ _ hg R h
    simp only [Except.ok.injEq] at h
    exact h ▸ hg
  · intro fuel wf prev e _ _ _ _ R h
    exact Except.noConfusion h
  · intro fuel wf collected _ hp hw hg R h
    simp only [Except.ok.injEq] at h
    subst h
    intro hk
    rcases (mem_keys_merge _ _ g).1 hk with h1 | h1
    · exact hg h1
    · exact no_evidence_not_resolved d wf strict _ _ collected g hp
        (hw (wf, collected) (List.mem_singleton.2 rfl)) h1
  · intro fuel wf prev collected r _ hp _ _ ih hw hg R h
    refine ih (fun x hx => hw x (List.mem_cons_of_mem _ hx)) ?_ R h
    intro hk
    rcases (mem_keys_merge _ _ g).1 hk with h1 | h1
    · exact hg h1
    · exact no_evidence_not_resolved d wf strict _ _ collected g hp
        (hw (wf, collected) (List.mem_cons_self _ _)) h1

/-- C18: an origin without evidence is never resolved.  Let `g` be no key of
`known_bitorders` and let the walker, called as the driver calls it, return
empty evidence for the net of every pin of `g` in both directions in every
round (with the bit orders the round starts from).  Then `g` is no key of the
result of `propagate_module_pingroup_bitorder`. -/
theorem propagate_unreachable_origin (d : Design) (known : Bitorders) (unknown : List MPG)
    (strict : Bool) (g : MPG) (R : Bitorders) (hg : g ∉ Map.keys known)
    (hw : ∀ x ∈ (propagate_module_pingroup_bitorder_rounds d known unknown strict).2,
      walks_empty d x.1 g = true)
    (h : propagate_module_pingroup_bitorder d known unknown strict = .ok R) :
    g ∉ Map.keys R :=
  rounds_no_evidence d unknown strict g (round_fuel d known unknown) known [] hw hg R h

/-- An instance of C18 on the example netlist: the nets of the origin `exLone`
are connected to nothing, and `exLone` is not resolved. -/
theorem propagate_unreachable_origin_witness :
    exLone ∈ [exDst, exLone] ∧
      propagate_module_pingroup_bitorder exDesign exKnown [exDst, exLone] true = .ok exResult ∧
      exLone ∉ Map.keys exResult :=
  ⟨by decide, by rfl,
    propagate_unreachable_origin exDesign exKnown [exDst, exLone] true exLone exResult (by decide)
      (by decide) (by rfl)⟩

/-! ## Idempotence of the propagation -/

theorem eq_nil_of_keys {K V : Type} (m : Map K V) (h : ∀ k, k ∉ Map.keys m) : m = [] := by
  cases m with
  | nil => rfl
  | cons p t => exact absurd (List.mem_cons_self _ _) (h p.1)

/-- The result of a successful run is a state in which the driver stops without
a change. -/
theorem rounds_stable (d : Design) (unknown : List MPG) (strict : Bool) (fuel : Nat)
    (wf : Bitorders) (prev : Collected) :
    (∀ k ∈ Map.keys (extract_well_formed_bitorder d.toNetlist prev strict), k ∈ Map.keys wf) →
      ∀ R, (propagate_rounds d unknown strict fuel wf prev).1 = .ok R →
        stable d unknown strict R := by
  refine rounds_induction d unknown strict
    (fun _ wf prev r =>
      (∀ k ∈ Map.keys (extract_well_formed_bitorder d.toNetlist prev strict), k ∈ Map.keys wf) →
      ∀ R, r.1 = .ok R → stable d unknown strict R) ?_ ?_ ?_ ?_ ?_ fuel wf prev
  · intro wf prev _ R h
    exact Except.noConfusion h
  · intro fuel wf prev hq _ R h
    simp only [Except.ok.injEq] at h
    subst h
    exact Or.inl hq
  · intro fuel wf prev e _ _ _ R h
    exact Except.noConfusion h
  · intro fuel wf collected _ hp hprev R h
    simp only [Except.ok.injEq] at h
    have hnil : extract_well_formed_bitorder d.toNetlist collected strict = [] := by
      apply eq_nil_of_keys
      intro k hk
      exact (newly_in_queue d unknown strict wf _ collected hp k hk).2.2.2 (hprev k hk)
    rw [hnil] at h
    have hR : R = wf := h.symm
    subst hR
    exact Or.inr ⟨collected, hp, hnil⟩
  · intro fuel wf prev collected r _ hp _ _ ih _ R h
    exact ih (fun k hk => (mem_keys_merge _ _ k).2 (Or.inr hk)) R h

/-- From a state in which the driver stops without a change, it returns the bit
orders it starts from. -/
theorem rounds_of_stable (d : Design) (unknown : List MPG) (strict : Bool) (R : Bitorders)
    (h : stable d unknown strict R) (fuel : Nat)
    (hf : (modules_and_pingroup d unknown R).length < fuel) :
    (propagate_rounds d unknown strict fuel R []).1 = .ok R := by
  rcases h with h | ⟨collected, hp, hnil⟩
  · obtain ⟨f, rfl⟩ : ∃ f, fuel = f + 1 := ⟨fuel - 1, by omega⟩
    rw [propagate_rounds_succ, h]
    rfl
  · cases hq : modules_and_pingroup d unknown R with
    | nil =>
      obtain ⟨f, rfl⟩ : ∃ f, fuel = f + 1 := ⟨fuel - 1, by omega⟩
      rw [propagate_rounds_succ, hq]
      rfl
    | cons a t =>
      have hem : (modules_and_pingroup d unknown R).isEmpty = false := by
        rw [hq]
        rfl
      have hlen : 1 ≤ (modules_and_pingroup d unknown R).length := by
        rw [hq]
        simp
      obtain ⟨f, rfl⟩ : ∃ f, fuel = f + 1 + 1 := ⟨fuel - 2, by omega⟩
      have hm : merge_wellformed R (extract_well_formed_bitorder d.toNetlist collected strict)
          = R := by
        rw [hnil]
        rfl
      rw [propagate_rounds_succ, hem, hp]
      simp only [Bool.false_eq_true, if_false, hm]
      by_cases he : ([] : Collected) = collected
      · rw [if_pos he]
      · rw [if_neg he]
        simp only
        rw [propagate_rounds_succ, hem, hp]
        simp only [Bool.false_eq_true, if_false, if_true, hm]

/-- C19: idempotence of the propagation.  If
`propagate_module_pingroup_bitorder(known, unknown, strict)` succeeds with the
result `R`, then `propagate_module_pingroup_bitorder(R, unknown, strict)` on the
same netlist succeeds with the result `R`. -/
theorem propagate_idempotent (d : Design) (known : Bitorders) (unknown : List MPG)
    (strict : Bool) (R : Bitorders)
    (h : propagate_module_pingroup_bitorder d known unknown strict = .ok R) :
    propagate_module_pingroup_bitorder d R unknown strict = .ok R := by
  have hs : stable d unknown strict R :=
    rounds_stable d unknown strict (round_fuel d known unknown) known []
      (by intro k hk; exact absurd hk (List.not_mem_nil _)) R h
  exact rounds_of_stable d unknown strict R hs (round_fuel d R unknown) (Nat.lt_succ_self _)

/-- An instance of C19 on the example netlist. -/
theorem propagate_idempotent_witness :
    propagate_module_pingroup_bitorder exDesign exKnown [exDst, exLone] true = .ok exResult ∧
      propagate_module_pingroup_bitorder exDesign exResult [exDst, exLone] true = .ok exResult :=
  ⟨by rfl, propagate_idempotent exDesign exKnown [exDst, exLone] true exResult (by rfl)⟩

/-! ## Termination of the walker -/

theorem unvisited_cons_lt (d : Design) (visited : List Gate) (g : Gate) (hg : g ∈ d.gates)
    (hv : g ∉ visited) : unvisited d (g :: visited) < unvisited d visited := by
  unfold unvisited
  apply countP_lt_of_mem _ _ _ g
  · intro y _ hy
    simp only [List.mem_cons, not_or, decide_eq_true_eq] at hy ⊢
    exact hy.2
  · exact List.mem_dedup.2 hg
  · simpa using hv
  · simp

theorem unvisited_mono (d : Design) (v w : List Gate) (h : ∀ g ∈ v, g ∈ w) :
    unvisited d w ≤ unvisited d v := by
  unfold unvisited
  apply List.countP_mono_left
  intro x _ hx
  simp only [decide_eq_true_eq] at hx ⊢
  exact fun hv => hx (h x hv)

theorem unvisited_le (d : Design) (v : List Gate) : unvisited d v ≤ d.gates.length := by
  unfold unvisited
  exact le_trans (List.countP_le_length _) (List.dedup_sublist _).length_le

theorem gather_bit_index_from_origin_ne_fuel (d : Design) (n : Net) (m : ModulePtr)
    (known : Bitorders) (successors : Bool) :
    gather_bit_index_from_origin d n m known successors ≠ .error .walk_fuel := by
  unfold gather_bit_index_from_origin
  cases hb : (if successors then d.is_input_net m n else d.is_output_net m n) with
  | false => simp
  | true =>
    cases hp : d.get_pin_by_net m n with
    | none => simp
    | some pin =>
      cases hk : Map.find? known ⟨m, d.get_group pin⟩ with
      | none => simp [hk]
      | some bo =>
        cases hi : Map.find? bo n with
        | none => simp [hk, hi]
        | some index => simp [hk, hi]

/-- The loop over the next nets does not reach the recursion bound when the
recursive calls do not. -/
theorem gather_next_ok (d : Design) (fuel : Nat)
    (call : Net → List Gate → Except WalkFailure (POSSIBLE_BITINDICES × List Gate))
    (hcall : ∀ n nv, unvisited d nv < fuel →
      call n nv ≠ .error .walk_fuel ∧ ∀ r v1, call n nv = .ok (r, v1) → ∀ g ∈ nv, g ∈ v1)
    (nets : List Net) (acc : POSSIBLE_BITINDICES) (nv : List Gate) (h : unvisited d nv < fuel) :
    gather_next call nets acc nv ≠ .error .walk_fuel ∧
      ∀ r v1, gather_next call nets acc nv = .ok (r, v1) → ∀ g ∈ nv, g ∈ v1 := by
  induction nets generalizing acc nv with
  | nil =>
    refine ⟨fun h1 => Except.noConfusion h1, ?_⟩
    intro r v1 h1 g hg
    simp only [gather_next, Except.ok.injEq, Prod.mk.injEq] at h1
    exact h1.2 ▸ hg
  | cons next rest ih =>
    rw [gather_next]
    obtain ⟨hc1, hc2⟩ := hcall next nv h
    cases hc : call next nv with
    | error e =>
      refine ⟨?_, fun r v1 h1 => Except.noConfusion h1⟩
      intro h1
      simp only [Except.error.injEq] at h1
      rw [h1] at hc
      exact hc1 hc
    | ok p =>
      obtain ⟨res, nv1⟩ := p
      simp only
      have hsub := hc2 res nv1 hc
      obtain ⟨i1, i2⟩ := ih (res.foldl (fun acc p => add_indices acc p.1 p.2) acc) nv1
        (lt_of_le_of_lt (unvisited_mono d nv nv1 hsub) h)
      exact ⟨i1, fun r v1 h1 g hg => i2 r v1 h1 g (hsub g hg)⟩

/-- The loop over the neighbours does not reach the recursion bound when the
recursive calls do not. -/
theorem gather_neighbors_ok (d : Design) (fuel : Nat)
    (call : Net → ModulePtr → List Gate → Except WalkFailure (POSSIBLE_BITINDICES × List Gate))
    (hcall : ∀ n m nv, unvisited d nv < fuel →
      call n m nv ≠ .error .walk_fuel ∧ ∀ r v1, call n m nv = .ok (r, v1) → ∀ g ∈ nv, g ∈ v1)
    (n : Net) (module_border : ModulePtr) (known : Bitorders) (successors : Bool)
    (neighbors : List Gate) (acc : POSSIBLE_BITINDICES) (visited : List Gate)
    (hn : ∀ g ∈ neighbors, g ≠ 0 → g ∈ d.gates) (h : unvisited d visited < fuel + 1) :
    gather_neighbors call d n module_border known successors neighbors acc visited
        ≠ .error .walk_fuel ∧
      ∀ r v1, gather_neighbors call d n module_border known successors neighbors acc visited
        = .ok (r, v1) → ∀ g ∈ visited, g ∈ v1 := by
  induction neighbors generalizing acc visited with
  | nil =>
    refine ⟨fun h1 => Except.noConfusion h1, ?_⟩
    intro r v1 h1 g hg
    simp only [gather_neighbors, Except.ok.injEq, Prod.mk.injEq] at h1
    exact h1.2 ▸ hg
  | cons g rest ih =>
    have hrest : ∀ g1 ∈ rest, g1 ≠ 0 → g1 ∈ d.gates :=
      fun g1 h1 => hn g1 (List.mem_cons_of_mem _ h1)
    rw [gather_neighbors]
    by_cases h0 : g = 0
    · simp only [h0, if_true]
      exact ih acc visited hrest h
    · by_cases hv : g ∈ visited
      · simp only [h0, hv, if_true, if_false]
        exact ih acc visited hrest h
      · simp only [h0, hv, if_false]
        have hlt := unvisited_cons_lt d visited g (hn g (List.mem_cons_self _ _) h0) hv
        have hlt1 : unvisited d (g :: visited) < fuel := by omega
        have hlt2 : unvisited d (g :: visited) < fuel + 1 := by omega
        have hcont : ∀ acc1,
            gather_neighbors call d n module_border known successors rest acc1 (g :: visited)
                ≠ .error .walk_fuel ∧
              ∀ r v1, gather_neighbors call d n module_border known successors rest acc1
                (g :: visited) = .ok (r, v1) → ∀ x ∈ visited, x ∈ v1 := by
          intro acc1
          obtain ⟨i1, i2⟩ := ih acc1 (g :: visited) hrest hlt2
          exact ⟨i1, fun r v1 h1 x hx => i2 r v1 h1 x (List.mem_cons_of_mem _ hx)⟩
        by_cases hc : d.contains_gate module_border g = true
        · simp only [hc, Bool.not_true, Bool.false_eq_true, if_false]
          cases hf : (if d.get_module g ≠ module_border then
              gather_bit_index_from_origin d n (d.get_module g) known successors
            else .ok nothing_found) with
          | error e =>
            refine ⟨?_, fun r v1 h1 => Except.noConfusion h1⟩
            intro h1
            simp only [Except.error.injEq] at h1
            rw [h1] at hf
            by_cases hm : d.get_module g ≠ module_border
            · rw [if_pos hm] at hf
              exact gather_bit_index_from_origin_ne_fuel _ _ _ _ _ hf
            · rw [if_neg hm] at hf
              exact Except.noConfusion hf
          | ok found =>
            simp only
            by_cases h2 : d.get_module g ≠ module_border ∧ found.1.module ≠ 0
            · rw [if_pos h2]
              exact hcont _
            · rw [if_neg h2]
              by_cases h3 : d.get_module g ≠ module_border ∧
                  (d.get_submodules (d.get_module g)).length = 0
              · rw [if_pos h3]
                exact hcont _
              · rw [if_neg h3]
                obtain ⟨g1, _⟩ := gather_next_ok d fuel
                  (fun next_n new_visited => call next_n (d.get_module g) new_visited)
                  (fun n1 nv hnv => hcall n1 (d.get_module g) nv hnv)
                  (next_nets d g successors) acc (g :: visited) hlt1
                cases hgn : gather_next
                    (fun next_n new_visited => call next_n (d.get_module g) new_visited)
                    (next_nets d g successors) acc (g :: visited) with
                | error e =>
                  refine ⟨?_, fun r v1 h1 => Except.noConfusion h1⟩
                  intro h1
                  simp only [Except.error.injEq] at h1
                  rw [h1] at hgn
                  exact g1 hgn
                | ok p =>
                  obtain ⟨acc1, _⟩ := p
                  simp only
                  exact hcont _
        · simp only [hc, Bool.not_false, if_true]
          cases hf : gather_bit_index_from_origin d n module_border known (!successors) with
          | error e =>
            refine ⟨?_, fun r v1 h1 => Except.noConfusion h1⟩
            intro h1
            simp only [Except.error.injEq] at h1
            rw [h1] at hf
            exact gather_bit_index_from_origin_ne_fuel _ _ _ _ _ hf
          | ok found =>
            simp only
            exact hcont _

/-- The walker does not reach its recursion bound when the bound exceeds the
number of gates that are not visited yet, and it only adds to the set of
visited gates. -/
theorem walker_terminates (d : Design) (hd : gates_listed d) (known : Bitorders)
    (successors : Bool) (fuel : Nat) (n : Net) (module_border : ModulePtr) (visited : List Gate)
    (h : unvisited d visited < fuel) :
    gather_bit_indices_for_net d known successors fuel n module_border visited
        ≠ .error .walk_fuel ∧
      ∀ r v1, gather_bit_indices_for_net d known successors fuel n module_border visited
        = .ok (r, v1) → ∀ g ∈ visited, g ∈ v1 := by
  induction fuel generalizing n module_border visited with
  | zero => omega
  | succ fuel ih =>
    rw [gather_bit_indices_for_net]
    by_cases hg : ((successors && d.is_global_output_net n)
        || (!successors && d.is_global_input_net n)) = true
    · rw [if_pos hg]
      cases hf : gather_bit_index_from_origin d n d.top_module known (!successors) with
      | error e =>
        refine ⟨?_, fun r v1 h1 => Except.noConfusion h1⟩
        intro h1
        simp only [Except.error.injEq] at h1
        rw [h1] at hf
        exact gather_bit_index_from_origin_ne_fuel _ _ _ _ _ hf
      | ok found =>
        refine ⟨fun h1 => Except.noConfusion h1, ?_⟩
        intro r v1 h1 g hg1
        simp only [Except.ok.injEq, Prod.mk.injEq] at h1
        exact h1.2 ▸ hg1
    · rw [if_neg hg]
      apply gather_neighbors_ok d fuel _ (fun n1 m1 nv hnv => ih n1 m1 nv hnv)
      · intro g hg1 h0
        by_cases hs : successors = true
        · rw [if_pos hs] at hg1
          exact hd n g (Or.inl hg1) h0
        · rw [if_neg hs] at hg1
          exact hd n g (Or.inr hg1) h0
      · exact h

/-- Called with an empty visited set as the driver calls it, the walker does
not reach its recursion bound. -/
theorem walker_fuel_enough (d : Design) (hd : gates_listed d) (known : Bitorders)
    (successors : Bool) (n : Net) (module_border : ModulePtr) :
    gather_bit_indices_for_net d known successors (walker_fuel d) n module_border []
      ≠ .error .walk_fuel :=
  (walker_terminates d hd known successors (walker_fuel d) n module_border []
    (Nat.lt_succ_of_le (unvisited_le d []))).1

/-! ## Termination of the driver -/

theorem submodule_in_q_iff (d : Design) (m : ModulePtr) (q : List MPG) :
    submodule_in_q d m q = true ↔
      ∃ s ∈ d.get_submodules_recursive m, ∃ p ∈ q, p.module = s := by
  simp [submodule_in_q, List.any_eq_true]

theorem submodule_in_q_congr (d : Design) (m : ModulePtr) (q1 q2 : List MPG)
    (h : ∀ p, p ∈ q1 ↔ p ∈ q2) : submodule_in_q d m q1 = submodule_in_q d m q2 := by
  rw [Bool.eq_iff_iff, submodule_in_q_iff, submodule_in_q_iff]
  constructor
  · rintro ⟨s, hs, p, hp, e⟩
    exact ⟨s, hs, p, (h p).1 hp, e⟩
  · rintro ⟨s, hs, p, hp, e⟩
    exact ⟨s, hs, p, (h p).2 hp, e⟩

/-- In an acyclic hierarchy a non-empty queue has an origin without submodule in
the queue. -/
theorem exists_unblocked (d : Design) (depth : ModulePtr → Nat) (hd : acyclic_hierarchy d depth)
    (q : List MPG) (hq : q ≠ []) : ∃ e ∈ q, submodule_in_q d e.module q = false := by
  have hne : q.toFinset.Nonempty := by
    obtain ⟨x, hx⟩ := List.exists_mem_of_ne_nil q hq
    exact ⟨x, List.mem_toFinset.2 hx⟩
  obtain ⟨e, he, hmax⟩ := Finset.exists_max_image q.toFinset (fun p => depth p.module) hne
  refine ⟨e, List.mem_toFinset.1 he, ?_⟩
  by_contra hb
  rw [Bool.not_eq_false, submodule_in_q_iff] at hb
  obtain ⟨s, hs, p, hp, hps⟩ := hb
  have h1 := hd e.module s hs
  have h2 := hmax p (List.mem_toFinset.2 hp)
  simp only at h2
  rw [hps] at h2
  omega

theorem takeWhile_append_of_exists {α : Type} (p : α → Bool) (l1 l2 : List α)
    (h : ∃ x ∈ l1, p x = false) : (l1 ++ l2).takeWhile p = l1.takeWhile p := by
  induction l1 with
  | nil =>
    obtain ⟨x, hx, _⟩ := h
    exact absurd hx (List.not_mem_nil _)
  | cons a t ih =>
    rw [List.cons_append, List.takeWhile_cons, List.takeWhile_cons]
    cases ha : p a with
    | false => rfl
    | true =>
      simp only
      rw [ih]
      obtain ⟨x, hx, hpx⟩ := h
      rcases List.mem_cons.1 hx with h1 | h1
      · rw [h1, ha] at hpx
        exact Bool.noConfusion hpx
      · exact ⟨x, h1, hpx⟩

/-- In an acyclic hierarchy the queue loop does not reach its iteration
bound. -/
theorem process_queue_terminates (d : Design) (depth : ModulePtr → Nat)
    (hd : acyclic_hierarchy d depth) (wf : Bitorders) (fuel : Nat) (q : List MPG) (c : Collected)
    (hf : q.length * q.length + leading_blocked d q q ≤ fuel) :
    process_queue d wf fuel q c ≠ .error .queue_fuel := by
  induction fuel generalizing q c with
  | zero =>
    cases q with
    | nil =>
      rw [process_queue_nil]
      exact fun h => Except.noConfusion h
    | cons e rest =>
      simp only [List.length_cons] at hf
      have : 0 < (rest.length + 1) * (rest.length + 1) := Nat.mul_pos (by omega) (by omega)
      omega
  | succ fuel ih =>
    cases q with
    | nil =>
      rw [process_queue_nil]
      exact fun h => Except.noConfusion h
    | cons e rest =>
      rw [process_queue_succ]
      by_cases hb : submodule_in_q d e.module rest = true
      · rw [if_pos hb]
        apply ih
        have hbe : submodule_in_q d e.module (e :: rest) = true := by
          rw [submodule_in_q_iff] at hb ⊢
          obtain ⟨s, hs, p, hp, hps⟩ := hb
          exact ⟨s, hs, p, List.mem_cons_of_mem _ hp, hps⟩
        have hpred : (fun x : MPG => submodule_in_q d x.module (rest ++ [e]))
            = (fun x : MPG => submodule_in_q d x.module (e :: rest)) := by
          funext x
          apply submodule_in_q_congr
          intro p
          simp only [List.mem_append, List.mem_singleton, List.mem_cons]
          tauto
        obtain ⟨x, hx, hxb⟩ := exists_unblocked d depth hd (e :: rest) (List.cons_ne_nil _ _)
        have hxr : x ∈ rest := by
          rcases List.mem_cons.1 hx with h1 | h1
          · rw [h1, hbe] at hxb
            exact Bool.noConfusion hxb
          · exact h1
        have h1 : leading_blocked d (rest ++ [e]) (rest ++ [e])
            = (rest.takeWhile (fun x => submodule_in_q d x.module (e :: rest))).length := by
          unfold leading_blocked
          rw [hpred, takeWhile_append_of_exists _ rest [e] ⟨x, hxr, hxb⟩]
        have h2 : leading_blocked d (e :: rest) (e :: rest)
            = (rest.takeWhile (fun x => submodule_in_q d x.module (e :: rest))).length + 1 := by
          unfold leading_blocked
          rw [List.takeWhile_cons, hbe]
          rfl
        have hl : (rest ++ [e]).length = (e :: rest).length := by simp
        rw [h1, hl]
        rw [h2] at hf
        omega
      · rw [if_neg hb]
        cases hg : gather_origin d wf e c with
        | error x =>
          obtain ⟨w, hw⟩ := gather_pins_error d wf e _ _ c x hg
          rw [hw]
          intro h
          simp only [Except.error.injEq] at h
          exact Failure.noConfusion h
        | ok c2 =>
          simp only
          apply ih
          have h1 : leading_blocked d rest rest ≤ rest.length :=
            (List.takeWhile_sublist _).length_le
          simp only [List.length_cons] at hf
          have h2 : (rest.length + 1) * (rest.length + 1)
              = rest.length * rest.length + 2 * rest.length + 1 := by ring
          omega

theorem queue_fuel_enough (d : Design) (q : List MPG) :
    q.length * q.length + leading_blocked d q q ≤ queue_fuel q := by
  have h : leading_blocked d q q ≤ q.length := (List.takeWhile_sublist _).length_le
  unfold queue_fuel
  omega

/-- The queue of a round is the queue of the round before it without the origins
that have a bit order now. -/
theorem modules_and_pingroup_merge (d : Design) (unknown : List MPG) (wf newly : Bitorders) :
    modules_and_pingroup d unknown (merge_wellformed wf newly)
      = (modules_and_pingroup d unknown wf).filter
          (fun x => (Map.find? (merge_wellformed wf newly) x).isNone) := by
  unfold modules_and_pingroup
  rw [List.filter_filter]
  apply List.filter_congr
  intro x _
  cases h : Map.find? (merge_wellformed wf newly) x with
  | some v => simp
  | none =>
    have h1 : x ∉ Map.keys wf := by
      intro hx
      exact (Map.find?_eq_none_iff _ x).1 h ((mem_keys_merge wf newly x).2 (Or.inl hx))
    simp [(Map.find?_eq_none_iff wf x).2 h1]

/-- The round loop does not reach the bound of one round more than there are
origins in the queue, and it runs no more rounds than that. -/
theorem rounds_terminate (d : Design) (unknown : List MPG) (strict : Bool) (fuel : Nat)
    (wf : Bitorders) (prev : Collected)
    (hf : (modules_and_pingroup d unknown wf).length < fuel) :
    (propagate_rounds d unknown strict fuel wf prev).1 ≠ .error .round_fuel ∧
      (propagate_rounds d unknown strict fuel wf prev).2.length
        ≤ (modules_and_pingroup d unknown wf).length + 1 := by
  revert hf
  refine rounds_induction d unknown strict
    (fun fuel wf _ r => (modules_and_pingroup d unknown wf).length < fuel →
      r.1 ≠ .error .round_fuel ∧ r.2.length ≤ (modules_and_pingroup d unknown wf).length + 1)
    ?_ ?_ ?_ ?_ ?_ fuel wf prev
  · intro wf prev h
    omega
  · intro fuel wf prev _ _
    exact ⟨fun h => Except.noConfusion h, by simp⟩
  · intro fuel wf prev e _ hp _
    refine ⟨?_, by simp⟩
    intro h
    simp only [Except.error.injEq] at h
    rcases process_queue_error d wf _ _ _ e hp with h1 | ⟨w, h1⟩
    · rw [h1] at h
      exact Failure.noConfusion h
    · rw [h1] at h
      exact Failure.noConfusion h
  · intro fuel wf collected _ _ _
    exact ⟨fun h => Except.noConfusion h, by simp⟩
  · intro fuel wf prev collected r hne hp _ hr ih hf
    have hpos : 1 ≤ (modules_and_pingroup d unknown wf).length := by
      cases hq : modules_and_pingroup d unknown wf with
      | nil => exact absurd hq hne
      | cons _ _ => simp
    cases hn : extract_well_formed_bitorder d.toNetlist collected strict with
    | nil =>
      -- nothing resolved: the next round gathers the same evidence and stops
      rw [hn] at hr
      obtain ⟨f, rfl⟩ : ∃ f, fuel = f + 1 := ⟨fuel - 1, by omega⟩
      have hm : merge_wellformed wf [] = wf := rfl
      have hem : (modules_and_pingroup d unknown wf).isEmpty = false := by
        cases hq : modules_and_pingroup d unknown wf with
        | nil => exact absurd hq hne
        | cons _ _ => rfl
      rw [hm, propagate_rounds_succ, hem, hp] at hr
      simp only [Bool.false_eq_true, if_false, if_true] at hr
      rw [hr]
      refine ⟨fun h => Except.noConfusion h, ?_⟩
      simp only [List.length_cons, List.length_nil]
      omega
    | cons p t =>
      have hk : p.1 ∈ Map.keys (extract_well_formed_bitorder d.toNetlist collected strict) := by
        rw [hn]
        exact List.mem_cons_self _ _
      have hq := newly_in_queue d unknown strict wf _ collected hp p.1 hk
      have hlt : (modules_and_pingroup d unknown
          (merge_wellformed wf (extract_well_formed_bitorder d.toNetlist collected strict))).length
          < (modules_and_pingroup d unknown wf).length := by
        rw [modules_and_pingroup_merge]
        apply List.length_filter_lt_length_iff_exists.2
        refine ⟨p.1, (mem_modules_and_pingroup d unknown wf p.1).2 hq.2, ?_⟩
        obtain ⟨v, hv⟩ := (mem_keys_iff_find? _ p.1).1
          ((mem_keys_merge wf (extract_well_formed_bitorder d.toNetlist collected strict) p.1).2
            (Or.inr hk))
        rw [hv]
        simp
      obtain ⟨h1, h2⟩ := ih (by omega)
      refine ⟨h1, ?_⟩
      simp only [List.length_cons]
      omega

/-- The way the round loop stops. -/
theorem rounds_stop_reason (d : Design) (unknown : List MPG) (strict : Bool) (fuel : Nat)
    (wf : Bitorders) (prev : Collected) (R : Bitorders)
    (h : (propagate_rounds d unknown strict fuel wf prev).1 = .ok R) :
    stop_reason d unknown R (propagate_rounds d unknown strict fuel wf prev).2 prev := by
  revert R
  refine rounds_induction d unknown strict
    (fun _ _ prev r => ∀ R, r.1 = .ok R → stop_reason d unknown R r.2 prev)
    ?_ ?_ ?_ ?_ ?_ fuel wf prev
  · intro wf prev R h
    exact Except.noConfusion h
  · intro fuel wf prev hq R h
    simp only [Except.ok.injEq] at h
    subst h
    exact Or.inl hq
  · intro fuel wf prev e _ _ R h
    exact Except.noConfusion h
  · intro fuel wf collected _ _ R _
    exact Or.inr ⟨[], (wf, collected), rfl, rfl⟩
  · intro fuel wf prev collected r _ _ _ _ ih R h
    rcases ih R h with h1 | ⟨init, last, h1, h2⟩
    · exact Or.inl h1
    · refine Or.inr ⟨(wf, collected) :: init, last, ?_, ?_⟩
      · simp only [h1, List.cons_append]
      · rw [h2]
        cases init with
        | nil => rfl
        | cons a t =>
          simp only [List.getLast?_cons_cons]
          rw [List.getLast?_eq_getLast _ (List.cons_ne_nil a t)]
          rfl

theorem gather_pins_error_walk (d : Design) (hd : gates_listed d) (wf : Bitorders) (mpg : MPG)
    (successors : Bool) (pins : List Net) (c : Collected) (e : Failure)
    (h : gather_pins d wf mpg successors pins c = .error e) : is_fuel_failure e = false := by
  induction pins generalizing c with
  | nil => exact Except.noConfusion h
  | cons net rest ih =>
    rw [gather_pins_cons] at h
    cases h1 : gather_bit_indices_for_net d wf successors (walker_fuel d) net
        (d.get_parent_module mpg.module) [] with
    | error e1 =>
      rw [h1] at h
      simp only [Except.error.injEq] at h
      rw [← h]
      cases e1 with
      | no_pin n m => rfl
      | walk_fuel => exact absurd h1 (walker_fuel_enough d hd wf successors net _)
    | ok p1 =>
      obtain ⟨out, v1⟩ := p1
      rw [h1] at h
      simp only at h
      cases h2 : gather_bit_indices_for_net d wf (!successors) (walker_fuel d) net mpg.module [] with
      | error e2 =>
        rw [h2] at h
        simp only [Except.error.injEq] at h
        rw [← h]
        cases e2 with
        | no_pin n m => rfl
        | walk_fuel => exact absurd h2 (walker_fuel_enough d hd wf (!successors) net _)
      | ok p2 =>
        obtain ⟨inw, v2⟩ := p2
        rw [h2] at h
        simp only at h
        exact ih _ h

theorem process_queue_error_walk (d : Design) (hd : gates_listed d) (wf : Bitorders) (fuel : Nat)
    (q : List MPG) (c : Collected) (e : Failure) (h : process_queue d wf fuel q c = .error e) :
    e = .queue_fuel ∨ is_fuel_failure e = false := by
  induction fuel generalizing q c with
  | zero =>
    cases q with
    | nil =>
      rw [process_queue_nil] at h
      exact Except.noConfusion h
    | cons e1 rest =>
      simp only [process_queue, Except.error.injEq] at h
      exact Or.inl h.symm
  | succ fuel ih =>
    cases q with
    | nil =>
      rw [process_queue_nil] at h
      exact Except.noConfusion h
    | cons e1 rest =>
      rw [process_queue_succ] at h
      by_cases hb : submodule_in_q d e1.module rest = true
      · rw [if_pos hb] at h
        exact ih _ _ h
      · rw [if_neg hb] at h
        cases hg : gather_origin d wf e1 c with
        | error x =>
          rw [hg] at h
          simp only [Except.error.injEq] at h
          exact Or.inr (h ▸ gather_pins_error_walk d hd wf e1 _ _ c x hg)
        | ok c2 =>
          rw [hg] at h
          exact ih _ _ h

/-- With enough rounds, an acyclic hierarchy and all gates listed, a failure of
the driver is a failure of the program. -/
theorem rounds_no_fuel_failure (d : Design) (depth : ModulePtr → Nat)
    (hd : acyclic_hierarchy d depth) (hg : gates_listed d) (unknown : List MPG) (strict : Bool)
    (fuel : Nat) (wf : Bitorders) (prev : Collected) (e : Failure)
    (h : (propagate_rounds d unknown strict fuel wf prev).1 = .error e) :
    e = .round_fuel ∨ is_fuel_failure e = false := by
  revert e
  refine rounds_induction d unknown strict
    (fun _ _ _ r => ∀ e, r.1 = .error e → e = .round_fuel ∨ is_fuel_failure e = false)
    ?_ ?_ ?_ ?_ ?_ fuel wf prev
  · intro wf prev e h
    simp only [Except.error.injEq] at h
    exact Or.inl h.symm
  · intro fuel wf prev _ e h
    exact Except.noConfusion h
  · intro fuel wf prev e1 _ hp e h
    simp only [Except.error.injEq] at h
    subst h
    rcases process_queue_error_walk d hg wf _ _ _ e1 hp with h1 | h1
    · exact absurd (h1 ▸ hp)
        (process_queue_terminates d depth hd wf _ _ _ (queue_fuel_enough d _))
    · exact Or.inr h1
  · intro fuel wf collected _ _ e h
    exact Except.noConfusion h
  · intro fuel wf prev collected r _ _ _ _ ih e h
    exact ih e h

/-- A round that resolves nothing is followed by at most one round. -/
theorem rounds_after_idle (d : Design) (unknown : List MPG) (strict : Bool) (fuel : Nat)
    (wf : Bitorders) (prev : Collected) (l1 l2 : List (Bitorders × Collected))
    (x y : Bitorders × Collected)
    (h : (propagate_rounds d unknown strict fuel wf prev).2 = l1 ++ x :: y :: l2)
    (hx : extract_well_formed_bitorder d.toNetlist x.2 strict = []) : l2 = [] := by
  revert l1
  refine rounds_induction d unknown strict
    (fun _ _ _ r => ∀ l1, r.2 = l1 ++ x :: y :: l2 → l2 = []) ?_ ?_ ?_ ?_ ?_ fuel wf prev
  · intro wf prev l1 h
    simp at h
  · intro fuel wf prev _ l1 h
    simp at h
  · intro fuel wf prev e _ _ l1 h
    simp at h
  · intro fuel wf collected _ _ l1 h
    have := congrArg List.length h
    simp at this
    omega
  · intro fuel wf prev collected r hne hp _ hr ih l1 h
    cases l1 with
    | cons a t =>
      simp only [List.cons_append, List.cons.injEq] at h
      exact ih t h.2
    | nil =>
      simp only [List.nil_append, List.cons.injEq] at h
      obtain ⟨h1, h2⟩ := h
      rw [← h1] at hx
      simp only at hx
      rw [hx] at hr
      have hm : merge_wellformed wf [] = wf := rfl
      rw [hm] at hr
      cases fuel with
      | zero =>
        rw [hr] at h2
        simp [propagate_rounds] at h2
      | succ f =>
        have hem : (modules_and_pingroup d unknown wf).isEmpty = false := by
          cases hq : modules_and_pingroup d unknown wf with
          | nil => exact absurd hq hne
          | cons _ _ => rfl
        rw [propagate_rounds_succ, hem, hp] at hr
        simp only [Bool.false_eq_true, if_false, if_true] at hr
        rw [hr] at h2
        simp only [List.cons.injEq] at h2
        exact h2.2.symm

theorem length_modules_and_pingroup_le (d : Design) (unknown : List MPG) (wf : Bitorders) :
    (modules_and_pingroup d unknown wf).length ≤ unknown.length :=
  List.length_filter_le _ _

/-- C17: the driver terminates.  On a netlist with an acyclic module hierarchy
(every submodule lies deeper than its module) in which the gates at the
endpoints of the nets are gates of the netlist, and for every known and unknown
input, the bounded run of `propagate_module_pingroup_bitorder` never reaches a
bound: neither the round loop, nor the queue loop, nor the recursion of the
walker.  It gathers evidence in at most `|unknown_bitorders| + 1` rounds; a
round that resolves nothing is followed by at most one round; and when it
succeeds it has stopped because no origin was left for the queue or because the
evidence of the last round equals the evidence of the round before it. -/
theorem propagate_terminates (d : Design) (depth : ModulePtr → Nat) (known : Bitorders)
    (unknown : List MPG) (strict : Bool) (hd : acyclic_hierarchy d depth) (hg : gates_listed d) :
    (∀ e, propagate_module_pingroup_bitorder d known unknown strict = .error e →
        is_fuel_failure e = false) ∧
      (propagate_module_pingroup_bitorder_rounds d known unknown strict).2.length
        ≤ unknown.length + 1 ∧
      (∀ l1 x y l2,
        (propagate_module_pingroup_bitorder_rounds d known unknown strict).2 = l1 ++ x :: y :: l2 →
        extract_well_formed_bitorder d.toNetlist x.2 strict = [] → l2 = []) ∧
      ∀ R, propagate_module_pingroup_bitorder d known unknown strict = .ok R →
        stop_reason d unknown R
          (propagate_module_pingroup_bitorder_rounds d known unknown strict).2 [] := by
  have ht := rounds_terminate d unknown strict (round_fuel d known unknown) known []
    (Nat.lt_succ_self _)
  have hl := length_modules_and_pingroup_le d unknown known
  refine ⟨?_, ?_, ?_, ?_⟩
  · intro e he
    rcases rounds_no_fuel_failure d depth hd hg unknown strict _ known [] e he with h1 | h1
    · rw [h1] at he
      exact absurd he ht.1
    · exact h1
  · exact le_trans ht.2 (by omega)
  · intro l1 x y l2 h hx
    exact rounds_after_idle d unknown strict _ known [] l1 l2 x y h hx
  · intro R hR
    exact rounds_stop_reason d unknown strict _ known [] R hR

theorem exDesign_acyclic : acyclic_hierarchy exDesign exDepth := by
  intro m s hs
  by_cases hm : m = 1
  · subst hm
    have h1 : s = 2 ∨ s = 3 ∨ s = 4 := by simpa [exDesign] using hs
    rcases h1 with h1 | h1 | h1 <;> subst h1 <;> decide
  · have h1 : exDesign.get_submodules_recursive m = [] := by simp [exDesign, hm]
    rw [h1] at hs
    exact absurd hs (List.not_mem_nil _)

theorem exDesign_gates_listed : gates_listed exDesign := by
  intro n g h _
  have key : ∀ (a b lo k : Nat), lo ≤ a ∧ a ≤ lo + 2 → b = a + k →
      (lo = 10 ∧ (k = 190 ∨ k = 90)) ∨ (lo = 40 ∧ k = 160) →
      b = 100 ∨ b = 101 ∨ b = 102 ∨ b = 200 ∨ b = 201 ∨ b = 202 := by
    intro a b lo k h1 h2 h3
    omega
  have hgates : exDesign.gates = [100, 101, 102, 200, 201, 202] := rfl
  rw [hgates]
  simp only [List.mem_cons, List.mem_singleton, List.not_mem_nil, or_false]
  rcases h with h | h
  · have h1 : exDesign.get_destinations n = if 10 ≤ n ∧ n ≤ 12 then [n + 190] else [] := rfl
    rw [h1] at h
    split_ifs at h with h2
    · exact key n g 10 190 h2 (List.mem_singleton.1 h) (Or.inl ⟨rfl, Or.inl rfl⟩)
    · exact absurd h (List.not_mem_nil _)
  · have h1 : exDesign.get_sources n
        = if 10 ≤ n ∧ n ≤ 12 then [n + 90] else if 40 ≤ n ∧ n ≤ 42 then [n + 160] else [] := rfl
    rw [h1] at h
    split_ifs at h with h2 h3
    · exact key n g 10 90 h2 (List.mem_singleton.1 h) (Or.inl ⟨rfl, Or.inr rfl⟩)
    · exact key n g 40 160 h3 (List.mem_singleton.1 h) (Or.inr ⟨rfl, rfl⟩)
    · exact absurd h (List.not_mem_nil _)

/-- An instance of C17 on the example netlist: with two unknown origins the
driver gathers evidence in three rounds. -/
theorem propagate_terminates_witness :
    propagate_module_pingroup_bitorder exDesign exKnown [exDst, exLone] true = .ok exResult ∧
      (propagate_module_pingroup_bitorder_rounds exDesign exKnown [exDst, exLone] true).2.length = 3 ∧
      ((∀ e, propagate_module_pingroup_bitorder exDesign exKnown [exDst, exLone] true = .error e →
          is_fuel_failure e = false) ∧
        (propagate_module_pingroup_bitorder_rounds exDesign exKnown [exDst, exLone] true).2.length
          ≤ [exDst, exLone].length + 1 ∧
        (∀ l1 x y l2,
          (propagate_module_pingroup_bitorder_rounds exDesign exKnown [exDst, exLone] true).2
            = l1 ++ x :: y :: l2 →
          extract_well_formed_bitorder exDesign.toNetlist x.2 true = [] → l2 = []) ∧
        ∀ R, propagate_module_pingroup_bitorder exDesign exKnown [exDst, exLone] true = .ok R →
          stop_reason exDesign [exDst, exLone] R
            (propagate_module_pingroup_bitorder_rounds exDesign exKnown [exDst, exLone] true).2 []) :=
  ⟨by rfl, by rfl,
    propagate_terminates exDesign exDepth exKnown [exDst, exLone] true exDesign_acyclic
      exDesign_gates_listed⟩

/-! ## The number of new bit orders -/

theorem length_insert_of_not_mem {K V : Type} [LinearOrder K] (m : Map K V) (k : K) (v : V)
    (h : k ∉ Map.keys m) : (Map.insert m k v).length = m.length + 1 := by
  rw [(Map.insert_perm m k v h).length_eq]
  rfl

theorem mem_keys_insert_new {K V : Type} [LinearOrder K] (m : Map K V) (k j : K) (v : V) :
    j ∈ Map.keys (Map.insert_new m k v) ↔ j = k ∨ j ∈ Map.keys m := by
  unfold Map.insert_new
  cases h : Map.find? m k with
  | none =>
    simp only [Option.isSome_none, Bool.false_eq_true, if_false]
    exact Map.mem_keys_insert m k j v
  | some x =>
    simp only [Option.isSome_some, if_true]
    constructor
    · exact fun h1 => Or.inr h1
    · rintro (h1 | h1)
      · rw [h1]
        exact (mem_keys_iff_find? m k).2 ⟨x, h⟩
      · exact h1

theorem mem_origin_set (l : List MPG) (g : MPG) : g ∈ origin_set l ↔ g ∈ l := by
  have key : ∀ (l : List MPG) (s : Map MPG Unit),
      g ∈ Map.keys (l.foldl (fun s mpg => Map.insert_new s mpg ()) s) ↔ g ∈ l ∨ g ∈ Map.keys s := by
    intro l
    induction l with
    | nil => intro s; simp
    | cons a t ih =>
      intro s
      rw [List.foldl_cons, ih, mem_keys_insert_new, List.mem_cons]
      tauto
  unfold origin_set
  rw [key]
  simp [Map.keys]

/-- The known bit orders built from a list of distinct origins: one for every
origin of the list. -/
theorem known_bitorders_of_spec (d : Design) (src : List MPG) (acc known : Bitorders)
    (h : known_bitorders_of d src acc = .ok known) (hacc : Map.WF acc)
    (hnew : ∀ g ∈ src, g ∉ Map.keys acc) (hsrc : src.Nodup) :
    Map.WF known ∧ (∀ g, g ∈ Map.keys known ↔ g ∈ Map.keys acc ∨ g ∈ src) ∧
      known.length = acc.length + src.length := by
  induction src generalizing acc with
  | nil =>
    simp only [known_bitorders_of, Except.ok.injEq] at h
    subst h
    exact ⟨hacc, by simp, by simp⟩
  | cons mpg rest ih =>
    rw [known_bitorders_of] at h
    cases hb : src_bitorder d mpg (d.pins mpg).length 0 [] with
    | error e =>
      rw [hb] at h
      exact Except.noConfusion h
    | ok bo =>
      rw [hb] at h
      simp only at h
      have hm : mpg ∉ Map.keys acc := hnew mpg (List.mem_cons_self _ _)
      have hi : Map.insert_new acc mpg bo = Map.insert acc mpg bo := by
        unfold Map.insert_new
        rw [(Map.find?_eq_none_iff acc mpg).2 hm]
        rfl
      rw [hi] at h
      obtain ⟨h1, h2, h3⟩ := ih (Map.insert acc mpg bo) h (Map.WF_insert acc mpg bo hacc)
        (by
          intro g hg hk
          rcases (Map.mem_keys_insert acc mpg g bo).1 hk with h4 | h4
          · rw [h4] at hg
            exact (List.nodup_cons.1 hsrc).1 hg
          · exact hnew g (List.mem_cons_of_mem _ hg) h4)
        (List.nodup_cons.1 hsrc).2
      refine ⟨h1, ?_, ?_⟩
      · intro g
        rw [h2, Map.mem_keys_insert, List.mem_cons]
        tauto
      · rw [h3, length_insert_of_not_mem acc mpg bo hm, List.length_cons]
        omega

theorem WF_merge (wf newly : Bitorders) (h : Map.WF wf) : Map.WF (merge_wellformed wf newly) := by
  unfold merge_wellformed
  induction newly generalizing wf with
  | nil => exact h
  | cons p t ih =>
    rw [List.foldl_cons]
    exact ih _ (Map.WF_insert _ _ _ h)

/-- The result of the driver is a well-formed map when the known bit orders
are. -/
theorem rounds_WF (d : Design) (unknown : List MPG) (strict : Bool) (fuel : Nat) (wf : Bitorders)
    (prev : Collected) (hwf : Map.WF wf) (R : Bitorders)
    (h : (propagate_rounds d unknown strict fuel wf prev).1 = .ok R) : Map.WF R := by
  revert hwf R
  refine rounds_induction d unknown strict
    (fun _ wf _ r => Map.WF wf → ∀ R, r.1 = .ok R → Map.WF R) ?_ ?_ ?_ ?_ ?_ fuel wf prev
  · intro wf prev _ R h
    exact Except.noConfusion h
  · intro fuel wf prev _ hwf R h
    simp only [Except.ok.injEq] at h
    exact h ▸ hwf
  · intro fuel wf prev e _ _ _ R h
    exact Except.noConfusion h
  · intro fuel wf collected _ _ hwf R h
    simp only [Except.ok.injEq] at h
    exact h ▸ WF_merge wf _ hwf
  · intro fuel wf prev collected r _ _ _ _ ih hwf R h
    exact ih (WF_merge wf _ hwf) R h

/-- A map with distinct keys that holds all keys of another is longer exactly
when it has a key the other has not. -/
theorem length_lt_iff_exists_key {V W : Type} (a : Map MPG V) (b : Map MPG W)
    (ha : (Map.keys a).Nodup) (hb : (Map.keys b).Nodup) (hab : ∀ k ∈ Map.keys a, k ∈ Map.keys b) :
    a.length < b.length ↔ ∃ g ∈ Map.keys b, g ∉ Map.keys a := by
  have la : a.length = (Map.keys a).length := by simp [Map.keys]
  have lb : b.length = (Map.keys b).length := by simp [Map.keys]
  constructor
  · intro h
    by_contra hc
    have hsub : Map.keys b ⊆ Map.keys a := by
      intro g hg
      by_contra hn
      exact hc ⟨g, hg, hn⟩
    have := (List.Nodup.subperm hb hsub).length_le
    omega
  · rintro ⟨g, hg, hn⟩
    have hnd : (g :: Map.keys a).Nodup := List.nodup_cons.2 ⟨hn, ha⟩
    have hsub : (g :: Map.keys a) ⊆ Map.keys b := by
      intro x hx
      rcases List.mem_cons.1 hx with h1 | h1
      · rw [h1]
        exact hg
      · exact hab x h1
    have := (List.Nodup.subperm hnd hsub).length_le
    simp only [List.length_cons] at this
    omega

/-- The value of `propagate_bitorder` when no origin is listed twice in `src`
(and there are fewer than `2 ^ 32` bit orders): it is `true` exactly when an
origin of `dst` that is not in `src` has a bit order in the result of the
propagation. -/
theorem propagate_bitorder_value (d : Design) (default_strict : Bool) (src dst : List MPG)
    (b : Bool) (hsrc : src.Nodup) (h : propagate_bitorder d default_strict src dst = .ok b) :
    ∃ known R, known_bitorders_of d src [] = .ok known ∧
      propagate_module_pingroup_bitorder d known (origin_set dst) default_strict = .ok R ∧
      (∀ g, g ∈ Map.keys known ↔ g ∈ src) ∧
      (R.length < 4294967296 → (b = true ↔ ∃ g ∈ dst, g ∉ src ∧ g ∈ Map.keys R)) := by
  unfold propagate_bitorder at h
  cases hk : known_bitorders_of d src [] with
  | error e =>
    rw [hk] at h
    exact Except.noConfusion h
  | ok known =>
    rw [hk] at h
    simp only at h
    cases hR : propagate_module_pingroup_bitorder d known (origin_set dst) default_strict with
    | error e =>
      rw [hR] at h
      exact Except.noConfusion h
    | ok R =>
      rw [hR] at h
      simp only [Except.ok.injEq] at h
      obtain ⟨hwf, hkeys, hlen⟩ := known_bitorders_of_spec d src [] known hk Map.WF_nil
        (by intro g _ hg; exact absurd hg (List.not_mem_nil _)) hsrc
      have hkeys2 : ∀ g, g ∈ Map.keys known ↔ g ∈ src := by
        intro g
        rw [hkeys]
        simp [Map.keys]
      have hRwf : Map.WF R := rounds_WF d _ default_strict _ known [] hwf R hR
      have hkept := (rounds_keep d (origin_set dst) default_strict
        (round_fuel d known (origin_set dst)) known []).2.2 R hR
      have hsub : ∀ k ∈ Map.keys known, k ∈ Map.keys R := by
        intro k hk1
        obtain ⟨v, hv⟩ := (mem_keys_iff_find? known k).1 hk1
        exact (mem_keys_iff_find? R k).2 ⟨v, hkept.1 k v hv⟩
      have hiff := length_lt_iff_exists_key known R (Map.nodup_keys_of_WF known hwf)
        (Map.nodup_keys_of_WF R hRwf) hsub
      have hfrom := (rounds_keys d (origin_set dst) default_strict
        (round_fuel d known (origin_set dst)) known []).2 R hR
      refine ⟨known, R, rfl, hR, hkeys2, ?_⟩
      intro hsmall
      have hle : known.length ≤ R.length := by
        have := (List.Nodup.subperm (Map.nodup_keys_of_WF known hwf) hsub).length_le
        simpa [Map.keys] using this
      have hcount : new_bit_order_count (u32 R.length) src.length = R.length - known.length := by
        unfold new_bit_order_count u32
        rw [Nat.mod_eq_of_lt hsmall]
        simp only [List.length_nil, zero_add] at hlen
        rw [← hlen]
        have h1 : ((R.length : Int) - (known.length : Int)) = ((R.length - known.length : Nat) : Int) := by
          omega
        rw [h1]
        have h2 : ((R.length - known.length : Nat) : Int) % 4294967296
            = ((R.length - known.length : Nat) : Int) := by
          apply Int.emod_eq_of_lt <;> omega
        rw [h2]
        rfl
      rw [hcount] at h
      rw [← h]
      simp only [gt_iff_lt, decide_eq_true_eq]
      constructor
      · intro hpos
        obtain ⟨g, hg, hn⟩ := hiff.1 (by omega)
        rcases hfrom g hg with h1 | h1
        · exact absurd h1 hn
        · exact ⟨g, (mem_origin_set dst g).1 h1.1, fun hs => hn ((hkeys2 g).2 hs), hg⟩
      · rintro ⟨g, _, hns, hg⟩
        have := hiff.2 ⟨g, hg, fun hk1 => hns ((hkeys2 g).1 hk1)⟩
        omega

/-! ## The value returned by `propagate_bitorder` -/

/-- C20: the value `propagate_bitorder` returns on the example netlist when an
origin is listed twice in `src`, whatever the default strictness.  The two
entries of `src` give one known bit order.  With `dst` the origin `exLone`,
which is not in `src`, nothing is resolved (the result of the propagation holds
the known bit order only), and the value returned is `true`: the number of new
bit orders is computed as `1 - 2` in `u32`, which is `4294967295`.  With `dst`
the origin `exDst`, which is not in `src` either, `exDst` receives a bit order,
and the value returned is `false`, the number of new bit orders being computed
as `2 - 2`. -/
theorem propagate_bitorder_repeated_src (default_strict : Bool) :
    known_bitorders_of exDesign [exSrc, exSrc] [] = .ok exKnown ∧
      propagate_module_pingroup_bitorder exDesign exKnown (origin_set [exLone]) default_strict
        = .ok exKnown ∧
      exLone ∉ [exSrc, exSrc] ∧ exLone ∉ Map.keys exKnown ∧
      new_bit_order_count (u32 exKnown.length) [exSrc, exSrc].length = 4294967295 ∧
      propagate_bitorder exDesign default_strict [exSrc, exSrc] [exLone] = .ok true ∧
      propagate_module_pingroup_bitorder exDesign exKnown (origin_set [exDst]) default_strict
        = .ok exResult ∧
      exDst ∉ [exSrc, exSrc] ∧ exDst ∈ Map.keys exResult ∧
      new_bit_order_count (u32 exResult.length) [exSrc, exSrc].length = 0 ∧
      propagate_bitorder exDesign default_strict [exSrc, exSrc] [exDst] = .ok false := by
  cases default_strict
  · exact ⟨by rfl, by rfl, by decide, by decide, by decide, by rfl, by rfl, by decide, by decide,
      by decide, by rfl⟩
  · exact ⟨by rfl, by rfl, by decide, by decide, by decide, by rfl, by rfl, by decide, by decide,
      by decide, by rfl⟩

/-! ## The overload of `propagate_bitorder` on names -/

theorem find_pin_group_some (q : NameQueries) (pg_name : String) (mod_id : Nat) (l : List Nat)
    (c : Nat) :
    find_pin_group q pg_name mod_id l (some c)
      = if l.filter (fun pin_group => decide (q.get_name pin_group = pg_name)) = [] then .ok (some c)
        else .error (.multiple_pin_groups pg_name mod_id) := by
  induction l with
  | nil => rfl
  | cons a t ih =>
    rw [find_pin_group]
    by_cases h : q.get_name a = pg_name
    · simp [h, List.filter_cons]
    · simp [h, List.filter_cons, ih]

theorem find_pin_group_none (q : NameQueries) (pg_name : String) (mod_id : Nat) (l : List Nat) :
    find_pin_group q pg_name mod_id l none
      = match l.filter (fun pin_group => decide (q.get_name pin_group = pg_name)) with
        | [] => .ok none
        | [pin_group] => .ok (some pin_group)
        | _ :: _ :: _ => .error (.multiple_pin_groups pg_name mod_id) := by
  induction l with
  | nil => rfl
  | cons a t ih =>
    rw [find_pin_group]
    by_cases h : q.get_name a = pg_name
    · simp only [h, if_true, Option.isSome_none, Bool.false_eq_true, if_false, List.filter_cons,
        decide_True]
      rw [find_pin_group_some]
      cases hf : t.filter (fun pin_group => decide (q.get_name pin_group = pg_name)) with
      | nil => simp
      | cons b r => simp
    · simp only [h, if_false, List.filter_cons, decide_False, Bool.false_eq_true]
      exact ih

/-- The origin of a pair of a module id and a pin group name. -/
theorem resolve_pair_eq (q : NameQueries) (p : Nat × String) :
    resolve_pair q p = resolve_spec q p := by
  unfold resolve_pair resolve_spec named_groups
  cases hm : q.get_module_by_id p.1 with
  | none => rfl
  | some m =>
    simp only
    rw [find_pin_group_none]
    cases hf : (q.get_pin_groups m).filter (fun pin_group => decide (q.get_name pin_group = p.2)) with
    | nil => rfl
    | cons a t =>
      cases t with
      | nil => rfl
      | cons b r => rfl

theorem resolve_pairs_ok (q : NameQueries) (l : List (Nat × String)) (acc r : List MPG) :
    resolve_pairs q l acc = .ok r ↔
      ∃ os, List.Forall₂ (fun p o => resolve_pair q p = .ok o) l os ∧ r = acc ++ os := by
  induction l generalizing acc with
  | nil =>
    simp only [resolve_pairs, Except.ok.injEq, List.forall₂_nil_left_iff, exists_eq_left,
      List.append_nil]
    exact eq_comm
  | cons p t ih =>
    rw [resolve_pairs]
    cases hp : resolve_pair q p with
    | error e =>
      simp only [reduceCtorEq, false_iff, not_exists, not_and]
      intro os hos
      cases hos with
      | cons h1 _ =>
        rw [hp] at h1
        exact Except.noConfusion h1
    | ok o =>
      simp only
      rw [ih]
      constructor
      · rintro ⟨os, h1, h2⟩
        exact ⟨o :: os, List.Forall₂.cons hp h1, by simp [h2]⟩
      · rintro ⟨os, h1, h2⟩
        cases h1 with
        | cons h3 h4 =>
          rw [hp] at h3
          simp only [Except.ok.injEq] at h3
          subst h3
          exact ⟨_, h4, by simp [h2]⟩

theorem resolve_pairs_error (q : NameQueries) (l : List (Nat × String)) (acc : List MPG)
    (h : ∃ p ∈ l, ∃ e, resolve_pair q p = .error e) :
    ∃ e, resolve_pairs q l acc = .error e ∧ ∀ f, e ≠ .propagation f := by
  induction l generalizing acc with
  | nil =>
    obtain ⟨p, hp, _⟩ := h
    exact absurd hp (List.not_mem_nil _)
  | cons p t ih =>
    rw [resolve_pairs]
    cases hp : resolve_pair q p with
    | error e =>
      refine ⟨e, rfl, ?_⟩
      intro f hf
      rw [resolve_pair_eq] at hp
      unfold resolve_spec at hp
      subst hf
      cases hm : q.get_module_by_id p.1 with
      | none =>
        rw [hm] at hp
        simp at hp
      | some m =>
        rw [hm] at hp
        simp only at hp
        split at hp <;> simp at hp
    | ok o =>
      simp only
      apply ih
      obtain ⟨p1, hp1, e, he⟩ := h
      rcases List.mem_cons.1 hp1 with h1 | h1
      · rw [h1, hp] at he
        exact Except.noConfusion he
      · exact ⟨p1, h1, e, he⟩

/-- C21: the overload of `propagate_bitorder` on pairs of a module id and a pin
group name.  For every pair the outcome is `resolve_spec`: an error if no module
has the id, if the module has no pin group of exactly that name or if it has
more than one; else the module with its only pin group of that name.  If a pair
of `src` or `dst` has an error, the call fails with an error of that kind
whatever the netlist holds otherwise (nothing is propagated or reordered for
it); if every pair has an origin, the call is `propagate_bitorder` on these
origins. -/
theorem propagate_bitorder_by_name_contract (q : NameQueries) (d : Design) (default_strict : Bool)
    (src dst : List (Nat × String)) :
    (∀ p, resolve_pair q p = resolve_spec q p) ∧
      ((∃ p ∈ src ++ dst, ∃ e, resolve_spec q p = .error e) →
        ∃ e, (∀ d2 s2, propagate_bitorder_by_name q d2 s2 src dst = .error e) ∧
          ∀ f, e ≠ .propagation f) ∧
      (∀ internal_src internal_dst,
        List.Forall₂ (fun p o => resolve_spec q p = .ok o) src internal_src →
        List.Forall₂ (fun p o => resolve_spec q p = .ok o) dst internal_dst →
        propagate_bitorder_by_name q d default_strict src dst
          = of_propagation (propagate_bitorder d default_strict internal_src internal_dst)) := by
  refine ⟨resolve_pair_eq q, ?_, ?_⟩
  · rintro ⟨p, hp, e, he⟩
    rw [← resolve_pair_eq] at he
    rcases List.mem_append.1 hp with h1 | h1
    · obtain ⟨e1, h2, h3⟩ := resolve_pairs_error q src [] ⟨p, h1, e, he⟩
      refine ⟨e1, ?_, h3⟩
      intro d2 s2
      unfold propagate_bitorder_by_name
      rw [h2]
    · cases hs : resolve_pairs q src [] with
      | error e1 =>
        refine ⟨e1, ?_, ?_⟩
        · intro d2 s2
          unfold propagate_bitorder_by_name
          rw [hs]
        · intro f hf
          by_cases hex : ∃ p ∈ src, ∃ e, resolve_pair q p = .error e
          · obtain ⟨e2, h2, h3⟩ := resolve_pairs_error q src [] hex
            rw [hs] at h2
            simp only [Except.error.injEq] at h2
            exact h3 f (h2 ▸ hf)
          · have hall : ∀ l : List (Nat × String), (∀ p ∈ l, ∃ o, resolve_pair q p = .ok o) →
                ∀ acc, ∃ r, resolve_pairs q l acc = .ok r := by
              intro l
              induction l with
              | nil => intro _ acc; exact ⟨acc, rfl⟩
              | cons a t ih =>
                intro hl acc
                obtain ⟨o, ho⟩ := hl a (List.mem_cons_self _ _)
                rw [resolve_pairs, ho]
                exact ih (fun p hp => hl p (List.mem_cons_of_mem _ hp)) _
            obtain ⟨r, hr⟩ := hall src (by
              intro p1 hp1
              cases h4 : resolve_pair q p1 with
              | error e4 => exact absurd ⟨p1, hp1, e4, h4⟩ hex
              | ok o => exact ⟨o, rfl⟩) []
            rw [hr] at hs
            exact Except.noConfusion hs
      | ok internal_src =>
        obtain ⟨e1, h2, h3⟩ := resolve_pairs_error q dst [] ⟨p, h1, e, he⟩
        refine ⟨e1, ?_, h3⟩
        intro d2 s2
        unfold propagate_bitorder_by_name
        rw [hs, h2]
  · intro internal_src internal_dst hs hd
    have h1 : resolve_pairs q src [] = .ok internal_src :=
      (resolve_pairs_ok q src [] internal_src).2
        ⟨internal_src, by simpa only [resolve_pair_eq] using hs, by simp⟩
    have h2 : resolve_pairs q dst [] = .ok internal_dst :=
      (resolve_pairs_ok q dst [] internal_dst).2
        ⟨internal_dst, by simpa only [resolve_pair_eq] using hd, by simp⟩
    unfold propagate_bitorder_by_name
    rw [h1, h2]

/-- An instance of C21 on the example queries and the example netlist: the id 9
belongs to no module, the module with the id 7 has no pin group `"in"` and two
pin groups `"dup"`, and the pairs `(7, "out")` and `(8, "in")` are the origins
`exSrc` and `exDst`. -/
theorem propagate_bitorder_by_name_contract_witness :
    propagate_bitorder_by_name exNames exDesign true [(9, "out")] [(8, "in")]
        = .error (.no_module 9) ∧
      propagate_bitorder_by_name exNames exDesign true [(7, "in")] [(8, "in")]
        = .error (.no_pin_group "in" 7) ∧
      propagate_bitorder_by_name exNames exDesign true [(7, "out")] [(7, "dup")]
        = .error (.multiple_pin_groups "dup" 7) ∧
      propagate_bitorder_by_name exNames exDesign true [(7, "out")] [(8, "in")] = .ok true ∧
      propagate_bitorder_by_name exNames exDesign true [(7, "out")] [(8, "in")]
        = of_propagation (propagate_bitorder exDesign true [exSrc] [exDst]) :=
  ⟨by rfl, by rfl, by rfl, by rfl,
    (propagate_bitorder_by_name_contract exNames exDesign true [(7, "out")] [(8, "in")]).2.2
      [exSrc] [exDst] (List.Forall₂.cons (by rfl) List.Forall₂.nil)
      (List.Forall₂.cons (by rfl) List.Forall₂.nil)⟩

/-! ## The evidence of the two directions of a pin -/

theorem find?_insert_new {K V : Type} [LinearOrder K] (m : Map K V) (k : K) (v : V) (x : K) :
    Map.find? (Map.insert_new m k v) x
      = if x = k then (match Map.find? m k with | some w => some w | none => some v)
        else Map.find? m x := by
  unfold Map.insert_new
  cases hk : Map.find? m k with
  | some w =>
    simp only [Option.isSome_some, if_true]
    by_cases hx : x = k
    · simp [hx, hk]
    · simp [hx]
  | none =>
    simp only [Option.isSome_none, Bool.false_eq_true, if_false]
    rw [Map.find?_insert]

/-- The range insertion keeps the value of a key that the map has. -/
theorem find?_insert_range_of_some {K V : Type} [LinearOrder K] (l : List (K × V)) (m : Map K V)
    (k : K) (v : V) (h : Map.find? m k = some v) :
    Map.find? (Map.insert_range m l) k = some v := by
  unfold Map.insert_range
  induction l generalizing m with
  | nil => exact h
  | cons p t ih =>
    rw [List.foldl_cons]
    apply ih
    rw [find?_insert_new]
    by_cases hx : k = p.1
    · subst hx
      simp [h]
    · simp [hx, h]

/-- The two insertions of the driver for a pin: an origin with evidence in the
first walk keeps the index set of the first walk, whatever the second walk
found for it. -/
theorem collect_insert_keeps_first (c : Collected) (mpg : MPG) (net : Net)
    (outwards inwards : POSSIBLE_BITINDICES) (org : MPG) (indices : List Nat)
    (h : Map.find? (Map.insert_range (Map.getD (Map.getD c mpg []) net []) outwards) org
      = some indices) :
    ∃ (nets : Map Net POSSIBLE_BITINDICES) (evidence : POSSIBLE_BITINDICES),
      Map.find? (collect_insert (collect_insert c mpg net outwards) mpg net inwards) mpg
          = some nets ∧
        Map.find? nets net = some evidence ∧ Map.find? evidence org = some indices := by
  have h1 : Map.getD (collect_insert c mpg net outwards) mpg []
      = Map.insert (Map.getD c mpg []) net
          (Map.insert_range (Map.getD (Map.getD c mpg []) net []) outwards) := by
    unfold Map.getD
    rw [find?_collect_insert, if_pos rfl]
    rfl
  have h2 : Map.getD (Map.getD (collect_insert c mpg net outwards) mpg []) net []
      = Map.insert_range (Map.getD (Map.getD c mpg []) net []) outwards := by
    rw [h1]
    unfold Map.getD
    rw [Map.find?_insert, if_pos rfl]
    rfl
  refine ⟨Map.insert (Map.getD (collect_insert c mpg net outwards) mpg []) net
      (Map.insert_range (Map.getD (Map.getD (collect_insert c mpg net outwards) mpg []) net [])
        inwards),
    Map.insert_range (Map.getD (Map.getD (collect_insert c mpg net outwards) mpg []) net [])
      inwards, ?_, ?_, ?_⟩
  · rw [find?_collect_insert, if_pos rfl]
  · rw [Map.find?_insert, if_pos rfl]
  · apply find?_insert_range_of_some
    rw [h2]
    exact h

/-- C24 on the netlist `exFeedback`, with the bit order of the input pin group
of the module 2 known: for the net 40 of the output pin group the outward walk
finds the index 1 and the inward walk the index 0 of the same origin; the
evidence collected for the net has the index 1 only, not both.  Likewise the
net 41 keeps the index 2 of the outward walk without the index 1 of the inward
walk. -/
theorem gather_origin_keeps_outward :
    (gather_bit_indices_for_net exFeedback exFeedbackKnown true (walker_fuel exFeedback) 40 1 []).map
        Prod.fst = .ok [(exFeedbackIn, [1])] ∧
      (gather_bit_indices_for_net exFeedback exFeedbackKnown false (walker_fuel exFeedback) 40 2 []).map
        Prod.fst = .ok [(exFeedbackIn, [0])] ∧
      gather_origin exFeedback exFeedbackKnown exFeedbackOut []
        = .ok [(exFeedbackOut, [(40, [(exFeedbackIn, [1])]), (41, [(exFeedbackIn, [2])]),
            (42, [(exFeedbackIn, [2])])])] :=
  ⟨by rfl, by rfl, by rfl⟩

/-! ## The index sets of the evidence of the walker -/

theorem mem_index_set_insert (l : List Nat) (x y : Nat) :
    y ∈ index_set_insert l x ↔ y = x ∨ y ∈ l := by
  induction l with
  | nil => simp [index_set_insert]
  | cons a t ih =>
    rw [index_set_insert]
    split_ifs with h1 h2
    · simp
    · subst h2
      simp
    · rw [List.mem_cons, ih, List.mem_cons]
      tauto

theorem mem_foldl_index_set_insert (l s : List Nat) (y : Nat) :
    y ∈ l.foldl index_set_insert s ↔ y ∈ l ∨ y ∈ s := by
  induction l generalizing s with
  | nil => simp
  | cons a t ih =>
    rw [List.foldl_cons, ih, mem_index_set_insert, List.mem_cons]
    tauto

theorem getD_insert_evidence (acc : POSSIBLE_BITINDICES) (k org : MPG) (v : List Nat) :
    Map.getD (Map.insert acc k v) org [] = if org = k then v else Map.getD acc org [] := by
  unfold Map.getD
  rw [Map.find?_insert]
  split_ifs <;> rfl

/-- The indices of an origin after `add_index`. -/
theorem mem_getD_add_index (acc : POSSIBLE_BITINDICES) (mpg org : MPG) (index i : Nat) :
    i ∈ Map.getD (add_index acc mpg index) org []
      ↔ (org = mpg ∧ i = index) ∨ i ∈ Map.getD acc org [] := by
  unfold add_index
  rw [getD_insert_evidence]
  by_cases h : org = mpg
  · subst h
    rw [if_pos rfl, mem_index_set_insert]
    tauto
  · rw [if_neg h]
    tauto

/-- The indices of an origin after `add_indices`. -/
theorem mem_getD_add_indices (acc : POSSIBLE_BITINDICES) (mpg org : MPG) (l : List Nat) (i : Nat) :
    i ∈ Map.getD (add_indices acc mpg l) org []
      ↔ (org = mpg ∧ i ∈ l) ∨ i ∈ Map.getD acc org [] := by
  unfold add_indices
  rw [getD_insert_evidence]
  by_cases h : org = mpg
  · subst h
    rw [if_pos rfl, mem_foldl_index_set_insert]
    tauto
  · rw [if_neg h]
    tauto

theorem mem_getD_of_mem (r : POSSIBLE_BITINDICES) (org : MPG) (i : Nat)
    (h : i ∈ Map.getD r org []) : ∃ l, (org, l) ∈ r ∧ i ∈ l := by
  unfold Map.getD at h
  cases hf : Map.find? r org with
  | none => simp [hf] at h
  | some l =>
    rw [hf] at h
    exact ⟨l, Map.mem_of_find? r org l hf, h⟩

/-- The indices of an origin after the evidence `res` of a recursive call is
added to the evidence `acc`: those of `acc` and those of the first entry of
`res` for the origin. -/
theorem mem_getD_merge (res acc : POSSIBLE_BITINDICES) (org : MPG) (i : Nat) :
    i ∈ Map.getD (res.foldl (fun a p => add_indices a p.1 p.2) acc) org []
      ↔ i ∈ Map.getD acc org [] ∨ ∃ l, (org, l) ∈ res ∧ i ∈ l := by
  induction res generalizing acc with
  | nil => simp
  | cons p t ih =>
    rw [List.foldl_cons, ih, mem_getD_add_indices]
    constructor
    · rintro ((⟨h1, h2⟩ | h) | ⟨l, h1, h2⟩)
      · exact Or.inr ⟨p.2, by rw [h1]; exact List.mem_cons_self _ _, h2⟩
      · exact Or.inl h
      · exact Or.inr ⟨l, List.mem_cons_of_mem _ h1, h2⟩
    · rintro (h | ⟨l, h1, h2⟩)
      · exact Or.inl (Or.inr h)
      · rcases List.mem_cons.1 h1 with h3 | h3
        · rw [← h3]
          exact Or.inl (Or.inl ⟨rfl, h2⟩)
        · exact Or.inr ⟨l, h3, h2⟩

/-! ## The visited set of the walker only grows -/

theorem gather_next_visited_mono
    (call : Net → List Gate → Except WalkFailure (POSSIBLE_BITINDICES × List Gate))
    (hcall : ∀ n nv r v1, call n nv = .ok (r, v1) → ∀ g ∈ nv, g ∈ v1)
    (nets : List Net) (acc : POSSIBLE_BITINDICES) (nv : List Gate) (r : POSSIBLE_BITINDICES)
    (v1 : List Gate) (h : gather_next call nets acc nv = .ok (r, v1)) : ∀ g ∈ nv, g ∈ v1 := by
  induction nets generalizing acc nv with
  | nil =>
    simp only [gather_next, Except.ok.injEq, Prod.mk.injEq] at h
    intro g hg
    exact h.2 ▸ hg
  | cons next rest ih =>
    rw [gather_next] at h
    cases hc : call next nv with
    | error e => simp [hc] at h
    | ok p =>
      obtain ⟨res, nv1⟩ := p
      rw [hc] at h
      intro g hg
      exact ih _ nv1 h g (hcall next nv res nv1 hc g hg)

theorem gather_neighbors_visited_mono
    (call : Net → ModulePtr → List Gate → Except WalkFailure (POSSIBLE_BITINDICES × List Gate))
    (d : Design) (n : Net) (module_border : ModulePtr) (known : Bitorders) (successors : Bool)
    (neighbors : List Gate) (acc : POSSIBLE_BITINDICES) (visited : List Gate)
    (r : POSSIBLE_BITINDICES) (v1 : List Gate)
    (h : gather_neighbors call d n module_border known successors neighbors acc visited
      = .ok (r, v1)) : ∀ g ∈ visited, g ∈ v1 := by
  induction neighbors generalizing acc visited with
  | nil =>
    simp only [gather_neighbors, Except.ok.injEq, Prod.mk.injEq] at h
    intro g hg
    exact h.2 ▸ hg
  | cons g rest ih =>
    have hcons : ∀ acc1, gather_neighbors call d n module_border known successors rest acc1
        (g :: visited) = .ok (r, v1) → ∀ x ∈ visited, x ∈ v1 :=
      fun acc1 h1 x hx => ih acc1 (g :: visited) h1 x (List.mem_cons_of_mem _ hx)
    rw [gather_neighbors] at h
    split_ifs at h with h0 hv hc
    · exact ih acc visited h
    · exact ih acc visited h
    · cases hf : gather_bit_index_from_origin d n module_border known (!successors) with
      | error e => simp [hf] at h
      | ok found =>
        rw [hf] at h
        exact hcons _ h
    · dsimp only at h
      cases hf : (if d.get_module g ≠ module_border then
          gather_bit_index_from_origin d n (d.get_module g) known successors
        else .ok nothing_found) with
      | error e => simp [hf] at h
      | ok found =>
        rw [hf] at h
        simp only at h
        split_ifs at h with h1 h2
        · exact hcons _ h
        · exact hcons _ h
        · cases hn : gather_next (fun next_n new_visited => call next_n (d.get_module g) new_visited)
              (next_nets d g successors) acc (g :: visited) with
          | error e => simp [hn] at h
          | ok p =>
            obtain ⟨acc1, nv1⟩ := p
            rw [hn] at h
            exact hcons _ h

/-! ## The evidence of the walker comes from the known bit orders -/

theorem gather_bit_index_from_origin_sound (d : Design) (n : Net) (m : ModulePtr)
    (known : Bitorders) (successors : Bool) (found : MPG × Nat)
    (h : gather_bit_index_from_origin d n m known successors = .ok found)
    (h0 : found.1.module ≠ 0) : sound_entry d known (found.1, [found.2]) := by
  unfold gather_bit_index_from_origin at h
  cases hb : (if successors then d.is_input_net m n else d.is_output_net m n) with
  | false =>
    simp only [hb, Bool.false_eq_true, if_false, Except.ok.injEq] at h
    rw [← h] at h0
    exact absurd rfl h0
  | true =>
    have hborder : d.is_input_net m n = true ∨ d.is_output_net m n = true := by
      cases successors with
      | true => exact Or.inl (by simpa using hb)
      | false => exact Or.inr (by simpa using hb)
    cases hp : d.get_pin_by_net m n with
    | none => simp [hb, hp] at h
    | some pin =>
      cases hk : Map.find? known ⟨m, d.get_group pin⟩ with
      | none =>
        simp only [hb, hp, hk, if_true, Except.ok.injEq] at h
        rw [← h] at h0
        exact absurd rfl h0
      | some bo =>
        cases hi : Map.find? bo n with
        | none =>
          simp only [hb, hp, hk, hi, if_true, Except.ok.injEq] at h
          rw [← h] at h0
          exact absurd rfl h0
        | some index =>
          simp only [hb, hp, hk, hi, if_true, Except.ok.injEq] at h
          subst h
          refine ⟨bo, hk, ?_⟩
          intro i hi1
          rw [List.mem_singleton] at hi1
          subst hi1
          exact ⟨n, pin, hp, rfl, hborder, hi⟩

theorem sound_add_indices (d : Design) (known : Bitorders) (acc : POSSIBLE_BITINDICES) (mpg : MPG)
    (l : List Nat) (ha : sound_evidence d known acc) (hl : sound_entry d known (mpg, l)) :
    sound_evidence d known (add_indices acc mpg l) := by
  intro p hp
  rcases Map.mem_insert _ _ _ _ hp with h | h
  · subst h
    obtain ⟨bo, hbo, hi⟩ := hl
    refine ⟨bo, hbo, ?_⟩
    intro i hi1
    rcases (mem_foldl_index_set_insert _ _ _).1 hi1 with h1 | h1
    · exact hi i h1
    · obtain ⟨l1, hm, hi2⟩ := mem_getD_of_mem _ _ _ h1
      obtain ⟨bo1, hbo1, hi3⟩ := ha _ hm
      have hb : bo1 = bo := Option.some.inj (hbo1.symm.trans hbo)
      subst hb
      exact hi3 i hi2
  · exact ha p h

theorem sound_add_index (d : Design) (known : Bitorders) (acc : POSSIBLE_BITINDICES) (mpg : MPG)
    (index : Nat) (ha : sound_evidence d known acc) (hl : sound_entry d known (mpg, [index])) :
    sound_evidence d known (add_index acc mpg index) :=
  sound_add_indices d known acc mpg [index] ha hl

theorem sound_record_index (d : Design) (known : Bitorders) (acc : POSSIBLE_BITINDICES)
    (n : Net) (m : ModulePtr) (successors : Bool) (found : MPG × Nat)
    (ha : sound_evidence d known acc)
    (h : gather_bit_index_from_origin d n m known successors = .ok found) :
    sound_evidence d known (record_index acc found) := by
  unfold record_index
  split_ifs with h0
  · exact sound_add_index d known acc _ _ ha
      (gather_bit_index_from_origin_sound d n m known successors found h h0)
  · exact ha

theorem sound_merge (d : Design) (known : Bitorders) (res acc : POSSIBLE_BITINDICES)
    (ha : sound_evidence d known acc) (hr : sound_evidence d known res) :
    sound_evidence d known (res.foldl (fun a p => add_indices a p.1 p.2) acc) := by
  induction res generalizing acc with
  | nil => exact ha
  | cons p t ih =>
    rw [List.foldl_cons]
    exact ih _ (sound_add_indices d known acc p.1 p.2 ha (hr p (List.mem_cons_self _ _)))
      (fun q hq => hr q (List.mem_cons_of_mem _ hq))

theorem gather_next_sound (d : Design) (known : Bitorders)
    (call : Net → List Gate → Except WalkFailure (POSSIBLE_BITINDICES × List Gate))
    (hcall : ∀ n nv r v1, call n nv = .ok (r, v1) → sound_evidence d known r)
    (nets : List Net) (acc : POSSIBLE_BITINDICES) (nv : List Gate) (r : POSSIBLE_BITINDICES)
    (v1 : List Gate) (ha : sound_evidence d known acc)
    (h : gather_next call nets acc nv = .ok (r, v1)) : sound_evidence d known r := by
  induction nets generalizing acc nv with
  | nil =>
    simp only [gather_next, Except.ok.injEq, Prod.mk.injEq] at h
    exact h.1 ▸ ha
  | cons next rest ih =>
    rw [gather_next] at h
    cases hc : call next nv with
    | error e => simp [hc] at h
    | ok p =>
      obtain ⟨res, nv1⟩ := p
      rw [hc] at h
      exact ih _ nv1 (sound_merge d known res acc ha (hcall next nv res nv1 hc)) h

theorem gather_neighbors_sound (d : Design) (known : Bitorders)
    (call : Net → ModulePtr → List Gate → Except WalkFailure (POSSIBLE_BITINDICES × List Gate))
    (hcall : ∀ n m nv r v1, call n m nv = .ok (r, v1) → sound_evidence d known r)
    (n : Net) (module_border : ModulePtr) (successors : Bool) (neighbors : List Gate)
    (acc : POSSIBLE_BITINDICES) (visited : List Gate) (r : POSSIBLE_BITINDICES) (v1 : List Gate)
    (ha : sound_evidence d known acc)
    (h : gather_neighbors call d n module_border known successors neighbors acc visited
      = .ok (r, v1)) : sound_evidence d known r := by
  induction neighbors generalizing acc visited with
  | nil =>
    simp only [gather_neighbors, Except.ok.injEq, Prod.mk.injEq] at h
    exact h.1 ▸ ha
  | cons g rest ih =>
    rw [gather_neighbors] at h
    split_ifs at h with h0 hv hc
    · exact ih acc visited ha h
    · exact ih acc visited ha h
    · cases hf : gather_bit_index_from_origin d n module_border known (!successors) with
      | error e => simp [hf] at h
      | ok found =>
        rw [hf] at h
        exact ih _ _ (sound_record_index d known acc n module_border _ found ha hf) h
    · dsimp only at h
      by_cases hm : d.get_module g ≠ module_border
      · rw [if_pos hm] at h
        cases hf : gather_bit_index_from_origin d n (d.get_module g) known successors with
        | error e => simp [hf] at h
        | ok found =>
          rw [hf] at h
          simp only at h
          split_ifs at h with h1 h2
          · exact ih _ _ (sound_add_index d known acc _ _ ha
              (gather_bit_index_from_origin_sound d n _ known successors found hf h1.2)) h
          · exact ih _ _ ha h
          · cases hn : gather_next (fun next_n new_visited => call next_n (d.get_module g) new_visited)
                (next_nets d g successors) acc (g :: visited) with
            | error e => simp [hn] at h
            | ok p =>
              obtain ⟨acc1, nv1⟩ := p
              rw [hn] at h
              exact ih _ _ (gather_next_sound d known _
                (fun n1 nv r1 v2 hr => hcall n1 _ nv r1 v2 hr) _ acc _ acc1 nv1 ha hn) h
      · rw [if_neg hm] at h
        simp only at h
        have hm1 : ¬ (d.get_module g ≠ module_border ∧ nothing_found.1.module ≠ 0) :=
          fun hx => hm hx.1
        have hm2 : ¬ (d.get_module g ≠ module_border ∧
            (d.get_submodules (d.get_module g)).length = 0) := fun hx => hm hx.1
        rw [if_neg hm1, if_neg hm2] at h
        cases hn : gather_next (fun next_n new_visited => call next_n (d.get_module g) new_visited)
            (next_nets d g successors) acc (g :: visited) with
        | error e => simp [hn] at h
        | ok p =>
          obtain ⟨acc1, nv1⟩ := p
          rw [hn] at h
          exact ih _ _ (gather_next_sound d known _
            (fun n1 nv r1 v2 hr => hcall n1 _ nv r1 v2 hr) _ acc _ acc1 nv1 ha hn) h

/-- C30: the evidence is sound with respect to the known bit orders.  Whenever
`gather_bit_indices_for_net` succeeds, every origin in its result has a known
bit order among the bit orders passed in, and every index recorded for the
origin is the index this bit order gives to a net that has a pin of the group
of the origin on the module of the origin and is an input net or an output net
of this module.  The known bit orders are a read-only argument of the walker. -/
theorem walker_evidence_sound (d : Design) (known : Bitorders) (successors : Bool) (fuel : Nat)
    (n : Net) (module_border : ModulePtr) (visited : List Gate) (r : POSSIBLE_BITINDICES)
    (v1 : List Gate)
    (h : gather_bit_indices_for_net d known successors fuel n module_border visited = .ok (r, v1)) :
    ∀ p ∈ r, ∃ bitorder, Map.find? known p.1 = some bitorder ∧
      ∀ i ∈ p.2, ∃ n1 pin, d.get_pin_by_net p.1.module n1 = some pin ∧
        d.get_group pin = p.1.group ∧
        (d.is_input_net p.1.module n1 = true ∨ d.is_output_net p.1.module n1 = true) ∧
        Map.find? bitorder n1 = some i := by
  have key : ∀ fuel n module_border visited r v1,
      gather_bit_indices_for_net d known successors fuel n module_border visited = .ok (r, v1) →
      sound_evidence d known r := by
    intro fuel
    induction fuel with
    | zero =>
      intro n module_border visited r v1 h
      simp [gather_bit_indices_for_net] at h
    | succ fuel ih =>
      intro n module_border visited r v1 h
      rw [gather_bit_indices_for_net] at h
      by_cases hg : ((successors && d.is_global_output_net n)
          || (!successors && d.is_global_input_net n)) = true
      · rw [if_pos hg] at h
        cases hf : gather_bit_index_from_origin d n d.top_module known (!successors) with
        | error e => simp [hf] at h
        | ok found =>
          rw [hf] at h
          simp only [Except.ok.injEq, Prod.mk.injEq] at h
          rw [← h.1]
          exact sound_record_index d known [] n _ _ found (fun p hp => absurd hp (List.not_mem_nil _)) hf
      · rw [if_neg hg] at h
        exact gather_neighbors_sound d known _ ih n module_border successors _ [] visited r v1
          (fun p hp => absurd hp (List.not_mem_nil _)) h
  exact key fuel n module_border visited r v1 h

/-- An instance of C30 on the netlist `exFeedback`: the outward walk from the
net 40 succeeds with the index 1 of the origin `exFeedbackIn`, which is the
index of the input net 31 of the module 2 in the known bit order. -/
theorem walker_evidence_sound_witness :
    gather_bit_indices_for_net exFeedback exFeedbackKnown true 8 40 1 []
        = .ok ([(exFeedbackIn, [1])], [200]) ∧
      ∀ p ∈ [(exFeedbackIn, [1])], ∃ bitorder, Map.find? exFeedbackKnown p.1 = some bitorder ∧
        ∀ i ∈ p.2, ∃ n1 pin, exFeedback.get_pin_by_net p.1.module n1 = some pin ∧
          exFeedback.get_group pin = p.1.group ∧
          (exFeedback.is_input_net p.1.module n1 = true ∨
            exFeedback.is_output_net p.1.module n1 = true) ∧
          Map.find? bitorder n1 = some i :=
  ⟨by rfl, walker_evidence_sound exFeedback exFeedbackKnown true 8 40 1 [] [(exFeedbackIn, [1])] [200]
    (by rfl)⟩

/-! ## The next nets of a gate share a visited set -/

/-- The claim C25 fails on `exFanout`: walking forwards from the net 30 inside
the module 2, the walker continues behind the gate 100 with the nets 40 and 41,
which both end at the gate 200 outside the module.  Explored with the visited
set of the moment the gate 100 was accepted, the net 40 yields the index 0 and
the net 41 the index 1 of the output pin group; the walker yields the index 0
only, because the exploration of the net 40 leaves the gate 200 visited for the
net 41, and it yields the index 1 only when the gate gives its fan-out nets in
the other order. -/
theorem walker_sibling_nets_counterexample :
    next_nets (exFanout [40, 41]) 100 true = [40, 41] ∧
      gather_bit_indices_for_net (exFanout [40, 41]) exFanoutKnown true 2 40 2 [100]
        = .ok ([(exFanoutOut, [0])], [200, 100]) ∧
      gather_bit_indices_for_net (exFanout [40, 41]) exFanoutKnown true 2 41 2 [100]
        = .ok ([(exFanoutOut, [1])], [200, 100]) ∧
      gather_bit_indices_for_net (exFanout [40, 41]) exFanoutKnown true 2 41 2 [200, 100]
        = .ok ([], [200, 100]) ∧
      gather_bit_indices_for_net (exFanout [40, 41]) exFanoutKnown true 3 30 2 []
        = .ok ([(exFanoutOut, [0])], [100]) ∧
      gather_bit_indices_for_net (exFanout [41, 40]) exFanoutKnown true 3 30 2 []
        = .ok ([(exFanoutOut, [1])], [100]) :=
  ⟨by decide, by rfl, by rfl, by rfl, by rfl, by rfl⟩

theorem gather_next_iff
    (call : Net → List Gate → Except WalkFailure (POSSIBLE_BITINDICES × List Gate))
    (nets : List Net) (acc : POSSIBLE_BITINDICES) (nv : List Gate) (acc1 : POSSIBLE_BITINDICES)
    (nv1 : List Gate) :
    gather_next call nets acc nv = .ok (acc1, nv1)
      ↔ ∃ results, explored_in_sequence call nets nv results nv1 ∧
          acc1 = merged_evidence results acc := by
  induction nets generalizing acc nv with
  | nil =>
    simp only [gather_next, Except.ok.injEq, Prod.mk.injEq]
    constructor
    · rintro ⟨h1, h2⟩
      exact ⟨[], h2.symm, h1.symm⟩
    · rintro ⟨results, h1, h2⟩
      cases results with
      | nil => exact ⟨h2.symm, h1.symm⟩
      | cons r t => exact absurd h1 (by simp [explored_in_sequence])
  | cons next rest ih =>
    rw [gather_next]
    constructor
    · intro h
      cases hc : call next nv with
      | error e => simp [hc] at h
      | ok p =>
        obtain ⟨res, nv2⟩ := p
        rw [hc] at h
        obtain ⟨results, h1, h2⟩ := (ih _ nv2).1 h
        exact ⟨res :: results, ⟨nv2, hc, h1⟩, h2⟩
    · rintro ⟨results, h1, h2⟩
      cases results with
      | nil => exact absurd h1 (by simp [explored_in_sequence])
      | cons res t =>
        obtain ⟨nv2, hc, h3⟩ := h1
        rw [hc]
        exact (ih _ nv2).2 ⟨t, h3, h2⟩

theorem mem_getD_merged (results : List POSSIBLE_BITINDICES) (acc : POSSIBLE_BITINDICES)
    (org : MPG) (i : Nat) :
    i ∈ Map.getD (merged_evidence results acc) org []
      ↔ i ∈ Map.getD acc org [] ∨ ∃ res ∈ results, ∃ l, (org, l) ∈ res ∧ i ∈ l := by
  unfold merged_evidence
  induction results generalizing acc with
  | nil => simp
  | cons r t ih =>
    rw [List.foldl_cons, ih, mem_getD_merge]
    constructor
    · rintro ((h | h) | ⟨res, h1, h2⟩)
      · exact Or.inl h
      · exact Or.inr ⟨r, List.mem_cons_self _ _, h⟩
      · exact Or.inr ⟨res, List.mem_cons_of_mem _ h1, h2⟩
    · rintro (h | ⟨res, h1, h2⟩)
      · exact Or.inl (Or.inl h)
      · rcases List.mem_cons.1 h1 with h3 | h3
        · rw [h3] at h2
          exact Or.inl (Or.inr h2)
        · exact Or.inr ⟨res, h3, h2⟩

theorem walker_visited_mono (d : Design) (known : Bitorders) (successors : Bool) (fuel : Nat)
    (n : Net) (module_border : ModulePtr) (visited : List Gate) (r : POSSIBLE_BITINDICES)
    (v1 : List Gate)
    (h : gather_bit_indices_for_net d known successors fuel n module_border visited = .ok (r, v1)) :
    ∀ g ∈ visited, g ∈ v1 := by
  induction fuel generalizing n module_border visited r v1 with
  | zero => simp [gather_bit_indices_for_net] at h
  | succ fuel ih =>
    rw [gather_bit_indices_for_net] at h
    by_cases hg : ((successors && d.is_global_output_net n)
        || (!successors && d.is_global_input_net n)) = true
    · rw [if_pos hg] at h
      cases hf : gather_bit_index_from_origin d n d.top_module known (!successors) with
      | error e => simp [hf] at h
      | ok found =>
        rw [hf] at h
        simp only [Except.ok.injEq, Prod.mk.injEq] at h
        intro g hg1
        exact h.2 ▸ hg1
    · rw [if_neg hg] at h
      exact gather_neighbors_visited_mono _ d n module_border known successors _ [] visited r v1 h

theorem explored_in_sequence_mono (d : Design) (known : Bitorders) (successors : Bool)
    (fuel : Nat) (m : ModulePtr) (nets : List Net) (nv : List Gate)
    (results : List POSSIBLE_BITINDICES) (nv1 : List Gate)
    (h : explored_in_sequence
      (fun next_n new_visited =>
        gather_bit_indices_for_net d known successors fuel next_n m new_visited)
      nets nv results nv1) : ∀ g ∈ nv, g ∈ nv1 := by
  induction nets generalizing nv results with
  | nil =>
    cases results with
    | nil =>
      intro g hg
      simp only [explored_in_sequence] at h
      exact h ▸ hg
    | cons r t => exact absurd h (by simp [explored_in_sequence])
  | cons next rest ih =>
    cases results with
    | nil => exact absurd h (by simp [explored_in_sequence])
    | cons res t =>
      obtain ⟨nv2, hc, h3⟩ := h
      intro g hg
      exact ih nv2 t h3 g (walker_visited_mono d known successors fuel next m nv res nv2 hc g hg)

/-- C25, amended: the next nets of a gate share a visited set.  When
`gather_bit_indices_for_net` propagates through a gate with several next nets,
the first next net is explored with the visited set of the moment the gate was
accepted and the gate itself, and every further next net with the visited set
that the exploration of the next net before it leaves, which contains the gates
visited so far: a gate first examined from one next net is not examined again
from a sibling next net.  The evidence obtained through the gate is what these
explorations, in the order of the next nets, add to the evidence so far: for
every origin the indices found by one of them.  The walk then goes on with the
next neighbour and the visited set of the moment the gate was accepted and the
gate itself. -/
theorem walker_sibling_nets (d : Design) (known : Bitorders) (successors : Bool) (fuel : Nat)
    (n : Net) (module_border : ModulePtr) (visited : List Gate) (g : Gate) (rest : List Gate)
    (acc : POSSIBLE_BITINDICES) (out : POSSIBLE_BITINDICES × List Gate)
    (h : accepted d n module_border known successors visited g) :
    (gather_neighbors (gather_bit_indices_for_net d known successors fuel) d n module_border
          known successors (g :: rest) acc visited = .ok out
        ↔ ∃ results nv1,
            explored_in_sequence
              (fun next_n new_visited =>
                gather_bit_indices_for_net d known successors fuel next_n (d.get_module g)
                  new_visited)
              (next_nets d g successors) (g :: visited) results nv1 ∧
            gather_neighbors (gather_bit_indices_for_net d known successors fuel) d n
              module_border known successors rest (merged_evidence results acc) (g :: visited)
              = .ok out) ∧
      (∀ nets nv results nv1,
        explored_in_sequence
          (fun next_n new_visited =>
            gather_bit_indices_for_net d known successors fuel next_n (d.get_module g) new_visited)
          nets nv results nv1 → ∀ x ∈ nv, x ∈ nv1) ∧
      ∀ results org i,
        i ∈ Map.getD (merged_evidence results acc) org []
          ↔ i ∈ Map.getD acc org [] ∨ ∃ res ∈ results, ∃ l, (org, l) ∈ res ∧ i ∈ l := by
  refine ⟨?_, ?_, ?_⟩
  · rw [gather_neighbors_accepted _ d n module_border known successors g rest acc visited h]
    constructor
    · intro h1
      cases hn : gather_next (fun next_n new_visited =>
          gather_bit_indices_for_net d known successors fuel next_n (d.get_module g) new_visited)
          (next_nets d g successors) acc (g :: visited) with
      | error e => simp [hn] at h1
      | ok p =>
        obtain ⟨acc1, nv1⟩ := p
        rw [hn] at h1
        obtain ⟨results, h2, h3⟩ := (gather_next_iff _ _ _ _ _ _).1 hn
        exact ⟨results, nv1, h2, h3 ▸ h1⟩
    · rintro ⟨results, nv1, h2, h3⟩
      rw [(gather_next_iff _ _ _ _ _ _).2 ⟨results, h2, rfl⟩]
      exact h3
  · intro nets nv results nv1 h1
    exact explored_in_sequence_mono d known successors fuel _ nets nv results nv1 h1
  · intro results org i
    exact mem_getD_merged results acc org i

/-- An instance of the amended C25 on `exFanout`: behind the gate 100, accepted
on the net 30, the net 40 is explored with the visited set `[100]` and the net
41 with the visited set `[200, 100]` that the exploration of the net 40
leaves. -/
theorem walker_sibling_nets_witness :
    accepted (exFanout [40, 41]) 30 2 exFanoutKnown true [] 100 ∧
      (gather_neighbors (gather_bit_indices_for_net (exFanout [40, 41]) exFanoutKnown true 2)
          (exFanout [40, 41]) 30 2 exFanoutKnown true [100] [] []
          = .ok ([(exFanoutOut, [0])], [100])
        ↔ ∃ results nv1,
            explored_in_sequence
              (fun next_n new_visited =>
                gather_bit_indices_for_net (exFanout [40, 41]) exFanoutKnown true 2 next_n
                  ((exFanout [40, 41]).get_module 100) new_visited)
              (next_nets (exFanout [40, 41]) 100 true) [100] results nv1 ∧
            gather_neighbors (gather_bit_indices_for_net (exFanout [40, 41]) exFanoutKnown true 2)
              (exFanout [40, 41]) 30 2 exFanoutKnown true [] (merged_evidence results []) [100]
              = .ok ([(exFanoutOut, [0])], [100])) :=
  ⟨⟨by decide, by decide, by decide, Or.inl (by decide)⟩,
    (walker_sibling_nets (exFanout [40, 41]) exFanoutKnown true 2 30 2 [] 100 [] []
      ([(exFanoutOut, [0])], [100])
      ⟨by decide, by decide, by decide, Or.inl (by decide)⟩).1⟩

/-! ## The gate propagation rule of the walker -/

/-- The loop over the next nets fails exactly when the exploration of one of
the nets fails after the nets before it have been explored one after the
other, and then with the error of this exploration. -/
theorem gather_next_error_iff
    (call : Net → List Gate → Except WalkFailure (POSSIBLE_BITINDICES × List Gate))
    (nets : List Net) (acc : POSSIBLE_BITINDICES) (nv : List Gate) (e : WalkFailure) :
    gather_next call nets acc nv = .error e
      ↔ ∃ pre next post results nv1, nets = pre ++ next :: post ∧
          explored_in_sequence call pre nv results nv1 ∧ call next nv1 = .error e := by
  induction nets generalizing acc nv with
  | nil =>
    constructor
    · intro h
      exact Except.noConfusion h
    · rintro ⟨pre, next, post, results, nv1, h1, _, _⟩
      exact absurd h1 (by simp)
  | cons a t ih =>
    rw [gather_next]
    constructor
    · intro h
      cases hc : call a nv with
      | error e1 =>
        rw [hc] at h
        simp only [Except.error.injEq] at h
        subst h
        exact ⟨[], a, t, [], nv, rfl, rfl, hc⟩
      | ok p =>
        obtain ⟨res, nv2⟩ := p
        rw [hc] at h
        obtain ⟨pre, next, post, results, nv1, h1, h2, h3⟩ := (ih _ nv2).1 h
        exact ⟨a :: pre, next, post, res :: results, nv1, by rw [h1]; rfl, ⟨nv2, hc, h2⟩, h3⟩
    · rintro ⟨pre, next, post, results, nv1, h1, h2, h3⟩
      cases pre with
      | nil =>
        simp only [List.nil_append, List.cons.injEq] at h1
        cases results with
        | nil =>
          simp only [explored_in_sequence] at h2
          rw [h1.1, ← h2, h3]
        | cons r rs => exact absurd h2 (by simp [explored_in_sequence])
      | cons b pre1 =>
        simp only [List.cons_append, List.cons.injEq] at h1
        cases results with
        | nil => exact absurd h2 (by simp [explored_in_sequence])
        | cons res rs =>
          obtain ⟨nv2, hc, h4⟩ := h2
          rw [h1.1, hc]
          exact (ih _ nv2).2 ⟨pre1, next, post, rs, nv1, h1.2, h4, h3⟩

/-- C14: the gate propagation rule of the walker.  The nets behind a gate are
all its fan-out nets (fan-in nets when walking backwards) when the gate is
combinational; the nets at its fan-out (fan-in) pins of type data, state or
negated state when it is not combinational but sequential and a flip-flop or a
latch; and no net for any other gate.  At a gate accepted for propagation the
walker calls itself on exactly these nets, one after the other, with the module
of the gate as border: the walk succeeds if and only if each of these calls
succeeds and the walk over the remaining neighbours succeeds from the evidence
to which the results of the calls are added (for every origin the indices that
one of the calls found), and it fails with the error of the first of these
calls that fails.  A gate without such nets is a dead end and no error: a net
that is not global and whose neighbours all are gates of the enclosing module
itself that are neither combinational nor a sequential flip-flop or latch
yields empty evidence. -/
theorem walker_gate_propagation (d : Design) (known : Bitorders) (successors : Bool) (g : Gate) :
    (d.has_property g .combinational = true →
        next_nets d g successors
          = if successors then d.get_fan_out_nets g else d.get_fan_in_nets g) ∧
      (d.has_property g .combinational = false → d.has_property g .sequential = true →
        (d.has_property g .ff = true ∨ d.has_property g .latch = true) →
        next_nets d g successors
          = ((if successors then d.get_fan_out_endpoints g else d.get_fan_in_endpoints g).filter
              (fun ep => decide (ep.1 = .data ∨ ep.1 = .state ∨ ep.1 = .neg_state))).map Prod.snd) ∧
      (d.has_property g .combinational = false →
        ¬ (d.has_property g .sequential = true ∧
          (d.has_property g .ff = true ∨ d.has_property g .latch = true)) →
        next_nets d g successors = []) ∧
      (∀ fuel n module_border visited rest acc,
        accepted d n module_border known successors visited g →
        (∀ out,
          gather_neighbors (gather_bit_indices_for_net d known successors fuel) d n module_border
              known successors (g :: rest) acc visited = .ok out
            ↔ ∃ results nv1,
                explored_in_sequence
                  (fun next_n new_visited =>
                    gather_bit_indices_for_net d known successors fuel next_n (d.get_module g)
                      new_visited)
                  (next_nets d g successors) (g :: visited) results nv1 ∧
                gather_neighbors (gather_bit_indices_for_net d known successors fuel) d n
                  module_border known successors rest (merged_evidence results acc)
                  (g :: visited) = .ok out) ∧
          (∀ e pre next post results nv1,
            next_nets d g successors = pre ++ next :: post →
            explored_in_sequence
              (fun next_n new_visited =>
                gather_bit_indices_for_net d known successors fuel next_n (d.get_module g)
                  new_visited)
              pre (g :: visited) results nv1 →
            gather_bit_indices_for_net d known successors fuel next (d.get_module g) nv1
              = .error e →
            gather_neighbors (gather_bit_indices_for_net d known successors fuel) d n
              module_border known successors (g :: rest) acc visited = .error e) ∧
          ∀ results org i,
            i ∈ Map.getD (merged_evidence results acc) org []
              ↔ i ∈ Map.getD acc org [] ∨ ∃ res ∈ results, ∃ l, (org, l) ∈ res ∧ i ∈ l) ∧
      (∀ fuel n module_border visited, not_global d n successors →
        (∀ g1 ∈ (if successors then d.get_destinations n else d.get_sources n),
          d.contains_gate module_border g1 = true ∧ d.get_module g1 = module_border ∧
            d.has_property g1 .combinational = false ∧
            ¬ (d.has_property g1 .sequential = true ∧
              (d.has_property g1 .ff = true ∨ d.has_property g1 .latch = true))) →
        ∃ visited1, gather_bit_indices_for_net d known successors (fuel + 1) n module_border visited
          = .ok ([], visited1)) := by
  have hnone : ∀ g1, d.has_property g1 .combinational = false →
      ¬ (d.has_property g1 .sequential = true ∧
        (d.has_property g1 .ff = true ∨ d.has_property g1 .latch = true)) →
      next_nets d g1 successors = [] := by
    intro g1 h1 h2
    have h4 : (d.has_property g1 .sequential && (d.has_property g1 .ff || d.has_property g1 .latch))
        = false := by
      cases hs : d.has_property g1 .sequential with
      | false => rfl
      | true =>
        cases hf : d.has_property g1 .ff with
        | true => exact absurd ⟨hs, Or.inl hf⟩ h2
        | false =>
          cases hl : d.has_property g1 .latch with
          | true => exact absurd ⟨hs, Or.inr hl⟩ h2
          | false => rfl
    simp [next_nets, h1, h4]
  refine ⟨?_, ?_, hnone g, ?_, ?_⟩
  · intro h
    simp [next_nets, h]
  · intro h1 h2 h3
    have h4 : (d.has_property g .ff || d.has_property g .latch) = true := by
      rcases h3 with h3 | h3 <;> simp [h3]
    simp [next_nets, h1, h2, h4]
  · intro fuel n module_border visited rest acc h
    refine ⟨?_, ?_, fun results org i => mem_getD_merged results acc org i⟩
    · intro out
      rw [gather_neighbors_accepted _ d n module_border known successors g rest acc visited h]
      constructor
      · intro h1
        cases hn : gather_next (fun next_n new_visited =>
            gather_bit_indices_for_net d known successors fuel next_n (d.get_module g) new_visited)
            (next_nets d g successors) acc (g :: visited) with
        | error e => simp [hn] at h1
        | ok p =>
          obtain ⟨acc1, nv1⟩ := p
          rw [hn] at h1
          obtain ⟨results, h2, h3⟩ := (gather_next_iff _ _ _ _ _ _).1 hn
          exact ⟨results, nv1, h2, h3 ▸ h1⟩
      · rintro ⟨results, nv1, h2, h3⟩
        rw [(gather_next_iff _ _ _ _ _ _).2 ⟨results, h2, rfl⟩]
        exact h3
    · intro e pre next post results nv1 h1 h2 h3
      rw [gather_neighbors_accepted _ d n module_border known successors g rest acc visited h,
        (gather_next_error_iff _ _ acc (g :: visited) e).2 ⟨pre, next, post, results, nv1, h1, h2, h3⟩]
  · intro fuel n module_border visited hg h
    rw [gather_bit_indices_for_net]
    unfold not_global at hg
    rw [hg]
    simp only [Bool.false_eq_true, if_false]
    exact gather_neighbors_dead_end _ d n module_border known successors _ [] visited
      (fun g1 hg1 => ⟨(h g1 hg1).1, (h g1 hg1).2.1, hnone g1 (h g1 hg1).2.2.1 (h g1 hg1).2.2.2⟩)

/-- An instance of C14.  On the netlist `exFeedback` the walk forwards from the
net 40 goes through the combinational gate 200 into the net 31 and finds the
index 1 there.  On the example netlist the walk backwards from the net 41 goes
through the flip-flop 201 into the net 11 at its data pin, not into its clock
net 5, and finds the index 1 there; the gate 202, which is sequential without
being a flip-flop or a latch, is a dead end for the net 12. -/
theorem walker_gate_propagation_witness :
    next_nets exFeedback 200 true = [31] ∧ next_nets exDesign 201 false = [11] ∧
      next_nets exDesign 202 true = [] ∧
      gather_bit_indices_for_net exFeedback exFeedbackKnown true 8 40 1 []
        = .ok ([(exFeedbackIn, [1])], [200]) ∧
      gather_bit_indices_for_net exDesign exResult false 7 41 3 [] = .ok ([(exDst, [1])], [201]) ∧
      gather_bit_indices_for_net exDesign exKnown true 7 12 3 [] = .ok ([], [202]) ∧
      accepted exFeedback 40 1 exFeedbackKnown true [] 200 ∧
      (∃ results nv1,
        explored_in_sequence
          (fun next_n new_visited =>
            gather_bit_indices_for_net exFeedback exFeedbackKnown true 7 next_n
              (exFeedback.get_module 200) new_visited)
          (next_nets exFeedback 200 true) [200] results nv1 ∧
        gather_neighbors (gather_bit_indices_for_net exFeedback exFeedbackKnown true 7) exFeedback
          40 1 exFeedbackKnown true [] (merged_evidence results []) [200]
          = .ok ([(exFeedbackIn, [1])], [200])) ∧
      ∃ visited1, gather_bit_indices_for_net exDesign exKnown true (6 + 1) 12 3 []
        = .ok ([], visited1) :=
  ⟨by decide, by decide, by decide, by rfl, by rfl, by rfl,
    ⟨by decide, by decide, by decide, Or.inl (by decide)⟩,
    (((walker_gate_propagation exFeedback exFeedbackKnown true 200).2.2.2.1 7 40 1 [] [] []
      ⟨by decide, by decide, by decide, Or.inl (by decide)⟩).1
      ([(exFeedbackIn, [1])], [200])).1 (by rfl),
    (walker_gate_propagation exDesign exKnown true 202).2.2.2.2 6 12 3 [] (by decide)
      (by decide)⟩

/-! ## The recursion of the walker -/

/-- The loop over the next nets depends on the recursive calls only at visited
sets that contain the visited set it starts with. -/
theorem gather_next_congr
    (call1 call2 : Net → List Gate → Except WalkFailure (POSSIBLE_BITINDICES × List Gate))
    (hmono : ∀ n nv r v1, call1 n nv = .ok (r, v1) → ∀ g ∈ nv, g ∈ v1)
    (nets : List Net) (acc : POSSIBLE_BITINDICES) (nv0 nv : List Gate)
    (hagree : ∀ n ∈ nets, ∀ nv1, (∀ x ∈ nv0, x ∈ nv1) → call1 n nv1 = call2 n nv1)
    (h : ∀ x ∈ nv0, x ∈ nv) :
    gather_next call1 nets acc nv = gather_next call2 nets acc nv := by
  induction nets generalizing acc nv with
  | nil => rfl
  | cons next rest ih =>
    rw [gather_next, gather_next, ← hagree next (List.mem_cons_self _ _) nv h]
    cases hc : call1 next nv with
    | error e => rfl
    | ok p =>
      obtain ⟨res, nv1⟩ := p
      exact ih _ nv1 (fun n1 h1 => hagree n1 (List.mem_cons_of_mem _ h1))
        (fun x hx => hmono next nv res nv1 hc x (h x hx))

/-- The loop over the neighbours depends on the recursive calls only at the
next nets of a neighbour `g` that is not visited yet, with the module of `g` as
border and a visited set that contains `g` and the visited set of the loop. -/
theorem gather_neighbors_congr
    (call1 call2 : Net → ModulePtr → List Gate → Except WalkFailure (POSSIBLE_BITINDICES × List Gate))
    (hmono : ∀ n m nv r v1, call1 n m nv = .ok (r, v1) → ∀ g ∈ nv, g ∈ v1)
    (d : Design) (n : Net) (module_border : ModulePtr) (known : Bitorders) (successors : Bool)
    (neighbors : List Gate) (acc : POSSIBLE_BITINDICES) (visited : List Gate)
    (hagree : ∀ g ∈ neighbors, g ≠ 0 → g ∉ visited → ∀ n1 ∈ next_nets d g successors,
      ∀ nv, g ∈ nv → (∀ x ∈ visited, x ∈ nv) →
        call1 n1 (d.get_module g) nv = call2 n1 (d.get_module g) nv) :
    gather_neighbors call1 d n module_border known successors neighbors acc visited
      = gather_neighbors call2 d n module_border known successors neighbors acc visited := by
  induction neighbors generalizing acc visited with
  | nil => rfl
  | cons g rest ih =>
    have hsame : ∀ acc1,
        gather_neighbors call1 d n module_border known successors rest acc1 visited
          = gather_neighbors call2 d n module_border known successors rest acc1 visited :=
      fun acc1 => ih acc1 visited (fun g1 h1 => hagree g1 (List.mem_cons_of_mem _ h1))
    have hcons : ∀ acc1,
        gather_neighbors call1 d n module_border known successors rest acc1 (g :: visited)
          = gather_neighbors call2 d n module_border known successors rest acc1 (g :: visited) := by
      intro acc1
      apply ih acc1 (g :: visited)
      intro g1 h1 h0 hv n1 hn1 nv hg hsub
      exact hagree g1 (List.mem_cons_of_mem _ h1) h0
        (fun hx => hv (List.mem_cons_of_mem _ hx)) n1 hn1 nv hg
        (fun x hx => hsub x (List.mem_cons_of_mem _ hx))
    rw [gather_neighbors, gather_neighbors]
    by_cases h0 : g = 0
    · simp only [h0, if_true]
      exact hsame acc
    · by_cases hv : g ∈ visited
      · simp only [h0, hv, if_true, if_false]
        exact hsame acc
      · simp only [h0, hv, if_false]
        have hnext : gather_next (fun next_n new_visited => call1 next_n (d.get_module g) new_visited)
              (next_nets d g successors) acc (g :: visited)
            = gather_next (fun next_n new_visited => call2 next_n (d.get_module g) new_visited)
              (next_nets d g successors) acc (g :: visited) := by
          apply gather_next_congr _ _ (fun n1 nv r v1 h1 => hmono n1 _ nv r v1 h1) _ acc
            (g :: visited) (g :: visited)
          · intro n1 hn1 nv1 hsub
            exact hagree g (List.mem_cons_self _ _) h0 hv n1 hn1 nv1
              (hsub g (List.mem_cons_self _ _))
              (fun x hx => hsub x (List.mem_cons_of_mem _ hx))
          · exact fun x hx => hx
        rw [hnext]
        simp only [hcons]

/-- The result of the walker does not depend on the bound of its recursion
depth, once the bound exceeds the number of gates not visited yet. -/
theorem walker_fuel_irrelevant (d : Design) (hd : gates_listed d) (known : Bitorders)
    (successors : Bool) (fuel1 fuel2 : Nat) (n : Net) (module_border : ModulePtr)
    (visited : List Gate) (h1 : unvisited d visited < fuel1) (h2 : unvisited d visited < fuel2) :
    gather_bit_indices_for_net d known successors fuel1 n module_border visited
      = gather_bit_indices_for_net d known successors fuel2 n module_border visited := by
  induction fuel1 generalizing fuel2 n module_border visited with
  | zero => omega
  | succ fuel1 ih =>
    cases fuel2 with
    | zero => omega
    | succ fuel2 =>
      rw [gather_bit_indices_for_net, gather_bit_indices_for_net]
      by_cases hg : ((successors && d.is_global_output_net n)
          || (!successors && d.is_global_input_net n)) = true
      · rw [if_pos hg, if_pos hg]
      · rw [if_neg hg, if_neg hg]
        apply gather_neighbors_congr _ _
          (fun n1 m nv r v1 hr => walker_visited_mono d known successors fuel1 n1 m nv r v1 hr)
        intro g hg1 h0 hv n1 _ nv hgnv hsub
        have hmem : g ∈ d.gates := by
          by_cases hs : successors = true
          · rw [if_pos hs] at hg1
            exact hd n g (Or.inl hg1) h0
          · rw [if_neg hs] at hg1
            exact hd n g (Or.inr hg1) h0
        have hlt := unvisited_cons_lt d visited g hmem hv
        have hle : unvisited d nv ≤ unvisited d (g :: visited) := by
          apply unvisited_mono
          intro x hx
          rcases List.mem_cons.1 hx with h3 | h3
          · exact h3 ▸ hgnv
          · exact hsub x h3
        exact ih fuel2 n1 (d.get_module g) nv (by omega) (by omega)

theorem exLoop_gates_listed : gates_listed exLoop := by
  intro n g h _
  have hgates : exLoop.gates = [100, 101] := rfl
  rw [hgates]
  simp only [List.mem_cons, List.mem_singleton, List.not_mem_nil, or_false]
  rcases h with h | h
  · have h1 : exLoop.get_destinations n
        = if n = 10 then [101] else if n = 11 then [100] else [] := rfl
    rw [h1] at h
    split_ifs at h
    · exact Or.inr (List.mem_singleton.1 h)
    · exact Or.inl (List.mem_singleton.1 h)
    · exact absurd h (List.not_mem_nil _)
  · have h1 : exLoop.get_sources n
        = if n = 10 then [100] else if n = 11 then [101] else [] := rfl
    rw [h1] at h
    split_ifs at h
    · exact Or.inl (List.mem_singleton.1 h)
    · exact Or.inr (List.mem_singleton.1 h)
    · exact absurd h (List.not_mem_nil _)

/-- C28: the walker terminates.  On a netlist in which the gates at the
endpoints of the nets are gates of the netlist, with or without feedback loops:
a call of `gather_bit_indices_for_net` on a net that is not global is determined
by its recursive calls at the next nets of a neighbour `g` that is not in its
visited set, with a visited set that contains `g` and the visited set of the
call, so that fewer gates of the netlist are left unvisited there; hence no
gate is entered twice along a recursion path, the recursion never reaches a
depth bound above the number of gates that are not visited, its result does not
depend on such a bound, and called with an empty visited set it needs a
recursion depth of at most the number of gates, and one more for the call
itself. -/
theorem walker_recursion_bounded (d : Design) (known : Bitorders) (successors : Bool)
    (hd : gates_listed d) :
    (∀ fuel n module_border visited
        (call : Net → ModulePtr → List Gate → Except WalkFailure (POSSIBLE_BITINDICES × List Gate)),
        not_global d n successors →
        (∀ g ∈ (if successors then d.get_destinations n else d.get_sources n), g ≠ 0 →
          g ∉ visited → ∀ n1 ∈ next_nets d g successors, ∀ nv, g ∈ nv → (∀ x ∈ visited, x ∈ nv) →
            gather_bit_indices_for_net d known successors fuel n1 (d.get_module g) nv
              = call n1 (d.get_module g) nv) →
        gather_bit_indices_for_net d known successors (fuel + 1) n module_border visited
          = gather_neighbors call d n module_border known successors
              (if successors then d.get_destinations n else d.get_sources n) [] visited) ∧
      (∀ g visited nv, g ∈ d.gates → g ∉ visited → g ∈ nv → (∀ x ∈ visited, x ∈ nv) →
        unvisited d nv < unvisited d visited) ∧
      (∀ fuel n module_border visited, unvisited d visited < fuel →
        gather_bit_indices_for_net d known successors fuel n module_border visited
            ≠ .error .walk_fuel ∧
          gather_bit_indices_for_net d known successors fuel n module_border visited
            = gather_bit_indices_for_net d known successors (unvisited d visited + 1) n
                module_border visited) ∧
      (∀ visited, unvisited d visited ≤ d.gates.length) ∧
      ∀ n module_border,
        gather_bit_indices_for_net d known successors (d.gates.length + 1) n module_border []
          ≠ .error .walk_fuel := by
  refine ⟨?_, ?_, ?_, ?_, ?_⟩
  · intro fuel n module_border visited call hg hagree
    rw [gather_bit_indices_for_net]
    unfold not_global at hg
    rw [hg]
    simp only [Bool.false_eq_true, if_false]
    exact gather_neighbors_congr _ _
      (fun n1 m nv r v1 hr => walker_visited_mono d known successors fuel n1 m nv r v1 hr)
      d n module_border known successors _ [] visited hagree
  · intro g visited nv hmem hv hgnv hsub
    have hlt := unvisited_cons_lt d visited g hmem hv
    have hle : unvisited d nv ≤ unvisited d (g :: visited) := by
      apply unvisited_mono
      intro x hx
      rcases List.mem_cons.1 hx with h3 | h3
      · exact h3 ▸ hgnv
      · exact hsub x h3
    omega
  · intro fuel n module_border visited h
    exact ⟨(walker_terminates d hd known successors fuel n module_border visited h).1,
      walker_fuel_irrelevant d hd known successors fuel _ n module_border visited h
        (Nat.lt_succ_self _)⟩
  · exact fun visited => unvisited_le d visited
  · intro n module_border
    exact walker_fuel_enough d hd known successors n module_border

/-- An instance of C28 on the netlist `exLoop`: the walk from the net 10 around
the loop of the gates 101 and 100 ends when it meets the gate 101 again, at the
recursion depth 3, with two gates in the netlist. -/
theorem walker_recursion_bounded_witness :
    gates_listed exLoop ∧
      gather_bit_indices_for_net exLoop [] true 3 10 1 [] = .ok ([], [101]) ∧
      gather_bit_indices_for_net exLoop [] true 1 10 1 [100, 101] = .ok ([], [100, 101]) ∧
      ∀ n module_border,
        gather_bit_indices_for_net exLoop [] true (exLoop.gates.length + 1) n module_border []
          ≠ .error .walk_fuel :=
  ⟨exLoop_gates_listed, by rfl, by rfl,
    (walker_recursion_bounded exLoop [] true exLoop_gates_listed).2.2.2.2⟩

/-! ## The validation of `reorder_module_pin_groups` -/

/-- The claim C22 fails on the pins `exPins`: the call fails at the origin of
the group 11, whose bit order has the net 102 with a pin of the group 12; before
that, the processing of the origin of the group 10 has renamed the pin 3, which
belongs to the group 11, from `A(0)` to `A(0)_OLD`, because its name was the new
name of the pin 1. -/
theorem reorder_validation_counterexample :
    (reorder_module_pin_groups exPins exOrdered exPinNames []).1
        = .error (.other_group ⟨5, 11⟩ 2 12) ∧
      (reorder_module_pin_groups exPins exOrdered exPinNames []).2.2
        = [.move 5 10 1 0, .rename 5 3 "A(0)_OLD", .rename 5 1 "A(0)"] ∧
      exPins.get_group 3 = 11 ∧ exPinNames 3 = "A(0)" ∧
      (reorder_module_pin_groups exPins exOrdered exPinNames []).2.1 3 = "A(0)_OLD" :=
  ⟨by rfl, by decide, by decide, by decide, by decide⟩

/-- The first loop fails when a net of the bit order has a pin of another
group. -/
theorem index_to_pin_error {S : Type} (api : PinApi S) (mpg : MPG) (bitorder : List (Net × Nat))
    (acc : Map Nat Nat) (net : Net) (index pin : Nat) (hmem : (net, index) ∈ bitorder)
    (hpin : api.get_pin_by_net mpg.module net = some pin)
    (hgroup : api.get_group pin ≠ mpg.group) :
    ∃ e, index_to_pin api mpg bitorder acc = .error e := by
  induction bitorder generalizing acc with
  | nil => exact absurd hmem (List.not_mem_nil _)
  | cons p t ih =>
    obtain ⟨net1, index1⟩ := p
    rw [index_to_pin]
    rcases List.mem_cons.1 hmem with h | h
    · simp only [Prod.mk.injEq] at h
      rw [← h.1, hpin]
      simp only [if_neg (Ne.symm hgroup)]
      exact ⟨_, rfl⟩
    · cases hp : api.get_pin_by_net mpg.module net1 with
      | none => exact ih acc h
      | some pin1 =>
        simp only
        split_ifs
        · exact ih _ h
        · exact ⟨_, rfl⟩

/-- The pins of `index_to_pin` belong to the group of the origin. -/
theorem index_to_pin_group {S : Type} (api : PinApi S) (mpg : MPG) (bitorder : List (Net × Nat))
    (acc pins : Map Nat Nat) (h : index_to_pin api mpg bitorder acc = .ok pins)
    (hacc : ∀ p ∈ acc, api.get_group p.2 = mpg.group) :
    ∀ p ∈ pins, api.get_group p.2 = mpg.group := by
  induction bitorder generalizing acc with
  | nil =>
    simp only [index_to_pin, Except.ok.injEq] at h
    exact h ▸ hacc
  | cons p t ih =>
    obtain ⟨net1, index1⟩ := p
    rw [index_to_pin] at h
    cases hp : api.get_pin_by_net mpg.module net1 with
    | none =>
      rw [hp] at h
      exact ih acc h hacc
    | some pin1 =>
      rw [hp] at h
      simp only at h
      split_ifs at h with hg
      apply ih _ h
      intro q hq
      rcases Map.mem_insert _ _ _ _ hq with h1 | h1
      · rw [h1]
        exact hg.symm
      · exact hacc q h1

/-- The moves of the second loop are moves of its pins within the group of the
origin. -/
theorem move_pins_log {S : Type} (api : PinApi S) (mpg : MPG) (pins : List (Nat × Nat)) (s : S)
    (log : List PinOp) (m : ModulePtr) (pg pin index : Nat)
    (h : PinOp.move m pg pin index ∈ (move_pins api mpg pins s log).2.2) :
    PinOp.move m pg pin index ∈ log ∨ (mpg = ⟨m, pg⟩ ∧ (index, pin) ∈ pins) := by
  induction pins generalizing s log with
  | nil => exact Or.inl h
  | cons p t ih =>
    obtain ⟨index1, pin1⟩ := p
    rw [move_pins] at h
    cases hm : api.move_pin_within_group s mpg.module mpg.group pin1 index1 with
    | none =>
      rw [hm] at h
      exact Or.inl h
    | some s1 =>
      rw [hm] at h
      simp only at h
      have key : ∀ l : List PinOp, (∀ op ∈ l, op = PinOp.move mpg.module mpg.group pin1 index1 ∨
            ∃ p1 name, op = PinOp.rename mpg.module p1 name) →
          PinOp.move m pg pin index ∈ log ++ l →
          PinOp.move m pg pin index ∈ log ∨ (mpg = ⟨m, pg⟩ ∧ (index, pin) ∈ (index1, pin1) :: t) := by
        intro l hl h1
        rcases List.mem_append.1 h1 with h2 | h2
        · exact Or.inl h2
        · rcases hl _ h2 with h3 | ⟨p1, name, h3⟩
          · simp only [PinOp.move.injEq] at h3
            refine Or.inr ⟨?_, ?_⟩
            · rw [h3.1, h3.2.1]
            · rw [h3.2.2.1, h3.2.2.2]
              exact List.mem_cons_self _ _
          · exact PinOp.noConfusion h3
      cases hc : api.get_pins_by_name s1 mpg.module (indexed_pin_name api mpg.group index1) with
      | nil =>
        rw [hc] at h
        rcases ih _ _ h with h1 | ⟨h1, h2⟩
        · apply key _ _ h1
          intro op hop
          simp only [List.mem_cons, List.mem_singleton, List.not_mem_nil, or_false] at hop
          rcases hop with hop | hop
          · exact Or.inl hop
          · exact Or.inr ⟨_, _, hop⟩
        · exact Or.inr ⟨h1, List.mem_cons_of_mem _ h2⟩
      | cons collision rest =>
        rw [hc] at h
        rcases ih _ _ h with h1 | ⟨h1, h2⟩
        · apply key _ _ h1
          intro op hop
          simp only [List.mem_cons, List.mem_singleton, List.not_mem_nil, or_false] at hop
          rcases hop with hop | hop | hop
          · exact Or.inl hop
          · exact Or.inr ⟨_, _, hop⟩
          · exact Or.inr ⟨_, _, hop⟩
        · exact Or.inr ⟨h1, List.mem_cons_of_mem _ h2⟩

/-- The moves of `reorder_module_pin_groups` are moves of pins of the group of
one of its origins within this group. -/
theorem reorder_log {S : Type} (api : PinApi S) (ordered : List (MPG × Map Net Nat)) (s : S)
    (log : List PinOp) (m : ModulePtr) (pg pin index : Nat)
    (h : PinOp.move m pg pin index ∈ (reorder_module_pin_groups api ordered s log).2.2) :
    PinOp.move m pg pin index ∈ log ∨
      (∃ e ∈ ordered, e.1 = ⟨m, pg⟩) ∧ api.get_group pin = pg := by
  induction ordered generalizing s log with
  | nil => exact Or.inl h
  | cons e t ih =>
    obtain ⟨mpg, bitorder⟩ := e
    rw [reorder_module_pin_groups] at h
    cases hi : index_to_pin api mpg bitorder [] with
    | error e1 =>
      rw [hi] at h
      exact Or.inl h
    | ok pins =>
      rw [hi] at h
      simp only at h
      have hmove : ∀ op, op = PinOp.move m pg pin index →
          op ∈ (move_pins api mpg pins s log).2.2 →
          PinOp.move m pg pin index ∈ log ∨
            (∃ e ∈ (mpg, bitorder) :: t, e.1 = ⟨m, pg⟩) ∧ api.get_group pin = pg := by
        intro op hop h1
        rw [hop] at h1
        rcases move_pins_log api mpg pins s log m pg pin index h1 with h2 | ⟨h2, h3⟩
        · exact Or.inl h2
        · refine Or.inr ⟨⟨(mpg, bitorder), List.mem_cons_self _ _, h2⟩, ?_⟩
          have h4 := index_to_pin_group api mpg bitorder [] pins hi
            (fun p hp => absurd hp (List.not_mem_nil _)) (index, pin) h3
          rw [h2] at h4
          exact h4
      rcases hr : move_pins api mpg pins s log with ⟨res, s1, log1⟩
      rw [hr] at h hmove
      cases res with
      | error e1 => exact hmove _ rfl h
      | ok u =>
        simp only at h
        rcases ih s1 log1 h with h1 | ⟨⟨e2, h1, h2⟩, h3⟩
        · exact hmove _ rfl h1
        · exact Or.inr ⟨⟨e2, List.mem_cons_of_mem _ h1, h2⟩, h3⟩

/-- The call on a list of origins processes the first part of the list and,
when this succeeds, the rest from the state the first part leaves. -/
theorem reorder_append {S : Type} (api : PinApi S) (pre rest : List (MPG × Map Net Nat)) (s : S)
    (log : List PinOp) :
    reorder_module_pin_groups api (pre ++ rest) s log
      = match reorder_module_pin_groups api pre s log with
        | (.error e, s1, log1) => (.error e, s1, log1)
        | (.ok _, s1, log1) => reorder_module_pin_groups api rest s1 log1 := by
  induction pre generalizing s log with
  | nil => rfl
  | cons e t ih =>
    obtain ⟨mpg, bitorder⟩ := e
    rw [List.cons_append, reorder_module_pin_groups, reorder_module_pin_groups]
    cases hi : index_to_pin api mpg bitorder [] with
    | error e1 => rfl
    | ok pins =>
      simp only
      rcases hr : move_pins api mpg pins s log with ⟨res, s1, log1⟩
      cases res with
      | error e1 => rfl
      | ok u => exact ih s1 log1

/-- C22, amended: the validation of `reorder_module_pin_groups`.  If the bit
order of an origin has a net whose pin on the module belongs to a pin group
other than the group of the origin, the call returns an error, and it leaves
the pins as the processing of the origins before this origin left them: nothing
is moved or renamed for this origin, whose nets are all validated before its
first pin is moved, nor for an origin after it.  Every move of the call moves a
pin within its own group, for an origin of this group, so that no pin of the
group of the failing origin is moved when no origin before it has this group;
such a pin can have been renamed for an origin before it, as the pin that had
the new name of a moved pin. -/
theorem reorder_validation {S : Type} (api : PinApi S) (pre post : List (MPG × Map Net Nat))
    (mpg : MPG) (bitorder : Map Net Nat) (s : S) (log : List PinOp) (net : Net) (index pin : Nat)
    (hmem : (net, index) ∈ bitorder) (hpin : api.get_pin_by_net mpg.module net = some pin)
    (hgroup : api.get_group pin ≠ mpg.group) :
    (∃ e, (reorder_module_pin_groups api (pre ++ (mpg, bitorder) :: post) s log).1 = .error e) ∧
      (reorder_module_pin_groups api (pre ++ (mpg, bitorder) :: post) s log).2
        = (reorder_module_pin_groups api pre s log).2 ∧
      ((∀ e ∈ pre, e.1.group ≠ mpg.group) → ∀ m pg pin1 index1,
        PinOp.move m pg pin1 index1
            ∈ (reorder_module_pin_groups api (pre ++ (mpg, bitorder) :: post) s log).2.2 →
          PinOp.move m pg pin1 index1 ∈ log ∨ api.get_group pin1 ≠ mpg.group) := by
  obtain ⟨e, he⟩ := index_to_pin_error api mpg bitorder [] net index pin hmem hpin hgroup
  have h1 : (∃ e, (reorder_module_pin_groups api (pre ++ (mpg, bitorder) :: post) s log).1
        = .error e) ∧
      (reorder_module_pin_groups api (pre ++ (mpg, bitorder) :: post) s log).2
        = (reorder_module_pin_groups api pre s log).2 := by
    rw [reorder_append]
    rcases hr : reorder_module_pin_groups api pre s log with ⟨res, s1, log1⟩
    cases res with
    | error e1 => exact ⟨⟨e1, rfl⟩, rfl⟩
    | ok u =>
      simp only
      rw [reorder_module_pin_groups, he]
      exact ⟨⟨e, rfl⟩, rfl⟩
  refine ⟨h1.1, h1.2, ?_⟩
  intro hpre m pg pin1 index1 hop
  rw [h1.2] at hop
  rcases reorder_log api pre s log m pg pin1 index1 hop with h2 | ⟨⟨e2, h2, h3⟩, h4⟩
  · exact Or.inl h2
  · refine Or.inr ?_
    rw [h4]
    have h5 := hpre e2 h2
    rw [h3] at h5
    exact h5

/-- An instance of the amended C22 on the pins `exPins`: the call fails at the
origin of the group 11 and leaves the pins as the processing of the origin of
the group 10 left them. -/
theorem reorder_validation_witness :
    (102, 0) ∈ ([(102, 0)] : Map Net Nat) ∧ exPins.get_pin_by_net 5 102 = some 2 ∧
      exPins.get_group 2 ≠ 11 ∧
      (reorder_module_pin_groups exPins ([(⟨5, 10⟩, [(101, 0)])] ++ (⟨5, 11⟩, [(102, 0)]) :: [])
          exPinNames []).2
        = (reorder_module_pin_groups exPins [(⟨5, 10⟩, [(101, 0)])] exPinNames []).2 :=
  ⟨by decide, by decide, by decide,
    (reorder_validation exPins [(⟨5, 10⟩, [(101, 0)])] [] ⟨5, 11⟩ [(102, 0)] exPinNames [] 102 0 2
      (by decide) (by decide) (by decide)).2.1⟩

/-! ## The strict mode without overflow -/

theorem foldl_min_le (l : Map Net Int) (a : Int) :
    l.foldl (fun acc p => if p.2 < acc then p.2 else acc) a ≤ a ∧
      ∀ p ∈ l, l.foldl (fun acc p => if p.2 < acc then p.2 else acc) a ≤ p.2 := by
  induction l generalizing a with
  | nil => exact ⟨le_refl a, fun p hp => absurd hp (List.not_mem_nil _)⟩
  | cons q t ih =>
    rw [List.foldl_cons]
    obtain ⟨i1, i2⟩ := ih (if q.2 < a then q.2 else a)
    have h1 : (if q.2 < a then q.2 else a) ≤ a := by split_ifs <;> omega
    have h2 : (if q.2 < a then q.2 else a) ≤ q.2 := by split_ifs <;> omega
    refine ⟨le_trans i1 h1, ?_⟩
    intro p hp
    rcases List.mem_cons.1 hp with h3 | h3
    · rw [h3]
      exact le_trans i1 h2
    · exact i2 p h3

theorem foldl_max_ge (l : Map Net Int) (a : Int) :
    a ≤ l.foldl (fun acc p => if p.2 > acc then p.2 else acc) a ∧
      ∀ p ∈ l, p.2 ≤ l.foldl (fun acc p => if p.2 > acc then p.2 else acc) a := by
  induction l generalizing a with
  | nil => exact ⟨le_refl a, fun p hp => absurd hp (List.not_mem_nil _)⟩
  | cons q t ih =>
    rw [List.foldl_cons]
    obtain ⟨i1, i2⟩ := ih (if q.2 > a then q.2 else a)
    have h1 : a ≤ (if q.2 > a then q.2 else a) := by split_ifs <;> omega
    have h2 : q.2 ≤ (if q.2 > a then q.2 else a) := by split_ifs <;> omega
    refine ⟨le_trans h1 i1, ?_⟩
    intro p hp
    rcases List.mem_cons.1 hp with h3 | h3
    · rw [h3]
      exact le_trans h2 i1
    · exact i2 p h3

/-- The number of integers below `x` in a list without repetition whose
elements are the integers from `lo` to `lo + n - 1`. -/
theorem countP_lt_of_interval (vals : List Int) (lo : Int) (hnd : vals.Nodup)
    (hsub : ∀ y ∈ vals, lo ≤ y ∧ y < lo + vals.length) :
    (∀ k, lo ≤ k → k < lo + vals.length → k ∈ vals) ∧
      ∀ x ∈ vals, ((vals.countP (fun y => decide (y < x)) : Nat) : Int) = x - lo := by
  have hcard : vals.toFinset.card = vals.length := List.toFinset_card_of_nodup hnd
  have hIco : (Finset.Ico lo (lo + vals.length)).card = vals.length := by
    rw [Int.card_Ico]
    simp
  have heq : vals.toFinset = Finset.Ico lo (lo + vals.length) := by
    apply Finset.eq_of_subset_of_card_le
    · intro y hy
      rw [List.mem_toFinset] at hy
      rw [Finset.mem_Ico]
      exact hsub y hy
    · rw [hcard, hIco]
  constructor
  · intro k h1 h2
    have : k ∈ vals.toFinset := by
      rw [heq, Finset.mem_Ico]
      exact ⟨h1, h2⟩
    exact List.mem_toFinset.1 this
  · intro x hx
    obtain ⟨hx1, hx2⟩ := hsub x hx
    have h1 : vals.countP (fun y => decide (y < x))
        = ((vals.filter (fun y => decide (y < x))).toFinset).card := by
      rw [List.countP_eq_length_filter, List.toFinset_card_of_nodup (hnd.filter _)]
    have h2 : (vals.filter (fun y => decide (y < x))).toFinset = Finset.Ico lo x := by
      ext y
      rw [List.mem_toFinset, List.mem_filter, Finset.mem_Ico, decide_eq_true_eq]
      constructor
      · rintro ⟨h3, h4⟩
        exact ⟨(hsub y h3).1, h4⟩
      · rintro ⟨h3, h4⟩
        refine ⟨?_, h4⟩
        have : y ∈ vals.toFinset := by
          rw [heq, Finset.mem_Ico]
          exact ⟨h3, by omega⟩
        exact List.mem_toFinset.1 this
    rw [h1, h2, Int.card_Ico]
    omega

/-- The alignment stage in strict mode, when the difference of the largest and
the smallest consensus index does not overflow: the consensus indices are the
consecutive integers from the smallest one on, and the final index of a net is
its consensus index minus the smallest one. -/
theorem aligned_consens_consecutive (cc : Map Net Int) (al : Map Net Nat) (hcc : Map.WF cc)
    (hne : cc ≠ []) (hlen : cc.length < 2147483648)
    (hspan : max_index cc - min_index cc < 2147483648)
    (h : aligned_consens true cc = some al) :
    min_index cc ∈ Map.values cc ∧
      (∀ x ∈ Map.values cc, min_index cc ≤ x ∧ x < min_index cc + cc.length) ∧
      (∀ k, min_index cc ≤ k → k < min_index cc + cc.length → k ∈ Map.values cc) ∧
      ∀ n i, Map.find? al n = some i →
        ∃ x, Map.find? cc n = some x ∧ (i : Int) = x - min_index cc := by
  have hlo := (foldl_min_le cc 2147483647).2
  have hhi := (foldl_max_ge cc (i32 2147483648)).2
  have hlo1 : ∀ p ∈ cc, min_index cc ≤ p.2 := hlo
  have hhi1 : ∀ p ∈ cc, p.2 ≤ max_index cc := hhi
  obtain ⟨p0, hp0⟩ := List.exists_mem_of_ne_nil cc hne
  have hge : 0 ≤ max_index cc - min_index cc := by
    have := hlo1 p0 hp0
    have := hhi1 p0 hp0
    omega
  have hpos : 1 ≤ cc.length := by
    cases cc with
    | nil => exact absurd rfl hne
    | cons a t => simp
  unfold aligned_consens at h
  have h1 : i32 (max_index cc - min_index cc) = max_index cc - min_index cc :=
    i32_of_range _ (by omega) hspan
  have h2 : i32 (cc.length : Int) = cc.length := i32_of_range _ (by omega) (by omega)
  have h3 : i32 ((cc.length : Int) - 1) = cc.length - 1 := i32_of_range _ (by omega) (by omega)
  rw [h1, h2, h3] at h
  by_cases hgap : max_index cc - min_index cc > (cc.length : Int) - 1
  · simp [hgap] at h
  · have hu : ¬ (unique_indices cc).length < cc.length := by
      intro hx
      simp [hgap, hx] at h
    have hnd := values_nodup_of_unique cc hu
    have hvlen : (Map.values cc).length = cc.length := by simp [Map.values]
    have hsub : ∀ y ∈ Map.values cc,
        min_index cc ≤ y ∧ y < min_index cc + (Map.values cc).length := by
      intro y hy
      obtain ⟨p, hp, hpe⟩ := List.mem_map.1 hy
      have := hlo1 p hp
      have := hhi1 p hp
      rw [hvlen]
      omega
    obtain ⟨c1, c2⟩ := countP_lt_of_interval (Map.values cc) (min_index cc) hnd hsub
    have hmin : min_index cc ∈ Map.values cc := c1 _ (le_refl _) (by rw [hvlen]; omega)
    refine ⟨hmin, ?_, ?_, ?_⟩
    · intro x hx
      have := hsub x hx
      rw [hvlen] at this
      exact this
    · intro k hk1 hk2
      exact c1 k hk1 (by rw [hvlen]; exact hk2)
    · intro n i hi
      have hal : aligned_consens true cc = some al := by
        unfold aligned_consens
        rw [h1, h2, h3]
        exact h
      obtain ⟨x, hx, hcount⟩ := aligned_consens_rank true cc al hcc (by omega) hal n i hi
      refine ⟨x, hx, ?_⟩
      have hxm : x ∈ Map.values cc :=
        List.mem_map.2 ⟨(n, x), Map.mem_of_find? cc n x hx, rfl⟩
      have h5 := c2 x hxm
      have h6 : cc.countP (fun p => decide (p.2 < x))
          = (Map.values cc).countP (fun y => decide (y < x)) := by
        unfold Map.values
        rw [List.countP_map]
        rfl
      rw [hcount, h6]
      exact h5

theorem foldl_min_mem (l : Map Net Int) (a : Int) :
    l.foldl (fun acc p => if p.2 < acc then p.2 else acc) a = a ∨
      ∃ p ∈ l, l.foldl (fun acc p => if p.2 < acc then p.2 else acc) a = p.2 := by
  induction l generalizing a with
  | nil => exact Or.inl rfl
  | cons q t ih =>
    rw [List.foldl_cons]
    rcases ih (if q.2 < a then q.2 else a) with h | ⟨p, hp, h⟩
    · rw [h]
      split_ifs
      · exact Or.inr ⟨q, List.mem_cons_self _ _, rfl⟩
      · exact Or.inl rfl
    · exact Or.inr ⟨p, List.mem_cons_of_mem _ hp, h⟩

theorem foldl_max_mem (l : Map Net Int) (a : Int) :
    l.foldl (fun acc p => if p.2 > acc then p.2 else acc) a = a ∨
      ∃ p ∈ l, l.foldl (fun acc p => if p.2 > acc then p.2 else acc) a = p.2 := by
  induction l generalizing a with
  | nil => exact Or.inl rfl
  | cons q t ih =>
    rw [List.foldl_cons]
    rcases ih (if q.2 > a then q.2 else a) with h | ⟨p, hp, h⟩
    · rw [h]
      split_ifs
      · exact Or.inr ⟨q, List.mem_cons_self _ _, rfl⟩
      · exact Or.inl rfl
    · exact Or.inr ⟨p, List.mem_cons_of_mem _ hp, h⟩

/-- The strict mode without overflow.  For a group with at least one net that
is neither ground nor power, fewer than `2 ^ 31` pins, and consensus indices
whose differences are below `2 ^ 31`, that `extract_well_formed_bitorder`
outputs in strict mode: the consensus indices of its nets are the consecutive
integers from the smallest one `lo` on, and the final index of every net is its
consensus index minus `lo`. -/
theorem extract_strict_consecutive (nl : Netlist) (ev : Map MPG (Map Net POSSIBLE_BITINDICES))
    (g : MPG) (al : Map Net Nat) (hpins : (nl.pins g).length < 2147483648)
    (hwire : wires nl g ≠ [])
    (hspan : ∀ nets consens, (g, nets) ∈ ev → consens_bitindices nets = some consens →
      ∀ a ∈ wires nl g, ∀ b ∈ wires nl g, ∀ xa xb, Map.find? consens a = some xa →
        Map.find? consens b = some xb → xb - xa < 2147483648)
    (hout : Map.find? (extract_well_formed_bitorder nl ev true) g = some al) :
    ∃ nets consens lo, (g, nets) ∈ ev ∧ consens_bitindices nets = some consens ∧
      (∃ w ∈ wires nl g, Map.find? consens w = some lo) ∧
      (∀ w ∈ wires nl g, ∃ x, Map.find? consens w = some x ∧ lo ≤ x ∧
        x < lo + (wires nl g).length) ∧
      (∀ k, lo ≤ k → k < lo + (wires nl g).length →
        ∃ w ∈ wires nl g, Map.find? consens w = some k) ∧
      ∀ w i, Map.find? al w = some i →
        ∃ x, Map.find? consens w = some x ∧ (i : Int) = x - lo := by
  obtain ⟨nets, hmem, hw⟩ := extract_sound nl ev true g al hout
  obtain ⟨consens, cc, hc, hcc, hal⟩ := wellformed_bitorder_cases nl true g nets al hw
  have hccwf := complete_consens_WF nl consens g cc hcc
  have hlen := length_complete_eq nl consens g cc hcc
  have hle := length_wires_le nl g
  have hne : cc ≠ [] := by
    intro h0
    rw [h0] at hlen
    exact hwire (List.eq_nil_of_length_eq_zero hlen.symm)
  have hval : ∀ p ∈ cc, p.1 ∈ wires nl g ∧ Map.find? consens p.1 = some p.2 ∧
      -2147483648 ≤ p.2 ∧ p.2 < 2147483648 := by
    intro p hp
    have h1 := (complete_consens_find? nl consens g cc hcc p.1 p.2).1
      ((Map.find?_iff_mem cc hccwf p.1 p.2).2 hp)
    have h2 := consens_bitindices_range nets consens hc p.1 p.2 h1.2
    exact ⟨h1.1, h1.2, h2.1, h2.2⟩
  have hmaxle := (foldl_max_ge cc (i32 2147483648)).2
  have hminle := (foldl_min_le cc 2147483647).2
  have hinit : i32 2147483648 = -2147483648 := by decide
  have hsp : max_index cc - min_index cc < 2147483648 := by
    obtain ⟨p0, hp0⟩ := List.exists_mem_of_ne_nil cc hne
    have hr0 := hval p0 hp0
    have h1 : max_index cc ≤ 2147483647 := by
      rcases foldl_max_mem cc (i32 2147483648) with h | ⟨p, hp, h⟩
      · unfold max_index
        rw [h, hinit]
        omega
      · unfold max_index
        rw [h]
        have := (hval p hp).2.2.2
        omega
    have h2 : -2147483648 ≤ min_index cc := by
      rcases foldl_min_mem cc 2147483647 with h | ⟨p, hp, h⟩
      · unfold min_index
        rw [h]
        omega
      · unfold min_index
        rw [h]
        exact (hval p hp).2.2.1
    rcases foldl_max_mem cc (i32 2147483648) with h | ⟨p, hp, h⟩
    · have : max_index cc = -2147483648 := by
        unfold max_index
        rw [h, hinit]
      omega
    · rcases foldl_min_mem cc 2147483647 with h3 | ⟨q, hq, h3⟩
      · have : min_index cc = 2147483647 := by
          unfold min_index
          rw [h3]
        omega
      · have e1 : max_index cc = p.2 := h
        have e2 : min_index cc = q.2 := h3
        rw [e1, e2]
        exact hspan nets consens hmem hc q.1 (hval q hq).1 p.1 (hval p hp).1 q.2 p.2
          (hval q hq).2.1 (hval p hp).2.1
  obtain ⟨c0, c1, c2, c3⟩ := aligned_consens_consecutive cc al hccwf hne (by omega) hsp hal
  rw [hlen] at c1 c2
  refine ⟨nets, consens, min_index cc, hmem, hc, ?_, ?_, ?_, ?_⟩
  · exact (mem_values_complete nl consens g cc hcc _).1 c0
  · intro w hw1
    have hall := (complete_consens_spec nl consens (nl.pins g) [] cc Map.WF_nil hcc).2.1 w
      ((mem_wires nl g w).1 hw1).1 ((mem_wires nl g w).1 hw1).2
    obtain ⟨x, hx⟩ := hall
    have hx1 : x ∈ Map.values cc := (mem_values_complete nl consens g cc hcc x).2 ⟨w, hw1, hx⟩
    exact ⟨x, hx, c1 x hx1⟩
  · intro k hk1 hk2
    exact (mem_values_complete nl consens g cc hcc k).1 (c2 k hk1 hk2)
  · intro w i hi
    obtain ⟨x, hx, hxi⟩ := c3 w i hi
    exact ⟨x, ((complete_consens_find? nl consens g cc hcc w x).1 hx).2, hxi⟩

/-! ## The strict mode and the 32-bit range -/

/-- C29 on the evidence `exWide`, in strict mode: the consensus indices of the
nets 10 and 11 are -2147483648 and 2147483647, the difference of the largest
and the smallest wraps to -1 in the 32-bit arithmetic of the check, and the
group is output with the final indices 0 and 1, although its consensus indices
are not consecutive and the final index of the net 11 is not its consensus index
minus the smallest one. -/
theorem extract_strict_wide_range :
    consens_bitindices [(10, [(exA, [2147483648])]), (11, [(exA, [2147483647])])]
        = some [(10, -2147483648), (11, 2147483647)] ∧
      complete_consens exNetlist2 [(10, -2147483648), (11, 2147483647)] (exNetlist2.pins exG) []
        = some [(10, -2147483648), (11, 2147483647)] ∧
      i32 (max_index [(10, -2147483648), (11, 2147483647)]
          - min_index [(10, -2147483648), (11, 2147483647)]) = -1 ∧
      extract_well_formed_bitorder exNetlist2 exWide true = [(exG, [(10, 0), (11, 1)])] ∧
      (2147483647 : Int) - (-2147483648) ≠ 1 :=
  ⟨by decide, by decide, by decide, by decide, by decide⟩

/-! ## The chain lookup `get_offset` -/

theorem i32_add_i32 (a b : Int) : i32 (a + i32 b) = i32 (a + b) := by
  rw [i32_eq_iff]
  exact Int.ModEq.add_left a (i32_modEq b)

/-- A failing loop of `get_offset` leaves the matrix as it is when failing
calls do. -/
theorem get_offset_loop_fail (call : MPG → OffsetMatrix → List (List MPG) → OffsetResult)
    (hcall : ∀ dst m v, (call dst m v).1 = none → (call dst m v).2.1 = m)
    (org1 org2 : MPG) (row : List (MPG × Int)) (m : OffsetMatrix) (v : List (List MPG))
    (h : (get_offset_loop call org1 org2 row m v).1 = none) :
    (get_offset_loop call org1 org2 row m v).2.1 = m := by
  induction row generalizing v with
  | nil => rfl
  | cons p rest ih =>
    obtain ⟨dst, first⟩ := p
    rw [get_offset_loop] at h ⊢
    have hc := hcall dst m v
    rcases hres : call dst m v with ⟨r, m1, v1⟩
    rw [hres] at h hc
    cases r with
    | none =>
      simp only at h ⊢
      have hm : m1 = m := hc rfl
      subst hm
      exact ih v1 h
    | some second => exact Option.noConfusion h

/-- A failing call of `get_offset` leaves the matrix as it is. -/
theorem get_offset_fail (n : Nat) (org1 org2 : MPG) (m : OffsetMatrix) (v : List (List MPG))
    (h : (get_offset n org1 org2 m v).1 = none) : (get_offset n org1 org2 m v).2.1 = m := by
  induction n generalizing org1 m v with
  | zero => rfl
  | succ n ih =>
    rw [get_offset_succ] at h ⊢
    by_cases h1 : origin_pair org1 org2 ∈ v
    · rw [if_pos h1]
    · rw [if_neg h1] at h ⊢
      by_cases h2 : org1 = org2
      · rw [if_pos h2] at h
        exact Option.noConfusion h
      · rw [if_neg h2] at h ⊢
        cases hrow : Map.find? m org1 with
        | none => rfl
        | some row =>
          rw [hrow] at h
          simp only at h ⊢
          cases hdir : Map.find? row org2 with
          | some offset => rfl
          | none =>
            rw [hdir] at h
            simp only at h ⊢
            exact get_offset_loop_fail _ (fun dst m2 v2 h3 => ih dst m2 v2 h3) org1 org2 row m _ h

theorem entry_of_mem_row (m : OffsetMatrix) (org1 : MPG) (row : Map MPG Int)
    (hrow : Map.find? m org1 = some row) (hnd : (Map.keys row).Nodup) (dst : MPG) (x : Int)
    (h : (dst, x) ∈ row) : OffsetMatrix.entry m org1 dst = some x := by
  unfold OffsetMatrix.entry
  rw [hrow]
  exact Map.find?_of_mem row hnd dst x h

theorem matrix_WF_row (m : OffsetMatrix) (hm : matrix_WF m) (org1 : MPG) (row : Map MPG Int)
    (hrow : Map.find? m org1 = some row) :
    (Map.keys row).Nodup ∧ ∀ p ∈ row, i32 p.2 = p.2 := by
  have h := hm.2 (org1, row) (Map.mem_of_find? m org1 row hrow)
  exact ⟨Map.nodup_keys_of_WF row h.1, h.2⟩

/-- A successful loop of `get_offset` on the row of `org1` returns the sum
along a chain and stores it. -/
theorem get_offset_loop_sound (call : MPG → OffsetMatrix → List (List MPG) → OffsetResult)
    (org1 org2 : MPG) (m : OffsetMatrix) (row0 : Map MPG Int)
    (hrow0 : Map.find? m org1 = some row0) (hnd : (Map.keys row0).Nodup)
    (hfail : ∀ dst m v, (call dst m v).1 = none → (call dst m v).2.1 = m)
    (hcall : ∀ dst v x m1 v1, call dst m v = (some x, m1, v1) →
      ∃ l s, is_chain m dst org2 l s ∧ x = i32 s)
    (row : List (MPG × Int)) (hsub : ∀ p ∈ row, p ∈ row0) (v : List (List MPG)) (x : Int)
    (m1 : OffsetMatrix) (v1 : List (List MPG))
    (h : get_offset_loop call org1 org2 row m v = (some x, m1, v1)) :
    OffsetMatrix.entry m1 org1 org2 = some x ∧ ∃ l s, is_chain m org1 org2 l s ∧ x = i32 s := by
  induction row generalizing v with
  | nil =>
    simp only [get_offset_loop, Prod.mk.injEq] at h
    exact Option.noConfusion h.1
  | cons p rest ih =>
    obtain ⟨dst, first⟩ := p
    rw [get_offset_loop] at h
    have hf := hfail dst m v
    have hc := hcall dst v
    rcases hres : call dst m v with ⟨r, m2, v2⟩
    rw [hres] at h hf hc
    cases r with
    | none =>
      simp only at h
      have hm : m2 = m := hf rfl
      subst hm
      exact ih (fun p hp => hsub p (List.mem_cons_of_mem _ hp)) v2 h
    | some second =>
      simp only [Prod.mk.injEq, Option.some.injEq] at h
      obtain ⟨hx, hm1, _⟩ := h
      obtain ⟨l, s, ⟨hl1, hl2, hl3⟩, hs⟩ := hc second m2 v2 rfl
      constructor
      · rw [← hm1, entry_set, if_pos ⟨rfl, rfl⟩, hx]
      · have he := entry_of_mem_row m org1 row0 hrow0 hnd dst first
          (hsub (dst, first) (List.mem_cons_self _ _))
        cases l with
        | nil => exact Option.noConfusion hl1
        | cons a t =>
          simp only [List.head?_cons, Option.some.injEq] at hl1
          subst hl1
          refine ⟨org1 :: a :: t, first + s, ⟨rfl, ?_, ?_⟩, ?_⟩
          · rw [List.getLast?_cons_cons]
            exact hl2
          · rw [chain_sum, he, hl3]
          · rw [← hx, hs, i32_add_i32]

/-- A successful call of `get_offset` returns the sum along a chain of the
matrix and stores it. -/
theorem get_offset_sound (org2 : MPG) (m : OffsetMatrix) (hm : matrix_WF m) (n : Nat) :
    ∀ org1 v x m1 v1, get_offset n org1 org2 m v = (some x, m1, v1) →
      OffsetMatrix.entry m1 org1 org2 = some x ∧ (org1 = org2 → x = 0) ∧
        ∃ l s, is_chain m org1 org2 l s ∧ x = i32 s := by
  induction n with
  | zero =>
    intro org1 v x m1 v1 h
    simp only [get_offset, Prod.mk.injEq] at h
    exact Option.noConfusion h.1
  | succ n ih =>
    intro org1 v x m1 v1 h
    rw [get_offset_succ] at h
    by_cases h1 : origin_pair org1 org2 ∈ v
    · rw [if_pos h1] at h
      simp only [Prod.mk.injEq] at h
      exact Option.noConfusion h.1
    · rw [if_neg h1] at h
      by_cases h2 : org1 = org2
      · rw [if_pos h2] at h
        simp only [Prod.mk.injEq, Option.some.injEq] at h
        obtain ⟨hx, hm1, _⟩ := h
        refine ⟨?_, fun _ => hx.symm, [org1], 0, ⟨rfl, ?_, rfl⟩, ?_⟩
        · rw [← hm1, entry_set, if_pos ⟨rfl, rfl⟩, hx]
        · rw [h2]
          rfl
        · rw [← hx]
          rfl
      · rw [if_neg h2] at h
        cases hrow : Map.find? m org1 with
        | none =>
          rw [hrow] at h
          simp only [Prod.mk.injEq] at h
          exact Option.noConfusion h.1
        | some row =>
          rw [hrow] at h
          simp only at h
          obtain ⟨hnd, hrange⟩ := matrix_WF_row m hm org1 row hrow
          cases hdir : Map.find? row org2 with
          | some offset =>
            rw [hdir] at h
            simp only [Prod.mk.injEq, Option.some.injEq] at h
            obtain ⟨hx, hm1, _⟩ := h
            have he : OffsetMatrix.entry m org1 org2 = some offset := by
              unfold OffsetMatrix.entry
              rw [hrow]
              exact hdir
            refine ⟨?_, fun h3 => absurd h3 h2, [org1, org2], offset + 0, ⟨rfl, rfl, ?_⟩, ?_⟩
            · rw [← hm1, ← hx]
              exact he
            · rw [chain_sum, he]
              rfl
            · rw [← hx, add_zero]
              exact (hrange (org2, offset) (Map.mem_of_find? row org2 offset hdir)).symm
          | none =>
            rw [hdir] at h
            simp only at h
            obtain ⟨i1, i2⟩ := get_offset_loop_sound _ org1 org2 m row hrow hnd
              (fun dst m2 v2 h3 => get_offset_fail n dst org2 m2 v2 h3)
              (fun dst v2 x2 m2 v3 h3 => (ih dst v2 x2 m2 v3 h3).2.2)
              row (fun p hp => hp) _ x m1 v1 h
            exact ⟨i1, fun h3 => absurd h3 h2, i2⟩

theorem visited_closed_mono (m : OffsetMatrix) (t : MPG) (v v1 v2 : List (List MPG))
    (h12 : ∀ p ∈ v1, p ∈ v2) (h1 : visited_closed m t v v1) (h2 : visited_closed m t v1 v2) :
    visited_closed m t v v2 := by
  intro x hx hnx
  by_cases hx1 : origin_pair x t ∈ v1
  · obtain ⟨i1, i2⟩ := h1 x hx1 hnx
    refine ⟨i1, fun row hrow => ?_⟩
    obtain ⟨j1, j2⟩ := i2 row hrow
    exact ⟨j1, fun p hp => h12 _ (j2 p hp)⟩
  · exact h2 x hx hx1

/-- A failing loop of `get_offset` has visited the origins of the row, and the
origins visited by it are closed under the recorded offsets. -/
theorem get_offset_loop_closed (K : List MPG) (t : MPG) (m : OffsetMatrix) (n : Nat)
    (v0 : List (List MPG))
    (hcall : ∀ dst v, dst ∈ K → (∀ p ∈ v0, p ∈ v) → (get_offset n dst t m v).1 = none →
      (∀ p ∈ v, p ∈ (get_offset n dst t m v).2.2) ∧
        origin_pair dst t ∈ (get_offset n dst t m v).2.2 ∧
        visited_closed m t v (get_offset n dst t m v).2.2)
    (org1 : MPG) (row : List (MPG × Int)) (hrow : ∀ p ∈ row, p.1 ∈ K) (v : List (List MPG))
    (hv : ∀ p ∈ v0, p ∈ v)
    (h : (get_offset_loop (fun dst m2 v2 => get_offset n dst t m2 v2) org1 t row m v).1 = none) :
    (∀ p ∈ v, p ∈ (get_offset_loop (fun dst m2 v2 => get_offset n dst t m2 v2) org1 t row m v).2.2) ∧
      (∀ p ∈ row, origin_pair p.1 t ∈
        (get_offset_loop (fun dst m2 v2 => get_offset n dst t m2 v2) org1 t row m v).2.2) ∧
      visited_closed m t v
        (get_offset_loop (fun dst m2 v2 => get_offset n dst t m2 v2) org1 t row m v).2.2 := by
  induction row generalizing v with
  | nil =>
    refine ⟨fun p hp => hp, fun p hp => absurd hp (List.not_mem_nil _), ?_⟩
    intro x hx hnx
    exact absurd hx hnx
  | cons p rest ih =>
    obtain ⟨dst, first⟩ := p
    rw [get_offset_loop] at h ⊢
    have hc := hcall dst v (hrow (dst, first) (List.mem_cons_self _ _)) hv
    have hf := get_offset_fail n dst t m v
    rcases hres : get_offset n dst t m v with ⟨r, m1, v1⟩
    rw [hres] at hc hf
    simp only [hres] at h ⊢
    cases r with
    | some second => exact Option.noConfusion h
    | none =>
      simp only at h ⊢
      have hm : m1 = m := hf rfl
      subst hm
      obtain ⟨c1, c2, c3⟩ := hc rfl
      obtain ⟨i1, i2, i3⟩ := ih (fun p hp => hrow p (List.mem_cons_of_mem _ hp)) v1
        (fun p hp => c1 p (hv p hp)) h
      refine ⟨fun p hp => i1 p (c1 p hp), ?_, visited_closed_mono m1 t v v1 _ i1 c3 i3⟩
      intro p hp
      rcases List.mem_cons.1 hp with h1 | h1
      · rw [h1]
        exact i1 _ c2
      · exact i2 p h1

/-- A failing call of `get_offset` with enough fuel has visited its origin, and
the origins visited by it are closed under the recorded offsets. -/
theorem get_offset_closed (K : List MPG) (t : MPG) (m : OffsetMatrix)
    (hcol : ∀ y, is_column m y → y ∈ K) (n : Nat) :
    ∀ org1 v, org1 ∈ K → remaining K t v < n → (get_offset n org1 t m v).1 = none →
      (∀ p ∈ v, p ∈ (get_offset n org1 t m v).2.2) ∧
        origin_pair org1 t ∈ (get_offset n org1 t m v).2.2 ∧
        visited_closed m t v (get_offset n org1 t m v).2.2 := by
  induction n with
  | zero => intro org1 v _ h; omega
  | succ n ih =>
    intro org1 v horg hrem h
    rw [get_offset_succ] at h ⊢
    by_cases h1 : origin_pair org1 t ∈ v
    · rw [if_pos h1]
      exact ⟨fun p hp => hp, h1, fun x hx hnx => absurd hx hnx⟩
    · rw [if_neg h1] at h ⊢
      by_cases h2 : org1 = t
      · rw [if_pos h2] at h
        exact Option.noConfusion h
      · rw [if_neg h2] at h ⊢
        have hnew : ∀ x, origin_pair x t ∈ origin_pair org1 t :: v → origin_pair x t ∉ v →
            x = org1 := by
          intro x hx hnx
          rcases List.mem_cons.1 hx with h3 | h3
          · exact origin_pair_injective x org1 t h3
          · exact absurd h3 hnx
        cases hrow : Map.find? m org1 with
        | none =>
          refine ⟨fun p hp => List.mem_cons_of_mem _ hp, List.mem_cons_self _ _, ?_⟩
          intro x hx hnx
          have hx1 := hnew x hx hnx
          subst hx1
          refine ⟨h2, fun row hr => ?_⟩
          rw [hrow] at hr
          exact Option.noConfusion hr
        | some row =>
          rw [hrow] at h
          simp only at h ⊢
          cases hdir : Map.find? row t with
          | some offset =>
            rw [hdir] at h
            exact Option.noConfusion h
          | none =>
            rw [hdir] at h
            simp only at h ⊢
            have hlt := remaining_cons_lt K t org1 v horg h1
            obtain ⟨i1, i2, i3⟩ := get_offset_loop_closed K t m n (origin_pair org1 t :: v)
              (fun dst v2 hdst hv2 hfail => ih dst v2 hdst
                (by have := remaining_mono K t _ v2 hv2; omega) hfail)
              org1 row (fun p hp => hcol p.1 (is_column_of_row m org1 row hrow p hp))
              (origin_pair org1 t :: v) (fun p hp => hp) h
            refine ⟨fun p hp => i1 p (List.mem_cons_of_mem _ hp), i1 _ (List.mem_cons_self _ _), ?_⟩
            intro x hx hnx
            by_cases hx0 : origin_pair x t ∈ origin_pair org1 t :: v
            · have hx1 := hnew x hx0 hnx
              subst hx1
              refine ⟨h2, fun row1 hr => ?_⟩
              rw [hrow] at hr
              simp only [Option.some.injEq] at hr
              subst hr
              exact ⟨hdir, i2⟩
            · exact i3 x hx hx0

/-- Along a chain of recorded offsets from a visited origin, every origin is
visited when the visited origins are closed under the recorded offsets. -/
theorem chain_stays_visited (m : OffsetMatrix) (t : MPG) (v1 : List (List MPG))
    (hclosed : visited_closed m t [] v1) (l : List MPG) :
    ∀ x y s, l.head? = some x → l.getLast? = some y → chain_sum m l = some s →
      origin_pair x t ∈ v1 → origin_pair y t ∈ v1 := by
  induction l with
  | nil => intro x y s h; exact Option.noConfusion h
  | cons a rest ih =>
    intro x y s hx hy hs hv
    simp only [List.head?_cons, Option.some.injEq] at hx
    subst hx
    cases rest with
    | nil =>
      simp only [List.getLast?_singleton, Option.some.injEq] at hy
      subst hy
      exact hv
    | cons b rest2 =>
      rw [List.getLast?_cons_cons] at hy
      rw [chain_sum] at hs
      cases he : OffsetMatrix.entry m a b with
      | none => simp [he] at hs
      | some x1 =>
        cases hc : chain_sum m (b :: rest2) with
        | none => simp [he, hc] at hs
        | some s1 =>
          apply ih b y s1 rfl hy hc
          unfold OffsetMatrix.entry at he
          cases hrow : Map.find? m a with
          | none => simp [hrow] at he
          | some row =>
            rw [hrow] at he
            exact ((hclosed a hv (List.not_mem_nil _)).2 row hrow).2 (b, x1)
              (Map.mem_of_find? row b x1 he)

/-- The chain lookup finds every chain: called with an empty visited set it
succeeds when there is a chain of recorded offsets. -/
theorem get_offset_complete (m : OffsetMatrix) (org1 org2 : MPG) (l : List MPG) (s : Int)
    (h : is_chain m org1 org2 l s) :
    (get_offset (get_offset_fuel m) org1 org2 m []).1 ≠ none := by
  intro hfail
  obtain ⟨cols, hcols, hlen⟩ := length_columns_le m
  have hrem : remaining (org1 :: org2 :: cols) org2 [] < get_offset_fuel m := by
    have := remaining_le (org1 :: org2 :: cols) org2 []
    simp only [List.length_cons] at this
    unfold get_offset_fuel
    omega
  obtain ⟨_, i2, i3⟩ := get_offset_closed (org1 :: org2 :: cols) org2 m
    (fun y hy => by simp [hcols y hy]) (get_offset_fuel m) org1 [] (by simp) hrem hfail
  have hlast := chain_stays_visited m org2 _ i3 l org1 org2 s h.1 h.2.1 h.2.2 i2
  exact (i3 org2 hlast (List.not_mem_nil _)).1 rfl

/-! ## The entries of the matrix after the chain lookup -/

theorem memoized_from_refl (t : MPG) (m : OffsetMatrix) : memoized_from t m m :=
  ⟨fun _ _ _ => rfl, fun _ _ _ h => h, Or.inl rfl⟩

theorem memoized_from_set (t : MPG) (m m1 : OffsetMatrix) (org1 : MPG) (x : Int)
    (h : memoized_from t m m1) (h1 : org1 ≠ t) (h2 : OffsetMatrix.entry m org1 t = none) :
    memoized_from t m (OffsetMatrix.set m1 org1 t x) := by
  obtain ⟨i1, i2, i3⟩ := h
  refine ⟨?_, ?_, ?_⟩
  · intro a b hb
    rw [entry_set, if_neg (fun hx => hb hx.2)]
    exact i1 a b hb
  · intro a y ha hy
    have hne : ¬ (a = org1 ∧ t = t) := by
      rintro ⟨h3, _⟩
      rw [h3, h2] at hy
      exact Option.noConfusion hy
    rw [entry_set, if_neg hne]
    exact i2 a y ha hy
  · rw [entry_set, if_neg (fun hx => h1 hx.1.symm)]
    exact i3

theorem get_offset_loop_entries (t : MPG) (m : OffsetMatrix)
    (call : MPG → OffsetMatrix → List (List MPG) → OffsetResult)
    (hfail : ∀ dst m v, (call dst m v).1 = none → (call dst m v).2.1 = m)
    (hcall : ∀ dst v, memoized_from t m (call dst m v).2.1)
    (org1 : MPG) (h1 : org1 ≠ t) (h2 : OffsetMatrix.entry m org1 t = none)
    (row : List (MPG × Int)) (v : List (List MPG)) :
    memoized_from t m (get_offset_loop call org1 t row m v).2.1 := by
  induction row generalizing v with
  | nil => exact memoized_from_refl t m
  | cons p rest ih =>
    obtain ⟨dst, first⟩ := p
    rw [get_offset_loop]
    have hf := hfail dst m v
    have hc := hcall dst v
    rcases hres : call dst m v with ⟨r, m1, v1⟩
    rw [hres] at hf hc
    cases r with
    | none =>
      simp only
      have hm : m1 = m := hf rfl
      subst hm
      exact ih v1
    | some second => exact memoized_from_set t m m1 org1 _ hc h1 h2

/-- The matrix after a call of `get_offset`: only the column of the target
changes, and there only entries that were not recorded, and the offset of the
target to itself. -/
theorem get_offset_entries (t : MPG) (n : Nat) :
    ∀ org1 m v, memoized_from t m (get_offset n org1 t m v).2.1 := by
  induction n with
  | zero => intro org1 m v; exact memoized_from_refl t m
  | succ n ih =>
    intro org1 m v
    rw [get_offset_succ]
    by_cases h1 : origin_pair org1 t ∈ v
    · rw [if_pos h1]
      exact memoized_from_refl t m
    · rw [if_neg h1]
      by_cases h2 : org1 = t
      · rw [if_pos h2]
        subst h2
        refine ⟨?_, ?_, Or.inr ?_⟩
        · intro a b hb
          rw [entry_set, if_neg (fun hx => hb hx.2)]
        · intro a y ha hy
          rw [entry_set, if_neg (fun hx => ha hx.1)]
          exact hy
        · rw [entry_set, if_pos ⟨rfl, rfl⟩]
      · rw [if_neg h2]
        cases hrow : Map.find? m org1 with
        | none => exact memoized_from_refl t m
        | some row =>
          simp only
          cases hdir : Map.find? row t with
          | some offset => exact memoized_from_refl t m
          | none =>
            simp only
            apply get_offset_loop_entries t m _
              (fun dst m2 v2 h3 => get_offset_fail n dst t m2 v2 h3)
              (fun dst v2 => ih dst m v2) org1 h2
            unfold OffsetMatrix.entry
            rw [hrow]
            exact hdir

/-! ## The matrix with the memoized offsets -/

theorem matrix_WF_set (m : OffsetMatrix) (a b : MPG) (x : Int) (hm : matrix_WF m)
    (hx : i32 x = x) : matrix_WF (OffsetMatrix.set m a b x) := by
  unfold OffsetMatrix.set
  have hrow : Map.WF (Map.getD m a []) ∧ ∀ p ∈ Map.getD m a [], i32 p.2 = p.2 := by
    unfold Map.getD
    cases hf : Map.find? m a with
    | none => exact ⟨Map.WF_nil, fun p hp => absurd hp (List.not_mem_nil _)⟩
    | some row => exact hm.2 (a, row) (Map.mem_of_find? m a row hf)
  refine ⟨Map.WF_insert m a _ hm.1, ?_⟩
  intro r hr
  rcases Map.mem_insert _ _ _ _ hr with h | h
  · rw [h]
    refine ⟨Map.WF_insert _ b x hrow.1, ?_⟩
    intro p hp
    rcases Map.mem_insert _ _ _ _ hp with h1 | h1
    · rw [h1]
      exact hx
    · exact hrow.2 p h1
  · exact hm.2 r h

theorem get_offset_loop_memo (t : MPG) (m : OffsetMatrix) (hm : matrix_WF m)
    (call : MPG → OffsetMatrix → List (List MPG) → OffsetResult)
    (hfail : ∀ dst m v, (call dst m v).1 = none → (call dst m v).2.1 = m)
    (hsound : ∀ dst v x m1 v1, call dst m v = (some x, m1, v1) →
      ∃ l s, is_chain m dst t l s ∧ x = i32 s)
    (hcall : ∀ dst v, matrix_WF (call dst m v).2.1 ∧
      ∀ a x, OffsetMatrix.entry (call dst m v).2.1 a t = some x →
        OffsetMatrix.entry m a t = some x ∨ ∃ l s, is_chain m a t l s)
    (org1 : MPG) (row0 : Map MPG Int) (hrow0 : Map.find? m org1 = some row0)
    (hnd : (Map.keys row0).Nodup)
    (row : List (MPG × Int)) (hsub : ∀ p ∈ row, p ∈ row0) (v : List (List MPG)) :
    matrix_WF (get_offset_loop call org1 t row m v).2.1 ∧
      ∀ a x, OffsetMatrix.entry (get_offset_loop call org1 t row m v).2.1 a t = some x →
        OffsetMatrix.entry m a t = some x ∨ ∃ l s, is_chain m a t l s := by
  induction row generalizing v with
  | nil => exact ⟨hm, fun a x h => Or.inl h⟩
  | cons p rest ih =>
    obtain ⟨dst, first⟩ := p
    rw [get_offset_loop]
    have hf := hfail dst m v
    have hc := hcall dst v
    have hs := hsound dst v
    rcases hres : call dst m v with ⟨r, m1, v1⟩
    rw [hres] at hf hc hs
    cases r with
    | none =>
      simp only
      have hm1 : m1 = m := hf rfl
      subst hm1
      exact ih (fun p hp => hsub p (List.mem_cons_of_mem _ hp)) v1
    | some second =>
      simp only
      obtain ⟨l, s, ⟨hl1, hl2, hl3⟩, hx⟩ := hs second m1 v1 rfl
      refine ⟨matrix_WF_set m1 org1 t _ hc.1 (i32_idem _), ?_⟩
      intro a x h
      rw [entry_set] at h
      by_cases ha : a = org1 ∧ t = t
      · right
        have he := entry_of_mem_row m org1 row0 hrow0 hnd dst first
          (hsub (dst, first) (List.mem_cons_self _ _))
        cases l with
        | nil => exact Option.noConfusion hl1
        | cons b tl =>
          simp only [List.head?_cons, Option.some.injEq] at hl1
          subst hl1
          refine ⟨org1 :: b :: tl, first + s, ?_, ?_, ?_⟩
          · rw [ha.1]
            rfl
          · rw [List.getLast?_cons_cons]
            exact hl2
          · rw [chain_sum, he, hl3]
      · rw [if_neg ha] at h
        exact hc.2 a x h

/-- The matrix after a call of `get_offset` keeps the representation invariant,
and an offset to the target that it has and that was not recorded before is
the offset of an origin with a chain to the target. -/
theorem get_offset_memo (t : MPG) (m : OffsetMatrix) (hm : matrix_WF m) (n : Nat) :
    ∀ org1 v, matrix_WF (get_offset n org1 t m v).2.1 ∧
      ∀ a x, OffsetMatrix.entry (get_offset n org1 t m v).2.1 a t = some x →
        OffsetMatrix.entry m a t = some x ∨ ∃ l s, is_chain m a t l s := by
  induction n with
  | zero => intro org1 v; exact ⟨hm, fun a x h => Or.inl h⟩
  | succ n ih =>
    intro org1 v
    rw [get_offset_succ]
    by_cases h1 : origin_pair org1 t ∈ v
    · rw [if_pos h1]
      exact ⟨hm, fun a x h => Or.inl h⟩
    · rw [if_neg h1]
      by_cases h2 : org1 = t
      · rw [if_pos h2]
        refine ⟨matrix_WF_set m org1 t 0 hm (by decide), ?_⟩
        intro a x h
        rw [entry_set] at h
        by_cases ha : a = org1 ∧ t = t
        · exact Or.inr ⟨[a], 0, rfl, by rw [ha.1, h2]; rfl, rfl⟩
        · rw [if_neg ha] at h
          exact Or.inl h
      · rw [if_neg h2]
        cases hrow : Map.find? m org1 with
        | none => exact ⟨hm, fun a x h => Or.inl h⟩
        | some row =>
          simp only
          cases hdir : Map.find? row t with
          | some offset => exact ⟨hm, fun a x h => Or.inl h⟩
          | none =>
            simp only
            exact get_offset_loop_memo t m hm _
              (fun dst m2 v2 h3 => get_offset_fail n dst t m2 v2 h3)
              (fun dst v2 x2 m2 v3 h3 => (get_offset_sound t m hm n dst v2 x2 m2 v3 h3).2.2)
              (fun dst v2 => ih dst v2) org1 row hrow (matrix_WF_row m hm org1 row hrow).1
              row (fun p hp => hp) _

/-- A chain to the target in the matrix after a call of `get_offset` comes with
a chain to the target in the matrix before the call. -/
theorem chain_before_memo (t : MPG) (m m1 : OffsetMatrix)
    (h1 : ∀ a b, b ≠ t → OffsetMatrix.entry m1 a b = OffsetMatrix.entry m a b)
    (h2 : ∀ a x, OffsetMatrix.entry m1 a t = some x →
      OffsetMatrix.entry m a t = some x ∨ ∃ l s, is_chain m a t l s)
    (l : List MPG) :
    ∀ x s, is_chain m1 x t l s → ∃ l2 s2, is_chain m x t l2 s2 := by
  induction l with
  | nil => intro x s h; exact Option.noConfusion h.1
  | cons a rest ih =>
    intro x s ⟨hx, hy, hs⟩
    simp only [List.head?_cons, Option.some.injEq] at hx
    subst hx
    cases rest with
    | nil =>
      simp only [List.getLast?_singleton, Option.some.injEq] at hy
      exact ⟨[a], 0, rfl, by rw [hy]; rfl, rfl⟩
    | cons b rest2 =>
      rw [List.getLast?_cons_cons] at hy
      rw [chain_sum] at hs
      cases he : OffsetMatrix.entry m1 a b with
      | none => simp [he] at hs
      | some x1 =>
        cases hc : chain_sum m1 (b :: rest2) with
        | none => simp [he, hc] at hs
        | some s1 =>
          by_cases hb : b = t
          · rw [hb] at he
            rcases h2 a x1 he with h3 | h3
            · exact ⟨[a, t], x1 + 0, rfl, rfl, by rw [chain_sum, h3]; rfl⟩
            · exact h3
          · obtain ⟨l2, s2, hl1, hl2, hl3⟩ := ih b s1 ⟨rfl, hy, hc⟩
            rw [h1 a b hb] at he
            cases l2 with
            | nil => exact Option.noConfusion hl1
            | cons c tl =>
              simp only [List.head?_cons, Option.some.injEq] at hl1
              subst hl1
              refine ⟨a :: c :: tl, x1 + s2, rfl, ?_, ?_⟩
              · rw [List.getLast?_cons_cons]
                exact hl2
              · rw [chain_sum, he, hl3]

/-! ## A net without offset to the base line -/

/-- The claim C23 fails on `exNoChain`: the net 11 has two observations and no
offset to the base line `exA`; the offset loop stops at it, so that the net 12,
which comes after it, gets no consensus index, whereas it has the consensus
index 5 when the net 11 has no evidence. -/
theorem consens_loop_no_chain_counterexample :
    build_offset_matrix exNoChain
        = .ok [(exA, [(exA, 0)]), (exB, [(exB, 0), (exC, 1)]), (exC, [(exB, -1), (exC, 0)])] ∧
      (get_offset 6 exB exA
        [(exA, [(exA, 0)]), (exB, [(exB, 0), (exC, 1)]), (exC, [(exB, -1), (exC, 0)])] []).1 = none ∧
      consens_bitindices exNoChain = some [(10, 0)] ∧
      consens_bitindices exNoChainEmpty = some [(10, 0), (12, 5)] ∧
      consens_bitindices exNoChainWithout = some [(10, 0), (12, 5)] :=
  ⟨by rfl, by decide, by decide, by decide, by decide⟩

/-- The offset loop over a list of nets goes through the first part of the
list and, unless it stops there, through the rest from the state it has
reached. -/
theorem consens_loop_append (base_line : MPG) (pre rest : List (Net × POSSIBLE_BITINDICES))
    (m : OffsetMatrix) (consens : Map Net Int) :
    (∀ m1 c1, consens_state base_line pre m consens = some (m1, c1) →
        consens_loop base_line (pre ++ rest) m consens = consens_loop base_line rest m1 c1) ∧
      (consens_state base_line pre m consens = none →
        consens_loop base_line (pre ++ rest) m consens = consens_loop base_line pre m consens) := by
  induction pre generalizing m consens with
  | nil =>
    constructor
    · intro m1 c1 h
      simp only [consens_state, Option.some.injEq, Prod.mk.injEq] at h
      rw [← h.1, ← h.2]
      rfl
    · intro h
      simp [consens_state] at h
  | cons e t ih =>
    obtain ⟨net, pbi⟩ := e
    cases pbi with
    | nil =>
      simp only [List.cons_append, consens_loop, consens_state]
      exact ih m consens
    | cons o others =>
      obtain ⟨org, indices⟩ := o
      simp only [List.cons_append, consens_loop, consens_state]
      rcases hgo : get_offset (get_offset_fuel m) org base_line m [] with ⟨r, m1, v1⟩
      cases r with
      | some offset =>
        simp only
        exact ih m1 _
      | none =>
        simp only
        by_cases hl : ((org, indices) :: others).length = 1
        · rw [if_pos hl, if_pos hl, if_pos hl]
          exact ih m1 _
        · rw [if_neg hl, if_neg hl, if_neg hl]
          exact ⟨fun m2 c2 h => Option.noConfusion h, fun _ => rfl⟩

/-- The state of the offset loop keeps the representation invariant of the
matrix, and a chain to the base line in its matrix comes with a chain to the
base line in the matrix the loop started with. -/
theorem consens_state_inv (base_line : MPG) (pre : List (Net × POSSIBLE_BITINDICES))
    (m : OffsetMatrix) (consens : Map Net Int) (hm : matrix_WF m) (m1 : OffsetMatrix)
    (c1 : Map Net Int) (h : consens_state base_line pre m consens = some (m1, c1)) :
    matrix_WF m1 ∧
      ∀ x l s, is_chain m1 x base_line l s → ∃ l2 s2, is_chain m x base_line l2 s2 := by
  induction pre generalizing m consens with
  | nil =>
    simp only [consens_state, Option.some.injEq, Prod.mk.injEq] at h
    rw [← h.1]
    exact ⟨hm, fun x l s hl => ⟨l, s, hl⟩⟩
  | cons e t ih =>
    obtain ⟨net, pbi⟩ := e
    cases pbi with
    | nil =>
      simp only [consens_state] at h
      exact ih m consens hm h
    | cons o others =>
      obtain ⟨org, indices⟩ := o
      simp only [consens_state] at h
      have hmemo := get_offset_memo base_line m hm (get_offset_fuel m) org []
      have hent := get_offset_entries base_line (get_offset_fuel m) org m []
      rcases hgo : get_offset (get_offset_fuel m) org base_line m [] with ⟨r, m2, v2⟩
      rw [hgo] at h hmemo hent
      have hstep : ∀ c2, consens_state base_line t m2 c2 = some (m1, c1) →
          matrix_WF m1 ∧
            ∀ x l s, is_chain m1 x base_line l s → ∃ l2 s2, is_chain m x base_line l2 s2 := by
        intro c2 h2
        obtain ⟨i1, i2⟩ := ih m2 c2 hmemo.1 h2
        refine ⟨i1, ?_⟩
        intro x l s hl
        obtain ⟨l2, s2, hl2⟩ := i2 x l s hl
        exact chain_before_memo base_line m m2 hent.1 hmemo.2 l2 x s2 hl2
      cases r with
      | some offset => exact hstep _ h
      | none =>
        simp only at h
        by_cases hl : ((org, indices) :: others).length = 1
        · rw [if_pos hl] at h
          exact hstep _ h
        · rw [if_neg hl] at h
          exact Option.noConfusion h

/-- The offset loop gives consensus indices to nets of its list only. -/
theorem consens_loop_keys (base_line : MPG) (nets : List (Net × POSSIBLE_BITINDICES))
    (m : OffsetMatrix) (consens : Map Net Int) :
    ∀ n ∈ Map.keys (consens_loop base_line nets m consens),
      n ∈ Map.keys consens ∨ n ∈ Map.keys nets := by
  induction nets generalizing m consens with
  | nil => intro n hn; exact Or.inl hn
  | cons e t ih =>
    obtain ⟨net, pbi⟩ := e
    have hins : ∀ (m1 : OffsetMatrix) (y : Int),
        ∀ n ∈ Map.keys (consens_loop base_line t m1 (Map.insert consens net y)),
          n ∈ Map.keys consens ∨ n ∈ Map.keys ((net, pbi) :: t) := by
      intro m1 y n hn
      rcases ih m1 _ n hn with h1 | h1
      · rcases (Map.mem_keys_insert consens net n y).1 h1 with h2 | h2
        · exact Or.inr (by rw [h2]; exact List.mem_cons_self _ _)
        · exact Or.inl h2
      · exact Or.inr (List.mem_cons_of_mem _ h1)
    cases pbi with
    | nil =>
      intro n hn
      simp only [consens_loop] at hn
      rcases ih m consens n hn with h1 | h1
      · exact Or.inl h1
      · exact Or.inr (List.mem_cons_of_mem _ h1)
    | cons o others =>
      obtain ⟨org, indices⟩ := o
      intro n hn
      simp only [consens_loop] at hn
      rcases hgo : get_offset (get_offset_fuel m) org base_line m [] with ⟨r, m1, v1⟩
      rw [hgo] at hn
      cases r with
      | some offset => exact hins m1 _ n hn
      | none =>
        simp only at hn
        by_cases hl : ((org, indices) :: others).length = 1
        · rw [if_pos hl] at hn
          exact hins m1 _ n hn
        · rw [if_neg hl] at hn
          exact Or.inl hn

/-- C23, amended: a net without offset chain to the base line.  Let the first
origin of a net have no chain of recorded offsets to the base line in the
offset matrix.  When the offset loop reaches the net, `get_offset` fails.  If
the net has exactly one observation, the loop gives the net its observed index
(as a signed 32-bit integer) and goes on with the nets after it.  Otherwise the
loop stops at the net: its result is the result for the nets before the net
alone, which keep their consensus indices, and neither this net nor any net
after it gets a consensus index. -/
theorem consens_loop_no_chain (base_line : MPG) (pre post : List (Net × POSSIBLE_BITINDICES))
    (net : Net) (org : MPG) (indices : List Nat) (others : POSSIBLE_BITINDICES)
    (m : OffsetMatrix) (consens : Map Net Int) (hm : matrix_WF m)
    (h : ¬ ∃ l s, is_chain m org base_line l s) :
    (∀ m1 c1, consens_state base_line pre m consens = some (m1, c1) →
        (get_offset (get_offset_fuel m1) org base_line m1 []).1 = none ∧
          (others = [] →
            consens_loop base_line (pre ++ (net, (org, indices) :: others) :: post) m consens
              = consens_loop base_line post m1
                  (Map.insert c1 net (i32 (first_index indices))))) ∧
      (others ≠ [] →
        consens_loop base_line (pre ++ (net, (org, indices) :: others) :: post) m consens
          = consens_loop base_line pre m consens) ∧
      ∀ n ∈ Map.keys (consens_loop base_line pre m consens),
        n ∈ Map.keys consens ∨ n ∈ Map.keys pre := by
  have hstate : ∀ m1 c1, consens_state base_line pre m consens = some (m1, c1) →
      get_offset (get_offset_fuel m1) org base_line m1 []
        = (none, m1, (get_offset (get_offset_fuel m1) org base_line m1 []).2.2) := by
    intro m1 c1 hs
    obtain ⟨i1, i2⟩ := consens_state_inv base_line pre m consens hm m1 c1 hs
    rcases hres : get_offset (get_offset_fuel m1) org base_line m1 [] with ⟨r, m2, v2⟩
    cases r with
    | some x =>
      obtain ⟨_, _, l, s, hl, _⟩ := get_offset_sound base_line m1 i1 _ org [] x m2 v2 hres
      exact absurd (i2 org l s hl) h
    | none =>
      have hm2 := get_offset_fail (get_offset_fuel m1) org base_line m1 [] (by rw [hres])
      rw [hres] at hm2
      simp only at hm2
      rw [hm2]
  refine ⟨?_, ?_, consens_loop_keys base_line pre m consens⟩
  · intro m1 c1 hs
    have hgo := hstate m1 c1 hs
    refine ⟨by rw [hgo], ?_⟩
    intro ho
    subst ho
    rw [(consens_loop_append base_line pre _ m consens).1 m1 c1 hs, consens_loop, hgo]
    simp
  · intro ho
    have hl : ((org, indices) :: others).length ≠ 1 := by
      cases others with
      | nil => exact absurd rfl ho
      | cons a t => simp
    cases hs : consens_state base_line pre m consens with
    | none => exact (consens_loop_append base_line pre _ m consens).2 hs
    | some st =>
      obtain ⟨m1, c1⟩ := st
      have hgo := hstate m1 c1 hs
      rw [(consens_loop_append base_line pre _ m consens).1 m1 c1 hs, consens_loop, hgo]
      simp only [if_neg hl]
      have h2 := (consens_loop_append base_line pre [] m consens).1 m1 c1 hs
      rw [List.append_nil] at h2
      rw [h2]
      rfl

/-- An instance of the amended C23 on `exNoChain`: the origin `exB` has no chain
to the base line `exA`, and the loop stops at the net 11 with the consensus of
the net 10. -/
theorem consens_loop_no_chain_witness :
    matrix_WF [(exA, [(exA, 0)]), (exB, [(exB, 0), (exC, 1)]), (exC, [(exB, -1), (exC, 0)])] ∧
      (¬ ∃ l s, is_chain
        [(exA, [(exA, 0)]), (exB, [(exB, 0), (exC, 1)]), (exC, [(exB, -1), (exC, 0)])]
        exB exA l s) ∧
      consens_loop exA
          ([(10, [(exA, [0])])] ++ (11, [(exB, [0]), (exC, [1])]) :: [(12, [(exA, [5])])])
          [(exA, [(exA, 0)]), (exB, [(exB, 0), (exC, 1)]), (exC, [(exB, -1), (exC, 0)])] []
        = consens_loop exA [(10, [(exA, [0])])]
          [(exA, [(exA, 0)]), (exB, [(exB, 0), (exC, 1)]), (exC, [(exB, -1), (exC, 0)])] [] :=
  ⟨by decide,
    fun ⟨l, s, hl⟩ => get_offset_complete _ exB exA l s hl (by decide),
    (consens_loop_no_chain exA [(10, [(exA, [0])])] [(12, [(exA, [5])])] 11 exB [0] [(exC, [1])]
      [(exA, [(exA, 0)]), (exB, [(exB, 0), (exC, 1)]), (exC, [(exB, -1), (exC, 0)])] []
      (by decide)
      (fun ⟨l, s, hl⟩ => get_offset_complete _ exB exA l s hl (by decide))).2.1 (by decide)⟩

/-! ## The chain lookup finds exactly the chains -/

/-- C26: the chain lookup of `get_offset`.  Called with an empty visited set on
an offset matrix `m`, `get_offset` terminates, also when the recorded offsets
form cycles: from the recursion depth `get_offset_fuel m` on, a larger bound of
the depth does not change its result.  It succeeds if and only if `org1 = org2`
or there is a chain of recorded offsets of `m` from `org1` to `org2`.  When it
succeeds, the value is 0 for `org1 = org2`, it is the sum of the recorded
offsets along one such chain in 32-bit arithmetic, and it is the entry of
`org1` and `org2` in the matrix after the call. -/
theorem get_offset_chain_lookup (m : OffsetMatrix) (org1 org2 : MPG) (hm : matrix_WF m) :
    (∀ k, get_offset_fuel m ≤ k →
        get_offset k org1 org2 m [] = get_offset (get_offset_fuel m) org1 org2 m []) ∧
      ((get_offset (get_offset_fuel m) org1 org2 m []).1 ≠ none
        ↔ org1 = org2 ∨ ∃ l s, l.length ≥ 2 ∧ is_chain m org1 org2 l s) ∧
      ∀ x, (get_offset (get_offset_fuel m) org1 org2 m []).1 = some x →
        (org1 = org2 → x = 0) ∧ (∃ l s, is_chain m org1 org2 l s ∧ x = i32 s) ∧
          OffsetMatrix.entry (get_offset (get_offset_fuel m) org1 org2 m []).2.1 org1 org2
            = some x := by
  have hsound : ∀ x, (get_offset (get_offset_fuel m) org1 org2 m []).1 = some x →
      OffsetMatrix.entry (get_offset (get_offset_fuel m) org1 org2 m []).2.1 org1 org2 = some x ∧
        (org1 = org2 → x = 0) ∧ ∃ l s, is_chain m org1 org2 l s ∧ x = i32 s := by
    intro x hx
    rcases hres : get_offset (get_offset_fuel m) org1 org2 m [] with ⟨r, m1, v1⟩
    rw [hres] at hx
    simp only at hx
    subst hx
    exact get_offset_sound org2 m hm _ org1 [] x m1 v1 hres
  refine ⟨fun k hk => get_offset_fuel_enough org1 org2 m k hk, ⟨?_, ?_⟩, ?_⟩
  · intro h
    cases hr : (get_offset (get_offset_fuel m) org1 org2 m []).1 with
    | none => exact absurd hr h
    | some x =>
      obtain ⟨_, _, l, s, hl, _⟩ := hsound x hr
      by_cases h12 : org1 = org2
      · exact Or.inl h12
      · refine Or.inr ⟨l, s, ?_, hl⟩
        obtain ⟨l1, l2, _⟩ := hl
        cases l with
        | nil => exact Option.noConfusion l1
        | cons a t =>
          cases t with
          | nil =>
            simp only [List.head?_cons, List.getLast?_singleton, Option.some.injEq] at l1 l2
            exact absurd (l1.symm.trans l2) h12
          | cons b t2 => simp
  · rintro (h | ⟨l, s, _, hl⟩)
    · exact get_offset_complete m org1 org2 [org1] 0 ⟨rfl, by rw [h]; rfl, rfl⟩
    · exact get_offset_complete m org1 org2 l s hl
  · intro x hx
    obtain ⟨i1, i2, i3⟩ := hsound x hx
    exact ⟨i2, i3, i1⟩

/-- An instance of C26 on the matrix `exSymmetric`: the lookup from `exA` to
`exC` succeeds with the sum 3 of the offsets along the chain through `exB`. -/
theorem get_offset_chain_lookup_witness :
    matrix_WF exSymmetric ∧
      (get_offset (get_offset_fuel exSymmetric) exA exC exSymmetric []).1 = some 3 ∧
      is_chain exSymmetric exA exC [exA, exB, exC] 3 ∧
      ((get_offset (get_offset_fuel exSymmetric) exA exC exSymmetric []).1 ≠ none
        ↔ exA = exC ∨ ∃ l s, l.length ≥ 2 ∧ is_chain exSymmetric exA exC l s) :=
  ⟨by decide, by decide, ⟨by decide, by decide, by decide⟩,
    (get_offset_chain_lookup exSymmetric exA exC (by decide)).2.1⟩

/-! ## The symmetry of the matrix and the memoized offsets -/

/-- The claim C27 fails on the matrix `exSymmetric`, in which every offset has
its opposite recorded: the lookup from `exA` to `exC` memoizes the offset 3 of
`exA` to `exC`, and no offset of `exC` to `exA` is recorded after the call. -/
theorem get_offset_symmetry_counterexample :
    matrix_symmetric exSymmetric ∧
      (get_offset (get_offset_fuel exSymmetric) exA exC exSymmetric []).2.1
        = [(exA, [(exB, 1), (exC, 3)]), (exB, [(exA, -1), (exC, 2)]), (exC, [(exB, -2)])] ∧
      OffsetMatrix.entry (get_offset (get_offset_fuel exSymmetric) exA exC exSymmetric []).2.1
        exA exC = some 3 ∧
      OffsetMatrix.entry (get_offset (get_offset_fuel exSymmetric) exA exC exSymmetric []).2.1
        exC exA = none ∧
      ¬ matrix_symmetric (get_offset (get_offset_fuel exSymmetric) exA exC exSymmetric []).2.1 :=
  ⟨by decide, by decide, by decide, by decide, by decide⟩

theorem entry_symmetric (m : OffsetMatrix) (hs : matrix_symmetric m) (a b : MPG) (x : Int)
    (h : OffsetMatrix.entry m a b = some x) : OffsetMatrix.entry m b a = some (i32 (-x)) := by
  unfold OffsetMatrix.entry at h
  cases hrow : Map.find? m a with
  | none => simp [hrow] at h
  | some row =>
    rw [hrow] at h
    exact hs (a, row) (Map.mem_of_find? m a row hrow) (b, x) (Map.mem_of_find? row b x h)

/-- C27, amended: the symmetry of the matrix under the chain lookup.  If before
a call of `get_offset` every recorded offset has the opposite offset recorded in
the other direction, then after the call every offset recorded before is still
recorded, with the same value (the offset of `org2` to itself may have become
0), no offset is recorded outside the column of `org2` that was not recorded
before, and every recorded offset has its opposite recorded in the other
direction except the offsets to `org2` that the call has memoized: for these
the other direction is not recorded. -/
theorem get_offset_symmetry (m : OffsetMatrix) (org1 org2 : MPG) (n : Nat) (v : List (List MPG))
    (hs : matrix_symmetric m) :
    (∀ a b x, OffsetMatrix.entry m a b = some x →
        OffsetMatrix.entry (get_offset n org1 org2 m v).2.1 a b = some x ∨
          (a = org2 ∧ b = org2 ∧
            OffsetMatrix.entry (get_offset n org1 org2 m v).2.1 a b = some 0)) ∧
      (∀ a b, b ≠ org2 →
        OffsetMatrix.entry (get_offset n org1 org2 m v).2.1 a b = OffsetMatrix.entry m a b) ∧
      ∀ a b x, OffsetMatrix.entry (get_offset n org1 org2 m v).2.1 a b = some x →
        OffsetMatrix.entry (get_offset n org1 org2 m v).2.1 b a = some (i32 (-x)) ∨
          (b = org2 ∧ a ≠ org2 ∧ OffsetMatrix.entry m a b = none ∧
            OffsetMatrix.entry (get_offset n org1 org2 m v).2.1 b a = none) := by
  obtain ⟨p1, p2, p3⟩ := get_offset_entries org2 n org1 m v
  have hzero : i32 (-(0 : Int)) = 0 := by decide
  refine ⟨?_, p1, ?_⟩
  · intro a b x h
    by_cases hb : b = org2
    · by_cases ha : a = org2
      · rcases p3 with h3 | h3
        · left
          rw [ha, hb] at h ⊢
          rw [h3]
          exact h
        · exact Or.inr ⟨ha, hb, by rw [ha, hb]; exact h3⟩
      · left
        rw [hb] at h ⊢
        exact p2 a x ha h
    · left
      rw [p1 a b hb]
      exact h
  · intro a b x h
    by_cases hb : b = org2
    · by_cases ha : a = org2
      · left
        rw [ha, hb] at h ⊢
        rcases p3 with h3 | h3
        · rw [h3] at h ⊢
          exact entry_symmetric m hs org2 org2 x h
        · rw [h3] at h ⊢
          simp only [Option.some.injEq] at h
          rw [← h, hzero]
      · rw [hb] at h ⊢
        cases he : OffsetMatrix.entry m a org2 with
        | some y =>
          left
          have h4 := p2 a y ha he
          rw [h4] at h
          simp only [Option.some.injEq] at h
          rw [p1 org2 a ha, ← h]
          exact entry_symmetric m hs a org2 y he
        | none =>
          right
          refine ⟨rfl, ha, rfl, ?_⟩
          rw [p1 org2 a ha]
          cases hr : OffsetMatrix.entry m org2 a with
          | none => rfl
          | some y =>
            have h5 := entry_symmetric m hs org2 a y hr
            rw [he] at h5
            exact Option.noConfusion h5
    · left
      rw [p1 a b hb] at h
      have h4 := entry_symmetric m hs a b x h
      by_cases ha : a = org2
      · rw [ha] at h4 ⊢
        exact p2 b _ hb h4
      · rw [p1 b a ha]
        exact h4

/-- An instance of the amended C27 on the matrix `exSymmetric`: after the
lookup from `exA` to `exC` the recorded offset of `exB` to `exC` still has its
opposite. -/
theorem get_offset_symmetry_witness :
    matrix_symmetric exSymmetric ∧
      ∀ a b x,
        OffsetMatrix.entry (get_offset 6 exA exC exSymmetric []).2.1 a b = some x →
        OffsetMatrix.entry (get_offset 6 exA exC exSymmetric []).2.1 b a = some (i32 (-x)) ∨
          (b = exC ∧ a ≠ exC ∧ OffsetMatrix.entry exSymmetric a b = none ∧
            OffsetMatrix.entry (get_offset 6 exA exC exSymmetric []).2.1 b a = none) :=
  ⟨by decide, (get_offset_symmetry exSymmetric exA exC 6 [] (by decide)).2.2⟩

end Bitorder
